import Mathlib

/-!
# mcaiger: the unrolling and k-induction engine of `mcaiger.c`

A shallow embedding of `src/mcaiger.c` together with the properties that are
checked against it.

Conventions of the embedding.

* The literal map is given twice.  `frame32`, `lit32` and `diff32` are the
  functions `frame`, `lit` and `diff` in the arithmetic of the 32 bit types
  `int` and `unsigned`, with every conversion and every wrap-around written out.
  `frame`, `lit` and `diff` are the same expressions evaluated over the
  integers, the numbering the program is meant to have; the clause emitters and
  the run are built on them.  `FrameFits m f k` says that the exact value of
  `frame(k)` fits into `int`.  Under it the two versions agree
  (`frame32_of_fits`, `lit32_of_fits`, `diff32_of_fits`, `diffs32_of_fits`);
  outside of it the 32 bit values wrap around.  Every statement that depends on
  the numbering being free of collisions is made for the 32 bit functions and
  carries `FrameFits` as a hypothesis.  The loop counter `k` of `main` is a
  natural number.
* The global variables of the C file are gathered in explicit values: the
  circuit `Aiger`, the regime flags `Regime`, the session flags `Session` and
  the `State` of a run.
* `picosat_add` is modelled by the sequence of its arguments: every emitting
  function returns the list of integers it passes to `picosat_add`, in order;
  `clausesOf` cuts such a sequence at the terminating zeros.
* The backend is an oracle: a run is given the list of answers of the
  successive `picosat_sat` calls.  A run has no result (`none`) when the answers
  are used up before it ends or when an assertion of `sat` or `simple` fails.
* The `assert` statements of the literal map and of `unary`, `binary` and
  `ternary` are not modelled as failures; `lit_ne_zero` shows that the literals
  handed to the clause emitters are never zero over the integers, and so are
  the values of the program under `FrameFits`.
-/

namespace Mcaiger

/-! ## Data model -/

/-- Modelled from the spec: the type `aiger_symbol` of `aiger.h`, of which the
program reads the fields `lit` and `next`. -/
structure AigerSymbol where
  lit : Nat
  next : Nat
  deriving DecidableEq, Repr

/-- Modelled from the spec: the type `aiger_and` of `aiger.h`, an AND gate
`lhs = rhs0 & rhs1`. -/
structure AigerAnd where
  lhs : Nat
  rhs0 : Nat
  rhs1 : Nat
  deriving DecidableEq, Repr

/-- Modelled from the spec: the type `aiger` of `aiger.h`, restricted to the fields
the program reads.  The counters `num_inputs`, `num_latches`, `num_outputs` and
`num_ands` are the lengths of the corresponding arrays. -/
structure Aiger where
  maxvar : Nat
  inputs : List AigerSymbol
  latches : List AigerSymbol
  outputs : List AigerSymbol
  ands : List AigerAnd
  deriving DecidableEq, Repr

/-- Field `num_inputs`. -/
def Aiger.num_inputs (m : Aiger) : Nat := m.inputs.length

/-- Field `num_latches`. -/
def Aiger.num_latches (m : Aiger) : Nat := m.latches.length

/-- Field `num_outputs`. -/
def Aiger.num_outputs (m : Aiger) : Nat := m.outputs.length

/-- Field `num_ands`. -/
def Aiger.num_ands (m : Aiger) : Nat := m.ands.length

/-- The regime flags `dcs, acs, rcs, mix, ncs` of the C file. -/
structure Regime where
  dcs : Bool
  acs : Bool
  rcs : Bool
  mix : Bool
  ncs : Bool
  deriving DecidableEq, Repr

/-- The test `dcs || rcs || mix` of `frame`. -/
def Regime.usesDiff (f : Regime) : Bool := f.dcs || f.rcs || f.mix

/-! ## Literal map -/

/-- The expression of the function `frame` evaluated over the integers: the
first solver variable of frame `k` when nothing wraps around.  The value the
program computes is `frame32`; the two agree under `FrameFits`
(`frame32_of_fits`). -/
def frame (m : Aiger) (f : Regime) (k : Nat) : Int :=
  let res : Int := (k : Int) * m.maxvar + 2
  if f.dcs || f.rcs || f.mix then
    res + ((m.num_latches * k * (k - 1) / 2 : Nat) : Int)
  else
    res

/-- The expression of the function `lit` evaluated over the integers: the solver
literal of the circuit literal `l` in frame `k` when nothing wraps around.  The
value the program computes is `lit32`; the two agree for `l <= 2*maxvar+1`, the
range of the `assert`, while `frame(k+1)` fits into `int` (`lit32_of_fits`). -/
def lit (m : Aiger) (f : Regime) (k l : Nat) : Int :=
  let res : Int := if l ≤ 1 then 1 else frame m f k + (((l - 2) / 2 : Nat) : Int)
  if l % 2 = 1 then -res else res

/-- The function `input`. -/
def input (m : Aiger) (f : Regime) (k i : Nat) : Int :=
  lit m f k (m.inputs.getD i ⟨0, 0⟩).lit

/-- The function `latch`. -/
def latch (m : Aiger) (f : Regime) (k i : Nat) : Int :=
  lit m f k (m.latches.getD i ⟨0, 0⟩).lit

/-- The function `next`. -/
def next (m : Aiger) (f : Regime) (k i : Nat) : Int :=
  lit m f k (m.latches.getD i ⟨0, 0⟩).next

/-- The function `output`. -/
def output (m : Aiger) (f : Regime) (k i : Nat) : Int :=
  lit m f k (m.outputs.getD i ⟨0, 0⟩).lit

/-- The expression of the function `diff` evaluated over the integers: the
difference variable of latch `i` for the frames `l < k` when nothing wraps
around.  The value the program computes is `diff32`; the two agree for `l < k`
and `i < num_latches`, the range of the two `assert`s, while `frame(k+1)` fits
into `int` (`diff32_of_fits`). -/
def diff (m : Aiger) (f : Regime) (k l i : Nat) : Int :=
  frame m f (k + 1) - i - (l : Int) * m.num_latches - 1

/-! ## The literal map in 32 bit arithmetic -/

/-- Conversion to `unsigned`: the value modulo `2^32`. -/
def toU32 (x : Int) : Int := x % 4294967296

/-- Conversion to `int`: the representative in `[-2^31, 2^31)`. -/
def toI32 (x : Int) : Int := (x + 2147483648) % 4294967296 - 2147483648

/-- The function `frame` as compiled for 32 bit `int` and `unsigned`: the
products and the division are unsigned, since `maxvar` and `num_latches` are. -/
def frame32 (m : Aiger) (f : Regime) (k : Int) : Int :=
  let res : Int := toI32 (toU32 (toU32 (toU32 k * toU32 m.maxvar) + 2))
  if f.dcs || f.rcs || f.mix then
    toI32 (toU32 (toU32 res +
      toU32 (toU32 (toU32 (toU32 m.num_latches * toU32 k) * toU32 (k - 1)) / 2)))
  else
    res

/-- The function `lit` as compiled for 32 bit `int` and `unsigned`. -/
def lit32 (m : Aiger) (f : Regime) (k l : Nat) : Int :=
  let res : Int :=
    if l ≤ 1 then 1 else toI32 (frame32 m f (toI32 k) + toI32 (((l - 2) / 2 : Nat) : Int))
  if l % 2 = 1 then toI32 (-res) else res

/-! ## Clause emission -/

/-- The function `unary`: the arguments of its two `picosat_add` calls. -/
def unary (a : Int) : List Int := [a, 0]

/-- The function `binary`. -/
def binary (a b : Int) : List Int := [a, b, 0]

/-- The function `ternary`. -/
def ternary (a b c : Int) : List Int := [a, b, c, 0]

/-- The function `and`: the three clauses of `lhs = rhs0 & rhs1`. -/
def and (lhs rhs0 rhs1 : Int) : List Int :=
  binary (-lhs) rhs0 ++ binary (-lhs) rhs1 ++ ternary lhs (-rhs0) (-rhs1)

/-- The function `eq`: the two clauses of `lhs = rhs`. -/
def eq (lhs rhs : Int) : List Int :=
  binary (-lhs) rhs ++ binary lhs (-rhs)

/-- The function `connect`. -/
def connect (m : Aiger) (f : Regime) (k : Nat) : List Int :=
  if k = 0 then []
  else (List.range m.num_latches).flatMap fun i => eq (next m f (k - 1) i) (latch m f k i)

/-- The function `encode`. -/
def encode (m : Aiger) (f : Regime) (k : Nat) : List Int :=
  (if k = 0 then unary (lit m f k 1) else []) ++
  (m.ands.flatMap fun a => and (lit m f k a.lhs) (lit m f k a.rhs0) (lit m f k a.rhs1)) ++
  (if k ≠ 0 then
    (List.range m.num_latches).map (fun i => latch m f k i) ++ [0] ++
      unary (-output m f (k - 1) 0)
   else [])

/-- The function `ado`: the arguments of its `picosat_add_ado_lit` calls. -/
def ado (m : Aiger) (f : Regime) (k : Nat) : List Int :=
  (List.range m.num_latches).map (fun i => latch m f k i) ++ [0]

/-- The body of `diffs` once its arguments are ordered so that `l < k`. -/
def diffsOrdered (m : Aiger) (f : Regime) (k l : Nat) : List Int :=
  ((List.range m.num_latches).flatMap fun i =>
    ternary (latch m f l i) (latch m f k i) (-diff m f k l i) ++
    ternary (-latch m f l i) (-latch m f k i) (-diff m f k l i)) ++
  (List.range m.num_latches).map (fun i => diff m f k l i) ++ [0]

/-- The function `diffs`: it swaps its arguments when `l > k`. -/
def diffs (m : Aiger) (f : Regime) (k l : Nat) : List Int :=
  if l > k then diffsOrdered m f l k else diffsOrdered m f k l

/-- The function `diffsk`. -/
def diffsk (m : Aiger) (f : Regime) (k : Nat) : List Int :=
  if k = 0 then []
  else (List.range k).flatMap fun l => diffs m f k l

/-! ## Clauses and assignments -/

/-- Cuts a sequence of `picosat_add` arguments into clauses: `cur` is the clause
under construction, a zero closes it.  Literals after the last zero belong to
no clause yet. -/
def clausesAux : List Int → List Int → List (List Int)
  | _, [] => []
  | cur, x :: xs => if x = 0 then cur :: clausesAux [] xs else clausesAux (cur ++ [x]) xs

/-- The clauses added by a sequence of `picosat_add` calls. -/
def clausesOf (xs : List Int) : List (List Int) := clausesAux [] xs

/-- Value of a solver literal under an assignment of the solver variables. -/
def evalLit (s : Nat → Bool) (x : Int) : Bool :=
  if 0 < x then s x.natAbs else !s x.natAbs

/-- A clause holds when one of its literals is true. -/
def satClause (s : Nat → Bool) (c : List Int) : Bool := c.any (evalLit s)

/-- The assignment `s` satisfies all clauses added by the sequence `xs`. -/
def Satisfies (s : Nat → Bool) (xs : List Int) : Prop :=
  ∀ c ∈ clausesOf xs, satClause s c = true

/-- The sequence that adds the clauses `cs`, each closed by a zero. -/
def flat (cs : List (List Int)) : List Int := cs.flatMap fun c => c ++ [0]

/-- A sequence of `picosat_add` arguments that leaves no clause open. -/
def Closed (xs : List Int) : Prop := xs = [] ∨ ∃ ys, xs = ys ++ [0]

instance (s : Nat → Bool) (xs : List Int) : Decidable (Satisfies s xs) := by
  unfold Satisfies
  infer_instance

/-! ## Circuit semantics -/

/-- Modelled from the spec: the value of a circuit literal under a valuation of
the circuit variables.  A literal `l` is the variable `l / 2`, negated when `l`
is odd; variable 0 is the constant false. -/
def litVal (env : Nat → Bool) (l : Nat) : Bool :=
  (l / 2 != 0 && env (l / 2)) != (l % 2 == 1)

/-- Modelled from the spec: evaluation of the AND gates in their order, each
gate setting the variable of its `lhs`. -/
def evalGates (env : Nat → Bool) : List AigerAnd → Nat → Bool
  | [] => env
  | a :: rest =>
    evalGates (fun v => if v = a.lhs / 2 then litVal env a.rhs0 && litVal env a.rhs1 else env v)
      rest

/-- The variable `v` is the variable of an input. -/
def isInputVar (m : Aiger) (v : Nat) : Bool := m.inputs.any fun x => x.lit / 2 == v

/-- The variable `v` is the variable of a latch. -/
def isLatchVar (m : Aiger) (v : Nat) : Bool := m.latches.any fun x => x.lit / 2 == v

/-- Modelled from the spec: the valuation before the gates are evaluated, in the
state where every latch is 0: inputs take the values `inp`, everything else is
false. -/
def initEnv (m : Aiger) (inp : Nat → Bool) : Nat → Bool :=
  fun v => isInputVar m v && inp v

/-- Modelled from the spec: the value of the output in the all-zero latch state
under the input valuation `inp`. -/
def outputValue (m : Aiger) (inp : Nat → Bool) : Bool :=
  litVal (evalGates (initEnv m inp) m.ands) (m.outputs.getD 0 ⟨0, 0⟩).lit

/-- The variable `v` is the constant, an input, a latch or the output of one of
the gates `done`. -/
def definedVar (m : Aiger) (done : List AigerAnd) (v : Nat) : Bool :=
  v == 0 || isInputVar m v || isLatchVar m v || done.any fun a => a.lhs / 2 == v

/-- The gates are topologically ordered: after the gates `done`, each further
gate has an even `lhs` whose variable is new and operands that are already
defined. -/
def gatesOrdered (m : Aiger) : List AigerAnd → List AigerAnd → Bool
  | _, [] => true
  | done, a :: rest =>
    a.lhs % 2 == 0 && !definedVar m done (a.lhs / 2) && definedVar m done (a.rhs0 / 2) &&
      definedVar m done (a.rhs1 / 2) && gatesOrdered m (done ++ [a]) rest

/-- Modelled from the spec: a well-formed circuit with exactly one output.
Inputs and latches are positive literals of distinct variables, gate outputs
are distinct from inputs and latches, the gates are topologically ordered, and
the output is a literal of a defined variable. -/
def WellFormed (m : Aiger) : Bool :=
  m.inputs.all (fun x => x.lit % 2 == 0 && decide (2 ≤ x.lit)) &&
  m.latches.all
    (fun x => x.lit % 2 == 0 && decide (2 ≤ x.lit) && !isInputVar m (x.lit / 2)) &&
  gatesOrdered m [] m.ands &&
  m.num_outputs == 1 &&
  definedVar m m.ands ((m.outputs.getD 0 ⟨0, 0⟩).lit / 2)

/-- The base query at bound 0 is satisfiable: some assignment satisfies the
clauses of `encode(0)` and makes the assumptions `-latch(0, i)` and
`output(0, 0)` true. -/
def BaseZeroSat (m : Aiger) (f : Regime) : Prop :=
  ∃ s : Nat → Bool, Satisfies s (encode m f 0) ∧
    (∀ i < m.num_latches, evalLit s (-latch m f 0 i) = true) ∧
    evalLit s (output m f 0 0) = true

/-- A circuit with one input, one latch and one gate: the latch (literal 4)
becomes `input & latch` (literal 6), which is also the output. -/
def andCircuit : Aiger := ⟨3, [⟨2, 0⟩], [⟨4, 6⟩], [⟨6, 0⟩], [⟨6, 2, 4⟩]⟩

/-- A circuit with one input and one latch whose output is the latch negated
(literal 5); the output is true in the all-zero state. -/
def notLatchCircuit : Aiger := ⟨2, [⟨2, 0⟩], [⟨4, 2⟩], [⟨5, 0⟩], []⟩

/-- The regime of the option `-d`. -/
def classical : Regime := ⟨true, false, false, false, false⟩

/-! ## The SAT backend and the state of a run -/

/-- Modelled from the spec: the result of `picosat_sat`, one of
`PICOSAT_SATISFIABLE`, `PICOSAT_UNSATISFIABLE` and the undecided result 0. -/
inductive Res where
  | SAT
  | UNSAT
  | UNKNOWN
  deriving DecidableEq, Repr

/-- Modelled from the spec: one answer of the backend to `picosat_sat`, its
result together with the function `picosat_deref` of the model it leaves. -/
structure Answer where
  res : Res
  deref : Int → Int

/-- Modelled from the spec: the two counters the program reads from the backend,
`picosat_ado_conflicts ()` and `picosat_inconsistent ()`, as functions of the
number of `picosat_sat` calls made so far. -/
structure Backend where
  adoConflicts : Nat → Nat
  inconsistent : Nat → Bool

/-- The session flags `ionly`, `bonly`, `witness` and the bound `maxk`. -/
structure Session where
  ionly : Bool
  bonly : Bool
  witness : Bool
  maxk : Nat
  deriving DecidableEq, Repr

/-- The mutable globals of the C file together with what the backend has been
told.  `frames` holds the `nframes` used entries of the array `frames`;
`added`, `assumed` and `adoLits` are the arguments of the calls to
`picosat_add`, `picosat_assume` (since the last `picosat_sat`) and
`picosat_add_ado_lit`; `deref` is the model of the last `picosat_sat`; `out` is
standard output.  `satCalls` records the assumptions in force at each
`picosat_sat` call and `ndiffs` counts the invocations of `diffs`. -/
structure State where
  flags : Regime
  frames : List Nat
  sframes : Nat
  nrcs : Nat
  added : List Int
  assumed : List Int
  adoLits : List Int
  adoEnabled : Bool
  adoLimit : Nat
  deref : Int → Int
  out : List Char
  satCalls : List (List Int)
  ndiffs : Nat

/-- The state at the start of the main loop, after the command line has set the
flags. -/
def State.initial (f : Regime) : State :=
  { flags := f, frames := [], sframes := 0, nrcs := 0, added := [], assumed := [],
    adoLits := [], adoEnabled := true, adoLimit := 0, deref := fun _ => 0, out := [],
    satCalls := [], ndiffs := 0 }

/-- A run of `picosat_add` calls. -/
def picosat_add (xs : List Int) (st : State) : State :=
  { st with added := st.added ++ xs }

/-- Modelled from the spec: `picosat_assume`; the assumption holds for the next
`picosat_sat` call only. -/
def picosat_assume (x : Int) (st : State) : State :=
  { st with assumed := st.assumed ++ [x] }

/-- Modelled from the spec: `picosat_sat` with the backend answering `a`; the
assumptions made so far are used up. -/
def picosat_sat (a : Answer) (st : State) : State :=
  { st with deref := a.deref, satCalls := st.satCalls ++ [st.assumed], assumed := [] }

/-- The three statements `acs = 0; rcs = 1; picosat_disable_ado ();` of `sat`
and of the main loop. -/
def switchToRefinement (st : State) : State :=
  { st with flags := { st.flags with acs := false, rcs := true }, adoEnabled := false }

/-- The function `diffs` as a step of the run. -/
def run_diffs (m : Aiger) (k l : Nat) (st : State) : State :=
  { st with added := st.added ++ diffs m st.flags k l, ndiffs := st.ndiffs + 1 }

/-- The function `diffsk` as a step of the run. -/
def run_diffsk (m : Aiger) (k : Nat) (st : State) : State :=
  if k = 0 then st
  else (List.range k).foldl (fun st l => run_diffs m k l st) st

/-- The function `simple`; `none` when its assertion fails. -/
def simple (m : Aiger) (k : Nat) (st : State) : Option State :=
  if st.flags.dcs then some (run_diffsk m k st)
  else if st.flags.acs then some { st with adoLits := st.adoLits ++ ado m st.flags k }
  else if st.flags.rcs || st.flags.ncs then some st
  else none

/-- The function `bad`. -/
def bad (m : Aiger) (k : Nat) (st : State) : State :=
  picosat_assume (output m st.flags k 0) st

/-- The function `init`. -/
def init (m : Aiger) (ses : Session) (k : Nat) (st : State) : State :=
  if ses.bonly && decide (k ≠ 0) then st
  else (List.range m.num_latches).foldl
    (fun st i =>
      let l := -latch m st.flags 0 i
      if ses.bonly then picosat_add (unary l) st else picosat_assume l st) st

/-- The loop of `cmp_frames` over the latch indices `is`. -/
def cmpLatches (m : Aiger) (f : Regime) (deref : Int → Int) (k l : Nat) : List Nat → Int
  | [] => 0
  | i :: rest =>
    let res := deref (latch m f k i) - deref (latch m f l i)
    if res ≠ 0 then res else cmpLatches m f deref k l rest

/-- The function `cmp_frames`: lexicographic comparison of the latch values of
the frames `k` and `l` in the current model. -/
def cmp_frames (m : Aiger) (f : Regime) (deref : Int → Int) (k l : Nat) : Int :=
  cmpLatches m f deref k l (List.range m.num_latches)

/-- Modelled from the spec: the library function `qsort`, which returns a
permutation of its input sorted by the comparison function; modelled by
insertion sort. -/
def qsort (cmp : Nat → Nat → Int) (xs : List Nat) : List Nat :=
  List.insertionSort (fun a b => cmp a b ≤ 0) xs

/-- The scan of `sat` over adjacent entries: the first pair that compares
equal. -/
def firstEqual (cmp : Nat → Nat → Int) : List Nat → Option (Nat × Nat)
  | [] => none
  | [_] => none
  | a :: b :: rest => if cmp a b = 0 then some (a, b) else firstEqual cmp (b :: rest)

/-- The new value of `sframes` when frame `k` is recorded: the array is
doubled (or gets size 1) when `k >= sframes`. -/
def growFrames (k sframes : Nat) : Nat :=
  if k ≥ sframes then (if sframes ≠ 0 then 2 * sframes else 1) else sframes

/-- The bookkeeping at the top of `sat`; `none` when an assertion fails. -/
def satBookkeeping (k : Nat) (st : State) : Option State :=
  if st.flags.rcs || st.flags.mix then
    if k = st.frames.length then
      if st.frames.length < growFrames k st.sframes then
        some { st with sframes := growFrames k st.sframes, frames := st.frames ++ [k] }
      else none
    else if st.frames.length = k + 1 then some st
    else none
  else some st

/-- The call `qsort (frames, k + 1, sizeof frames[0], cmp_frames)`. -/
def sortFrames (m : Aiger) (k : Nat) (st : State) : State :=
  { st with frames := qsort (cmp_frames m st.flags st.deref) (st.frames.take (k + 1)) ++
      st.frames.drop (k + 1) }

/-- The part of `sat` from the label `RESTART` on.  Each `picosat_sat` call
takes the next answer of the backend; the result is `none` when the answers
are used up or an assertion fails. -/
def satLoop (m : Aiger) (k : Nat) : List Answer → State → Option (Res × List Answer × State)
  | [], _ => none
  | a :: rest, st =>
    let st1 := picosat_sat a st
    match a.res with
    | Res.UNSAT => some (Res.UNSAT, rest, st1)
    | Res.UNKNOWN =>
      if st1.flags.mix && !st1.flags.rcs && st1.flags.acs then
        satLoop m k rest (switchToRefinement st1)
      else none
    | Res.SAT =>
      if !st1.flags.rcs then some (Res.SAT, rest, st1)
      else
        let st2 := sortFrames m k st1
        match firstEqual (cmp_frames m st2.flags st2.deref) (st2.frames.take (k + 1)) with
        | some (x, y) =>
          satLoop m k rest (bad m k { run_diffs m x y st2 with nrcs := st2.nrcs + 1 })
        | none => some (Res.SAT, rest, st2)

/-- The function `sat`. -/
def sat (m : Aiger) (k : Nat) (answers : List Answer) (st : State) :
    Option (Res × List Answer × State) :=
  match satBookkeeping k st with
  | none => none
  | some st1 => satLoop m k answers st1

/-- The function `step`. -/
def step (m : Aiger) (B : Backend) (k : Nat) (answers : List Answer) (st : State) :
    Option (Bool × List Answer × State) :=
  let st1 := if st.flags.mix && st.flags.acs then
      { st with adoLimit := B.adoConflicts st.satCalls.length + 1000 }
    else st
  match sat m k answers (bad m k st1) with
  | none => none
  | some (res, rest, st2) => some (res == Res.UNSAT, rest, st2)

/-- The function `base`. -/
def base (m : Aiger) (ses : Session) (k : Nat) (answers : List Answer) (st : State) :
    Option (Bool × List Answer × State) :=
  let st1 := if st.flags.acs then { st with adoEnabled := false } else st
  match sat m k answers (bad m k (init m ses k st1)) with
  | none => none
  | some (res, rest, st2) =>
    some (res == Res.SAT, rest, if st2.flags.acs then { st2 with adoEnabled := true } else st2)

/-- The function `stimulus`: the characters written for the inputs of the frames
`0..k`. -/
def stimulus (m : Aiger) (k : Nat) (st : State) : List Char :=
  (List.range (k + 1)).flatMap fun i =>
    (List.range m.num_inputs).map (fun j =>
      let tmp := st.deref (input m st.flags i j)
      if tmp ≠ 0 then (if tmp < 0 then '0' else '1') else 'x') ++ ['\n']

/-- Writing `cs` to standard output. -/
def fputs (cs : List Char) (st : State) : State := { st with out := st.out ++ cs }

/-- The loop `for (k = 0; k <= maxk; k++)` of `main`, with `n = maxk + 1 - k`
iterations left.  The result is the value of `res` and of `k` when the loop is
left; `none` when the run does not get there. -/
def mainLoop (m : Aiger) (ses : Session) (B : Backend) :
    Nat → Nat → List Answer → State → Option (Nat × Nat × List Answer × State)
  | 0, k, answers, st => some (0, k, answers, st)
  | n + 1, k, answers, st =>
    let st1 := if st.flags.mix && st.flags.acs &&
        decide (B.adoConflicts st.satCalls.length ≥ 10000) then switchToRefinement st else st
    let st2 := picosat_add (connect m st1.flags k) st1
    let st3 := picosat_add (encode m st2.flags k) st2
    match simple m k st3 with
    | none => none
    | some st4 =>
      match (if !ses.bonly then step m B k answers st4 else some (false, answers, st4)) with
      | none => none
      | some (true, rest, st5) => some (20, k, rest, fputs ['0', '\n'] st5)
      | some (false, rest, st5) =>
        if ses.bonly && B.inconsistent st5.satCalls.length then
          some (20, k, rest, fputs ['0', '\n'] st5)
        else
          match (if !ses.ionly then base m ses k rest st5 else some (false, rest, st5)) with
          | none => none
          | some (true, rest2, st6) =>
            let st7 := fputs ['1', '\n'] st6
            some (10, k, rest2, if ses.witness then fputs (stimulus m k st7) st7 else st7)
          | some (false, rest2, st6) => mainLoop m ses B n (k + 1) rest2 st6

/-- The function `main` from the main loop on: the exit code and the final
state. -/
def runMain (m : Aiger) (ses : Session) (B : Backend) (answers : List Answer) (st : State) :
    Option (Nat × State) :=
  match mainLoop m ses B (ses.maxk + 1) 0 answers st with
  | none => none
  | some (res, k, _, st1) =>
    if res = 0 then
      if k > ses.maxk then some (res, fputs ['2', '\n'] st1) else none
    else some (res, st1)

/-! ## Example runs -/

/-- A circuit with one input (literal 2) and two latches `a` (literal 4) and
`b` (literal 6): `a` becomes true, `b` becomes `b & !a` (gate 8), and the output
is `a & input` (gate 10). -/
def twoLatchCircuit : Aiger :=
  ⟨5, [⟨2, 0⟩], [⟨4, 1⟩, ⟨6, 8⟩], [⟨10, 0⟩], [⟨8, 6, 5⟩, ⟨10, 4, 2⟩]⟩

/-- The regime of the option `-r`. -/
def refinement : Regime := ⟨false, false, true, false, false⟩

/-- The function `picosat_deref` of the total model in which exactly the
variables `trueVars` are true. -/
def derefOf (trueVars : List Nat) : Int → Int :=
  fun x => if evalLit (fun v => trueVars.contains v) x then 1 else -1

/-- The clauses of the unrolling of `twoLatchCircuit` up to frame 2. -/
def unrolling2 : List Int :=
  encode twoLatchCircuit refinement 0 ++
  connect twoLatchCircuit refinement 1 ++ encode twoLatchCircuit refinement 1 ++
  connect twoLatchCircuit refinement 2 ++ encode twoLatchCircuit refinement 2

/-- The state in which `base(2)` is entered under `-r`: the frames 0, 1, 2 are
recorded and the unrolling up to frame 2 has been added. -/
def baseEntry2 : State :=
  { State.initial refinement with frames := [0, 1, 2], sframes := 4, added := unrolling2 }

/-- Two answers of the backend: the model that starts in the all-zero state and
stays in `a = 1, b = 0` in the frames 1 and 2, then a model that starts in
`a = 0, b = 1`. -/
def baseAnswers2 : List Answer :=
  [⟨Res.SAT, derefOf [8, 14, 15, 18]⟩, ⟨Res.SAT, derefOf [4, 5, 8, 9, 14, 15, 18, 19]⟩]

/-- The state in which `sat(2)` returns for `baseEntry2` and `baseAnswers2`. -/
def satExit2 : State :=
  match sat twoLatchCircuit 2 baseAnswers2 baseEntry2 with
  | some (_, _, st) => st
  | none => baseEntry2

/-- The regime of the default option `-a`. -/
def allDifferent : Regime := ⟨false, true, false, false, false⟩

/-- A backend that reports no observer conflicts and no inconsistency. -/
def quietBackend : Backend := ⟨fun _ => 0, fun _ => false⟩

/-- The exit code and final state of the run of `notLatchCircuit` with the
options `-w 0`, the backend answering SAT to the step and to the base query of
bound 0 with the all-false model. -/
def mainExit : Nat × State :=
  match runMain notLatchCircuit ⟨false, false, true, 0⟩ quietBackend
      [⟨Res.SAT, derefOf []⟩, ⟨Res.SAT, derefOf []⟩] (State.initial allDifferent) with
  | some r => r
  | none => (1, State.initial allDifferent)

/-- The assignment that gives the difference variables of the frames `l < k`
the value "latch `i` differs between the two frames" and agrees with `s`
everywhere else. -/
def withDiffs (m : Aiger) (f : Regime) (k l : Nat) (s : Nat → Bool) : Nat → Bool :=
  fun v =>
    if diff m f k l 0 - (m.num_latches : Int) < (v : Int) ∧ (v : Int) ≤ diff m f k l 0 then
      evalLit s (latch m f k (diff m f k l 0 - (v : Int)).toNat) !=
        evalLit s (latch m f l (diff m f k l 0 - (v : Int)).toNat)
    else s v

/-! ## The command line -/

/-- The variables of `main` that the command line sets, before validation;
`name` is the input file. -/
structure Options where
  verbosity : Nat
  bonly : Bool
  ionly : Bool
  acs : Bool
  dcs : Bool
  rcs : Bool
  mix : Bool
  ncs : Bool
  witness : Bool
  maxk : Nat
  name : Option String
  deriving DecidableEq

/-- The values of the variables before the command line is read; `maxk` is
`UINT_MAX`. -/
def Options.initial : Options :=
  { verbosity := 0, bonly := false, ionly := false, acs := false, dcs := false, rcs := false,
    mix := false, ncs := false, witness := false, maxk := 4294967295, name := none }

/-- Modelled from the spec: the library function `atoi` on an argument that
starts with a digit: the value of its leading digits. -/
def atoi (arg : String) : Nat :=
  (arg.toList.takeWhile Char.isDigit).foldl (fun n c => 10 * n + (c.toNat - 48)) 0

/-- One round of the loop of `main` over `argv`: the exit code when the program
stops there (0 after `-h`, 1 through `die`), else the new options. -/
def parseArg (o : Options) (arg : String) : Except Nat Options :=
  if arg = "-h" then Except.error 0
  else if arg = "-v" then Except.ok { o with verbosity := o.verbosity + 1 }
  else if arg = "-b" then Except.ok { o with bonly := true }
  else if arg = "-i" then Except.ok { o with ionly := true }
  else if arg = "-a" then Except.ok { o with acs := true }
  else if arg = "-d" then Except.ok { o with dcs := true }
  else if arg = "-r" then Except.ok { o with rcs := true }
  else if arg = "-m" then Except.ok { o with mix := true }
  else if arg = "-n" then Except.ok { o with ncs := true }
  else if arg = "-w" then Except.ok { o with witness := true }
  else if (arg.get 0).isDigit then Except.ok { o with maxk := atoi arg }
  else if arg.get 0 = '-' then Except.error 1
  else if o.name.isSome then Except.error 1
  else Except.ok { o with name := some arg }

/-- The loop of `main` over `argv[1..]`. -/
def parseArgs : Options → List String → Except Nat Options
  | o, [] => Except.ok o
  | o, arg :: rest =>
    match parseArg o arg with
    | Except.error e => Except.error e
    | Except.ok o1 => parseArgs o1 rest

/-- The sum `dcs + acs + rcs + mix + ncs` of `main`. -/
def Options.cs (o : Options) : Nat :=
  o.dcs.toNat + o.acs.toNat + o.rcs.toNat + o.mix.toNat + o.ncs.toNat

/-- The validation of the flags in `main`: exit code 1 through `die`, else the
regime flags and the session flags the run starts with. -/
def validate (o : Options) : Except Nat (Regime × Session) :=
  if o.ionly && o.bonly then Except.error 1
  else if o.cs > 1 then Except.error 1
  else if o.bonly && (decide (o.cs ≠ 0) && !o.ncs) then Except.error 1
  else
    let ncs := if o.bonly then true else o.ncs
    let cs := if o.bonly then 1 else o.cs
    let acs := if cs = 0 ∨ o.mix = true then true else o.acs
    Except.ok (⟨o.dcs, acs, o.rcs, o.mix, ncs⟩, ⟨o.ionly, o.bonly, o.witness, o.maxk⟩)

/-- The number of different flags among `-a`, `-d`, `-r`, `-m`, `-n` on the
command line. -/
def regimeFlags (args : List String) : Nat :=
  (["-a", "-d", "-r", "-m", "-n"].filter fun x => decide (x ∈ args)).length

/-- The options after the command line `-r 7`. -/
def refinementOptions : Options := { Options.initial with rcs := true, maxk := 7 }

/-! ## The calls of a run -/

/-- The state with which `sat` goes back to `RESTART` after the answer `a` to
the `picosat_sat` call made in the state `st`; `none` when `sat` returns or an
assertion fails. -/
def satNext (m : Aiger) (k : Nat) (a : Answer) (st : State) : Option State :=
  match a.res with
  | Res.UNSAT => none
  | Res.UNKNOWN =>
    if (picosat_sat a st).flags.mix && !(picosat_sat a st).flags.rcs &&
        (picosat_sat a st).flags.acs then
      some (switchToRefinement (picosat_sat a st))
    else none
  | Res.SAT =>
    if !(picosat_sat a st).flags.rcs then none
    else
      match firstEqual
          (cmp_frames m (sortFrames m k (picosat_sat a st)).flags
            (sortFrames m k (picosat_sat a st)).deref)
          ((sortFrames m k (picosat_sat a st)).frames.take (k + 1)) with
      | some (x, y) =>
        some (bad m k { run_diffs m x y (sortFrames m k (picosat_sat a st)) with
          nrcs := (sortFrames m k (picosat_sat a st)).nrcs + 1 })
      | none => none

/-- The state in which `step (k)` calls `sat (k)`. -/
def stepEntry (m : Aiger) (B : Backend) (k : Nat) (st : State) : State :=
  bad m k (if st.flags.mix && st.flags.acs then
      { st with adoLimit := B.adoConflicts st.satCalls.length + 1000 }
    else st)

/-- The state in which `base (k)` calls `sat (k)`. -/
def baseEntry (m : Aiger) (ses : Session) (k : Nat) (st : State) : State :=
  bad m k (init m ses k (if st.flags.acs then { st with adoEnabled := false } else st))

/-- The state in which round `k` of the main loop calls `simple (k)`, after the
test for the switch of the mixed regime, `connect (k)` and `encode (k)`. -/
def iterEntry (m : Aiger) (B : Backend) (k : Nat) (st : State) : State :=
  picosat_add
    (encode m
      (picosat_add
        (connect m
          (if st.flags.mix && st.flags.acs &&
            decide (B.adoConflicts st.satCalls.length ≥ 10000) then switchToRefinement st
          else st).flags k)
        (if st.flags.mix && st.flags.acs &&
          decide (B.adoConflicts st.satCalls.length ≥ 10000) then switchToRefinement st
        else st)).flags k)
    (picosat_add
      (connect m
        (if st.flags.mix && st.flags.acs &&
          decide (B.adoConflicts st.satCalls.length ≥ 10000) then switchToRefinement st
        else st).flags k)
      (if st.flags.mix && st.flags.acs &&
        decide (B.adoConflicts st.satCalls.length ≥ 10000) then switchToRefinement st
      else st))

/-- Every `picosat_sat` call of the loop of `sat (k)`, made in a state `st` and
answered by `a`, satisfies `Q k st a`. -/
def LoopCalls (Q : Nat → State → Answer → Prop) (m : Aiger) (k : Nat) :
    List Answer → State → Prop
  | [], _ => True
  | a :: rest, st =>
    Q k st a ∧
    match satNext m k a st with
    | some st1 => LoopCalls Q m k rest st1
    | none => True

/-- The state `st` in which `sat (k)` is entered satisfies `E k st`, and every
`picosat_sat` call of this `sat (k)` satisfies `Q`. -/
def SatCalls (E : Nat → State → Prop) (Q : Nat → State → Answer → Prop) (m : Aiger) (k : Nat)
    (answers : List Answer) (st : State) : Prop :=
  E k st ∧
  match satBookkeeping k st with
  | none => True
  | some st1 => LoopCalls Q m k answers st1

/-- In the run of the main loop from round `k` on, every entry of `sat`
satisfies `E` and every `picosat_sat` call satisfies `Q`; the first argument of
`E` and `Q` tells whether `sat` is called from `base` (`true`) or from `step`
(`false`). -/
def RunCalls (E : Bool → Nat → State → Prop) (Q : Bool → Nat → State → Answer → Prop)
    (m : Aiger) (ses : Session) (B : Backend) : Nat → Nat → List Answer → State → Prop
  | 0, _, _, _ => True
  | n + 1, k, answers, st =>
    match simple m k (iterEntry m B k st) with
    | none => True
    | some st4 =>
      (ses.bonly = false →
        SatCalls (E false) (Q false) m k answers (stepEntry m B k st4)) ∧
      match (if !ses.bonly then step m B k answers st4 else some (false, answers, st4)) with
      | some (false, rest, st5) =>
        if ses.bonly && B.inconsistent st5.satCalls.length then True
        else
          (ses.ionly = false →
            SatCalls (E true) (Q true) m k rest (baseEntry m ses k st5)) ∧
          match (if !ses.ionly then base m ses k rest st5 else some (false, rest, st5)) with
          | some (false, rest2, st6) => RunCalls E Q m ses B n (k + 1) rest2 st6
          | _ => True
      | _ => True

/-- The property `P` of the state is kept by every elementary step of a run,
each taken under the condition under which the program takes it. -/
structure Kept (m : Aiger) (P : State → Prop) : Prop where
  add : ∀ st xs, P st → P (picosat_add xs st)
  assume : ∀ st x, P st → P (picosat_assume x st)
  answer : ∀ st a, P st → P (picosat_sat a st)
  switch : ∀ st, st.flags.mix = true → st.flags.acs = true → P st →
    P (switchToRefinement st)
  diffsk : ∀ st k l, st.flags.dcs = true → P st → P (run_diffs m k l st)
  refine : ∀ st x y, st.flags.rcs = true → P st →
    P { run_diffs m x y st with nrcs := st.nrcs + 1 }
  sort : ∀ st k, st.flags.rcs = true → P st → P (sortFrames m k st)
  record : ∀ st st1 k, satBookkeeping k st = some st1 → P st → P st1
  observe : ∀ st xs, st.flags.acs = true → P st → P { st with adoLits := st.adoLits ++ xs }
  limit : ∀ st n, st.flags.mix = true → st.flags.acs = true → P st →
    P { st with adoLimit := n }
  disable : ∀ st, st.flags.acs = true → P st → P { st with adoEnabled := false }
  enable : ∀ st, st.flags.acs = true → P st → P { st with adoEnabled := true }
  print : ∀ st cs, P st → P (fputs cs st)

/-! ## States of a run after the switch of the mixed regime -/

/-- The state of a mixed run after the switch to refinement: `mix` is set,
`acs` is cleared, `rcs` is set and the observer is disabled. -/
def Switched (st : State) : Prop :=
  st.flags.mix = true ∧ st.flags.acs = false ∧ st.flags.rcs = true ∧ st.adoEnabled = false

/-- The flags after the command line `-m`. -/
def mixed : Regime := ⟨false, true, false, true, false⟩

/-- The answers of the backend in the example run of the refinement regime:
in round 1 the model of `step` gives both frames the same latch values. -/
def refineAnswers : List Answer :=
  [⟨Res.SAT, derefOf []⟩, ⟨Res.UNSAT, derefOf []⟩, ⟨Res.SAT, derefOf []⟩,
    ⟨Res.UNSAT, derefOf []⟩]

/-! ## The recorded frames -/

/-- The state of the array `frames` after the bookkeeping of `sat (k)`:
`nframes = k + 1 <= sframes` and `frames[0..k]` is a permutation of `0..k`. -/
def FramesRecorded (k : Nat) (st : State) : Prop :=
  st.frames.length = k + 1 ∧ k + 1 ≤ st.sframes ∧ st.frames.Perm (List.range (k + 1))

/-- The bookkeeping at the top of `sat (k)` entered in `st` passes its
assertions and leaves the frames `0..k` recorded. -/
def SatEntryOk (k : Nat) (st : State) : Prop :=
  ∃ st1, satBookkeeping k st = some st1 ∧ FramesRecorded k st1

/-- At a `picosat_sat` call of `sat (k)` made in `st` and answered by `a`: the
frames `0..k` are recorded, they still are after the call of `qsort`, and a
pair that the scan over the sorted array hands to `diffs` consists of two
different frame indices among `0..k`. -/
def SatCallOk (m : Aiger) (k : Nat) (st : State) (a : Answer) : Prop :=
  FramesRecorded k st ∧ FramesRecorded k (sortFrames m k (picosat_sat a st)) ∧
  ∀ x y, firstEqual
      (cmp_frames m (sortFrames m k (picosat_sat a st)).flags
        (sortFrames m k (picosat_sat a st)).deref)
      ((sortFrames m k (picosat_sat a st)).frames.take (k + 1)) = some (x, y) →
    x ≠ y ∧ x ≤ k ∧ y ≤ k

/-- The frames recorded so far are a permutation of `0..nframes-1` and fit
into the allocated array. -/
def FramesOk (st : State) : Prop :=
  (st.flags.rcs || st.flags.mix) = true ∧
  st.frames.Perm (List.range st.frames.length) ∧ st.frames.length ≤ st.sframes

/-! ## Invariants of the rounds of the main loop -/

/-- Invariants of a run whose `picosat_sat` calls satisfy `Q`: `S k` holds at
the start of round `k`, `P k` after `simple (k)`, `M k` between `step (k)` and
`base (k)`; `E b k` holds when `sat (k)` is entered and `L b k` at each of its
`picosat_sat` calls, with `b` telling `base` from `step`.  Each field is the
step of the program that leads from one to the next. -/
structure RoundKept (m : Aiger) (ses : Session) (B : Backend)
    (Q : Bool → Nat → State → Answer → Prop) (S P M : Nat → State → Prop)
    (E L : Bool → Nat → State → Prop) : Prop where
  enter : ∀ k st st1, S k st → simple m k (iterEntry m B k st) = some st1 → P k st1
  stepEntry : ∀ k st, ses.bonly = false → P k st → E false k (stepEntry m B k st)
  skipStep : ∀ k st, ses.bonly = true → P k st → M k st
  baseEntry : ∀ k st, ses.ionly = false → M k st → E true k (baseEntry m ses k st)
  skipBase : ∀ k st, ses.ionly = true → M k st → S (k + 1) st
  record : ∀ b k st st1, E b k st → satBookkeeping k st = some st1 → L b k st1
  restart : ∀ b k a st st1, L b k st → Q b k st a → satNext m k a st = some st1 → L b k st1
  leaveStep : ∀ k a st st1, L false k st → Q false k st a →
    (st1 = picosat_sat a st ∨
      (st.flags.rcs = true ∧ st1 = sortFrames m k (picosat_sat a st))) → M k st1
  leaveBase : ∀ k a st st1, L true k st → Q true k st a →
    (st1 = picosat_sat a st ∨
      (st.flags.rcs = true ∧ st1 = sortFrames m k (picosat_sat a st))) →
    S (k + 1) (if st1.flags.acs then { st1 with adoEnabled := true } else st1)
  printM : ∀ k st cs, M k st → M k (fputs cs st)
  printS : ∀ k st cs, S k st → S k (fputs cs st)

/-! ## Models of the backend -/

/-- Modelled from the spec: the values that `picosat_deref` gives after a
satisfiable call are a model of the clauses added by `xs`: every clause has a
literal with the value 1, and a literal of a clause and its negation have
opposite values. -/
def Models (d : Int → Int) (xs : List Int) : Prop :=
  ∀ c ∈ clausesOf xs, (∃ x ∈ c, d x = 1) ∧ ∀ x ∈ c, d (-x) = -d x

instance (d : Int → Int) (xs : List Int) : Decidable (Models d xs) := by
  unfold Models
  infer_instance

/-- The assumption on the backend at a `picosat_sat` call made in the state
`st`: when the answer is satisfiable, its model satisfies all clauses added so
far. -/
def SoundAnswer (st : State) (a : Answer) : Prop :=
  a.res = Res.SAT → Models a.deref st.added

instance (st : State) (a : Answer) : Decidable (SoundAnswer st a) := by
  unfold SoundAnswer
  infer_instance

/-- The clauses of `chunk` have been added: `chunk` is a part of the sequence
`added` of `picosat_add` arguments, after complete clauses. -/
def ChunkIn (chunk added : List Int) : Prop :=
  ∃ pre post, Closed pre ∧ added = pre ++ chunk ++ post

/-- The counter `nrcs` counts different pairs of recorded frames, and for each
of them the clauses of `diffs` have been added. -/
def RefinedPairs (m : Aiger) (st : State) : Prop :=
  ∃ R : List (Nat × Nat), R.Nodup ∧ st.nrcs = R.length ∧
    ∀ p ∈ R, p.1 < p.2 ∧ p.2 < st.frames.length ∧ ChunkIn (diffs m st.flags p.1 p.2) st.added

/-- The state of a refinement run: `rcs` or `mix` is set, the recorded frames
are a permutation of `0..nframes-1`, no clause is open, and `nrcs` different
pairs of recorded frames have been refined. -/
def RefinedUpTo (m : Aiger) (st : State) : Prop :=
  FramesOk st ∧ Closed st.added ∧ RefinedPairs m st

/-- The state of a refinement run at a `picosat_sat` call of `sat (k)`: the
frames `0..k` are recorded and `nrcs` different pairs of them have been
refined. -/
def Refined (m : Aiger) (k : Nat) (st : State) : Prop :=
  RefinedUpTo m st ∧ st.frames.length = k + 1

/-- The step from `st` to `st1` keeps the test `dcs || rcs || mix` and the
counter `nrcs`, forgets no frame and adds complete clauses only. -/
def Extends (st st1 : State) : Prop :=
  st1.flags.usesDiff = st.flags.usesDiff ∧ st.frames.length ≤ st1.frames.length ∧
  st1.nrcs = st.nrcs ∧ ∃ xs, Closed xs ∧ st1.added = st.added ++ xs

/-- The pair of frames that `sat (k)` refines after the answer `a` to the
`picosat_sat` call made in `st`, if any, consists of two different frames for
which the clauses of `diffs` have not been added before, in either order. -/
def FreshPair (m : Aiger) (k : Nat) (st : State) (a : Answer) : Prop :=
  ∀ x y, a.res = Res.SAT →
    firstEqual
      (cmp_frames m (sortFrames m k (picosat_sat a st)).flags
        (sortFrames m k (picosat_sat a st)).deref)
      ((sortFrames m k (picosat_sat a st)).frames.take (k + 1)) = some (x, y) →
    x ≠ y ∧ ¬ ChunkIn (diffs m st.flags x y) st.added ∧
      ¬ ChunkIn (diffs m st.flags y x) st.added

/-- Decides `LoopCalls` for a decidable `Q`. -/
def decideLoopCalls (Q : Nat → State → Answer → Prop) [∀ k s a, Decidable (Q k s a)]
    (m : Aiger) (k : Nat) : ∀ (answers : List Answer) (st : State),
      Decidable (LoopCalls Q m k answers st)
  | [], _ => isTrue trivial
  | a :: rest, st =>
    match h : satNext m k a st with
    | some st1 =>
      have := decideLoopCalls Q m k rest st1
      decidable_of_iff (Q k st a ∧ LoopCalls Q m k rest st1) (by simp only [LoopCalls, h])
    | none => decidable_of_iff (Q k st a) (by simp only [LoopCalls, h, and_true])

instance (Q : Nat → State → Answer → Prop) [∀ k s a, Decidable (Q k s a)]
    (m : Aiger) (k : Nat) (answers : List Answer) (st : State) :
    Decidable (LoopCalls Q m k answers st) := decideLoopCalls Q m k answers st

instance (E : Nat → State → Prop) (Q : Nat → State → Answer → Prop)
    [∀ k s, Decidable (E k s)] [∀ k s a, Decidable (Q k s a)]
    (m : Aiger) (k : Nat) (answers : List Answer) (st : State) :
    Decidable (SatCalls E Q m k answers st) :=
  match h : satBookkeeping k st with
  | none => decidable_of_iff (E k st) (by simp only [SatCalls, h, and_true])
  | some st1 =>
    decidable_of_iff (E k st ∧ LoopCalls Q m k answers st1) (by simp only [SatCalls, h])

/-- Decides `RunCalls` for decidable `E` and `Q`. -/
def decideRunCalls (E : Bool → Nat → State → Prop) (Q : Bool → Nat → State → Answer → Prop)
    [∀ b k s, Decidable (E b k s)] [∀ b k s a, Decidable (Q b k s a)]
    (m : Aiger) (ses : Session) (B : Backend) :
    ∀ (n k : Nat) (answers : List Answer) (st : State),
      Decidable (RunCalls E Q m ses B n k answers st)
  | 0, _, _, _ => isTrue trivial
  | n + 1, k, answers, st =>
    match h4 : simple m k (iterEntry m B k st) with
    | none => isTrue (by simp only [RunCalls, h4])
    | some st4 =>
      match h5 : (if !ses.bonly then step m B k answers st4
          else some (false, answers, st4)) with
      | none =>
        decidable_of_iff
          (ses.bonly = false → SatCalls (E false) (Q false) m k answers (stepEntry m B k st4))
          (by simp only [RunCalls, h4, h5, and_true])
      | some (true, _, _) =>
        decidable_of_iff
          (ses.bonly = false → SatCalls (E false) (Q false) m k answers (stepEntry m B k st4))
          (by simp only [RunCalls, h4, h5, and_true])
      | some (false, rest, st5) =>
        if hinc : (ses.bonly && B.inconsistent st5.satCalls.length) = true then
          decidable_of_iff
            (ses.bonly = false →
              SatCalls (E false) (Q false) m k answers (stepEntry m B k st4))
            (by simp only [RunCalls, h4, h5, hinc, if_true, and_true])
        else
          match h6 : (if !ses.ionly then base m ses k rest st5
              else some (false, rest, st5)) with
          | none =>
            decidable_of_iff
              ((ses.bonly = false →
                SatCalls (E false) (Q false) m k answers (stepEntry m B k st4)) ∧
              (ses.ionly = false →
                SatCalls (E true) (Q true) m k rest (baseEntry m ses k st5)))
              (by simp only [RunCalls, h4, h5, hinc, h6, Bool.false_eq_true, if_false, and_true])
          | some (true, _, _) =>
            decidable_of_iff
              ((ses.bonly = false →
                SatCalls (E false) (Q false) m k answers (stepEntry m B k st4)) ∧
              (ses.ionly = false →
                SatCalls (E true) (Q true) m k rest (baseEntry m ses k st5)))
              (by simp only [RunCalls, h4, h5, hinc, h6, Bool.false_eq_true, if_false, and_true])
          | some (false, rest2, st6) =>
            have := decideRunCalls E Q m ses B n (k + 1) rest2 st6
            decidable_of_iff
              ((ses.bonly = false →
                SatCalls (E false) (Q false) m k answers (stepEntry m B k st4)) ∧
              (ses.ionly = false →
                SatCalls (E true) (Q true) m k rest (baseEntry m ses k st5)) ∧
              RunCalls E Q m ses B n (k + 1) rest2 st6)
              (by simp only [RunCalls, h4, h5, hinc, h6, Bool.false_eq_true, if_false])

instance (E : Bool → Nat → State → Prop) (Q : Bool → Nat → State → Answer → Prop)
    [∀ b k s, Decidable (E b k s)] [∀ b k s a, Decidable (Q b k s a)]
    (m : Aiger) (ses : Session) (B : Backend) (n k : Nat) (answers : List Answer)
    (st : State) : Decidable (RunCalls E Q m ses B n k answers st) :=
  decideRunCalls E Q m ses B n k answers st

/-- The answers of a backend with sound models in the example run of the
refinement regime: the model of the step of round 1 has the latch `a` set and
the latch `b` clear in both frames, and the input set in frame 1. -/
def soundAnswers : List Answer :=
  [⟨Res.SAT, derefOf [3]⟩, ⟨Res.UNSAT, derefOf []⟩, ⟨Res.SAT, derefOf [3, 7, 8, 11]⟩,
    ⟨Res.UNSAT, derefOf []⟩]

/-! ## Paths of the circuit -/

/-- Modelled from the spec: every AND gate holds in the valuation `env` of the
circuit variables. -/
def GatesHold (m : Aiger) (env : Nat → Bool) : Prop :=
  ∀ a ∈ m.ands, litVal env a.lhs = (litVal env a.rhs0 && litVal env a.rhs1)

/-- The value of latch `i` in the valuation `env`. -/
def latchVal (m : Aiger) (env : Nat → Bool) (i : Nat) : Bool :=
  litVal env (m.latches.getD i ⟨0, 0⟩).lit

/-- The value of the next-state literal of latch `i` in the valuation `env`. -/
def nextVal (m : Aiger) (env : Nat → Bool) (i : Nat) : Bool :=
  litVal env (m.latches.getD i ⟨0, 0⟩).next

/-- The value of the output in the valuation `env`. -/
def outVal (m : Aiger) (env : Nat → Bool) : Bool :=
  litVal env (m.outputs.getD 0 ⟨0, 0⟩).lit

/-- Modelled from the spec: a transition of the circuit, the latches of `env1`
have the values of the next-state literals in `env`. -/
def Trans (m : Aiger) (env env1 : Nat → Bool) : Prop :=
  ∀ i < m.num_latches, nextVal m env i = latchVal m env1 i

/-- The two valuations give every latch the same value. -/
def SameState (m : Aiger) (env env1 : Nat → Bool) : Prop :=
  ∀ i < m.num_latches, latchVal m env i = latchVal m env1 i

/-- Modelled from the spec: the initial state, every latch is 0. -/
def IsInit (m : Aiger) (env : Nat → Bool) : Prop :=
  ∀ i < m.num_latches, latchVal m env i = false

/-- Modelled from the spec: the valuations `E 0, ..., E n` are a path of the
circuit: the gates hold in each and each is followed by a transition. -/
def Path (m : Aiger) (n : Nat) (E : Nat → Nat → Bool) : Prop :=
  (∀ t ≤ n, GatesHold m (E t)) ∧ ∀ t < n, Trans m (E t) (E (t + 1))

/-- Modelled from the spec: the output is reached in `n` steps, along a path
from the initial state to a valuation in which the output is 1. -/
def Reaches (m : Aiger) (n : Nat) (E : Nat → Nat → Bool) : Prop :=
  Path m n E ∧ IsInit m (E 0) ∧ outVal m (E n) = true

/-- The valuation of the circuit variables that the assignment `s` of the
solver variables gives to frame `t`. -/
def envOf (m : Aiger) (f : Regime) (s : Nat → Bool) (t : Nat) : Nat → Bool :=
  fun v => evalLit s (lit m f t (2 * v))

/-- The literals of the latches, the gates and the output are literals of
the variables `0..maxvar`, and the latches are not constants. -/
def InRange (m : Aiger) : Bool :=
  m.latches.all (fun x => decide (2 ≤ x.lit) && decide (x.lit ≤ 2 * m.maxvar + 1) &&
    decide (x.next ≤ 2 * m.maxvar + 1)) &&
  m.ands.all (fun a => decide (a.lhs ≤ 2 * m.maxvar + 1) &&
    decide (a.rhs0 ≤ 2 * m.maxvar + 1) && decide (a.rhs1 ≤ 2 * m.maxvar + 1)) &&
  decide ((m.outputs.getD 0 ⟨0, 0⟩).lit ≤ 2 * m.maxvar + 1)

/-- The frame among `0..t` whose block of solver variables contains `x`: the
largest one that starts at or before `x`. -/
def frameOf (m : Aiger) (f : Regime) (x : Nat) : Nat → Nat
  | 0 => 0
  | t + 1 => if frame m f (t + 1) ≤ x then t + 1 else frameOf m f x t

/-- The assignment of the solver variables that stands for the valuations
`E t` of the frames: the variable of the circuit variable `v` in frame `t` has
the value `E t v`, and a difference variable of the frames `t` and `l` for the
latch `i` is true when the two frames give the latch different values. -/
def modelOf (m : Aiger) (f : Regime) (E : Nat → Nat → Bool) : Nat → Bool := fun x =>
  if x ≤ 1 then false
  else if (x : Int) - frame m f (frameOf m f x x) < m.maxvar then
    E (frameOf m f x x) (((x : Int) - frame m f (frameOf m f x x)).toNat + 1)
  else
    latchVal m (E (frameOf m f x x))
        ((frame m f (frameOf m f x x + 1) - 1 - x).toNat % m.num_latches) !=
      latchVal m (E ((frame m f (frameOf m f x x + 1) - 1 - x).toNat / m.num_latches))
        ((frame m f (frameOf m f x x + 1) - 1 - x).toNat % m.num_latches)

/-- The assignment `s` satisfies everything that a run under the flags `f` can
have added up to round `k`: the clauses of `connect` and `encode` for the
frames `0..k`, the clauses of `diffs` for any two different frames among them
when the flags use difference variables, and it gives any two different frames
among them different states. -/
def Canon (m : Aiger) (f : Regime) (k : Nat) (s : Nat → Bool) : Prop :=
  (∀ j ≤ k, Satisfies s (connect m f j) ∧ Satisfies s (encode m f j)) ∧
  (f.usesDiff = true → ∀ x y, x ≠ y → x ≤ k → y ≤ k → Satisfies s (diffs m f x y)) ∧
  ∀ x y, x ≠ y → x ≤ k → y ≤ k →
    ∃ i < m.num_latches, evalLit s (latch m f x i) ≠ evalLit s (latch m f y i)

/-! ## A sound and complete backend -/

/-- Modelled from the spec: the all-different constraint of the observer; the
tuples added by `picosat_add_ado_lit`, each closed by a zero, have pairwise
different values. -/
def AllDifferent (s : Nat → Bool) (lits : List Int) : Prop :=
  (clausesOf lits).Pairwise fun t1 t2 => t1.map (evalLit s) ≠ t2.map (evalLit s)

instance (s : Nat → Bool) (lits : List Int) : Decidable (AllDifferent s lits) := by
  unfold AllDifferent
  infer_instance

/-- The assignment `s` satisfies what the backend has been told in the state
`st`: the clauses added, the assumptions made for the next call and, while the
observer is enabled, its all-different constraint. -/
def Consistent (st : State) (s : Nat → Bool) : Prop :=
  Satisfies s st.added ∧ (∀ x ∈ st.assumed, evalLit s x = true) ∧
  (st.adoEnabled = true → AllDifferent s st.adoLits)

instance (st : State) (s : Nat → Bool) : Decidable (Consistent st s) := by
  unfold Consistent
  infer_instance

/-- Modelled from the spec: the answer `a` of a sound and complete backend to
the `picosat_sat` call made in the state `st`: satisfiable only when some
assignment is consistent with the state, unsatisfiable only when none is. -/
def SoundComplete (st : State) (a : Answer) : Prop :=
  (a.res = Res.SAT → ∃ s, Consistent st s) ∧ (a.res = Res.UNSAT → ¬ ∃ s, Consistent st s)

/-- The assumptions of `init`. -/
def initLits (m : Aiger) (f : Regime) : List Int :=
  (List.range m.num_latches).map fun i => -latch m f 0 i

/-! ## The difference variables in 32 bit arithmetic -/

/-- The function `diff` as compiled for 32 bit `int` and `unsigned`, with the
parameters `k`, `l` and `i` of type `int`: `frame (k + 1) - i` is a subtraction
of `int`s, the product `l * num_latches` and the two subtractions that follow
are unsigned, and the result is stored into `int`. -/
def diff32 (m : Aiger) (f : Regime) (k l i : Int) : Int :=
  toI32 (toU32 (toU32 (toU32 (toI32 (frame32 m f (toI32 (k + 1)) - i)) -
    toU32 (toU32 l * toU32 m.num_latches)) - 1))

/-- The function `latch` as compiled, with `lit32` for `lit`. -/
def latch32 (m : Aiger) (f : Regime) (k i : Nat) : Int :=
  lit32 m f k (m.latches.getD i ⟨0, 0⟩).lit

/-- The body of `diffs` as compiled, once its arguments are ordered so that
`l < k`: the arguments `k`, `l` and `i` of `diff` are converted from `unsigned`
to `int`, and the negations are negations of `int`s. -/
def diffsOrdered32 (m : Aiger) (f : Regime) (k l : Nat) : List Int :=
  ((List.range m.num_latches).flatMap fun i =>
    ternary (latch32 m f l i) (latch32 m f k i)
        (toI32 (-diff32 m f (toI32 k) (toI32 l) (toI32 i))) ++
    ternary (toI32 (-latch32 m f l i)) (toI32 (-latch32 m f k i))
        (toI32 (-diff32 m f (toI32 k) (toI32 l) (toI32 i)))) ++
  (List.range m.num_latches).map
    (fun i : Nat => diff32 m f (toI32 k) (toI32 l) (toI32 (i : Int))) ++ [0]

/-- The function `diffs` as compiled: it swaps its arguments when `l > k`. -/
def diffs32 (m : Aiger) (f : Regime) (k l : Nat) : List Int :=
  if l > k then diffsOrdered32 m f l k else diffsOrdered32 m f k l

/-- The exact value of `frame(k)` fits into `int`: `k` is a non-negative `int`,
`maxvar` and `num_latches` are values of type `unsigned`, and
`k*maxvar + 2`, with `num_latches*k*(k-1)/2` added under `dcs`, `rcs` or `mix`,
is at most `2^31 - 1`.  `FrameFits m f (k + 1)` bounds every variable of the
frames `0..k` and every difference variable of two of these frames. -/
def FrameFits (m : Aiger) (f : Regime) (k : Nat) : Prop :=
  k < 2147483648 ∧ m.maxvar < 4294967296 ∧ m.num_latches < 4294967296 ∧
    k * m.maxvar + 2 +
      (if f.usesDiff = true then m.num_latches * k * (k - 1) / 2 else 0) ≤ 2147483647

instance (m : Aiger) (f : Regime) (k : Nat) : Decidable (FrameFits m f k) := by
  unfold FrameFits
  infer_instance

/-- A circuit with `maxvar = 1` and one latch (literal 2) that keeps its value
and is the output. -/
def oneLatchCircuit : Aiger := ⟨1, [], [⟨2, 2⟩], [⟨2, 0⟩], []⟩

/-! ## The states of a run -/

/-- The flags after the command line `-n`. -/
def noConstraint : Regime := ⟨false, false, false, false, true⟩

/-- The flags of a run started with `-m` after the switch to refinement. -/
def switched : Regime := ⟨false, false, true, true, false⟩

/-- The regime flags with which `main` starts a run: those of `-a` (the
default), `-d`, `-r`, `-m` and `-n`. -/
def StartFlags (f : Regime) : Prop :=
  f = allDifferent ∨ f = classical ∨ f = refinement ∨ f = mixed ∨ f = noConstraint

/-- The state of a run started with the flags `f` in which the frames `0..n-1`
are encoded, in or before round `K`.  The flags are `f`, or the run was
started with `-m` and has switched to refinement with the observer disabled.
The clauses added imply the clauses of `connect` and `encode` for these
frames, and they hold in every assignment that satisfies `Canon` for `K`.  The
observer has the latches of the first `n1 ≤ n` frames, of all of them while
`acs` is set.  Under `rcs` or `mix` the recorded frames are a permutation of
`0..nframes-1`.  The latch literals of the frames `1..n-1` occur in the clauses
added. -/
def Unrolled (m : Aiger) (f : Regime) (n K : Nat) (st : State) : Prop :=
  (st.flags = f ∨ (f = mixed ∧ st.flags = switched ∧ st.adoEnabled = false)) ∧
  Closed st.added ∧
  (∀ s, Satisfies s st.added →
    ∀ j < n, Satisfies s (connect m f j) ∧ Satisfies s (encode m f j)) ∧
  (∀ s, Canon m f K s → Satisfies s st.added) ∧
  (∃ n1, n1 ≤ n ∧ st.adoLits = (List.range n1).flatMap (ado m f) ∧
    (st.flags.acs = true → n1 = n)) ∧
  ((f.rcs || f.mix) = true → FramesOk st) ∧
  ∀ j i, 1 ≤ j → j < n → i < m.num_latches → latch m f j i ∈ st.added

/-- The assignment that `picosat_deref` describes: a variable is true when its
value is 1. -/
def assignmentOf (d : Int → Int) : Nat → Bool := fun v => decide (d (v : Int) = 1)

/-- Modelled from the spec: the answer `a` of `picosat_sat` to the call made in
the state `st`.  A satisfiable answer leaves a model, read through
`picosat_deref`, that is consistent with the state and gives every literal the
backend has been told, in a clause or as an assumption, the value 1 or -1 and
its negation the opposite value.  An unsatisfiable answer is given only when no
assignment is consistent with the state.  The call is made without a decision
limit, so the answer is undecided only when the conflict limit of the observer
is reached, with the observer enabled. -/
def Picosat (st : State) (a : Answer) : Prop :=
  (a.res = Res.SAT → Consistent st (assignmentOf a.deref) ∧
    ∀ x ∈ st.added ++ st.assumed, x ≠ 0 →
      (a.deref x = 1 ∨ a.deref x = -1) ∧ a.deref (-x) = -a.deref x) ∧
  (a.res = Res.UNSAT → ¬ ∃ s, Consistent st s) ∧
  (a.res = Res.UNKNOWN → st.adoEnabled = true)

/-- A check of one answer in an example run: a satisfiable answer comes with a
model as in `Picosat`, and an unsatisfiable answer is given to a call with two
contradicting assumptions. -/
def CheckedAnswer (st : State) (a : Answer) : Prop :=
  (a.res = Res.SAT ∧ Consistent st (assignmentOf a.deref) ∧
    ∀ x ∈ st.added ++ st.assumed, x ≠ 0 →
      (a.deref x = 1 ∨ a.deref x = -1) ∧ a.deref (-x) = -a.deref x) ∨
  (a.res = Res.UNSAT ∧ ∃ x ∈ st.assumed, x ≠ 0 ∧ -x ∈ st.assumed)

instance (st : State) (a : Answer) : Decidable (CheckedAnswer st a) := by
  unfold CheckedAnswer
  infer_instance

/-- The round in which the main loop of a run is left; 0 when the run does not
get there. -/
def lastRound (m : Aiger) (ses : Session) (B : Backend) (answers : List Answer)
    (st : State) : Nat :=
  match mainLoop m ses B (ses.maxk + 1) 0 answers st with
  | some (_, k, _, _) => k
  | none => 0

/-- Up to frame `K` the literal map of the program is the one over the
integers: `lit` on the circuit literals `0..2*maxvar+1` of the frames `0..K`
and, under `dcs`, `rcs` or `mix`, `diff` on the pairs of these frames. -/
def SameNumbering (m : Aiger) (f : Regime) (K : Nat) : Prop :=
  (∀ j l, j ≤ K → l ≤ 2 * m.maxvar + 1 → lit32 m f j l = lit m f j l) ∧
  (f.usesDiff = true → ∀ j l i : Nat, l < j → j ≤ K → i < m.num_latches →
    diff32 m f j l i = diff m f j l i)

/-- A circuit with one input and one latch (literal 4) that is 0 in the
initial state and 1 from then on; the output is the latch, so it is reached in
one step. -/
def setCircuit : Aiger := ⟨2, [⟨2, 0⟩], [⟨4, 1⟩], [⟨4, 0⟩], []⟩

/-- The answers of the backend in the run of `setCircuit`: the step of round 0
is satisfiable, the base query of round 0 is not, and the step and the base
query of round 1 are satisfiable; `vars` are the variables that are true in the
models of round 1. -/
def setAnswers (vars : List Nat) : List Answer :=
  [⟨Res.SAT, derefOf [3]⟩, ⟨Res.UNSAT, derefOf []⟩, ⟨Res.SAT, derefOf vars⟩,
    ⟨Res.SAT, derefOf vars⟩]

/-- The exit code and final state of the run of `setCircuit` with the bound 5
under the flags `f` and the answers `setAnswers vars`. -/
def setExit (f : Regime) (vars : List Nat) : Nat × State :=
  match runMain setCircuit ⟨false, false, false, 5⟩ quietBackend (setAnswers vars)
      (State.initial f) with
  | some r => r
  | none => (1, State.initial f)

/-- In a run with `-b`: the flags are those of `-n`, no clause is open, and,
once `base (0)` has been entered, the unit clauses `-latch(0, i)` of `init` are
among the clauses added. -/
def BaseOnly (m : Aiger) (units : Bool) (st : State) : Prop :=
  st.flags = noConstraint ∧ Closed st.added ∧
  (units = true → ∀ i < m.num_latches, ChunkIn (unary (-latch m noConstraint 0 i)) st.added)

/-- The options after the command line `-r 5`. -/
def setOptions : Options := { Options.initial with rcs := true, maxk := 5 }

/-! ## Theorems -/

/-! ## Arithmetic of the literal map -/

theorem frame_eq (m : Aiger) (f : Regime) (k : Nat) :
    frame m f k = (k : Int) * m.maxvar + 2 +
      (if f.usesDiff = true then ((m.num_latches * k * (k - 1) / 2 : Nat) : Int) else 0) := by
  unfold frame Regime.usesDiff
  split <;> simp

theorem lit_eq (m : Aiger) (f : Regime) (k l : Nat) :
    lit m f k l = if l % 2 = 1
      then -(if l ≤ 1 then 1 else frame m f k + (((l - 2) / 2 : Nat) : Int))
      else (if l ≤ 1 then 1 else frame m f k + (((l - 2) / 2 : Nat) : Int)) := by
  unfold lit
  rfl

theorem frame_pos (m : Aiger) (f : Regime) (k : Nat) : 2 ≤ frame m f k := by
  rw [frame_eq]
  have h : (0 : Int) ≤ (k : Int) * m.maxvar := by positivity
  split <;> omega

theorem frame_step_le (m : Aiger) (f : Regime) (k : Nat) :
    frame m f k + m.maxvar ≤ frame m f (k + 1) := by
  rw [frame_eq, frame_eq]
  have h1 : ((k + 1 : Nat) : Int) * m.maxvar = (k : Int) * m.maxvar + m.maxvar := by
    push_cast; ring
  have h2 : m.num_latches * k * (k - 1) / 2 ≤ m.num_latches * (k + 1) * (k + 1 - 1) / 2 := by
    apply Nat.div_le_div_right
    apply Nat.mul_le_mul
    · exact Nat.mul_le_mul_left _ (Nat.le_succ k)
    · omega
  have h3 : ((m.num_latches * k * (k - 1) / 2 : Nat) : Int) ≤
      ((m.num_latches * (k + 1) * (k + 1 - 1) / 2 : Nat) : Int) := Int.ofNat_le.mpr h2
  rw [h1]
  split <;> omega

theorem frame_mono_le (m : Aiger) (f : Regime) {j k : Nat} (h : j < k) :
    frame m f j + m.maxvar ≤ frame m f k := by
  induction k with
  | zero => omega
  | succ n ih =>
    have hs := frame_step_le m f n
    by_cases hj : j = n
    · subst hj; exact hs
    · have := ih (by omega)
      have hm : (0 : Int) ≤ m.maxvar := Int.ofNat_nonneg _
      omega

theorem lit_ne_zero (m : Aiger) (f : Regime) (k l : Nat) : lit m f k l ≠ 0 := by
  rw [lit_eq]
  have h := frame_pos m f k
  split <;> split <;> omega

theorem lit_natAbs_of_ge_two (m : Aiger) (f : Regime) (k : Nat) {l : Nat} (h : 2 ≤ l) :
    ((lit m f k l).natAbs : Int) = frame m f k + (((l - 2) / 2 : Nat) : Int) := by
  rw [lit_eq]
  have hp := frame_pos m f k
  split <;> split <;> omega

theorem xor_one_cases (l : Nat) :
    (l ^^^ 1) / 2 = l / 2 ∧ (l ^^^ 1) % 2 = (l + 1) % 2 := by
  refine ⟨?_, Nat.xor_mod_two_eq⟩
  rw [Nat.xor_div_two]
  simp

/-! ## Exactness of the unbounded literal map -/

theorem toU32_of_lt {x : Int} (h0 : 0 ≤ x) (h : x < 4294967296) : toU32 x = x := by
  unfold toU32
  omega

theorem toI32_of_lt {x : Int} (h0 : -2147483648 ≤ x) (h : x < 2147483648) : toI32 x = x := by
  unfold toI32
  omega

theorem toU32_toI32 (x : Int) : toU32 (toI32 x) = toU32 x := by
  unfold toU32 toI32
  omega

theorem toU32_natCast {n : Nat} (h : n < 4294967296) : toU32 (n : Int) = n :=
  toU32_of_lt (Int.ofNat_nonneg _) (by omega)

/-- The unsigned product `num_latches * k * (k - 1)` does not wrap around while
its value is below `2^32`. -/
theorem toU32_pairs (L k : Nat) (hk : k < 4294967296) (hL : L < 4294967296)
    (hD : L * k * (k - 1) < 4294967296) :
    toU32 (toU32 (toU32 (L : Int) * (k : Int)) * toU32 ((k : Int) - 1)) =
      ((L * k * (k - 1) : Nat) : Int) := by
  rw [toU32_natCast hL]
  rcases Nat.eq_zero_or_pos k with rfl | hkpos
  · simp [toU32]
  · have hk1 : ((k : Int) - 1) = ((k - 1 : Nat) : Int) := by omega
    have hLk : L * k < 4294967296 := by
      rcases Nat.eq_zero_or_pos (k - 1) with h1 | h1
      · have : k = 1 := by omega
        subst this
        simpa using hL
      · exact lt_of_le_of_lt (Nat.le_mul_of_pos_right _ h1) hD
    have hk2 : k - 1 < 4294967296 := by omega
    rw [hk1, ← Nat.cast_mul, toU32_natCast hLk, toU32_natCast hk2, ← Nat.cast_mul,
      toU32_natCast hD]

theorem frame32_sum (P d : Int) (hP : 0 ≤ P) (hd : 0 ≤ d) (h : P + 2 + d < 2147483648) :
    toI32 (toU32 (toU32 P + 2)) = P + 2 ∧
    toI32 (toU32 (toU32 (P + 2) + toU32 d)) = P + 2 + d := by
  unfold toI32 toU32
  constructor <;> omega

/-- As long as `frame(k)` stays below `2^31`, the 32 bit computation of `frame`
gives the value of the unbounded one; `k`, `maxvar` and `num_latches` are
values of type `unsigned`. -/
theorem frame32_eq_frame (m : Aiger) (f : Regime) (k : Nat) (hk : k < 4294967296)
    (hN : m.maxvar < 4294967296) (hL : m.num_latches < 4294967296)
    (h : frame m f k < 2147483648) : frame32 m f k = frame m f k := by
  have hkN : (0 : Int) ≤ ((k * m.maxvar : Nat) : Int) := Int.ofNat_nonneg _
  have hd0 : (0 : Int) ≤ ((m.num_latches * k * (k - 1) / 2 : Nat) : Int) := Int.ofNat_nonneg _
  rw [frame_eq] at h ⊢
  unfold frame32 Regime.usesDiff at *
  rw [toU32_natCast hk, toU32_natCast hN, ← Nat.cast_mul] at *
  by_cases hf : (f.dcs || f.rcs || f.mix) = true
  · rw [if_pos hf] at h ⊢
    rw [if_pos hf]
    have hD : m.num_latches * k * (k - 1) < 4294967296 := by
      have h2 : m.num_latches * k * (k - 1) / 2 < 2147483648 := by
        generalize m.num_latches * k * (k - 1) / 2 = q at h hd0
        generalize ((k * m.maxvar : Nat) : Int) = P at h hkN
        omega
      generalize m.num_latches * k * (k - 1) = D at h2
      omega
    rw [toU32_pairs _ k hk hL hD]
    have e : ((m.num_latches * k * (k - 1) : Nat) : Int) / 2 =
        ((m.num_latches * k * (k - 1) / 2 : Nat) : Int) := (Int.natCast_div _ _).symm
    rw [e]
    generalize ((m.num_latches * k * (k - 1) / 2 : Nat) : Int) = d at h hd0 ⊢
    generalize ((k * m.maxvar : Nat) : Int) = P at h hkN ⊢
    obtain ⟨h1, h2⟩ := frame32_sum P d hkN hd0 h
    rw [h1, h2]
  · rw [if_neg hf] at h ⊢
    rw [if_neg hf]
    generalize ((k * m.maxvar : Nat) : Int) = P at h hkN ⊢
    rw [(frame32_sum P 0 hkN (le_refl 0) (by omega)).1, add_zero]

/-- As long as the solver variable stays below `2^31`, the 32 bit computation
of `lit` gives the value of the unbounded one. -/
theorem lit32_eq_lit (m : Aiger) (f : Regime) (k l : Nat) (hk : k < 4294967296)
    (hN : m.maxvar < 4294967296) (hL : m.num_latches < 4294967296)
    (h : frame m f k + (((l - 2) / 2 : Nat) : Int) < 2147483648) :
    lit32 m f k l = lit m f k l := by
  have hx0 : (0 : Int) ≤ (((l - 2) / 2 : Nat) : Int) := Int.ofNat_nonneg _
  have hp := frame_pos m f k
  have hfr : frame32 m f (toI32 k) = frame m f k := by
    rw [← frame32_eq_frame m f k hk hN hL (by omega)]
    unfold frame32
    rw [toU32_toI32]
    have e : toU32 (toI32 (k : Int) - 1) = toU32 ((k : Int) - 1) := by
      unfold toU32 toI32
      omega
    rw [e]
  rw [lit_eq]
  unfold lit32
  rw [hfr]
  generalize (((l - 2) / 2 : Nat) : Int) = x at h hx0 ⊢
  generalize frame m f k = fr at h hp ⊢
  have e1 : toI32 x = x := toI32_of_lt (by omega) (by omega)
  have e2 : toI32 (fr + x) = fr + x := toI32_of_lt (by omega) (by omega)
  have e3 : toI32 (-(fr + x)) = -(fr + x) := toI32_of_lt (by omega) (by omega)
  rw [e1, e2]
  split <;> split <;> first | rfl | exact e3

/-! ## Clauses of a sequence of `picosat_add` calls -/

theorem clausesAux_cons (cur : List Int) (x : Int) (xs : List Int) :
    clausesAux cur (x :: xs) =
      if x = 0 then cur :: clausesAux [] xs else clausesAux (cur ++ [x]) xs := rfl

theorem clausesAux_snoc_zero (xs cur b : List Int) :
    clausesAux cur (xs ++ [0] ++ b) = clausesAux cur (xs ++ [0]) ++ clausesOf b := by
  induction xs generalizing cur with
  | nil => simp [clausesAux, clausesOf]
  | cons x xs ih =>
    rw [List.cons_append, List.cons_append, clausesAux_cons, clausesAux_cons]
    split
    · rw [ih]; simp
    · rw [ih]

theorem clausesOf_append {a : List Int} (ha : Closed a) (b : List Int) :
    clausesOf (a ++ b) = clausesOf a ++ clausesOf b := by
  rcases ha with rfl | ⟨ys, rfl⟩
  · simp [clausesOf, clausesAux]
  · exact clausesAux_snoc_zero ys [] b

theorem clausesAux_clause (c cur : List Int) (hc : ∀ x ∈ c, x ≠ 0) :
    clausesAux cur (c ++ [0]) = [cur ++ c] := by
  induction c generalizing cur with
  | nil => simp [clausesAux]
  | cons x xs ih =>
    have hx : x ≠ 0 := hc x (List.mem_cons_self _ _)
    rw [List.cons_append, clausesAux_cons, if_neg hx,
      ih _ (fun y hy => hc y (List.mem_cons_of_mem _ hy))]
    simp

theorem clausesOf_clause (c : List Int) (hc : ∀ x ∈ c, x ≠ 0) :
    clausesOf (c ++ [0]) = [c] := by
  simpa using clausesAux_clause c [] hc

theorem closed_nil : Closed [] := Or.inl rfl

theorem closed_snoc (c : List Int) : Closed (c ++ [0]) := Or.inr ⟨c, rfl⟩

theorem closed_append {a b : List Int} (ha : Closed a) (hb : Closed b) : Closed (a ++ b) := by
  rcases hb with rfl | ⟨ys, rfl⟩
  · simpa using ha
  · exact Or.inr ⟨a ++ ys, by simp⟩

theorem closed_flatMap {α : Type} (g : α → List Int) (l : List α)
    (h : ∀ x ∈ l, Closed (g x)) : Closed (l.flatMap g) := by
  induction l with
  | nil => exact closed_nil
  | cons x xs ih =>
    rw [List.flatMap_cons]
    exact closed_append (h x (List.mem_cons_self _ _))
      (ih fun y hy => h y (List.mem_cons_of_mem _ hy))

theorem closed_unary (a : Int) : Closed (unary a) := closed_snoc [a]

theorem closed_binary (a b : Int) : Closed (binary a b) := closed_snoc [a, b]

theorem closed_ternary (a b c : Int) : Closed (ternary a b c) := closed_snoc [a, b, c]

theorem closed_and (a b c : Int) : Closed (and a b c) :=
  closed_append (closed_append (closed_binary _ _) (closed_binary _ _)) (closed_ternary _ _ _)

theorem closed_eq (a b : Int) : Closed (eq a b) :=
  closed_append (closed_binary _ _) (closed_binary _ _)

theorem satisfies_nil (s : Nat → Bool) : Satisfies s [] := by
  intro c hc
  simp [clausesOf, clausesAux] at hc

theorem satisfies_append (s : Nat → Bool) {a : List Int} (ha : Closed a) (b : List Int) :
    Satisfies s (a ++ b) ↔ Satisfies s a ∧ Satisfies s b := by
  unfold Satisfies
  rw [clausesOf_append ha]
  simp only [List.mem_append]
  constructor
  · intro h
    exact ⟨fun c hc => h c (Or.inl hc), fun c hc => h c (Or.inr hc)⟩
  · rintro ⟨h1, h2⟩ c (hc | hc)
    · exact h1 c hc
    · exact h2 c hc

theorem satisfies_flatMap {α : Type} (s : Nat → Bool) (g : α → List Int) (l : List α)
    (h : ∀ x ∈ l, Closed (g x)) :
    Satisfies s (l.flatMap g) ↔ ∀ x ∈ l, Satisfies s (g x) := by
  induction l with
  | nil => simp [satisfies_nil]
  | cons x xs ih =>
    rw [List.flatMap_cons, satisfies_append s (h x (List.mem_cons_self _ _)),
      ih fun y hy => h y (List.mem_cons_of_mem _ hy)]
    simp

theorem satisfies_clause (s : Nat → Bool) (c : List Int) (hc : ∀ x ∈ c, x ≠ 0) :
    Satisfies s (c ++ [0]) ↔ ∃ x ∈ c, evalLit s x = true := by
  unfold Satisfies
  rw [clausesOf_clause c hc]
  simp [satClause]

theorem evalLit_neg (s : Nat → Bool) {x : Int} (hx : x ≠ 0) :
    evalLit s (-x) = !evalLit s x := by
  unfold evalLit
  rw [Int.natAbs_neg]
  by_cases h : 0 < x
  · have h2 : ¬ (0 < -x) := by omega
    simp [h, h2]
  · have h2 : 0 < -x := by omega
    simp [h, h2]

theorem satisfies_unary (s : Nat → Bool) {a : Int} (ha : a ≠ 0) :
    Satisfies s (unary a) ↔ evalLit s a = true := by
  have h := satisfies_clause s [a] (by simpa using ha)
  simpa [unary] using h

theorem satisfies_binary (s : Nat → Bool) {a b : Int} (ha : a ≠ 0) (hb : b ≠ 0) :
    Satisfies s (binary a b) ↔ (evalLit s a = true ∨ evalLit s b = true) := by
  have h := satisfies_clause s [a, b] (by simp [ha, hb])
  simpa [binary] using h

theorem satisfies_ternary (s : Nat → Bool) {a b c : Int} (ha : a ≠ 0) (hb : b ≠ 0)
    (hc : c ≠ 0) :
    Satisfies s (ternary a b c) ↔
      (evalLit s a = true ∨ evalLit s b = true ∨ evalLit s c = true) := by
  have h := satisfies_clause s [a, b, c] (by simp [ha, hb, hc])
  simpa [ternary] using h

/-- A `ternary` call whose last argument is zero adds the empty clause. -/
theorem not_satisfies_ternary_zero (s : Nat → Bool) {a b : Int} (ha : a ≠ 0) (hb : b ≠ 0) :
    ¬ Satisfies s (ternary a b 0) := by
  intro h
  have h2 := h [] (by simp [ternary, clausesOf, clausesAux, ha, hb])
  simp [satClause] at h2

theorem satisfies_and (s : Nat → Bool) {a b c : Int} (ha : a ≠ 0) (hb : b ≠ 0) (hc : c ≠ 0) :
    Satisfies s (and a b c) ↔ evalLit s a = (evalLit s b && evalLit s c) := by
  have hna : -a ≠ 0 := by omega
  have hnb : -b ≠ 0 := by omega
  have hnc : -c ≠ 0 := by omega
  unfold and
  rw [satisfies_append s (closed_append (closed_binary _ _) (closed_binary _ _)),
    satisfies_append s (closed_binary _ _), satisfies_binary s hna hb,
    satisfies_binary s hna hc, satisfies_ternary s ha hnb hnc,
    evalLit_neg s ha, evalLit_neg s hb, evalLit_neg s hc]
  cases evalLit s a <;> cases evalLit s b <;> cases evalLit s c <;> simp

theorem satisfies_eq (s : Nat → Bool) {a b : Int} (ha : a ≠ 0) (hb : b ≠ 0) :
    Satisfies s (eq a b) ↔ evalLit s a = evalLit s b := by
  have hna : -a ≠ 0 := by omega
  have hnb : -b ≠ 0 := by omega
  unfold eq
  rw [satisfies_append s (closed_binary _ _), satisfies_binary s hna hb,
    satisfies_binary s ha hnb, evalLit_neg s ha, evalLit_neg s hb]
  cases evalLit s a <;> cases evalLit s b <;> simp

/-! ## The claims on the literal map -/

/-- C1: for every regime, every `maxvar ≥ 1` and all circuit literals
`l, l'` in `[2, 2*maxvar+1]`, the solver variables of different frames differ,
within a frame two literals share a solver variable only when `l/2 = l'/2`,
and no such variable is the constant variable 1. -/
theorem lit_var_injective (m : Aiger) (f : Regime) (_hN : 1 ≤ m.maxvar)
    (k k' l l' : Nat) (hl : 2 ≤ l ∧ l ≤ 2 * m.maxvar + 1)
    (hl' : 2 ≤ l' ∧ l' ≤ 2 * m.maxvar + 1) :
    (k ≠ k' → (lit m f k l).natAbs ≠ (lit m f k' l').natAbs) ∧
    ((lit m f k l).natAbs = (lit m f k l').natAbs → l / 2 = l' / 2) ∧
    (lit m f k l).natAbs ≠ 1 := by
  have e1 := lit_natAbs_of_ge_two m f k hl.1
  have e2 := lit_natAbs_of_ge_two m f k' hl'.1
  have e3 := lit_natAbs_of_ge_two m f k hl'.1
  have hp := frame_pos m f k
  refine ⟨?_, ?_, ?_⟩
  · intro hk heq
    rw [heq] at e1
    rcases Nat.lt_or_gt_of_ne hk with h | h
    · have := frame_mono_le m f h
      omega
    · have := frame_mono_le m f h
      omega
  · intro heq
    rw [heq] at e1
    omega
  · intro h1
    rw [h1] at e1
    omega

/-- C1, at a circuit with `maxvar = 3` under the classical regime. -/
theorem lit_var_injective_witness :
    (0 ≠ 1 → (lit ⟨3, [⟨2, 0⟩], [⟨4, 6⟩], [⟨6, 0⟩], [⟨6, 2, 4⟩]⟩
        ⟨true, false, false, false, false⟩ 0 7).natAbs ≠
      (lit ⟨3, [⟨2, 0⟩], [⟨4, 6⟩], [⟨6, 0⟩], [⟨6, 2, 4⟩]⟩
        ⟨true, false, false, false, false⟩ 1 2).natAbs) ∧
    ((lit ⟨3, [⟨2, 0⟩], [⟨4, 6⟩], [⟨6, 0⟩], [⟨6, 2, 4⟩]⟩
        ⟨true, false, false, false, false⟩ 0 7).natAbs =
      (lit ⟨3, [⟨2, 0⟩], [⟨4, 6⟩], [⟨6, 0⟩], [⟨6, 2, 4⟩]⟩
        ⟨true, false, false, false, false⟩ 0 2).natAbs → 7 / 2 = 2 / 2) ∧
    (lit ⟨3, [⟨2, 0⟩], [⟨4, 6⟩], [⟨6, 0⟩], [⟨6, 2, 4⟩]⟩
        ⟨true, false, false, false, false⟩ 0 7).natAbs ≠ 1 :=
  lit_var_injective ⟨3, [⟨2, 0⟩], [⟨4, 6⟩], [⟨6, 0⟩], [⟨6, 2, 4⟩]⟩
    ⟨true, false, false, false, false⟩ (by decide) 0 1 7 2 (by decide) (by decide)

/-- C8, as the claim states it, fails: in frame 0 of a circuit with
`maxvar = 3` the code gives `lit(0, 0) = +1` and `lit(0, 1) = -1`. -/
theorem lit_constants_sign_fails :
    lit ⟨3, [⟨2, 0⟩], [⟨4, 6⟩], [⟨6, 0⟩], [⟨6, 2, 4⟩]⟩
        ⟨false, true, false, false, false⟩ 0 0 ≠ -1 ∧
    lit ⟨3, [⟨2, 0⟩], [⟨4, 6⟩], [⟨6, 0⟩], [⟨6, 2, 4⟩]⟩
        ⟨false, true, false, false, false⟩ 0 1 ≠ 1 := by
  constructor <;> decide

/-- C8, amended: in every frame `lit(k, 0) = +1` and `lit(k, 1) = -1`; the
solver variable 1 stands for the constant false, and the unit clause emitted by
`encode(0)` is `-1`. -/
theorem lit_constants (m : Aiger) (f : Regime) (k : Nat) :
    lit m f k 0 = 1 ∧ lit m f k 1 = -1 ∧ unary (lit m f 0 1) = [-1, 0] := by
  refine ⟨?_, ?_, ?_⟩ <;> simp [lit_eq, unary]

/-- Over the integers the solver variable of `lit(k, l)` is 1 for `l ≤ 1` and
`frame(k) + (l-2)/2` for `l ≥ 2`, the literal is negative exactly when `l` is
odd, `lit(k, l xor 1) = -lit(k, l)`, and the value is never 0. -/
theorem lit_shape (m : Aiger) (f : Regime) (k l : Nat) :
    ((lit m f k l).natAbs : Int) =
      (if l ≤ 1 then 1 else frame m f k + (((l - 2) / 2 : Nat) : Int)) ∧
    (∀ l2 : Nat, l2 / 2 = l / 2 → (lit m f k l2).natAbs = (lit m f k l).natAbs) ∧
    (lit m f k l < 0 ↔ l % 2 = 1) ∧
    lit m f k (l ^^^ 1) = -lit m f k l ∧
    lit m f k l ≠ 0 := by
  have hp := frame_pos m f k
  have hshape : ∀ x : Nat, ((lit m f k x).natAbs : Int) =
      (if x ≤ 1 then 1 else frame m f k + (((x - 2) / 2 : Nat) : Int)) := by
    intro x
    rw [lit_eq]
    split <;> split <;> omega
  refine ⟨hshape l, ?_, ?_, ?_, lit_ne_zero m f k l⟩
  · intro l2 h2
    have a := hshape l2
    have b := hshape l
    split at a <;> split at b <;> omega
  · rw [lit_eq]
    split <;> split <;> omega
  · obtain ⟨hd, hm⟩ := xor_one_cases l
    rw [lit_eq, lit_eq]
    split <;> split <;> split <;> split <;> omega

/-! ## The frame offsets -/

/-- Over the integers `frame(k) = k*maxvar + 2` when `dcs`, `rcs` and `mix` are
all clear, and `frame(k) = k*maxvar + 2 + num_latches * k*(k-1)/2` when one of
them is set; the division is exact, `k*(k-1)/2` pairs of `num_latches`
variables. -/
theorem frame_closed_form (m : Aiger) (f : Regime) (k : Nat) :
    frame m f k =
      (if f.dcs = false ∧ f.rcs = false ∧ f.mix = false then (k : Int) * m.maxvar + 2
       else (k : Int) * m.maxvar + 2 + ((m.num_latches * k * (k - 1) / 2 : Nat) : Int)) ∧
    m.num_latches * k * (k - 1) / 2 = m.num_latches * (k * (k - 1) / 2) := by
  constructor
  · rw [frame_eq]
    unfold Regime.usesDiff
    cases f.dcs <;> cases f.rcs <;> cases f.mix <;> simp
  · have hev : 2 ∣ k * (k - 1) := by
      rcases Nat.even_or_odd k with h | h
      · exact Dvd.dvd.mul_right h.two_dvd _
      · have : Even (k - 1) := Nat.Odd.sub_odd h odd_one
        exact Dvd.dvd.mul_left this.two_dvd _
    rw [Nat.mul_assoc, Nat.mul_div_assoc _ hev]

/-! ## The classical difference encoding -/

theorem latch_ne_zero (m : Aiger) (f : Regime) (k i : Nat) : latch m f k i ≠ 0 :=
  lit_ne_zero m f k _

theorem next_ne_zero (m : Aiger) (f : Regime) (k i : Nat) : next m f k i ≠ 0 :=
  lit_ne_zero m f k _

theorem output_ne_zero (m : Aiger) (f : Regime) (k i : Nat) : output m f k i ≠ 0 :=
  lit_ne_zero m f k _

theorem closed_diffs_latch (m : Aiger) (f : Regime) (k l i : Nat) :
    Closed (ternary (latch m f l i) (latch m f k i) (-diff m f k l i) ++
      ternary (-latch m f l i) (-latch m f k i) (-diff m f k l i)) :=
  closed_append (closed_ternary _ _ _) (closed_ternary _ _ _)

theorem satisfies_diffsOrdered (m : Aiger) (f : Regime) (k l : Nat) (s : Nat → Bool) :
    Satisfies s (diffsOrdered m f k l) ↔
      (∀ i < m.num_latches,
        Satisfies s (ternary (latch m f l i) (latch m f k i) (-diff m f k l i)) ∧
        Satisfies s (ternary (-latch m f l i) (-latch m f k i) (-diff m f k l i))) ∧
      Satisfies s ((List.range m.num_latches).map (fun i => diff m f k l i) ++ [0]) := by
  unfold diffsOrdered
  rw [List.append_assoc,
    satisfies_append s (closed_flatMap _ _ fun i _ => closed_diffs_latch m f k l i),
    satisfies_flatMap s _ _ fun i _ => closed_diffs_latch m f k l i]
  simp only [List.mem_range, satisfies_append s (closed_ternary _ _ _)]

theorem closed_connect (m : Aiger) (f : Regime) (k : Nat) : Closed (connect m f k) := by
  unfold connect
  split
  · exact closed_nil
  · exact closed_flatMap _ _ fun i _ => closed_eq _ _

theorem closed_gates (m : Aiger) (f : Regime) (k : Nat) :
    Closed (m.ands.flatMap fun a =>
      and (lit m f k a.lhs) (lit m f k a.rhs0) (lit m f k a.rhs1)) :=
  closed_flatMap _ _ fun _ _ => closed_and _ _ _

theorem satisfies_gates (m : Aiger) (f : Regime) (k : Nat) (s : Nat → Bool) :
    Satisfies s (m.ands.flatMap fun a =>
      and (lit m f k a.lhs) (lit m f k a.rhs0) (lit m f k a.rhs1)) ↔
    ∀ a ∈ m.ands, evalLit s (lit m f k a.lhs) =
      (evalLit s (lit m f k a.rhs0) && evalLit s (lit m f k a.rhs1)) := by
  rw [satisfies_flatMap s _ _ fun _ _ => closed_and _ _ _]
  constructor
  · intro h a ha
    exact (satisfies_and s (lit_ne_zero _ _ _ _) (lit_ne_zero _ _ _ _)
      (lit_ne_zero _ _ _ _)).1 (h a ha)
  · intro h a ha
    exact (satisfies_and s (lit_ne_zero _ _ _ _) (lit_ne_zero _ _ _ _)
      (lit_ne_zero _ _ _ _)).2 (h a ha)

theorem satisfies_connect_succ (m : Aiger) (f : Regime) (k : Nat) (s : Nat → Bool) :
    Satisfies s (connect m f (k + 1)) ↔
      ∀ i < m.num_latches, evalLit s (next m f k i) = evalLit s (latch m f (k + 1) i) := by
  unfold connect
  rw [if_neg (by omega), satisfies_flatMap s _ _ fun i _ => closed_eq _ _]
  simp only [List.mem_range, Nat.add_sub_cancel]
  constructor
  · intro h i hi
    exact (satisfies_eq s (next_ne_zero _ _ _ _) (latch_ne_zero _ _ _ _)).1 (h i hi)
  · intro h i hi
    exact (satisfies_eq s (next_ne_zero _ _ _ _) (latch_ne_zero _ _ _ _)).2 (h i hi)

theorem satisfies_latch_clause (m : Aiger) (f : Regime) (k : Nat) (s : Nat → Bool) :
    Satisfies s ((List.range m.num_latches).map (fun i => latch m f k i) ++ [0]) ↔
      ∃ i < m.num_latches, evalLit s (latch m f k i) = true := by
  rw [satisfies_clause s _ (by
    intro x hx
    simp only [List.mem_map, List.mem_range] at hx
    obtain ⟨i, _, rfl⟩ := hx
    exact latch_ne_zero m f k i)]
  simp only [List.mem_map, List.mem_range]
  constructor
  · rintro ⟨x, ⟨i, hi, rfl⟩, hx⟩
    exact ⟨i, hi, hx⟩
  · rintro ⟨i, hi, hx⟩
    exact ⟨_, ⟨i, hi, rfl⟩, hx⟩

theorem encode_zero (m : Aiger) (f : Regime) :
    encode m f 0 = unary (lit m f 0 1) ++
      (m.ands.flatMap fun a => and (lit m f 0 a.lhs) (lit m f 0 a.rhs0) (lit m f 0 a.rhs1)) := by
  simp [encode]

theorem encode_succ (m : Aiger) (f : Regime) (k : Nat) :
    encode m f (k + 1) =
      (m.ands.flatMap fun a =>
        and (lit m f (k + 1) a.lhs) (lit m f (k + 1) a.rhs0) (lit m f (k + 1) a.rhs1)) ++
      ((List.range m.num_latches).map (fun i => latch m f (k + 1) i) ++ [0] ++
        unary (-output m f k 0)) := by
  simp [encode]

theorem satisfies_encode_zero (m : Aiger) (f : Regime) (s : Nat → Bool) :
    Satisfies s (encode m f 0) ↔
      evalLit s (lit m f 0 1) = true ∧
      ∀ a ∈ m.ands, evalLit s (lit m f 0 a.lhs) =
        (evalLit s (lit m f 0 a.rhs0) && evalLit s (lit m f 0 a.rhs1)) := by
  rw [encode_zero, satisfies_append s (closed_unary _),
    satisfies_unary s (lit_ne_zero _ _ _ _), satisfies_gates]

theorem satisfies_encode_succ (m : Aiger) (f : Regime) (k : Nat) (s : Nat → Bool) :
    Satisfies s (encode m f (k + 1)) ↔
      (∀ a ∈ m.ands, evalLit s (lit m f (k + 1) a.lhs) =
        (evalLit s (lit m f (k + 1) a.rhs0) && evalLit s (lit m f (k + 1) a.rhs1))) ∧
      (∃ i < m.num_latches, evalLit s (latch m f (k + 1) i) = true) ∧
      evalLit s (output m f k 0) = false := by
  have ho := output_ne_zero m f k 0
  have hno : -output m f k 0 ≠ 0 := by omega
  rw [encode_succ, satisfies_append s (closed_gates m f (k + 1)),
    satisfies_append s (closed_snoc _), satisfies_unary s hno, evalLit_neg s ho,
    satisfies_gates, satisfies_latch_clause]
  simp

theorem litVal_congr {env E : Nat → Bool} {l : Nat} (h : l / 2 ≠ 0 → env (l / 2) = E (l / 2)) :
    litVal env l = litVal E l := by
  unfold litVal
  by_cases h0 : l / 2 = 0
  · simp [h0]
  · rw [h h0]

theorem definedVar_snoc (m : Aiger) (done : List AigerAnd) (a : AigerAnd) (v : Nat) :
    definedVar m (done ++ [a]) v = (definedVar m done v || (a.lhs / 2 == v)) := by
  simp [definedVar, Bool.or_assoc]

/-- Evaluating further gates does not change a variable that is already defined. -/
theorem evalGates_defined (m : Aiger) (rest : List AigerAnd) :
    ∀ (done : List AigerAnd) (env : Nat → Bool), gatesOrdered m done rest = true →
      ∀ v, definedVar m done v = true → evalGates env rest v = env v := by
  induction rest with
  | nil => intro done env _ v _; rfl
  | cons a rest ih =>
    intro done env hord v hv
    simp only [gatesOrdered, Bool.and_eq_true, Bool.not_eq_true'] at hord
    obtain ⟨⟨⟨⟨_, hnew⟩, _⟩, _⟩, hrest⟩ := hord
    have hne : v ≠ a.lhs / 2 := by
      rintro rfl
      rw [hv] at hnew
      exact Bool.noConfusion hnew
    have hv2 : definedVar m (done ++ [a]) v = true := by
      rw [definedVar_snoc, hv]; rfl
    unfold evalGates
    rw [ih (done ++ [a]) _ hrest v hv2, if_neg hne]

/-- After evaluation every gate holds in the final valuation. -/
theorem evalGates_gates (m : Aiger) (rest : List AigerAnd) :
    ∀ (done : List AigerAnd) (env : Nat → Bool), gatesOrdered m done rest = true →
      ∀ a ∈ rest, evalGates env rest (a.lhs / 2) =
        (litVal (evalGates env rest) a.rhs0 && litVal (evalGates env rest) a.rhs1) := by
  induction rest with
  | nil => intro done env _ a ha; simp at ha
  | cons b rest ih =>
    intro done env hord a ha
    have hord2 := hord
    simp only [gatesOrdered, Bool.and_eq_true, Bool.not_eq_true'] at hord2
    obtain ⟨⟨⟨⟨_, _⟩, hr0⟩, hr1⟩, hrest⟩ := hord2
    rcases List.mem_cons.1 ha with rfl | ha2
    · have hself : definedVar m (done ++ [a]) (a.lhs / 2) = true := by
        rw [definedVar_snoc]; simp
      have e0 : litVal (evalGates env (a :: rest)) a.rhs0 = litVal env a.rhs0 :=
        litVal_congr fun _ => evalGates_defined m (a :: rest) done env hord _ hr0
      have e1 : litVal (evalGates env (a :: rest)) a.rhs1 = litVal env a.rhs1 :=
        litVal_congr fun _ => evalGates_defined m (a :: rest) done env hord _ hr1
      rw [e0, e1]
      unfold evalGates
      rw [evalGates_defined m rest (done ++ [a]) _ hrest _ hself, if_pos rfl]
    · unfold evalGates
      exact ih (done ++ [b]) _ hrest a ha2

/-- A valuation in which every gate holds is the one computed by `evalGates`, on
every defined variable. -/
theorem evalGates_unique (m : Aiger) (E : Nat → Bool) (rest : List AigerAnd) :
    ∀ (done : List AigerAnd) (env : Nat → Bool), gatesOrdered m done rest = true →
      (∀ v, definedVar m done v = true → v ≠ 0 → env v = E v) →
      (∀ a ∈ rest, E (a.lhs / 2) = (litVal E a.rhs0 && litVal E a.rhs1)) →
      ∀ v, definedVar m (done ++ rest) v = true → v ≠ 0 → evalGates env rest v = E v := by
  induction rest with
  | nil =>
    intro done env _ hagree _ v hv hv0
    rw [List.append_nil] at hv
    exact hagree v hv hv0
  | cons a rest ih =>
    intro done env hord hagree hE v hv hv0
    simp only [gatesOrdered, Bool.and_eq_true, Bool.not_eq_true'] at hord
    obtain ⟨⟨⟨⟨_, _⟩, hr0⟩, hr1⟩, hrest⟩ := hord
    unfold evalGates
    have hv3 : definedVar m (done ++ [a] ++ rest) v = true := by
      rw [List.append_assoc]; exact hv
    refine ih (done ++ [a]) _ hrest ?_ (fun b hb => hE b (List.mem_cons_of_mem _ hb)) v hv3 hv0
    intro w hw hw0
    rw [definedVar_snoc, Bool.or_eq_true] at hw
    by_cases hwa : w = a.lhs / 2
    · rw [if_pos hwa, hwa, hE a (List.mem_cons_self _ _)]
      have e0 : litVal env a.rhs0 = litVal E a.rhs0 := litVal_congr fun h0 => hagree _ hr0 h0
      have e1 : litVal env a.rhs1 = litVal E a.rhs1 := litVal_congr fun h0 => hagree _ hr1 h0
      rw [e0, e1]
    · rw [if_neg hwa]
      rcases hw with hw | hw
      · exact hagree w hw hw0
      · exact absurd (beq_iff_eq.1 hw).symm hwa

/-- The circuit valuation an assignment of the solver variables induces on
frame `k`, read through `lit`. -/
theorem evalLit_lit (m : Aiger) (f : Regime) (k : Nat) (s : Nat → Bool) (h1 : s 1 = false)
    (l : Nat) :
    evalLit s (lit m f k l) = litVal (fun v => evalLit s (lit m f k (2 * v))) l := by
  have hp := frame_pos m f k
  by_cases hl : l ≤ 1
  · have hl2 : l / 2 = 0 := by omega
    unfold litVal
    rw [hl2]
    rcases Nat.lt_or_ge l 1 with h | h
    · have : l = 0 := by omega
      subst this
      simp [lit_eq, evalLit, h1]
    · have : l = 1 := by omega
      subst this
      simp [lit_eq, evalLit, h1]
  · have hl2 : l / 2 ≠ 0 := by omega
    have hb : (l / 2 != 0) = true := by simp [hl2]
    unfold litVal
    rw [hb, Bool.true_and]
    beta_reduce
    by_cases hodd : l % 2 = 1
    · have e : lit m f k l = -lit m f k (2 * (l / 2)) := by
        rw [lit_eq, lit_eq]
        have h3 : (2 * (l / 2) - 2) / 2 = (l - 2) / 2 := by omega
        rw [h3]
        split <;> split <;> split <;> omega
      have ho : (l % 2 == 1) = true := by simp [hodd]
      rw [e, evalLit_neg s (lit_ne_zero _ _ _ _), ho]
      cases evalLit s (lit m f k (2 * (l / 2))) <;> rfl
    · have e : 2 * (l / 2) = l := by omega
      have ho : (l % 2 == 1) = false := by simp [hodd]
      rw [e, ho]
      cases evalLit s (lit m f k l) <;> rfl

theorem evalLit_lit_frame_zero (m : Aiger) (f : Regime) (s : Nat → Bool) (v : Nat)
    (hv : v ≠ 0) : evalLit s (lit m f 0 (2 * v)) = s (v + 1) := by
  have h3 : (2 * v - 2) / 2 = v - 1 := by omega
  have hf : frame m f 0 = 2 := by
    rw [frame_eq]; simp
  rw [lit_eq, hf, h3]
  have h4 : ¬ (2 * v ≤ 1) := by omega
  have h5 : ¬ (2 * v % 2 = 1) := by omega
  rw [if_neg h5, if_neg h4]
  unfold evalLit
  have h6 : (0 : Int) < 2 + ((v - 1 : Nat) : Int) := by omega
  have h7 : ((2 : Int) + ((v - 1 : Nat) : Int)).natAbs = v + 1 := by omega
  rw [if_pos h6, h7]

theorem latch_var_of_wellFormed (m : Aiger) (h : WellFormed m = true) (i : Nat)
    (hi : i < m.num_latches) :
    (m.latches.getD i ⟨0, 0⟩).lit % 2 = 0 ∧ 2 ≤ (m.latches.getD i ⟨0, 0⟩).lit ∧
    isInputVar m ((m.latches.getD i ⟨0, 0⟩).lit / 2) = false ∧
    isLatchVar m ((m.latches.getD i ⟨0, 0⟩).lit / 2) = true := by
  have hi2 : i < m.latches.length := hi
  have hmem : m.latches.getD i ⟨0, 0⟩ ∈ m.latches := by
    rw [List.getD_eq_getElem _ _ hi2]
    exact List.getElem_mem hi2
  simp only [WellFormed, Bool.and_eq_true, List.all_eq_true] at h
  obtain ⟨⟨⟨⟨_, hl⟩, _⟩, _⟩, _⟩ := h
  have := hl _ hmem
  simp only [Bool.and_eq_true, beq_iff_eq, decide_eq_true_eq, Bool.not_eq_true'] at this
  refine ⟨this.1.1, this.1.2, this.2, ?_⟩
  unfold isLatchVar
  rw [List.any_eq_true]
  exact ⟨_, hmem, by simp⟩

theorem gatesOrdered_lhs (m : Aiger) (rest : List AigerAnd) :
    ∀ done : List AigerAnd, gatesOrdered m done rest = true →
      ∀ a ∈ rest, a.lhs % 2 = 0 ∧ a.lhs / 2 ≠ 0 := by
  induction rest with
  | nil => intro done _ a ha; simp at ha
  | cons b rest ih =>
    intro done hord a ha
    simp only [gatesOrdered, Bool.and_eq_true, Bool.not_eq_true', beq_iff_eq] at hord
    obtain ⟨⟨⟨⟨hev, hnew⟩, _⟩, _⟩, hrest⟩ := hord
    rcases List.mem_cons.1 ha with rfl | ha2
    · refine ⟨hev, ?_⟩
      intro h0
      rw [h0] at hnew
      simp [definedVar] at hnew
    · exact ih _ hrest a ha2

theorem litVal_even (E : Nat → Bool) {l : Nat} (hev : l % 2 = 0) (h0 : l / 2 ≠ 0) :
    litVal E l = E (l / 2) := by
  have hb : (l / 2 != 0) = true := by simp [h0]
  have ho : (l % 2 == 1) = false := by simp [hev]
  unfold litVal
  rw [hb, ho, Bool.true_and]
  cases E (l / 2) <;> rfl

theorem evalLit_lit_zero_eq (m : Aiger) (f : Regime) (s F : Nat → Bool) (h1 : s 1 = false)
    (hF : ∀ v, v ≠ 0 → s (v + 1) = F v) (l : Nat) :
    evalLit s (lit m f 0 l) = litVal F l := by
  rw [evalLit_lit m f 0 s h1 l]
  apply litVal_congr
  intro h0
  beta_reduce
  rw [evalLit_lit_frame_zero m f s _ h0, hF _ h0]

theorem isLatchVar_index (m : Aiger) (v : Nat) (h : isLatchVar m v = true) :
    ∃ i, i < m.num_latches ∧ (m.latches.getD i ⟨0, 0⟩).lit / 2 = v := by
  unfold isLatchVar at h
  rw [List.any_eq_true] at h
  obtain ⟨x, hx, hxv⟩ := h
  obtain ⟨i, hi, rfl⟩ := List.getElem_of_mem hx
  refine ⟨i, hi, ?_⟩
  rw [List.getD_eq_getElem _ _ hi]
  exact beq_iff_eq.1 hxv

/-- C4: for every well-formed circuit with exactly one output, the base query
at bound 0 (the clauses of `encode(0)` with the assumptions `-latch(0, i)` for
every latch and `output(0, 0)`) is satisfiable exactly when some valuation of
the inputs makes the output true in the state where every latch is 0. -/
theorem base_zero_iff (m : Aiger) (f : Regime) (h : WellFormed m = true) :
    BaseZeroSat m f ↔ ∃ inp : Nat → Bool, outputValue m inp = true := by
  have hwf := h
  simp only [WellFormed, Bool.and_eq_true] at hwf
  obtain ⟨⟨⟨⟨_, _⟩, hord⟩, _⟩, hout⟩ := hwf
  constructor
  · rintro ⟨s, henc, hlat, hbad⟩
    rw [satisfies_encode_zero] at henc
    obtain ⟨hone, hgates⟩ := henc
    have h1 : s 1 = false := by
      have := hone
      simp [lit_eq, evalLit] at this
      exact this
    have hEv : ∀ l, evalLit s (lit m f 0 l) = litVal (fun v => s (v + 1)) l :=
      evalLit_lit_zero_eq m f s _ h1 fun _ _ => rfl
    have hE : ∀ a ∈ m.ands, (fun v => s (v + 1)) (a.lhs / 2) =
        (litVal (fun v => s (v + 1)) a.rhs0 && litVal (fun v => s (v + 1)) a.rhs1) := by
      intro a ha
      have hg := hgates a ha
      obtain ⟨hev, h0⟩ := gatesOrdered_lhs m m.ands [] hord a ha
      rw [hEv, hEv, hEv, litVal_even _ hev h0] at hg
      exact hg
    have hinit : ∀ v, definedVar m [] v = true → v ≠ 0 →
        initEnv m (fun v => s (v + 1)) v = (fun v => s (v + 1)) v := by
      intro v hv hv0
      unfold initEnv
      by_cases hin : isInputVar m v = true
      · rw [hin, Bool.true_and]
      · have hlv : isLatchVar m v = true := by
          simp only [definedVar, List.any_nil, Bool.or_false, Bool.or_eq_true, beq_iff_eq] at hv
          rcases hv with (hv | hv) | hv
          · exact absurd hv hv0
          · exact absurd hv hin
          · exact hv
        obtain ⟨i, hi, rfl⟩ := isLatchVar_index m v hlv
        obtain ⟨hev, h2, _, _⟩ := latch_var_of_wellFormed m h i hi
        have hl := hlat i hi
        rw [evalLit_neg s (latch_ne_zero m f 0 i)] at hl
        unfold latch at hl
        rw [hEv, litVal_even _ hev hv0] at hl
        simp only [Bool.not_eq_true', Bool.not_eq_true] at hin hl
        rw [hin, Bool.false_and]
        exact hl.symm
    refine ⟨fun v => s (v + 1), ?_⟩
    unfold outputValue
    have hcong : litVal (evalGates (initEnv m fun v => s (v + 1)) m.ands)
        (m.outputs.getD 0 ⟨0, 0⟩).lit =
        litVal (fun v => s (v + 1)) (m.outputs.getD 0 ⟨0, 0⟩).lit :=
      litVal_congr fun h0 =>
        evalGates_unique m _ m.ands [] _ hord hinit hE _ (by simpa using hout) h0
    rw [hcong, ← hEv]
    exact hbad
  · rintro ⟨inp, hval⟩
    have hs1 : (fun x : Nat => if x ≤ 1 then false else
        evalGates (initEnv m inp) m.ands (x - 1)) 1 = false := by simp
    have hEv : ∀ l, evalLit (fun x : Nat => if x ≤ 1 then false else
        evalGates (initEnv m inp) m.ands (x - 1)) (lit m f 0 l) =
        litVal (evalGates (initEnv m inp) m.ands) l := by
      refine evalLit_lit_zero_eq m f _ _ hs1 ?_
      intro v hv
      have : ¬ (v + 1 ≤ 1) := by omega
      simp [this]
    refine ⟨fun x => if x ≤ 1 then false else evalGates (initEnv m inp) m.ands (x - 1),
      ?_, ?_, ?_⟩
    · rw [satisfies_encode_zero]
      refine ⟨by simp [lit_eq, evalLit], ?_⟩
      intro a ha
      obtain ⟨hev, h0⟩ := gatesOrdered_lhs m m.ands [] hord a ha
      rw [hEv, hEv, hEv, litVal_even _ hev h0]
      exact evalGates_gates m m.ands [] _ hord a ha
    · intro i hi
      obtain ⟨hev, h2, hnin, hlv⟩ := latch_var_of_wellFormed m h i hi
      have h0 : (m.latches.getD i ⟨0, 0⟩).lit / 2 ≠ 0 := by omega
      rw [evalLit_neg _ (latch_ne_zero m f 0 i)]
      unfold latch
      rw [hEv, litVal_even _ hev h0,
        evalGates_defined m m.ands [] _ hord _ (by unfold definedVar; rw [hlv]; simp)]
      unfold initEnv
      rw [hnin]
      rfl
    · unfold output
      rw [hEv]
      exact hval

/-- C4, at `notLatchCircuit`, whose output is true in the all-zero state. -/
theorem base_zero_iff_witness :
    WellFormed notLatchCircuit = true ∧
    (BaseZeroSat notLatchCircuit classical ↔
      ∃ inp : Nat → Bool, outputValue notLatchCircuit inp = true) :=
  ⟨by decide, base_zero_iff notLatchCircuit classical (by decide)⟩

/-! ## The refinement loop -/

theorem cmpLatches_neg (m : Aiger) (f : Regime) (d : Int → Int) (k l : Nat) (is : List Nat) :
    cmpLatches m f d l k is = -cmpLatches m f d k l is := by
  induction is with
  | nil => simp [cmpLatches]
  | cons i rest ih =>
    unfold cmpLatches
    by_cases h : d (latch m f k i) - d (latch m f l i) = 0
    · have h2 : d (latch m f l i) - d (latch m f k i) = 0 := by omega
      simp only [h, h2, ne_eq, not_true_eq_false, if_false]
      exact ih
    · have h2 : ¬ d (latch m f l i) - d (latch m f k i) = 0 := by omega
      simp only [h, h2, ne_eq, not_false_eq_true, if_true]
      omega

theorem cmpLatches_eq_zero (m : Aiger) (f : Regime) (d : Int → Int) (k l : Nat)
    (is : List Nat) :
    cmpLatches m f d k l is = 0 ↔ ∀ i ∈ is, d (latch m f k i) = d (latch m f l i) := by
  induction is with
  | nil => simp [cmpLatches]
  | cons i rest ih =>
    unfold cmpLatches
    by_cases h : d (latch m f k i) - d (latch m f l i) = 0
    · simp only [h, ne_eq, not_true_eq_false, if_false, ih, List.mem_cons, forall_eq_or_imp]
      constructor
      · intro h2
        exact ⟨by omega, h2⟩
      · intro h2
        exact h2.2
    · simp only [h, ne_eq, not_false_eq_true, if_true, List.mem_cons, forall_eq_or_imp,
        false_iff, not_and]
      intro h2
      omega

theorem cmpLatches_lt_le (m : Aiger) (f : Regime) (d : Int → Int) (x y z : Nat)
    (is : List Nat) (h1 : cmpLatches m f d x y is < 0) (h2 : cmpLatches m f d y z is ≤ 0) :
    cmpLatches m f d x z is < 0 := by
  induction is with
  | nil => simp [cmpLatches] at h1
  | cons i rest ih =>
    unfold cmpLatches at h1 h2 ⊢
    by_cases a : d (latch m f x i) - d (latch m f y i) = 0
    · by_cases b : d (latch m f y i) - d (latch m f z i) = 0
      · have c : d (latch m f x i) - d (latch m f z i) = 0 := by omega
        simp only [a, b, c, ne_eq, not_true_eq_false, if_false] at h1 h2 ⊢
        exact ih h1 h2
      · have c : ¬ d (latch m f x i) - d (latch m f z i) = 0 := by omega
        simp only [b, c, ne_eq, not_false_eq_true, if_true] at h2 ⊢
        omega
    · by_cases b : d (latch m f y i) - d (latch m f z i) = 0
      · have c : ¬ d (latch m f x i) - d (latch m f z i) = 0 := by omega
        simp only [a, c, ne_eq, not_false_eq_true, if_true] at h1 ⊢
        omega
      · simp only [a, b, ne_eq, not_false_eq_true, if_true] at h1 h2
        have c : ¬ d (latch m f x i) - d (latch m f z i) = 0 := by omega
        simp only [c, ne_eq, not_false_eq_true, if_true]
        omega

theorem cmpLatches_le_trans (m : Aiger) (f : Regime) (d : Int → Int) (x y z : Nat)
    (is : List Nat) (h1 : cmpLatches m f d x y is ≤ 0) (h2 : cmpLatches m f d y z is ≤ 0) :
    cmpLatches m f d x z is ≤ 0 := by
  rcases lt_or_eq_of_le h1 with h | h
  · exact Int.le_of_lt (cmpLatches_lt_le m f d x y z is h h2)
  · have e := (cmpLatches_eq_zero m f d x y is).1 h
    have e2 : cmpLatches m f d x z is = cmpLatches m f d y z is := by
      clear h1 h2 h
      induction is with
      | nil => rfl
      | cons i rest ih =>
        unfold cmpLatches
        rw [e i (List.mem_cons_self _ _), ih fun j hj => e j (List.mem_cons_of_mem _ hj)]
    rw [e2]
    exact h2

theorem cmp_frames_eq_zero (m : Aiger) (f : Regime) (d : Int → Int) (k l : Nat) :
    cmp_frames m f d k l = 0 ↔
      (List.range m.num_latches).map (fun i => d (latch m f k i)) =
        (List.range m.num_latches).map (fun i => d (latch m f l i)) := by
  unfold cmp_frames
  rw [cmpLatches_eq_zero]
  simp only [List.map_inj_left]

theorem sorted_qsort (m : Aiger) (f : Regime) (d : Int → Int) (xs : List Nat) :
    (qsort (cmp_frames m f d) xs).Pairwise (fun a b => cmp_frames m f d a b ≤ 0) := by
  haveI : IsTotal Nat (fun a b => cmp_frames m f d a b ≤ 0) := ⟨fun a b => by
    have h := cmpLatches_neg m f d a b (List.range m.num_latches)
    unfold cmp_frames
    omega⟩
  haveI : IsTrans Nat (fun a b => cmp_frames m f d a b ≤ 0) := ⟨fun a b c h1 h2 =>
    cmpLatches_le_trans m f d a b c _ h1 h2⟩
  exact List.sorted_insertionSort (fun a b => cmp_frames m f d a b ≤ 0) xs

theorem perm_qsort (cmp : Nat → Nat → Int) (xs : List Nat) : (qsort cmp xs).Perm xs :=
  List.perm_insertionSort _ xs

theorem pairwise_ne_of_firstEqual (cmp : Nat → Nat → Int)
    (hlt : ∀ x y z, cmp x y < 0 → cmp y z ≤ 0 → cmp x z < 0) (l : List Nat) :
    l.Pairwise (fun a b => cmp a b ≤ 0) → firstEqual cmp l = none →
      l.Pairwise (fun a b => cmp a b ≠ 0) := by
  induction l with
  | nil => intro _ _; exact List.Pairwise.nil
  | cons a t ih =>
    intro hs hf
    cases t with
    | nil => exact List.pairwise_singleton _ _
    | cons b rest =>
      rw [List.pairwise_cons] at hs
      obtain ⟨ha, hrest⟩ := hs
      have hab : cmp a b ≠ 0 := by
        intro h0
        simp [firstEqual, h0] at hf
      have hf2 : firstEqual cmp (b :: rest) = none := by
        simpa [firstEqual, hab] using hf
      have hablt : cmp a b < 0 := by
        have := ha b (List.mem_cons_self _ _)
        omega
      rw [List.pairwise_cons]
      refine ⟨?_, ih hrest hf2⟩
      intro z hz
      rcases List.mem_cons.1 hz with rfl | hz2
      · exact hab
      · have hbz := (List.pairwise_cons.1 hrest).1 z hz2
        have := hlt a b z hablt hbz
        omega

theorem take_drop_of_length {xs : List Nat} {n : Nat} (h : xs.length = n) :
    xs.take n = xs ∧ xs.drop n = [] := by
  subst h
  exact ⟨List.take_length _, List.drop_length _⟩

theorem sortFrames_frames (m : Aiger) (k : Nat) (st : State) (h : st.frames.length = k + 1) :
    (sortFrames m k st).frames = qsort (cmp_frames m st.flags st.deref) st.frames := by
  obtain ⟨h1, h2⟩ := take_drop_of_length h
  simp [sortFrames, h1, h2]

/-- Invariant of the loop of `sat`: when it returns SAT with `rcs` set, the
recorded frames are still a permutation of `0..k` and no two of them compare
equal in the returned model. -/
theorem satLoop_sat_rcs (m : Aiger) (k : Nat) :
    ∀ (answers : List Answer) (st : State) (rest : List Answer) (st' : State),
      (st.flags.rcs = true ∨ st.flags.mix = true → st.frames.Perm (List.range (k + 1))) →
      satLoop m k answers st = some (Res.SAT, rest, st') → st'.flags.rcs = true →
      st'.frames.Perm (List.range (k + 1)) ∧
      st'.frames.Pairwise (fun a b => cmp_frames m st'.flags st'.deref a b ≠ 0) := by
  intro answers
  induction answers with
  | nil => intro st rest st' _ h _; simp [satLoop] at h
  | cons a as ih =>
    intro st rest st' hinv h hr
    cases hres : a.res with
    | UNSAT => simp [satLoop, hres] at h
    | UNKNOWN =>
      simp only [satLoop, hres] at h
      split at h
      · rename_i hc
        simp only [Bool.and_eq_true, Bool.not_eq_true', picosat_sat] at hc
        refine ih _ rest st' ?_ h hr
        intro _
        exact hinv (Or.inr hc.1.1)
      · simp at h
    | SAT =>
      simp only [satLoop, hres] at h
      split at h
      · rename_i hc
        simp only [Option.some.injEq, Prod.mk.injEq, true_and] at h
        rw [← h.2] at hr
        simp only [picosat_sat] at hc hr
        rw [hr] at hc
        simp at hc
      · rename_i hc
        have hrcs : st.flags.rcs = true := by
          simpa [picosat_sat] using hc
        have hperm : st.frames.Perm (List.range (k + 1)) := hinv (Or.inl hrcs)
        have hlen : (picosat_sat a st).frames.length = k + 1 := by
          simpa [picosat_sat] using hperm.length_eq
        have hfr := sortFrames_frames m k (picosat_sat a st) hlen
        have hperm2 : (sortFrames m k (picosat_sat a st)).frames.Perm (List.range (k + 1)) := by
          rw [hfr]
          exact (perm_qsort _ _).trans (by simpa [picosat_sat] using hperm)
        split at h
        · refine ih _ rest st' ?_ h hr
          intro _
          simpa [bad, picosat_assume, run_diffs] using hperm2
        · rename_i hnone
          simp only [Option.some.injEq, Prod.mk.injEq, true_and] at h
          obtain ⟨_, rfl⟩ := h
          refine ⟨hperm2, ?_⟩
          have hlen2 : (sortFrames m k (picosat_sat a st)).frames.length = k + 1 := by
            simpa using hperm2.length_eq
          rw [(take_drop_of_length hlen2).1] at hnone
          refine pairwise_ne_of_firstEqual _ ?_ _ ?_ hnone
          · intro x y z h1 h2
            exact cmpLatches_lt_le m _ _ x y z _ h1 h2
          · rw [hfr]
            exact sorted_qsort m _ _ _

theorem satBookkeeping_cases (k : Nat) (st st1 : State)
    (h : satBookkeeping k st = some st1) :
    st1.flags = st.flags ∧ st1.out = st.out ∧ st1.nrcs = st.nrcs ∧ st1.ndiffs = st.ndiffs ∧
    st1.satCalls = st.satCalls ∧ st1.assumed = st.assumed ∧
    (((st.flags.rcs || st.flags.mix) = true ∧
        ((k = st.frames.length ∧ st1.frames = st.frames ++ [k]) ∨
         (st.frames.length = k + 1 ∧ st1.frames = st.frames))) ∨
      ((st.flags.rcs || st.flags.mix) = false ∧ st1.frames = st.frames)) := by
  unfold satBookkeeping at h
  split_ifs at h <;> simp only [Option.some.injEq] at h <;> subst h <;> simp_all

theorem satBookkeeping_perm (k : Nat) (st st1 : State)
    (hperm : st.frames.Perm (List.range st.frames.length))
    (h : satBookkeeping k st = some st1) :
    st1.flags = st.flags ∧
    (st1.flags.rcs = true ∨ st1.flags.mix = true → st1.frames.Perm (List.range (k + 1))) := by
  obtain ⟨hf, _, _, _, _, _, hc⟩ := satBookkeeping_cases k st st1 h
  refine ⟨hf, fun hfl => ?_⟩
  rcases hc with ⟨_, ⟨hk, hfr⟩ | ⟨hk, hfr⟩⟩ | ⟨hno, _⟩
  · rw [hfr, List.range_succ, hk]
    exact List.Perm.append_right _ hperm
  · rw [hfr, ← hk]
    exact hperm
  · rw [hf] at hfl
    simp only [Bool.or_eq_false_iff] at hno
    rcases hfl with h1 | h1
    · rw [hno.1] at h1; exact Bool.noConfusion h1
    · rw [hno.2] at h1; exact Bool.noConfusion h1

/-- C6: whenever `sat(k)` returns SAT with `rcs` set, entered with the
recorded frames a permutation of `0..nframes-1`, the sorted `frames[0..k]` are a
permutation of `0..k`, no two adjacent entries compare equal under `cmp_frames`
in the returned model, and any two different frames among `0..k` have different
latch valuations as read by `picosat_deref`. -/
theorem sat_refinement_distinct (m : Aiger) (k : Nat) (answers rest : List Answer)
    (st st' : State) (hperm : st.frames.Perm (List.range st.frames.length))
    (h : sat m k answers st = some (Res.SAT, rest, st')) (hr : st'.flags.rcs = true) :
    st'.frames.Perm (List.range (k + 1)) ∧
    (∀ i, i < k → cmp_frames m st'.flags st'.deref (st'.frames.getD i 0)
        (st'.frames.getD (i + 1) 0) ≠ 0) ∧
    (∀ a b, a ≤ k → b ≤ k → a ≠ b →
      (List.range m.num_latches).map (fun i => st'.deref (latch m st'.flags a i)) ≠
        (List.range m.num_latches).map (fun i => st'.deref (latch m st'.flags b i))) := by
  unfold sat at h
  split at h
  · simp at h
  · rename_i st1 hb
    obtain ⟨_, hinv⟩ := satBookkeeping_perm k st st1 hperm hb
    obtain ⟨hp, hpw⟩ := satLoop_sat_rcs m k answers st1 rest st' hinv h hr
    have hlen : st'.frames.length = k + 1 := by simpa using hp.length_eq
    refine ⟨hp, ?_, ?_⟩
    · intro i hi
      have h1 : i < st'.frames.length := by omega
      have h2 : i + 1 < st'.frames.length := by omega
      rw [List.getD_eq_getElem _ _ h1, List.getD_eq_getElem _ _ h2]
      exact (List.pairwise_iff_getElem.1 hpw) i (i + 1) h1 h2 (by omega)
    · intro a b ha hb2 hab heq
      have ha2 : a ∈ st'.frames := hp.mem_iff.2 (List.mem_range.2 (by omega))
      have hb3 : b ∈ st'.frames := hp.mem_iff.2 (List.mem_range.2 (by omega))
      have hsymm : Symmetric (fun a b => cmp_frames m st'.flags st'.deref a b ≠ 0) := by
        intro x y hxy
        have := cmpLatches_neg m st'.flags st'.deref x y (List.range m.num_latches)
        unfold cmp_frames at hxy ⊢
        omega
      exact hpw.forall hsymm ha2 hb3 hab ((cmp_frames_eq_zero m _ _ a b).2 heq)

/-- C6, at `sat(2)` on `twoLatchCircuit` under `-r` with the answers
`baseAnswers2`: one refinement, then a model with three different frames. -/
theorem sat_refinement_distinct_witness :
    (baseEntry2.frames.Perm (List.range baseEntry2.frames.length) ∧
      sat twoLatchCircuit 2 baseAnswers2 baseEntry2 = some (Res.SAT, [], satExit2) ∧
      satExit2.flags.rcs = true) ∧
    (satExit2.frames.Perm (List.range (2 + 1)) ∧
    (∀ i, i < 2 → cmp_frames twoLatchCircuit satExit2.flags satExit2.deref
        (satExit2.frames.getD i 0) (satExit2.frames.getD (i + 1) 0) ≠ 0) ∧
    (∀ a b, a ≤ 2 → b ≤ 2 → a ≠ b →
      (List.range twoLatchCircuit.num_latches).map
          (fun i => satExit2.deref (latch twoLatchCircuit satExit2.flags a i)) ≠
        (List.range twoLatchCircuit.num_latches).map
          (fun i => satExit2.deref (latch twoLatchCircuit satExit2.flags b i)))) :=
  ⟨⟨List.Perm.refl _, rfl, rfl⟩,
    sat_refinement_distinct twoLatchCircuit 2 baseAnswers2 [] baseEntry2 satExit2
      (List.Perm.refl _) rfl rfl⟩

/-! ## The main loop and the verdict -/

theorem foldl_out {α : Type} (g : State → α → State) (hg : ∀ st x, (g st x).out = st.out)
    (l : List α) : ∀ st : State, (l.foldl g st).out = st.out := by
  induction l with
  | nil => intro st; rfl
  | cons x xs ih =>
    intro st
    rw [List.foldl_cons, ih, hg]

theorem simple_out (m : Aiger) (k : Nat) (st st' : State) (h : simple m k st = some st') :
    st'.out = st.out := by
  unfold simple at h
  split_ifs at h <;> simp only [Option.some.injEq] at h <;> subst h
  · unfold run_diffsk
    split
    · rfl
    · exact foldl_out (fun st l => run_diffs m k l st) (fun _ _ => rfl) _ _
  · rfl
  · rfl

theorem init_out (m : Aiger) (ses : Session) (k : Nat) (st : State) :
    (init m ses k st).out = st.out := by
  unfold init
  split
  · rfl
  · refine foldl_out _ (fun st i => ?_) _ _
    beta_reduce
    split <;> rfl

theorem satLoop_out (m : Aiger) (k : Nat) :
    ∀ (answers : List Answer) (st : State) (r : Res) (rest : List Answer) (st' : State),
      satLoop m k answers st = some (r, rest, st') → st'.out = st.out := by
  intro answers
  induction answers with
  | nil => intro st r rest st' h; simp [satLoop] at h
  | cons a as ih =>
    intro st r rest st' h
    cases hres : a.res with
    | UNSAT =>
      simp only [satLoop, hres, Option.some.injEq, Prod.mk.injEq] at h
      rw [← h.2.2]; rfl
    | UNKNOWN =>
      simp only [satLoop, hres] at h
      split at h
      · rw [ih _ _ _ _ h]; rfl
      · simp at h
    | SAT =>
      simp only [satLoop, hres] at h
      split at h
      · simp only [Option.some.injEq, Prod.mk.injEq] at h
        rw [← h.2.2]; rfl
      · split at h
        · rw [ih _ _ _ _ h]; rfl
        · simp only [Option.some.injEq, Prod.mk.injEq] at h
          rw [← h.2.2]; rfl

theorem sat_out (m : Aiger) (k : Nat) (answers : List Answer) (st : State) (r : Res)
    (rest : List Answer) (st' : State) (h : sat m k answers st = some (r, rest, st')) :
    st'.out = st.out := by
  unfold sat at h
  split at h
  · simp at h
  · rename_i st1 hb
    rw [satLoop_out m k answers st1 r rest st' h]
    exact (satBookkeeping_cases k st st1 hb).2.1

theorem step_out (m : Aiger) (B : Backend) (k : Nat) (answers : List Answer) (st : State)
    (b : Bool) (rest : List Answer) (st' : State)
    (h : step m B k answers st = some (b, rest, st')) : st'.out = st.out := by
  have key : ∀ st1 : State, st1.out = st.out →
      (match sat m k answers (bad m k st1) with
        | none => none
        | some (res, rest, st2) => some (res == Res.UNSAT, rest, st2)) = some (b, rest, st') →
      st'.out = st.out := by
    intro st1 h1 h2
    split at h2
    · simp at h2
    · rename_i r rest2 st2 hs
      simp only [Option.some.injEq, Prod.mk.injEq] at h2
      rw [← h2.2.2, sat_out m k answers _ r rest2 st2 hs]
      exact h1
  exact key _ (by split <;> rfl) h

theorem base_out (m : Aiger) (ses : Session) (k : Nat) (answers : List Answer) (st : State)
    (b : Bool) (rest : List Answer) (st' : State)
    (h : base m ses k answers st = some (b, rest, st')) : st'.out = st.out := by
  have key : ∀ st1 : State, st1.out = st.out →
      (match sat m k answers (bad m k (init m ses k st1)) with
        | none => none
        | some (res, rest, st2) =>
          some (res == Res.SAT, rest,
            if st2.flags.acs then { st2 with adoEnabled := true } else st2)) =
        some (b, rest, st') →
      st'.out = st.out := by
    intro st1 h1 h2
    split at h2
    · simp at h2
    · rename_i r rest2 st2 hs
      simp only [Option.some.injEq, Prod.mk.injEq] at h2
      have h3 := sat_out m k answers _ r rest2 st2 hs
      simp only [bad, picosat_assume, init_out] at h3
      rw [← h2.2.2, ← h1, ← h3]
      split <;> rfl
  exact key _ (by split <;> rfl) h

theorem stepOpt_out (m : Aiger) (ses : Session) (B : Backend) (k : Nat)
    (answers : List Answer) (st : State) (b : Bool) (rest : List Answer) (st' : State)
    (h : (if !ses.bonly then step m B k answers st else some (false, answers, st)) =
      some (b, rest, st')) : st'.out = st.out := by
  split at h
  · exact step_out m B k answers st b rest st' h
  · simp only [Option.some.injEq, Prod.mk.injEq] at h
    rw [h.2.2]

theorem baseOpt_out (m : Aiger) (ses : Session) (k : Nat)
    (answers : List Answer) (st : State) (b : Bool) (rest : List Answer) (st' : State)
    (h : (if !ses.ionly then base m ses k answers st else some (false, answers, st)) =
      some (b, rest, st')) : st'.out = st.out := by
  split at h
  · exact base_out m ses k answers st b rest st' h
  · simp only [Option.some.injEq, Prod.mk.injEq] at h
    rw [h.2.2]

theorem entry_out (m : Aiger) (B : Backend) (k : Nat) (st : State) :
    (picosat_add (encode m
      (picosat_add (connect m (if st.flags.mix && st.flags.acs &&
          decide (B.adoConflicts st.satCalls.length ≥ 10000) then switchToRefinement st
          else st).flags k)
        (if st.flags.mix && st.flags.acs &&
          decide (B.adoConflicts st.satCalls.length ≥ 10000) then switchToRefinement st
          else st)).flags k)
      (picosat_add (connect m (if st.flags.mix && st.flags.acs &&
          decide (B.adoConflicts st.satCalls.length ≥ 10000) then switchToRefinement st
          else st).flags k)
        (if st.flags.mix && st.flags.acs &&
          decide (B.adoConflicts st.satCalls.length ≥ 10000) then switchToRefinement st
          else st))).out = st.out := by
  simp only [picosat_add]
  split <;> rfl

/-- What the main loop leaves behind: either it runs through all remaining
bounds without writing anything, or it stops at a bound `k'` with `res = 20`
after writing the verdict 0, or with `res = 10` after writing the verdict 1
and, when asked for, the stimulus. -/
theorem mainLoop_outcome (m : Aiger) (ses : Session) (B : Backend) :
    ∀ (n k : Nat) (answers : List Answer) (st : State) (res k' : Nat) (rest : List Answer)
      (st' : State), mainLoop m ses B n k answers st = some (res, k', rest, st') →
      (res = 0 ∧ k' = k + n ∧ st'.out = st.out) ∨
      (res = 20 ∧ k' < k + n ∧ st'.out = st.out ++ ['0', '\n']) ∨
      (res = 10 ∧ k' < k + n ∧
        st'.out = st.out ++ ['1', '\n'] ++ (if ses.witness then stimulus m k' st' else [])) := by
  intro n
  induction n with
  | zero =>
    intro k answers st res k' rest st' h
    simp only [mainLoop, Option.some.injEq, Prod.mk.injEq] at h
    obtain ⟨rfl, rfl, _, rfl⟩ := h
    exact Or.inl ⟨rfl, rfl, rfl⟩
  | succ n ih =>
    intro k answers st res k' rest st' h
    have h0 := entry_out m B k st
    simp only [mainLoop] at h
    split at h
    · simp at h
    · rename_i st4 hsimple
      have h4 : st4.out = st.out := (simple_out m k _ st4 hsimple).trans h0
      split at h
      · simp at h
      · rename_i rest5 st5 hstep
        have h5 := stepOpt_out m ses B k answers st4 true rest5 st5 hstep
        simp only [Option.some.injEq, Prod.mk.injEq] at h
        obtain ⟨rfl, rfl, _, rfl⟩ := h
        refine Or.inr (Or.inl ⟨rfl, by omega, ?_⟩)
        simp only [fputs, h5, h4]
      · rename_i rest5 st5 hstep
        have h5 := stepOpt_out m ses B k answers st4 false rest5 st5 hstep
        split at h
        · simp only [Option.some.injEq, Prod.mk.injEq] at h
          obtain ⟨rfl, rfl, _, rfl⟩ := h
          refine Or.inr (Or.inl ⟨rfl, by omega, ?_⟩)
          simp only [fputs, h5, h4]
        · split at h
          · simp at h
          · rename_i rest6 st6 hbase
            have h6 := baseOpt_out m ses k rest5 st5 true rest6 st6 hbase
            simp only [Option.some.injEq, Prod.mk.injEq] at h
            obtain ⟨rfl, rfl, _, rfl⟩ := h
            refine Or.inr (Or.inr ⟨rfl, by omega, ?_⟩)
            cases hw : ses.witness
            · simp [fputs, h6, h5, h4]
            · simp [fputs, h6, h5, h4, stimulus]
          · rename_i rest6 st6 hbase
            have h6 := baseOpt_out m ses k rest5 st5 false rest6 st6 hbase
            rcases ih (k + 1) rest6 st6 res k' rest st' h with ⟨h1, h2, h3⟩ | ⟨h1, h2, h3⟩ |
              ⟨h1, h2, h3⟩
            · exact Or.inl ⟨h1, by omega, by rw [h3, h6, h5, h4]⟩
            · exact Or.inr (Or.inl ⟨h1, by omega, by rw [h3, h6, h5, h4]⟩)
            · exact Or.inr (Or.inr ⟨h1, by omega, by rw [h3, h6, h5, h4]⟩)

/-- C7: a run of the main loop that comes to its end writes one verdict
line, `0`, `1` or `2`, followed by nothing else except the stimulus when the
verdict is 1 and a witness was asked for; the exit code is 20 exactly for the
verdict 0, 10 exactly for 1 and 0 exactly for 2; and 2 is written exactly when
the loop has run through every bound `0..maxk` without a verdict. -/
theorem verdict_exit_code (m : Aiger) (ses : Session) (B : Backend) (answers : List Answer)
    (st : State) (code : Nat) (st' : State)
    (h : runMain m ses B answers st = some (code, st')) :
    ∃ tok : Char, ∃ w : List Char,
      st'.out = st.out ++ tok :: '\n' :: w ∧
      (tok = '0' ∨ tok = '1' ∨ tok = '2') ∧
      (code = 20 ↔ tok = '0') ∧ (code = 10 ↔ tok = '1') ∧ (code = 0 ↔ tok = '2') ∧
      (w = [] ∨ (tok = '1' ∧ ses.witness = true ∧ ∃ k, k ≤ ses.maxk ∧ w = stimulus m k st')) ∧
      (tok = '2' ↔ ∃ rest st1,
        mainLoop m ses B (ses.maxk + 1) 0 answers st = some (0, ses.maxk + 1, rest, st1)) := by
  unfold runMain at h
  split at h
  · simp at h
  · rename_i res k rest st1 hloop
    rcases mainLoop_outcome m ses B _ 0 answers st res k rest st1 hloop with
      ⟨h1, h2, h3⟩ | ⟨h1, h2, h3⟩ | ⟨h1, h2, h3⟩
    · subst h1
      have hk : k > ses.maxk := by omega
      simp only [if_true, hk, Option.some.injEq, Prod.mk.injEq] at h
      obtain ⟨rfl, rfl⟩ := h
      refine ⟨'2', [], by simp [fputs, h3], by simp, by decide, by decide, by simp,
        Or.inl rfl, ?_⟩
      refine ⟨fun _ => ⟨rest, st1, ?_⟩, fun _ => rfl⟩
      rw [hloop]
      simp only [Option.some.injEq, Prod.mk.injEq, true_and, and_true]
      omega
    · subst h1
      simp only [Nat.reduceEqDiff, if_false, Option.some.injEq, Prod.mk.injEq] at h
      obtain ⟨rfl, rfl⟩ := h
      refine ⟨'0', [], by simp [h3], by simp, by simp, by decide, by decide, Or.inl rfl, ?_⟩
      refine ⟨fun hc => absurd hc (by decide), ?_⟩
      rintro ⟨rest2, st2, h4⟩
      rw [hloop] at h4
      simp at h4
    · subst h1
      simp only [Nat.reduceEqDiff, if_false, Option.some.injEq, Prod.mk.injEq] at h
      obtain ⟨rfl, rfl⟩ := h
      refine ⟨'1', if ses.witness then stimulus m k st1 else [], by simp [h3], by simp,
        by decide, by simp, by decide, ?_, ?_⟩
      · cases hw : ses.witness
        · exact Or.inl (by simp)
        · exact Or.inr ⟨rfl, rfl, k, by omega, by simp⟩
      · refine ⟨fun hc => absurd hc (by decide), ?_⟩
        rintro ⟨rest2, st2, h4⟩
        rw [hloop] at h4
        simp at h4

/-- C7, at the run of `notLatchCircuit` with the options `-w 0`: the output
is reachable at bound 0, the run writes the verdict 1 and exits with 10. -/
theorem verdict_exit_code_witness :
    runMain notLatchCircuit ⟨false, false, true, 0⟩ quietBackend
        [⟨Res.SAT, derefOf []⟩, ⟨Res.SAT, derefOf []⟩] (State.initial allDifferent) =
      some (10, mainExit.2) ∧
    ∃ tok : Char, ∃ w : List Char,
      mainExit.2.out = (State.initial allDifferent).out ++ tok :: '\n' :: w ∧
      (tok = '0' ∨ tok = '1' ∨ tok = '2') ∧
      (10 = 20 ↔ tok = '0') ∧ (10 = 10 ↔ tok = '1') ∧ (10 = 0 ↔ tok = '2') ∧
      (w = [] ∨ ((tok = '1' ∧ (⟨false, false, true, 0⟩ : Session).witness = true ∧
        ∃ k, k ≤ (⟨false, false, true, 0⟩ : Session).maxk ∧
          w = stimulus notLatchCircuit k mainExit.2))) ∧
      (tok = '2' ↔ ∃ rest st1,
        mainLoop notLatchCircuit ⟨false, false, true, 0⟩ quietBackend
          ((⟨false, false, true, 0⟩ : Session).maxk + 1) 0
          [⟨Res.SAT, derefOf []⟩, ⟨Res.SAT, derefOf []⟩] (State.initial allDifferent) =
          some (0, (⟨false, false, true, 0⟩ : Session).maxk + 1, rest, st1)) :=
  ⟨rfl, verdict_exit_code notLatchCircuit ⟨false, false, true, 0⟩ quietBackend
    [⟨Res.SAT, derefOf []⟩, ⟨Res.SAT, derefOf []⟩] (State.initial allDifferent) 10 mainExit.2
    rfl⟩

/-! ## Freshness of the difference variables -/

theorem pairs_succ (L k : Nat) :
    L * (k + 1) * (k + 1 - 1) / 2 = L * k * (k - 1) / 2 + L * k := by
  have h : L * (k + 1) * (k + 1 - 1) = L * k * (k - 1) + 2 * (L * k) := by
    cases k with
    | zero => simp
    | succ j =>
      simp only [Nat.add_sub_cancel]
      ring
  rw [h, Nat.add_mul_div_left _ _ (by decide : 0 < 2)]

theorem frame_succ_usesDiff (m : Aiger) (f : Regime) (k : Nat) (h : f.usesDiff = true) :
    frame m f (k + 1) = frame m f k + m.maxvar + (k : Int) * m.num_latches := by
  rw [frame_eq, frame_eq, if_pos h, if_pos h, pairs_succ]
  push_cast
  ring

theorem frame_mono (m : Aiger) (f : Regime) {j k : Nat} (h : j ≤ k) :
    frame m f j ≤ frame m f k := by
  rcases Nat.lt_or_eq_of_le h with h1 | h1
  · have := frame_mono_le m f h1
    have hm : (0 : Int) ≤ m.maxvar := Int.ofNat_nonneg _
    omega
  · rw [h1]

theorem diff_offset_lt (L k l i : Nat) (hlk : l < k) (hi : i < L) : i + l * L + 1 ≤ k * L := by
  have h1 : (l + 1) * L ≤ k * L := Nat.mul_le_mul_right L hlk
  rw [Nat.add_mul, Nat.one_mul] at h1
  omega

theorem diff_interval (m : Aiger) (f : Regime) (hf : f.usesDiff = true) (k l i : Nat)
    (hlk : l < k) (hi : i < m.num_latches) :
    frame m f k + m.maxvar ≤ diff m f k l i ∧ diff m f k l i ≤ frame m f (k + 1) - 1 := by
  have h1 := diff_offset_lt m.num_latches k l i hlk hi
  have h2 : (i : Int) + (l : Int) * m.num_latches + 1 ≤ (k : Int) * m.num_latches := by
    exact_mod_cast h1
  have h3 := frame_succ_usesDiff m f k hf
  have hi0 : (0 : Int) ≤ (i : Int) := Int.ofNat_nonneg _
  have hl0 : (0 : Int) ≤ (l : Int) * m.num_latches := by positivity
  unfold diff
  generalize (l : Int) * (m.num_latches : Int) = a at h2 hl0 ⊢
  generalize (k : Int) * (m.num_latches : Int) = b at h2 h3
  omega

theorem diff_injective (m : Aiger) (f : Regime) (hf : f.usesDiff = true)
    (k l i k' l' i' : Nat) (hlk : l < k) (hi : i < m.num_latches) (hlk' : l' < k')
    (hi' : i' < m.num_latches) (h : diff m f k' l' i' = diff m f k l i) :
    k' = k ∧ l' = l ∧ i' = i := by
  have d1 := diff_interval m f hf k l i hlk hi
  have d2 := diff_interval m f hf k' l' i' hlk' hi'
  have hk : k' = k := by
    rcases Nat.lt_trichotomy k k' with h1 | h1 | h1
    · have := frame_mono m f (show k + 1 ≤ k' from h1)
      have hm : (0 : Int) ≤ m.maxvar := Int.ofNat_nonneg _
      omega
    · exact h1.symm
    · have := frame_mono m f (show k' + 1 ≤ k from h1)
      have hm : (0 : Int) ≤ m.maxvar := Int.ofNat_nonneg _
      omega
  subst hk
  have h2 : (i' : Int) + (l' : Int) * m.num_latches = (i : Int) + (l : Int) * m.num_latches := by
    unfold diff at h
    omega
  have h3 : i' + l' * m.num_latches = i + l * m.num_latches := by exact_mod_cast h2
  have hL : 0 < m.num_latches := by omega
  have e1 := congrArg (· / m.num_latches) h3
  have e2 := congrArg (· % m.num_latches) h3
  simp only [Nat.add_mul_div_right _ _ hL, Nat.add_mul_mod_self_right,
    Nat.div_eq_of_lt hi, Nat.div_eq_of_lt hi', Nat.mod_eq_of_lt hi, Nat.mod_eq_of_lt hi',
    Nat.zero_add] at e1 e2
  exact ⟨rfl, e1, e2⟩

theorem lit_natAbs_le (m : Aiger) (f : Regime) (j x : Nat) (hx : x ≤ 2 * m.maxvar + 1) :
    ((lit m f j x).natAbs : Int) = 1 ∨
    (frame m f j ≤ ((lit m f j x).natAbs : Int) ∧
      ((lit m f j x).natAbs : Int) ≤ frame m f j + m.maxvar - 1) := by
  by_cases h : 2 ≤ x
  · right
    rw [lit_natAbs_of_ge_two m f j h]
    constructor <;> omega
  · left
    rw [lit_eq]
    have : x ≤ 1 := by omega
    simp only [this, if_true]
    split <;> rfl

/-- Over the integers, when `dcs`, `rcs` or `mix` is set, for `l < k` and
`i < num_latches` the value `diff(k, l, i)` lies in
`[frame(k) + maxvar, frame(k+1) - 1]`, the map `(k, l, i) -> diff(k, l, i)` is
injective, and no value is 1 or the variable of a circuit literal of any
frame. -/
theorem diff_fresh (m : Aiger) (f : Regime) (hf : f.usesDiff = true) (k l i : Nat)
    (hlk : l < k) (hi : i < m.num_latches) :
    (frame m f k + m.maxvar ≤ diff m f k l i ∧ diff m f k l i ≤ frame m f (k + 1) - 1) ∧
    (∀ k' l' i', l' < k' → i' < m.num_latches → diff m f k' l' i' = diff m f k l i →
      k' = k ∧ l' = l ∧ i' = i) ∧
    diff m f k l i ≠ 1 ∧
    (∀ j x, x ≤ 2 * m.maxvar + 1 → ((lit m f j x).natAbs : Int) ≠ diff m f k l i) := by
  have d1 := diff_interval m f hf k l i hlk hi
  have hp := frame_pos m f k
  have hm : (0 : Int) ≤ m.maxvar := Int.ofNat_nonneg _
  refine ⟨d1, ?_, by omega, ?_⟩
  · intro k' l' i' hlk' hi' h
    exact diff_injective m f hf k l i k' l' i' hlk hi hlk' hi' h
  · intro j x hx heq
    rcases lit_natAbs_le m f j x hx with h1 | ⟨h1, h2⟩
    · omega
    · rcases Nat.lt_or_ge k j with hj | hj
      · have := frame_mono m f (show k + 1 ≤ j from hj)
        omega
      · have := frame_mono m f hj
        omega

/-! ## Circuits without latches -/

theorem closed_encode (m : Aiger) (f : Regime) (k : Nat) : Closed (encode m f k) := by
  cases k with
  | zero =>
    rw [encode_zero]
    exact closed_append (closed_unary _) (closed_gates m f 0)
  | succ n =>
    rw [encode_succ]
    exact closed_append (closed_gates m f (n + 1)) (closed_append (closed_snoc _) (closed_unary _))

theorem closed_diffsOrdered (m : Aiger) (f : Regime) (k l : Nat) :
    Closed (diffsOrdered m f k l) := by
  unfold diffsOrdered
  rw [List.append_assoc]
  exact closed_append (closed_flatMap _ _ fun i _ => closed_diffs_latch m f k l i) (closed_snoc _)

theorem closed_diffs (m : Aiger) (f : Regime) (k l : Nat) : Closed (diffs m f k l) := by
  unfold diffs
  split <;> exact closed_diffsOrdered _ _ _ _

theorem not_satisfies_of_empty (s : Nat → Bool) (xs : List Int) (h : [] ∈ clausesOf xs) :
    ¬ Satisfies s xs := by
  intro hs
  have := hs [] h
  simp [satClause] at this

theorem mem_clausesOf_mid (pre xs post : List Int) (c : List Int) (hpre : Closed pre)
    (hxs : Closed xs) (h : c ∈ clausesOf xs) : c ∈ clausesOf (pre ++ xs ++ post) := by
  rw [List.append_assoc, clausesOf_append hpre, clausesOf_append hxs]
  exact List.mem_append_right _ (List.mem_append_left _ h)

theorem diffs_no_latches (m : Aiger) (f : Regime) (h0 : m.num_latches = 0) (x y : Nat) :
    diffs m f x y = [0] := by
  unfold diffs diffsOrdered
  rw [h0]
  simp

/-- C19: for a circuit with zero latches and `k ≥ 1` the clauses emitted by
`encode(k)` include the empty clause, so no assignment satisfies a clause set
that contains them, whatever the gates and the output are; and `diffs(k, l)`
emits the empty clause as well. -/
theorem encode_empty_clause (m : Aiger) (f : Regime) (h0 : m.num_latches = 0) (k : Nat)
    (hk : 1 ≤ k) :
    [] ∈ clausesOf (encode m f k) ∧
    (∀ (pre post : List Int) (s : Nat → Bool), Closed pre →
      ¬ Satisfies s (pre ++ encode m f k ++ post)) ∧
    (∀ x y : Nat, [] ∈ clausesOf (diffs m f x y) ∧
      ∀ (pre post : List Int) (s : Nat → Bool), Closed pre →
        ¬ Satisfies s (pre ++ diffs m f x y ++ post)) := by
  have hmem : [] ∈ clausesOf (encode m f k) := by
    obtain ⟨n, rfl⟩ : ∃ n, k = n + 1 := ⟨k - 1, by omega⟩
    rw [encode_succ, h0, clausesOf_append (closed_gates m f (n + 1))]
    apply List.mem_append_right
    simp [clausesOf, clausesAux, unary]
  have hd : ∀ x y : Nat, [] ∈ clausesOf (diffs m f x y) := by
    intro x y
    rw [diffs_no_latches m f h0]
    simp [clausesOf, clausesAux]
  refine ⟨hmem, ?_, ?_⟩
  · intro pre post s hpre
    exact not_satisfies_of_empty s _
      (mem_clausesOf_mid pre _ post [] hpre (closed_encode m f k) hmem)
  · intro x y
    refine ⟨hd x y, ?_⟩
    intro pre post s hpre
    exact not_satisfies_of_empty s _
      (mem_clausesOf_mid pre _ post [] hpre (closed_diffs m f x y) (hd x y))

/-- C19, at bound 1 of a circuit with one input and no latch. -/
theorem encode_empty_clause_witness :
    ((⟨1, [⟨2, 0⟩], [], [⟨2, 0⟩], []⟩ : Aiger).num_latches = 0 ∧ 1 ≤ 1) ∧
    ([] ∈ clausesOf (encode ⟨1, [⟨2, 0⟩], [], [⟨2, 0⟩], []⟩ allDifferent 1) ∧
    (∀ (pre post : List Int) (s : Nat → Bool), Closed pre →
      ¬ Satisfies s (pre ++ encode ⟨1, [⟨2, 0⟩], [], [⟨2, 0⟩], []⟩ allDifferent 1 ++ post)) ∧
    (∀ x y : Nat, [] ∈ clausesOf (diffs ⟨1, [⟨2, 0⟩], [], [⟨2, 0⟩], []⟩ allDifferent x y) ∧
      ∀ (pre post : List Int) (s : Nat → Bool), Closed pre →
        ¬ Satisfies s (pre ++ diffs ⟨1, [⟨2, 0⟩], [], [⟨2, 0⟩], []⟩ allDifferent x y ++ post))) :=
  ⟨⟨by decide, by decide⟩,
    encode_empty_clause ⟨1, [⟨2, 0⟩], [], [⟨2, 0⟩], []⟩ allDifferent (by decide) 1 (by decide)⟩

/-! ## The difference encoding does not over-constrain -/

theorem diff_eq_sub (m : Aiger) (f : Regime) (k l i : Nat) :
    diff m f k l i = diff m f k l 0 - (i : Int) := by
  unfold diff
  simp only [Nat.cast_zero]
  omega

theorem withDiffs_diff (m : Aiger) (f : Regime) (hf : f.usesDiff = true) (k l i : Nat)
    (hlk : l < k) (hi : i < m.num_latches) (s : Nat → Bool) :
    evalLit (withDiffs m f k l s) (diff m f k l i) =
      (evalLit s (latch m f k i) != evalLit s (latch m f l i)) := by
  have hint := diff_interval m f hf k l i hlk hi
  have hp := frame_pos m f k
  have hm : (0 : Int) ≤ m.maxvar := Int.ofNat_nonneg _
  have hpos : 0 < diff m f k l i := by omega
  have hsub := diff_eq_sub m f k l i
  unfold evalLit
  rw [if_pos hpos]
  have hv : ((diff m f k l i).natAbs : Int) = diff m f k l i := by omega
  unfold withDiffs
  rw [hv]
  have hc : diff m f k l 0 - (m.num_latches : Int) < diff m f k l i ∧
      diff m f k l i ≤ diff m f k l 0 := by omega
  rw [if_pos hc]
  have hidx : (diff m f k l 0 - diff m f k l i).toNat = i := by omega
  rw [hidx]
  rfl

theorem withDiffs_other (m : Aiger) (f : Regime) (k l : Nat) (s : Nat → Bool) (v : Nat)
    (h : ∀ i, i < m.num_latches → (v : Int) ≠ diff m f k l i) :
    withDiffs m f k l s v = s v := by
  unfold withDiffs
  rw [if_neg]
  rintro ⟨h1, h2⟩
  have hi : (diff m f k l 0 - (v : Int)).toNat < m.num_latches := by omega
  apply h _ hi
  rw [diff_eq_sub m f k l (diff m f k l 0 - (v : Int)).toNat]
  omega

theorem withDiffs_lit (m : Aiger) (f : Regime) (hf : f.usesDiff = true) (k l : Nat)
    (hlk : l < k) (s : Nat → Bool) (j x : Nat) (hx : x ≤ 2 * m.maxvar + 1) :
    withDiffs m f k l s (lit m f j x).natAbs = s (lit m f j x).natAbs := by
  apply withDiffs_other
  intro i hi heq
  rcases lit_natAbs_le m f j x hx with h1 | ⟨h1, h2⟩
  · have hint := diff_interval m f hf k l i hlk hi
    have hp := frame_pos m f k
    have hm : (0 : Int) ≤ m.maxvar := Int.ofNat_nonneg _
    omega
  · have hint := diff_interval m f hf k l i hlk hi
    rcases Nat.lt_or_ge k j with hj | hj
    · have := frame_mono m f (show k + 1 ≤ j from hj)
      omega
    · have := frame_mono m f hj
      omega

theorem evalLit_congr (s s' : Nat → Bool) (x : Int) (h : s' x.natAbs = s x.natAbs) :
    evalLit s' x = evalLit s x := by
  unfold evalLit
  rw [h]

theorem diffs_comm (m : Aiger) (f : Regime) (k l : Nat) : diffs m f k l = diffs m f l k := by
  unfold diffs
  rcases Nat.lt_trichotomy k l with h | h | h
  · rw [if_pos h, if_neg (by omega)]
  · subst h; rfl
  · rw [if_neg (by omega), if_pos h]

/-- With the literal map over the integers: under a regime that allocates the
difference variables, for a circuit whose latch literals are in
`[0, 2*maxvar+1]`, for frames `l < k` and an assignment `s` in which some latch
differs between the two frames, the assignment `withDiffs` agrees with `s` on
the constant variable, on the variables of all circuit literals of all frames
and on the difference variables of every other pair of frames, and satisfies
all clauses of `diffs(k, l)`; and `diffs(k, l)` and `diffs(l, k)` are the same
clauses. -/
theorem diffs_not_overconstrained (m : Aiger) (f : Regime) (hf : f.usesDiff = true)
    (hr : ∀ x ∈ m.latches, x.lit ≤ 2 * m.maxvar + 1) (k l : Nat) (hlk : l < k)
    (s : Nat → Bool)
    (hd : ∃ i, i < m.num_latches ∧ evalLit s (latch m f k i) ≠ evalLit s (latch m f l i)) :
    (∃ s' : Nat → Bool, s' 1 = s 1 ∧
      (∀ j x, x ≤ 2 * m.maxvar + 1 → s' (lit m f j x).natAbs = s (lit m f j x).natAbs) ∧
      (∀ k' l' i', l' < k' → i' < m.num_latches → (k', l') ≠ (k, l) →
        s' (diff m f k' l' i').natAbs = s (diff m f k' l' i').natAbs) ∧
      Satisfies s' (diffs m f k l)) ∧
    diffs m f k l = diffs m f l k := by
  refine ⟨⟨withDiffs m f k l s, ?_, ?_, ?_, ?_⟩, diffs_comm m f k l⟩
  · have := withDiffs_lit m f hf k l hlk s 0 0 (by omega)
    simpa [lit_eq] using this
  · intro j x hx
    exact withDiffs_lit m f hf k l hlk s j x hx
  · intro k' l' i' hlk' hi' hne
    apply withDiffs_other
    intro i hi heq
    have hint := diff_interval m f hf k' l' i' hlk' hi'
    have hp := frame_pos m f k'
    have hm : (0 : Int) ≤ m.maxvar := Int.ofNat_nonneg _
    have hv : ((diff m f k' l' i').natAbs : Int) = diff m f k' l' i' := by omega
    rw [hv] at heq
    obtain ⟨h1, h2, _⟩ := diff_injective m f hf k l i k' l' i' hlk hi hlk' hi' heq
    exact hne (by rw [h1, h2])
  · have hlatch : ∀ j i, i < m.num_latches →
        evalLit (withDiffs m f k l s) (latch m f j i) = evalLit s (latch m f j i) := by
      intro j i hi
      apply evalLit_congr
      unfold latch
      apply withDiffs_lit m f hf k l hlk s j
      have hi2 : i < m.latches.length := hi
      rw [List.getD_eq_getElem _ _ hi2]
      exact hr _ (List.getElem_mem hi2)
    have hdz : ∀ i, i < m.num_latches → diff m f k l i ≠ 0 := by
      intro i hi
      have hint := diff_interval m f hf k l i hlk hi
      have hp := frame_pos m f k
      have hm : (0 : Int) ≤ m.maxvar := Int.ofNat_nonneg _
      omega
    have hdd : diffs m f k l = diffsOrdered m f k l := by
      unfold diffs
      rw [if_neg (by omega)]
    rw [hdd, satisfies_diffsOrdered]
    refine ⟨?_, ?_⟩
    · intro i hi
      have hl0 := latch_ne_zero m f l i
      have hk0 := latch_ne_zero m f k i
      have hd0 := hdz i hi
      have hnl : -latch m f l i ≠ 0 := by omega
      have hnk : -latch m f k i ≠ 0 := by omega
      have hnd : -diff m f k l i ≠ 0 := by omega
      rw [satisfies_ternary _ hl0 hk0 hnd, satisfies_ternary _ hnl hnk hnd,
        evalLit_neg _ hd0, evalLit_neg _ hl0, evalLit_neg _ hk0,
        withDiffs_diff m f hf k l i hlk hi s, hlatch k i hi, hlatch l i hi]
      cases evalLit s (latch m f k i) <;> cases evalLit s (latch m f l i) <;> simp
    · rw [satisfies_clause _ _ (by
        intro x hx
        simp only [List.mem_map, List.mem_range] at hx
        obtain ⟨i, hi, rfl⟩ := hx
        exact hdz i hi)]
      obtain ⟨i, hi, hne⟩ := hd
      refine ⟨diff m f k l i, ?_, ?_⟩
      · simp only [List.mem_map, List.mem_range]
        exact ⟨i, hi, rfl⟩
      · rw [withDiffs_diff m f hf k l i hlk hi s]
        revert hne
        cases evalLit s (latch m f k i) <;> cases evalLit s (latch m f l i) <;> simp

/-! ## Validation of the flags -/

theorem parseArg_flags (o o1 : Options) (arg : String) (h : parseArg o arg = Except.ok o1) :
    (o1.bonly = (o.bonly || decide (arg = "-b"))) ∧
    (o1.ionly = (o.ionly || decide (arg = "-i"))) ∧
    (o1.acs = (o.acs || decide (arg = "-a"))) ∧
    (o1.dcs = (o.dcs || decide (arg = "-d"))) ∧
    (o1.rcs = (o.rcs || decide (arg = "-r"))) ∧
    (o1.mix = (o.mix || decide (arg = "-m"))) ∧
    (o1.ncs = (o.ncs || decide (arg = "-n"))) := by
  unfold parseArg at h
  by_cases h0 : arg = "-h"
  · rw [if_pos h0] at h
    exact Except.noConfusion h
  rw [if_neg h0] at h
  by_cases h1 : arg = "-v"
  · rw [if_pos h1] at h
    simp only [Except.ok.injEq] at h
    subst h
    subst h1
    refine ⟨?_, ?_, ?_, ?_, ?_, ?_, ?_⟩ <;> simp
  rw [if_neg h1] at h
  by_cases h2 : arg = "-b"
  · rw [if_pos h2] at h
    simp only [Except.ok.injEq] at h
    subst h
    subst h2
    refine ⟨?_, ?_, ?_, ?_, ?_, ?_, ?_⟩ <;> simp
  rw [if_neg h2] at h
  by_cases h3 : arg = "-i"
  · rw [if_pos h3] at h
    simp only [Except.ok.injEq] at h
    subst h
    subst h3
    refine ⟨?_, ?_, ?_, ?_, ?_, ?_, ?_⟩ <;> simp
  rw [if_neg h3] at h
  by_cases h4 : arg = "-a"
  · rw [if_pos h4] at h
    simp only [Except.ok.injEq] at h
    subst h
    subst h4
    refine ⟨?_, ?_, ?_, ?_, ?_, ?_, ?_⟩ <;> simp
  rw [if_neg h4] at h
  by_cases h5 : arg = "-d"
  · rw [if_pos h5] at h
    simp only [Except.ok.injEq] at h
    subst h
    subst h5
    refine ⟨?_, ?_, ?_, ?_, ?_, ?_, ?_⟩ <;> simp
  rw [if_neg h5] at h
  by_cases h6 : arg = "-r"
  · rw [if_pos h6] at h
    simp only [Except.ok.injEq] at h
    subst h
    subst h6
    refine ⟨?_, ?_, ?_, ?_, ?_, ?_, ?_⟩ <;> simp
  rw [if_neg h6] at h
  by_cases h7 : arg = "-m"
  · rw [if_pos h7] at h
    simp only [Except.ok.injEq] at h
    subst h
    subst h7
    refine ⟨?_, ?_, ?_, ?_, ?_, ?_, ?_⟩ <;> simp
  rw [if_neg h7] at h
  by_cases h8 : arg = "-n"
  · rw [if_pos h8] at h
    simp only [Except.ok.injEq] at h
    subst h
    subst h8
    refine ⟨?_, ?_, ?_, ?_, ?_, ?_, ?_⟩ <;> simp
  rw [if_neg h8] at h
  by_cases h9 : arg = "-w"
  · rw [if_pos h9] at h
    simp only [Except.ok.injEq] at h
    subst h
    subst h9
    refine ⟨?_, ?_, ?_, ?_, ?_, ?_, ?_⟩ <;> simp
  rw [if_neg h9] at h
  have hb : ∀ b : Bool, (b || decide (arg = "-b")) = b := by simp [h2]
  have hi : ∀ b : Bool, (b || decide (arg = "-i")) = b := by simp [h3]
  have ha : ∀ b : Bool, (b || decide (arg = "-a")) = b := by simp [h4]
  have hd : ∀ b : Bool, (b || decide (arg = "-d")) = b := by simp [h5]
  have hr : ∀ b : Bool, (b || decide (arg = "-r")) = b := by simp [h6]
  have hm : ∀ b : Bool, (b || decide (arg = "-m")) = b := by simp [h7]
  have hn : ∀ b : Bool, (b || decide (arg = "-n")) = b := by simp [h8]
  rw [hb, hi, ha, hd, hr, hm, hn]
  by_cases c1 : (arg.get 0).isDigit = true
  · rw [if_pos c1] at h
    simp only [Except.ok.injEq] at h
    subst h
    exact ⟨rfl, rfl, rfl, rfl, rfl, rfl, rfl⟩
  rw [if_neg c1] at h
  by_cases c2 : arg.get 0 = '-'
  · rw [if_pos c2] at h
    exact Except.noConfusion h
  rw [if_neg c2] at h
  by_cases c3 : o.name.isSome = true
  · rw [if_pos c3] at h
    exact Except.noConfusion h
  rw [if_neg c3] at h
  simp only [Except.ok.injEq] at h
  subst h
  exact ⟨rfl, rfl, rfl, rfl, rfl, rfl, rfl⟩

theorem parseArgs_flags (args : List String) :
    ∀ o o1 : Options, parseArgs o args = Except.ok o1 →
      (o1.bonly = (o.bonly || decide ("-b" ∈ args))) ∧
      (o1.ionly = (o.ionly || decide ("-i" ∈ args))) ∧
      (o1.acs = (o.acs || decide ("-a" ∈ args))) ∧
      (o1.dcs = (o.dcs || decide ("-d" ∈ args))) ∧
      (o1.rcs = (o.rcs || decide ("-r" ∈ args))) ∧
      (o1.mix = (o.mix || decide ("-m" ∈ args))) ∧
      (o1.ncs = (o.ncs || decide ("-n" ∈ args))) := by
  induction args with
  | nil =>
    intro o o1 h
    simp only [parseArgs, Except.ok.injEq] at h
    subst h
    simp
  | cons arg rest ih =>
    intro o o1 h
    unfold parseArgs at h
    split at h
    · exact Except.noConfusion h
    · rename_i o2 h2
      obtain ⟨a1, a2, a3, a4, a5, a6, a7⟩ := parseArg_flags o o2 arg h2
      obtain ⟨b1, b2, b3, b4, b5, b6, b7⟩ := ih o2 o1 h
      rw [b1, b2, b3, b4, b5, b6, b7, a1, a2, a3, a4, a5, a6, a7]
      simp only [List.mem_cons, Bool.or_assoc, Bool.decide_or]
      refine ⟨?_, ?_, ?_, ?_, ?_, ?_, ?_⟩ <;>
        (congr 2; simp only [eq_comm])

theorem regimeFlags_eq (args : List String) :
    regimeFlags args =
      (decide ("-d" ∈ args)).toNat + (decide ("-a" ∈ args)).toNat +
        (decide ("-r" ∈ args)).toNat + (decide ("-m" ∈ args)).toNat +
        (decide ("-n" ∈ args)).toNat := by
  unfold regimeFlags
  simp only [List.filter]
  cases decide ("-a" ∈ args) <;> cases decide ("-d" ∈ args) <;> cases decide ("-r" ∈ args) <;>
    cases decide ("-m" ∈ args) <;> cases decide ("-n" ∈ args) <;> rfl

theorem validate_core (o : Options) :
    (validate o = Except.error 1 ↔
      ((o.ionly = true ∧ o.bonly = true) ∨ o.cs > 1 ∨
        (o.bonly = true ∧ (o.acs = true ∨ o.dcs = true ∨ o.rcs = true ∨ o.mix = true)))) ∧
    (∀ r ses, validate o = Except.ok (r, ses) →
      r.acs.toNat + r.dcs.toNat + r.rcs.toNat + r.ncs.toNat = 1 ∧
      (o.cs = 0 ∧ o.bonly = false → r.acs = true) ∧
      (o.mix = true → r.acs = true) ∧
      (o.bonly = true → r.ncs = true) ∧
      r.dcs = o.dcs ∧ r.rcs = o.rcs ∧ r.mix = o.mix ∧
      ses = ⟨o.ionly, o.bonly, o.witness, o.maxk⟩) := by
  obtain ⟨v, b, i, a, d, r, mx, n, w, mk, nm⟩ := o
  cases b <;> cases i <;> cases a <;> cases d <;> cases r <;> cases mx <;> cases n <;>
    simp [validate, Options.cs]

/-- C15: on a command line that the argument loop accepts, the validation
exits through `die` exactly when `-i` and `-b` are both given, or more than one
of the flags `-a`, `-d`, `-r`, `-m`, `-n` is given, or `-b` is given together
with one of `-a`, `-d`, `-r`, `-m`; otherwise exactly one of `acs`, `dcs`, `rcs`,
`ncs` is set afterwards, `acs` when no regime flag and no `-b` was given and
also under `-m`, and `ncs` whenever `-b` was given. -/
theorem validation_flags (args : List String) (o : Options)
    (h : parseArgs Options.initial args = Except.ok o) :
    (validate o = Except.error 1 ↔
      (("-i" ∈ args ∧ "-b" ∈ args) ∨ regimeFlags args > 1 ∨
        ("-b" ∈ args ∧ ("-a" ∈ args ∨ "-d" ∈ args ∨ "-r" ∈ args ∨ "-m" ∈ args)))) ∧
    (validate o = Except.error 1 ∨ ∃ r ses, validate o = Except.ok (r, ses)) ∧
    (∀ r ses, validate o = Except.ok (r, ses) →
      r.acs.toNat + r.dcs.toNat + r.rcs.toNat + r.ncs.toNat = 1 ∧
      (regimeFlags args = 0 ∧ "-b" ∉ args → r.acs = true) ∧
      ("-m" ∈ args → r.acs = true) ∧
      ("-b" ∈ args → r.ncs = true)) := by
  obtain ⟨f1, f2, f3, f4, f5, f6, f7⟩ := parseArgs_flags args _ o h
  simp only [Options.initial, Bool.false_or] at f1 f2 f3 f4 f5 f6 f7
  have hcs : o.cs = regimeFlags args := by
    rw [regimeFlags_eq, Options.cs, f3, f4, f5, f6, f7]
  obtain ⟨c1, c2⟩ := validate_core o
  refine ⟨?_, ?_, ?_⟩
  · rw [c1, hcs, f1, f2, f3, f4, f5, f6]
    simp only [decide_eq_true_eq]
  · cases hv : validate o with
    | error e =>
      left
      unfold validate at hv
      split_ifs at hv <;> simp_all
    | ok p => exact Or.inr ⟨p.1, p.2, rfl⟩
  · intro r ses hv
    obtain ⟨d1, d2, d3, d4, _⟩ := c2 r ses hv
    refine ⟨d1, ?_, ?_, ?_⟩
    · rintro ⟨h0, hb⟩
      apply d2
      rw [hcs, f1]
      exact ⟨h0, by simpa using hb⟩
    · intro hm
      apply d3
      rw [f6]
      simpa using hm
    · intro hb
      apply d4
      rw [f1]
      simpa using hb

/-- C15, at the command line `-r 7`, which is accepted with `rcs` set. -/
theorem validation_flags_witness :
    parseArgs Options.initial ["-r", "7"] = Except.ok refinementOptions ∧
    ((validate refinementOptions = Except.error 1 ↔
      (("-i" ∈ ["-r", "7"] ∧ "-b" ∈ ["-r", "7"]) ∨ regimeFlags ["-r", "7"] > 1 ∨
        ("-b" ∈ ["-r", "7"] ∧ ("-a" ∈ ["-r", "7"] ∨ "-d" ∈ ["-r", "7"] ∨ "-r" ∈ ["-r", "7"] ∨
          "-m" ∈ ["-r", "7"])))) ∧
    (validate refinementOptions = Except.error 1 ∨
      ∃ r ses, validate refinementOptions = Except.ok (r, ses)) ∧
    (∀ r ses, validate refinementOptions = Except.ok (r, ses) →
      r.acs.toNat + r.dcs.toNat + r.rcs.toNat + r.ncs.toNat = 1 ∧
      (regimeFlags ["-r", "7"] = 0 ∧ "-b" ∉ ["-r", "7"] → r.acs = true) ∧
      ("-m" ∈ ["-r", "7"] → r.acs = true) ∧
      ("-b" ∈ ["-r", "7"] → r.ncs = true))) :=
  ⟨rfl, validation_flags ["-r", "7"] refinementOptions rfl⟩

/-! ## The calls of a run and invariants of the state -/

theorem satLoop_cons (m : Aiger) (k : Nat) (a : Answer) (rest : List Answer) (st : State) :
    satLoop m k (a :: rest) st =
      match satNext m k a st with
      | some st1 => satLoop m k rest st1
      | none =>
        match a.res with
        | Res.UNSAT => some (Res.UNSAT, rest, picosat_sat a st)
        | Res.UNKNOWN => none
        | Res.SAT =>
          if !(picosat_sat a st).flags.rcs then some (Res.SAT, rest, picosat_sat a st)
          else some (Res.SAT, rest, sortFrames m k (picosat_sat a st)) := by
  cases hres : a.res with
  | UNSAT => simp [satLoop, satNext, hres]
  | UNKNOWN =>
    simp only [satLoop, satNext, hres]
    split <;> rfl
  | SAT =>
    simp only [satLoop, satNext, hres]
    split
    · rfl
    · split <;> simp_all

theorem step_eq (m : Aiger) (B : Backend) (k : Nat) (answers : List Answer) (st : State) :
    step m B k answers st =
      match sat m k answers (stepEntry m B k st) with
      | none => none
      | some (res, rest, st2) => some (res == Res.UNSAT, rest, st2) := rfl

theorem base_eq (m : Aiger) (ses : Session) (k : Nat) (answers : List Answer) (st : State) :
    base m ses k answers st =
      match sat m k answers (baseEntry m ses k st) with
      | none => none
      | some (res, rest, st2) =>
        some (res == Res.SAT, rest,
          if st2.flags.acs then { st2 with adoEnabled := true } else st2) := rfl

theorem mainLoop_succ (m : Aiger) (ses : Session) (B : Backend) (n k : Nat)
    (answers : List Answer) (st : State) :
    mainLoop m ses B (n + 1) k answers st =
      match simple m k (iterEntry m B k st) with
      | none => none
      | some st4 =>
        match (if !ses.bonly then step m B k answers st4 else some (false, answers, st4)) with
        | none => none
        | some (true, rest, st5) => some (20, k, rest, fputs ['0', '\n'] st5)
        | some (false, rest, st5) =>
          if ses.bonly && B.inconsistent st5.satCalls.length then
            some (20, k, rest, fputs ['0', '\n'] st5)
          else
            match (if !ses.ionly then base m ses k rest st5 else some (false, rest, st5)) with
            | none => none
            | some (true, rest2, st6) =>
              some (10, k, rest2,
                if ses.witness then
                  fputs (stimulus m k (fputs ['1', '\n'] st6)) (fputs ['1', '\n'] st6)
                else fputs ['1', '\n'] st6)
            | some (false, rest2, st6) => mainLoop m ses B n (k + 1) rest2 st6 := rfl

theorem kept_foldl {α : Type} (P : State → Prop) (g : State → α → State)
    (hg : ∀ st x, P st → P (g st x)) (l : List α) : ∀ st : State, P st → P (l.foldl g st) := by
  induction l with
  | nil => intro st h; exact h
  | cons x xs ih =>
    intro st h
    rw [List.foldl_cons]
    exact ih _ (hg st x h)

theorem kept_init (m : Aiger) (P : State → Prop) (hP : Kept m P) (ses : Session) (k : Nat)
    (st : State) (h : P st) : P (init m ses k st) := by
  unfold init
  split
  · exact h
  · refine kept_foldl P _ (fun st i hst => ?_) _ st h
    beta_reduce
    split
    · exact hP.add _ _ hst
    · exact hP.assume _ _ hst

theorem kept_bad (m : Aiger) (P : State → Prop) (hP : Kept m P) (k : Nat) (st : State)
    (h : P st) : P (bad m k st) := hP.assume _ _ h

theorem kept_simple (m : Aiger) (P : State → Prop) (hP : Kept m P) (k : Nat) (st st' : State)
    (hs : simple m k st = some st') (h : P st) : P st' := by
  unfold simple at hs
  split_ifs at hs with h1 h2 h3 <;> simp only [Option.some.injEq] at hs <;> subst hs
  · unfold run_diffsk
    split
    · exact h
    · have key := kept_foldl (fun s => P s ∧ s.flags.dcs = true)
        (fun st l => run_diffs m k l st)
        (fun s l hs2 => ⟨hP.diffsk s k l hs2.2 hs2.1, hs2.2⟩) (List.range k) st ⟨h, h1⟩
      exact key.1
  · exact hP.observe _ _ h2 h
  · exact h

theorem kept_satNext (m : Aiger) (P : State → Prop) (hP : Kept m P) (k : Nat) (a : Answer)
    (st st' : State) (hs : satNext m k a st = some st') (h : P st) : P st' := by
  have h1 := hP.answer st a h
  unfold satNext at hs
  split at hs
  · exact Option.noConfusion hs
  · split at hs
    · rename_i hc
      simp only [Bool.and_eq_true, Bool.not_eq_true'] at hc
      simp only [Option.some.injEq] at hs
      subst hs
      exact hP.switch _ hc.1.1 hc.2 h1
    · exact Option.noConfusion hs
  · split at hs
    · exact Option.noConfusion hs
    · rename_i hc
      have hr : (picosat_sat a st).flags.rcs = true := by simpa using hc
      split at hs
      · simp only [Option.some.injEq] at hs
        subst hs
        exact hP.assume _ _ (hP.refine _ _ _ hr (hP.sort _ k hr h1))
      · exact Option.noConfusion hs

theorem kept_satLoop (m : Aiger) (P : State → Prop) (hP : Kept m P) (k : Nat) :
    ∀ (answers : List Answer) (st : State) (r : Res) (rest : List Answer) (st' : State),
      satLoop m k answers st = some (r, rest, st') → P st → P st' := by
  intro answers
  induction answers with
  | nil => intro st r rest st' hs _; simp [satLoop] at hs
  | cons a as ih =>
    intro st r rest st' hs h
    rw [satLoop_cons] at hs
    split at hs
    · rename_i st1 hn
      exact ih st1 r rest st' hs (kept_satNext m P hP k a st st1 hn h)
    · have h1 := hP.answer st a h
      split at hs
      · simp only [Option.some.injEq, Prod.mk.injEq] at hs
        rw [← hs.2.2]; exact h1
      · exact Option.noConfusion hs
      · split at hs
        · simp only [Option.some.injEq, Prod.mk.injEq] at hs
          rw [← hs.2.2]; exact h1
        · rename_i hc
          have hr : (picosat_sat a st).flags.rcs = true := by simpa using hc
          simp only [Option.some.injEq, Prod.mk.injEq] at hs
          rw [← hs.2.2]
          exact hP.sort _ k hr h1

theorem kept_sat (m : Aiger) (P : State → Prop) (hP : Kept m P) (k : Nat)
    (answers : List Answer) (st : State) (r : Res) (rest : List Answer) (st' : State)
    (hs : sat m k answers st = some (r, rest, st')) (h : P st) : P st' := by
  unfold sat at hs
  split at hs
  · exact Option.noConfusion hs
  · rename_i st1 hb
    exact kept_satLoop m P hP k answers st1 r rest st' hs (hP.record st st1 k hb h)

theorem kept_stepEntry (m : Aiger) (P : State → Prop) (hP : Kept m P) (B : Backend) (k : Nat)
    (st : State) (h : P st) : P (stepEntry m B k st) := by
  unfold stepEntry
  apply kept_bad m P hP
  split
  · rename_i hc
    simp only [Bool.and_eq_true] at hc
    exact hP.limit _ _ hc.1 hc.2 h
  · exact h

theorem kept_baseEntry (m : Aiger) (P : State → Prop) (hP : Kept m P) (ses : Session)
    (k : Nat) (st : State) (h : P st) : P (baseEntry m ses k st) := by
  unfold baseEntry
  apply kept_bad m P hP
  apply kept_init m P hP
  split
  · rename_i hc
    exact hP.disable _ hc h
  · exact h

theorem kept_iterEntry (m : Aiger) (P : State → Prop) (hP : Kept m P) (B : Backend) (k : Nat)
    (st : State) (h : P st) : P (iterEntry m B k st) := by
  unfold iterEntry
  apply hP.add
  apply hP.add
  split
  · rename_i hc
    simp only [Bool.and_eq_true] at hc
    exact hP.switch _ hc.1.1 hc.1.2 h
  · exact h

theorem kept_step (m : Aiger) (P : State → Prop) (hP : Kept m P) (B : Backend) (k : Nat)
    (answers : List Answer) (st : State) (b : Bool) (rest : List Answer) (st' : State)
    (hs : step m B k answers st = some (b, rest, st')) (h : P st) : P st' := by
  rw [step_eq] at hs
  split at hs
  · exact Option.noConfusion hs
  · rename_i r rest2 st2 hsat
    simp only [Option.some.injEq, Prod.mk.injEq] at hs
    rw [← hs.2.2]
    exact kept_sat m P hP k answers _ r rest2 st2 hsat (kept_stepEntry m P hP B k st h)

theorem kept_base (m : Aiger) (P : State → Prop) (hP : Kept m P) (ses : Session) (k : Nat)
    (answers : List Answer) (st : State) (b : Bool) (rest : List Answer) (st' : State)
    (hs : base m ses k answers st = some (b, rest, st')) (h : P st) : P st' := by
  rw [base_eq] at hs
  split at hs
  · exact Option.noConfusion hs
  · rename_i r rest2 st2 hsat
    simp only [Option.some.injEq, Prod.mk.injEq] at hs
    have h2 := kept_sat m P hP k answers _ r rest2 st2 hsat (kept_baseEntry m P hP ses k st h)
    rw [← hs.2.2]
    split
    · rename_i hc
      exact hP.enable _ hc h2
    · exact h2

theorem kept_stepOpt (m : Aiger) (P : State → Prop) (hP : Kept m P) (ses : Session)
    (B : Backend) (k : Nat) (answers : List Answer) (st : State) (b : Bool)
    (rest : List Answer) (st' : State)
    (hs : (if !ses.bonly then step m B k answers st else some (false, answers, st)) =
      some (b, rest, st')) (h : P st) : P st' := by
  split at hs
  · exact kept_step m P hP B k answers st b rest st' hs h
  · simp only [Option.some.injEq, Prod.mk.injEq] at hs
    rw [← hs.2.2]; exact h

theorem kept_baseOpt (m : Aiger) (P : State → Prop) (hP : Kept m P) (ses : Session)
    (k : Nat) (answers : List Answer) (st : State) (b : Bool)
    (rest : List Answer) (st' : State)
    (hs : (if !ses.ionly then base m ses k answers st else some (false, answers, st)) =
      some (b, rest, st')) (h : P st) : P st' := by
  split at hs
  · exact kept_base m P hP ses k answers st b rest st' hs h
  · simp only [Option.some.injEq, Prod.mk.injEq] at hs
    rw [← hs.2.2]; exact h

/-- A property kept by the elementary steps holds in the state the main loop
leaves. -/
theorem kept_mainLoop (m : Aiger) (P : State → Prop) (hP : Kept m P) (ses : Session)
    (B : Backend) :
    ∀ (n k : Nat) (answers : List Answer) (st : State) (res k' : Nat) (rest : List Answer)
      (st' : State), mainLoop m ses B n k answers st = some (res, k', rest, st') →
      P st → P st' := by
  intro n
  induction n with
  | zero =>
    intro k answers st res k' rest st' hs h
    simp only [mainLoop, Option.some.injEq, Prod.mk.injEq] at hs
    rw [← hs.2.2.2]; exact h
  | succ n ih =>
    intro k answers st res k' rest st' hs h
    rw [mainLoop_succ] at hs
    have h3 := kept_iterEntry m P hP B k st h
    split at hs
    · exact Option.noConfusion hs
    · rename_i st4 hsimple
      have h4 := kept_simple m P hP k _ st4 hsimple h3
      split at hs
      · exact Option.noConfusion hs
      · rename_i rest5 st5 hstep
        have h5 := kept_stepOpt m P hP ses B k answers st4 true rest5 st5 hstep h4
        simp only [Option.some.injEq, Prod.mk.injEq] at hs
        rw [← hs.2.2.2]
        exact hP.print _ _ h5
      · rename_i rest5 st5 hstep
        have h5 := kept_stepOpt m P hP ses B k answers st4 false rest5 st5 hstep h4
        split at hs
        · simp only [Option.some.injEq, Prod.mk.injEq] at hs
          rw [← hs.2.2.2]
          exact hP.print _ _ h5
        · split at hs
          · exact Option.noConfusion hs
          · rename_i rest6 st6 hbase
            have h6 := kept_baseOpt m P hP ses k rest5 st5 true rest6 st6 hbase h5
            simp only [Option.some.injEq, Prod.mk.injEq] at hs
            rw [← hs.2.2.2]
            split
            · exact hP.print _ _ (hP.print _ _ h6)
            · exact hP.print _ _ h6
          · rename_i rest6 st6 hbase
            have h6 := kept_baseOpt m P hP ses k rest5 st5 false rest6 st6 hbase h5
            exact ih (k + 1) rest6 st6 res k' rest st' hs h6

theorem kept_runMain (m : Aiger) (P : State → Prop) (hP : Kept m P) (ses : Session)
    (B : Backend) (answers : List Answer) (st : State) (code : Nat) (st' : State)
    (hs : runMain m ses B answers st = some (code, st')) (h : P st) : P st' := by
  unfold runMain at hs
  split at hs
  · exact Option.noConfusion hs
  · rename_i res k rest st1 hloop
    have h1 := kept_mainLoop m P hP ses B _ 0 answers st res k rest st1 hloop h
    split_ifs at hs <;> simp only [Option.some.injEq, Prod.mk.injEq] at hs
    · rw [← hs.2]; exact hP.print _ _ h1
    · rw [← hs.2]; exact h1

theorem kept_loopCalls (m : Aiger) (P : State → Prop) (hP : Kept m P) (k : Nat) :
    ∀ (answers : List Answer) (st : State), P st →
      LoopCalls (fun _ s _ => P s) m k answers st := by
  intro answers
  induction answers with
  | nil => intro st _; trivial
  | cons a as ih =>
    intro st h
    refine ⟨h, ?_⟩
    split
    · rename_i st1 hn
      exact ih st1 (kept_satNext m P hP k a st st1 hn h)
    · trivial

theorem kept_satCalls (m : Aiger) (P : State → Prop) (hP : Kept m P) (k : Nat)
    (answers : List Answer) (st : State) (h : P st) :
    SatCalls (fun _ s => P s) (fun _ s _ => P s) m k answers st := by
  refine ⟨h, ?_⟩
  split
  · trivial
  · rename_i st1 hb
    exact kept_loopCalls m P hP k answers st1 (hP.record st st1 k hb h)

/-- A property kept by the elementary steps holds at every entry of `sat` and
at every `picosat_sat` call of the run. -/
theorem kept_runCalls (m : Aiger) (P : State → Prop) (hP : Kept m P) (ses : Session)
    (B : Backend) :
    ∀ (n k : Nat) (answers : List Answer) (st : State), P st →
      RunCalls (fun _ _ s => P s) (fun _ _ s _ => P s) m ses B n k answers st := by
  intro n
  induction n with
  | zero => intro k answers st _; trivial
  | succ n ih =>
    intro k answers st h
    unfold RunCalls
    have h3 := kept_iterEntry m P hP B k st h
    split
    · trivial
    · rename_i st4 hsimple
      have h4 := kept_simple m P hP k _ st4 hsimple h3
      refine ⟨fun _ => kept_satCalls m P hP k answers _ (kept_stepEntry m P hP B k st4 h4), ?_⟩
      split
      · rename_i rest5 st5 hstep
        have h5 := kept_stepOpt m P hP ses B k answers st4 false rest5 st5 hstep h4
        split
        · trivial
        · refine ⟨fun _ => kept_satCalls m P hP k rest5 _
            (kept_baseEntry m P hP ses k st5 h5), ?_⟩
          split
          · rename_i rest6 st6 hbase
            exact ih (k + 1) rest6 st6
              (kept_baseOpt m P hP ses k rest5 st5 false rest6 st6 hbase h5)
          · trivial
      · trivial

/-! ## Generic facts on the calls of a run -/

theorem loopCalls_mono (Q Q' : Nat → State → Answer → Prop) (m : Aiger) (k : Nat)
    (hQ : ∀ k s a, Q k s a → Q' k s a) :
    ∀ (answers : List Answer) (st : State), LoopCalls Q m k answers st →
      LoopCalls Q' m k answers st := by
  intro answers
  induction answers with
  | nil => intro st _; trivial
  | cons a as ih =>
    intro st h
    refine ⟨hQ _ _ _ h.1, ?_⟩
    have h2 := h.2
    split
    · rename_i st1 hn
      rw [hn] at h2
      exact ih st1 h2
    · trivial

theorem satCalls_mono (E E' : Nat → State → Prop) (Q Q' : Nat → State → Answer → Prop)
    (m : Aiger) (k : Nat) (hE : ∀ k s, E k s → E' k s) (hQ : ∀ k s a, Q k s a → Q' k s a)
    (answers : List Answer) (st : State) (h : SatCalls E Q m k answers st) :
    SatCalls E' Q' m k answers st := by
  refine ⟨hE _ _ h.1, ?_⟩
  have h2 := h.2
  split
  · trivial
  · rename_i st1 hb
    rw [hb] at h2
    exact loopCalls_mono Q Q' m k hQ answers st1 h2

theorem runCalls_mono (E E' : Bool → Nat → State → Prop)
    (Q Q' : Bool → Nat → State → Answer → Prop)
    (m : Aiger) (ses : Session) (B : Backend) (hE : ∀ b k s, E b k s → E' b k s)
    (hQ : ∀ b k s a, Q b k s a → Q' b k s a) :
    ∀ (n k : Nat) (answers : List Answer) (st : State),
      RunCalls E Q m ses B n k answers st → RunCalls E' Q' m ses B n k answers st := by
  intro n
  induction n with
  | zero => intro k answers st _; trivial
  | succ n ih =>
    intro k answers st h
    unfold RunCalls at h ⊢
    split
    · trivial
    · rename_i st4 hsimple
      rw [hsimple] at h
      simp only at h
      refine ⟨fun hb => satCalls_mono _ _ _ _ m k (hE false) (hQ false) _ _ (h.1 hb), ?_⟩
      have h2 := h.2
      split
      · rename_i rest5 st5 hstep
        rw [hstep] at h2
        simp only at h2
        split
        · trivial
        · rename_i hinc
          rw [if_neg hinc] at h2
          refine ⟨fun hb => satCalls_mono _ _ _ _ m k (hE true) (hQ true) _ _ (h2.1 hb), ?_⟩
          have h3 := h2.2
          split
          · rename_i rest6 st6 hbase
            rw [hbase] at h3
            simp only at h3
            exact ih (k + 1) rest6 st6 h3
          · trivial
      · trivial

/-! ## Induction only -/

theorem mainLoop_ionly (m : Aiger) (ses : Session) (B : Backend) (hi : ses.ionly = true) :
    ∀ (n k : Nat) (answers : List Answer) (st : State) (res k' : Nat) (rest : List Answer)
      (st' : State), mainLoop m ses B n k answers st = some (res, k', rest, st') →
      res ≠ 10 := by
  intro n
  induction n with
  | zero =>
    intro k answers st res k' rest st' h
    simp only [mainLoop, Option.some.injEq, Prod.mk.injEq] at h
    omega
  | succ n ih =>
    intro k answers st res k' rest st' h
    rw [mainLoop_succ] at h
    split at h
    · exact Option.noConfusion h
    · split at h
      · exact Option.noConfusion h
      · simp only [Option.some.injEq, Prod.mk.injEq] at h
        omega
      · split at h
        · simp only [Option.some.injEq, Prod.mk.injEq] at h
          omega
        · split at h
          · exact Option.noConfusion h
          · rename_i rest6 st6 hbase
            simp [hi] at hbase
          · rename_i rest6 st6 hbase
            exact ih (k + 1) rest6 st6 res k' rest st' h

/-- C16: in induction-only mode the test `!ionly && base (k)` of the main
loop is false without a call of `base`: no answer of the backend is taken and
the state is unchanged; the main loop never leaves with `res = 10`; and a run
that comes to its end exits with a code other than 10 and has written exactly
the verdict line `0` or the verdict line `2`. -/
theorem ionly_never_reachable (m : Aiger) (ses : Session) (B : Backend)
    (hi : ses.ionly = true) :
    (∀ (k : Nat) (rest : List Answer) (st5 : State),
      (if !ses.ionly then base m ses k rest st5 else some (false, rest, st5)) =
        some (false, rest, st5)) ∧
    (∀ (n k : Nat) (answers : List Answer) (st : State) (res k' : Nat) (rest : List Answer)
      (st' : State), mainLoop m ses B n k answers st = some (res, k', rest, st') →
      res ≠ 10) ∧
    (∀ (answers : List Answer) (st : State) (code : Nat) (st' : State),
      runMain m ses B answers st = some (code, st') →
      code ≠ 10 ∧ (st'.out = st.out ++ ['0', '\n'] ∨ st'.out = st.out ++ ['2', '\n'])) := by
  refine ⟨fun k rest st5 => by simp [hi], mainLoop_ionly m ses B hi, ?_⟩
  intro answers st code st' h
  unfold runMain at h
  split at h
  · exact Option.noConfusion h
  · rename_i res k rest st1 hloop
    have hne := mainLoop_ionly m ses B hi _ 0 answers st res k rest st1 hloop
    rcases mainLoop_outcome m ses B _ 0 answers st res k rest st1 hloop with
      ⟨h1, h2, h3⟩ | ⟨h1, h2, h3⟩ | ⟨h1, h2, h3⟩
    · subst h1
      have hk : k > ses.maxk := by omega
      simp only [if_true, hk, Option.some.injEq, Prod.mk.injEq] at h
      obtain ⟨rfl, rfl⟩ := h
      exact ⟨by omega, Or.inr (by simp [fputs, h3])⟩
    · subst h1
      simp only [Nat.reduceEqDiff, if_false, Option.some.injEq, Prod.mk.injEq] at h
      obtain ⟨rfl, rfl⟩ := h
      exact ⟨by omega, Or.inl h3⟩
    · exact absurd h1 hne

/-- C16, at the run of `notLatchCircuit` with the options `-i 0`: the step
is not inductive at bound 0, `base` is skipped and the run writes the verdict
2. -/
theorem ionly_never_reachable_witness :
    (runMain notLatchCircuit ⟨true, false, false, 0⟩ quietBackend
        [⟨Res.SAT, derefOf []⟩] (State.initial allDifferent)).map
      (fun r => (r.1, r.2.out)) = some (0, ['2', '\n']) ∧
    ((∀ (k : Nat) (rest : List Answer) (st5 : State),
      (if !(⟨true, false, false, 0⟩ : Session).ionly then
          base notLatchCircuit ⟨true, false, false, 0⟩ k rest st5
        else some (false, rest, st5)) = some (false, rest, st5)) ∧
    (∀ (n k : Nat) (answers : List Answer) (st : State) (res k' : Nat) (rest : List Answer)
      (st' : State), mainLoop notLatchCircuit ⟨true, false, false, 0⟩ quietBackend n k
        answers st = some (res, k', rest, st') → res ≠ 10) ∧
    (∀ (answers : List Answer) (st : State) (code : Nat) (st' : State),
      runMain notLatchCircuit ⟨true, false, false, 0⟩ quietBackend answers st =
        some (code, st') →
      code ≠ 10 ∧ (st'.out = st.out ++ ['0', '\n'] ∨ st'.out = st.out ++ ['2', '\n']))) :=
  ⟨by decide, ionly_never_reachable notLatchCircuit ⟨true, false, false, 0⟩ quietBackend rfl⟩

/-! ## The refinement counter -/

theorem kept_counter (m : Aiger) :
    Kept m (fun st => st.flags.dcs = false ∧ st.nrcs = st.ndiffs) where
  add := fun st xs h => h
  assume := fun st x h => h
  answer := fun st a h => h
  switch := fun st _ _ h => h
  diffsk := fun st k l hd h => by rw [h.1] at hd; exact Bool.noConfusion hd
  refine := fun st x y _ h => ⟨h.1, by simp only [run_diffs]; omega⟩
  sort := fun st k _ h => h
  record := fun st st1 k hb h => by
    obtain ⟨hf, _, hn, hd, _⟩ := satBookkeeping_cases k st st1 hb
    rw [hf, hn, hd]; exact h
  observe := fun st xs _ h => h
  limit := fun st n _ _ h => h
  disable := fun st _ h => h
  enable := fun st _ h => h
  print := fun st cs h => h

/-- C17: in a run whose flag `dcs` is clear (so in every run under `-r` or
`-m`) that starts with `nrcs` equal to the number of `diffs` invocations (both
are 0 at the start of the main loop), `dcs` stays clear and `nrcs` equals the
number of `diffs` invocations at every entry of `sat`, at every `picosat_sat`
call and in the state in which the run ends. -/
theorem nrcs_counts_diffs (m : Aiger) (ses : Session) (B : Backend) (answers : List Answer)
    (st : State) (hd : st.flags.dcs = false) (h0 : st.nrcs = st.ndiffs) :
    RunCalls (fun _ _ s => s.flags.dcs = false ∧ s.nrcs = s.ndiffs)
      (fun _ _ s _ => s.flags.dcs = false ∧ s.nrcs = s.ndiffs) m ses B (ses.maxk + 1) 0
      answers st ∧
    ∀ (code : Nat) (st' : State), runMain m ses B answers st = some (code, st') →
      st'.flags.dcs = false ∧ st'.nrcs = st'.ndiffs :=
  ⟨kept_runCalls m _ (kept_counter m) ses B _ 0 answers st ⟨hd, h0⟩,
    fun code st' h => kept_runMain m _ (kept_counter m) ses B answers st code st' h ⟨hd, h0⟩⟩

/-- C17, at a run of `twoLatchCircuit` under `-r` with bound 1 in which the
step of round 1 is refined once: the run ends with exit code 20, `nrcs = 1`
and one invocation of `diffs`. -/
theorem nrcs_counts_diffs_witness :
    (runMain twoLatchCircuit ⟨false, false, false, 1⟩ quietBackend refineAnswers
        (State.initial refinement)).map (fun r => (r.1, r.2.nrcs, r.2.ndiffs)) =
      some (20, 1, 1) ∧
    (RunCalls (fun _ _ s => s.flags.dcs = false ∧ s.nrcs = s.ndiffs)
      (fun _ _ s _ => s.flags.dcs = false ∧ s.nrcs = s.ndiffs) twoLatchCircuit
      ⟨false, false, false, 1⟩ quietBackend ((⟨false, false, false, 1⟩ : Session).maxk + 1) 0
      refineAnswers (State.initial refinement) ∧
    ∀ (code : Nat) (st' : State),
      runMain twoLatchCircuit ⟨false, false, false, 1⟩ quietBackend refineAnswers
        (State.initial refinement) = some (code, st') →
      st'.flags.dcs = false ∧ st'.nrcs = st'.ndiffs) :=
  ⟨by decide, nrcs_counts_diffs twoLatchCircuit ⟨false, false, false, 1⟩ quietBackend
    refineAnswers (State.initial refinement) rfl rfl⟩

/-! ## The switch of the mixed regime -/

theorem frame_of_mix (m : Aiger) (f g : Regime) (hf : f.mix = true) (hg : g.mix = true)
    (k : Nat) : frame m f k = frame m g k := by
  unfold frame
  simp [hf, hg]

theorem kept_switched (m : Aiger) : Kept m Switched where
  add := fun st xs h => h
  assume := fun st x h => h
  answer := fun st a h => h
  switch := fun st _ ha h => by rw [h.2.1] at ha; exact Bool.noConfusion ha
  diffsk := fun st k l _ h => h
  refine := fun st x y _ h => h
  sort := fun st k _ h => h
  record := fun st st1 k hb h => by
    unfold satBookkeeping at hb
    split_ifs at hb <;> simp only [Option.some.injEq] at hb <;> subst hb <;> exact h
  observe := fun st xs _ h => h
  limit := fun st n _ _ h => h
  disable := fun st ha h => by rw [h.2.1] at ha; exact Bool.noConfusion ha
  enable := fun st ha h => by rw [h.2.1] at ha; exact Bool.noConfusion ha
  print := fun st cs h => h

theorem kept_mix (m : Aiger) : Kept m (fun st => st.flags.mix = true) where
  add := fun st xs h => h
  assume := fun st x h => h
  answer := fun st a h => h
  switch := fun st _ _ h => h
  diffsk := fun st k l _ h => h
  refine := fun st x y _ h => h
  sort := fun st k _ h => h
  record := fun st st1 k hb h => by
    rw [(satBookkeeping_cases k st st1 hb).1]; exact h
  observe := fun st xs _ h => h
  limit := fun st n _ _ h => h
  disable := fun st _ h => h
  enable := fun st _ h => h
  print := fun st cs h => h

/-- C14: in a run with `mix` set, the three statements of the switch leave a
state with `mix` set, `acs` clear, `rcs` set and the observer disabled, and
`frame` gives the same values with the flags after the switch as before; this
is the state in which `sat` goes back to `RESTART` after an undecided answer
and in which the main loop goes on when its test for the switch holds.  From a
state after the switch, `sat`, `step`, `base` and the main loop end in such a
state again, and so is the state at every entry of `sat` and at every
`picosat_sat` call: `acs` is not set again, `rcs` is not cleared and the
observer is not enabled again.  In every run from a state with `mix` set, `mix`
is set in the end and `frame` has the same values. -/
theorem switch_one_way (m : Aiger) (ses : Session) (B : Backend) (st0 : State)
    (hmix : st0.flags.mix = true) :
    Switched (switchToRefinement st0) ∧
    (∀ k, frame m (switchToRefinement st0).flags k = frame m st0.flags k) ∧
    (∀ (n k : Nat) (answers : List Answer) (res k' : Nat) (rest : List Answer) (st' : State),
      mainLoop m ses B n k answers st0 = some (res, k', rest, st') →
      st'.flags.mix = true ∧ ∀ j, frame m st'.flags j = frame m st0.flags j) ∧
    (∀ (k : Nat) (a : Answer) (st st1 : State), a.res = Res.UNKNOWN →
      satNext m k a st = some st1 →
      st1 = switchToRefinement (picosat_sat a st) ∧ Switched st1) ∧
    (∀ (k : Nat) (st : State),
      (st.flags.mix && st.flags.acs &&
        decide (B.adoConflicts st.satCalls.length ≥ 10000)) = true →
      Switched (iterEntry m B k st)) ∧
    (∀ st : State, Switched st →
      (∀ (k : Nat) (answers : List Answer) (r : Res) (rest : List Answer) (st' : State),
        sat m k answers st = some (r, rest, st') → Switched st') ∧
      (∀ (k : Nat) (answers : List Answer) (b : Bool) (rest : List Answer) (st' : State),
        step m B k answers st = some (b, rest, st') → Switched st') ∧
      (∀ (k : Nat) (answers : List Answer) (b : Bool) (rest : List Answer) (st' : State),
        base m ses k answers st = some (b, rest, st') → Switched st') ∧
      (∀ (n k : Nat) (answers : List Answer) (res k' : Nat) (rest : List Answer)
        (st' : State), mainLoop m ses B n k answers st = some (res, k', rest, st') →
        Switched st') ∧
      (∀ (n k : Nat) (answers : List Answer),
        RunCalls (fun _ _ s => Switched s) (fun _ _ s _ => Switched s) m ses B n k answers st)) := by
  refine ⟨⟨hmix, rfl, rfl, rfl⟩, fun k => frame_of_mix m (switchToRefinement st0).flags st0.flags hmix hmix k,
    ?_, ?_, ?_, ?_⟩
  · intro n k answers res k' rest st' h
    have h1 := kept_mainLoop m _ (kept_mix m) ses B n k answers st0 res k' rest st' h hmix
    exact ⟨h1, fun j => frame_of_mix m _ _ h1 hmix j⟩
  · intro k a st st1 ha h
    unfold satNext at h
    rw [ha] at h
    simp only at h
    split at h
    · rename_i hc
      simp only [Bool.and_eq_true, Bool.not_eq_true'] at hc
      simp only [Option.some.injEq] at h
      subst h
      exact ⟨rfl, hc.1.1, rfl, rfl, rfl⟩
    · exact Option.noConfusion h
  · intro k st hc
    unfold iterEntry
    rw [if_pos hc]
    simp only [Bool.and_eq_true] at hc
    exact ⟨hc.1.1, rfl, rfl, rfl⟩
  · intro st hs
    exact ⟨fun k answers r rest st' h =>
        kept_sat m _ (kept_switched m) k answers st r rest st' h hs,
      fun k answers b rest st' h =>
        kept_step m _ (kept_switched m) B k answers st b rest st' h hs,
      fun k answers b rest st' h =>
        kept_base m _ (kept_switched m) ses k answers st b rest st' h hs,
      fun n k answers res k' rest st' h =>
        kept_mainLoop m _ (kept_switched m) ses B n k answers st res k' rest st' h hs,
      fun n k answers => kept_runCalls m _ (kept_switched m) ses B n k answers st hs⟩

/-- C14, at the run of `twoLatchCircuit` under `-m` with bound 0 in which
the backend leaves the first call undecided: `sat` switches to refinement, the
run ends with exit code 20, `acs` clear, `rcs` and `mix` set and the observer
disabled. -/
theorem switch_one_way_witness :
    (runMain twoLatchCircuit ⟨false, false, false, 0⟩ quietBackend
        [⟨Res.UNKNOWN, derefOf []⟩, ⟨Res.UNSAT, derefOf []⟩] (State.initial mixed)).map
      (fun r => (r.1, r.2.flags, r.2.adoEnabled)) =
      some (20, ⟨false, false, true, true, false⟩, false) ∧
    (Switched (switchToRefinement (State.initial mixed)) ∧
    (∀ k, frame twoLatchCircuit (switchToRefinement (State.initial mixed)).flags k =
      frame twoLatchCircuit (State.initial mixed).flags k) ∧
    (∀ (n k : Nat) (answers : List Answer) (res k' : Nat) (rest : List Answer) (st' : State),
      mainLoop twoLatchCircuit ⟨false, false, false, 0⟩ quietBackend n k answers
        (State.initial mixed) = some (res, k', rest, st') →
      st'.flags.mix = true ∧
        ∀ j, frame twoLatchCircuit st'.flags j =
          frame twoLatchCircuit (State.initial mixed).flags j) ∧
    (∀ (k : Nat) (a : Answer) (st st1 : State), a.res = Res.UNKNOWN →
      satNext twoLatchCircuit k a st = some st1 →
      st1 = switchToRefinement (picosat_sat a st) ∧ Switched st1) ∧
    (∀ (k : Nat) (st : State),
      (st.flags.mix && st.flags.acs &&
        decide (quietBackend.adoConflicts st.satCalls.length ≥ 10000)) = true →
      Switched (iterEntry twoLatchCircuit quietBackend k st)) ∧
    (∀ st : State, Switched st →
      (∀ (k : Nat) (answers : List Answer) (r : Res) (rest : List Answer) (st' : State),
        sat twoLatchCircuit k answers st = some (r, rest, st') → Switched st') ∧
      (∀ (k : Nat) (answers : List Answer) (b : Bool) (rest : List Answer) (st' : State),
        step twoLatchCircuit quietBackend k answers st = some (b, rest, st') →
        Switched st') ∧
      (∀ (k : Nat) (answers : List Answer) (b : Bool) (rest : List Answer) (st' : State),
        base twoLatchCircuit ⟨false, false, false, 0⟩ k answers st = some (b, rest, st') →
        Switched st') ∧
      (∀ (n k : Nat) (answers : List Answer) (res k' : Nat) (rest : List Answer)
        (st' : State), mainLoop twoLatchCircuit ⟨false, false, false, 0⟩ quietBackend n k
          answers st = some (res, k', rest, st') → Switched st') ∧
      (∀ (n k : Nat) (answers : List Answer),
        RunCalls (fun _ _ s => Switched s) (fun _ _ s _ => Switched s) twoLatchCircuit
          ⟨false, false, false, 0⟩ quietBackend n k answers st))) :=
  ⟨by decide, switch_one_way twoLatchCircuit ⟨false, false, false, 0⟩ quietBackend
    (State.initial mixed) rfl⟩

/-! ## The bookkeeping of the frames -/

theorem sortFrames_perm (m : Aiger) (k : Nat) (st : State) :
    (sortFrames m k st).frames.Perm st.frames := by
  unfold sortFrames
  have h := (perm_qsort (cmp_frames m st.flags st.deref) (st.frames.take (k + 1))).append_right
    (st.frames.drop (k + 1))
  rw [List.take_append_drop] at h
  exact h

theorem kept_framesOk (m : Aiger) : Kept m FramesOk where
  add := fun st xs h => h
  assume := fun st x h => h
  answer := fun st a h => h
  switch := fun st hm _ h => ⟨by simp [switchToRefinement], h.2⟩
  diffsk := fun st k l _ h => h
  refine := fun st x y _ h => h
  sort := fun st k _ h => by
    have hp := sortFrames_perm m k st
    refine ⟨h.1, ?_, ?_⟩
    · rw [hp.length_eq]; exact hp.trans h.2.1
    · rw [hp.length_eq]; exact h.2.2
  record := fun st st1 k hb h => by
    unfold satBookkeeping at hb
    split_ifs at hb with h1 h2 h3 h4 <;> simp only [Option.some.injEq] at hb <;> subst hb
    · refine ⟨h.1, ?_, ?_⟩
      · simp only [List.length_append, List.length_singleton]
        rw [List.range_succ, h2]
        exact List.Perm.append_right _ h.2.1
      · simp only [List.length_append, List.length_singleton]
        omega
    · exact h
    · exact h
  observe := fun st xs _ h => h
  limit := fun st n _ _ h => h
  disable := fun st _ h => h
  enable := fun st _ h => h
  print := fun st cs h => h

theorem satBookkeeping_ok (k : Nat) (st : State) (h : FramesOk st)
    (hl : st.frames.length = k ∨ st.frames.length = k + 1) :
    ∃ st1, satBookkeeping k st = some st1 ∧ FramesRecorded k st1 := by
  obtain ⟨hf, hp, hs⟩ := h
  unfold satBookkeeping
  rw [if_pos hf]
  rcases hl with hl | hl
  · have hg : st.frames.length < growFrames k st.sframes := by
      unfold growFrames
      split_ifs <;> omega
    rw [if_pos hl.symm, if_pos hg]
    refine ⟨_, rfl, ?_, ?_, ?_⟩
    · simp only [List.length_append, List.length_singleton]; omega
    · simp only; omega
    · simp only
      rw [List.range_succ]
      rw [hl] at hp
      exact List.Perm.append_right _ hp
  · have hne : ¬ k = st.frames.length := by omega
    rw [if_neg hne, if_pos hl]
    refine ⟨_, rfl, hl, by omega, ?_⟩
    rw [hl] at hp
    exact hp

theorem framesRecorded_iff (k : Nat) (st : State) (hf : (st.flags.rcs || st.flags.mix) = true) :
    FramesRecorded k st ↔ FramesOk st ∧ st.frames.length = k + 1 := by
  constructor
  · rintro ⟨h1, h2, h3⟩
    exact ⟨⟨hf, by rw [h1]; exact h3, by omega⟩, h1⟩
  · rintro ⟨⟨_, h2, h3⟩, h1⟩
    rw [h1] at h2
    exact ⟨h1, by omega, h2⟩

theorem firstEqual_adjacent (cmp : Nat → Nat → Int) :
    ∀ (l : List Nat) (x y : Nat), firstEqual cmp l = some (x, y) →
      ∃ pre post, l = pre ++ x :: y :: post := by
  intro l
  induction l with
  | nil => intro x y h; simp [firstEqual] at h
  | cons a t ih =>
    intro x y h
    cases t with
    | nil => simp [firstEqual] at h
    | cons b rest =>
      simp only [firstEqual] at h
      split_ifs at h
      · simp only [Option.some.injEq, Prod.mk.injEq] at h
        obtain ⟨rfl, rfl⟩ := h
        exact ⟨[], rest, rfl⟩
      · obtain ⟨pre, post, hp⟩ := ih x y h
        exact ⟨a :: pre, post, by rw [hp]; rfl⟩

theorem firstEqual_distinct (cmp : Nat → Nat → Int) (l : List Nat) (k : Nat)
    (hp : l.Perm (List.range (k + 1))) (x y : Nat) (h : firstEqual cmp l = some (x, y)) :
    x ≠ y ∧ x ≤ k ∧ y ≤ k := by
  obtain ⟨pre, post, hl⟩ := firstEqual_adjacent cmp l x y h
  have hnd : l.Nodup := hp.nodup_iff.mpr (List.nodup_range _)
  have hx : x ∈ l := by rw [hl]; simp
  have hy : y ∈ l := by rw [hl]; simp
  have hx2 := List.mem_range.mp (hp.mem_iff.mp hx)
  have hy2 := List.mem_range.mp (hp.mem_iff.mp hy)
  refine ⟨?_, by omega, by omega⟩
  rintro rfl
  rw [hl] at hnd
  have h2 := (List.nodup_append.mp hnd).2.1
  simp at h2

theorem satCallOk_of_recorded (m : Aiger) (k : Nat) (st : State) (a : Answer)
    (h : FramesRecorded k st) : SatCallOk m k st a := by
  have hp := sortFrames_perm m k (picosat_sat a st)
  have h2 : FramesRecorded k (sortFrames m k (picosat_sat a st)) := by
    refine ⟨?_, h.2.1, hp.trans h.2.2⟩
    rw [hp.length_eq]; exact h.1
  refine ⟨h, h2, fun x y hxy => ?_⟩
  refine firstEqual_distinct _ _ k ?_ x y hxy
  rw [List.take_of_length_le (by rw [h2.1])]
  exact h2.2.2

theorem satNext_frames (m : Aiger) (k : Nat) (a : Answer) (st st1 : State)
    (h : satNext m k a st = some st1) :
    st1.frames.Perm st.frames ∧ st1.sframes = st.sframes := by
  unfold satNext at h
  split at h
  · exact Option.noConfusion h
  · split at h
    · simp only [Option.some.injEq] at h
      subst h
      exact ⟨List.Perm.refl _, rfl⟩
    · exact Option.noConfusion h
  · split at h
    · exact Option.noConfusion h
    · split at h
      · simp only [Option.some.injEq] at h
        subst h
        exact ⟨sortFrames_perm m k (picosat_sat a st), rfl⟩
      · exact Option.noConfusion h

theorem framesRecorded_of_perm (k : Nat) (st st1 : State) (hp : st1.frames.Perm st.frames)
    (hs : st1.sframes = st.sframes) (h : FramesRecorded k st) : FramesRecorded k st1 :=
  ⟨by rw [hp.length_eq]; exact h.1, by rw [hs]; exact h.2.1, hp.trans h.2.2⟩

theorem loopCalls_frames (m : Aiger) (k : Nat) :
    ∀ (answers : List Answer) (st : State), FramesRecorded k st →
      LoopCalls (SatCallOk m) m k answers st := by
  intro answers
  induction answers with
  | nil => intro st _; trivial
  | cons a as ih =>
    intro st h
    refine ⟨satCallOk_of_recorded m k st a h, ?_⟩
    split
    · rename_i st1 hn
      obtain ⟨hp, hs⟩ := satNext_frames m k a st st1 hn
      exact ih st1 (framesRecorded_of_perm k st st1 hp hs h)
    · trivial

theorem satCalls_frames (m : Aiger) (k : Nat) (answers : List Answer) (st : State)
    (h : FramesOk st) (hl : st.frames.length = k ∨ st.frames.length = k + 1) :
    SatCalls SatEntryOk (SatCallOk m) m k answers st := by
  obtain ⟨st1, hb, hr⟩ := satBookkeeping_ok k st h hl
  refine ⟨⟨st1, hb, hr⟩, ?_⟩
  rw [hb]
  exact loopCalls_frames m k answers st1 hr

theorem satLoop_length (m : Aiger) (k : Nat) :
    ∀ (answers : List Answer) (st : State) (r : Res) (rest : List Answer) (st' : State),
      satLoop m k answers st = some (r, rest, st') →
      st'.frames.length = st.frames.length := by
  intro answers
  induction answers with
  | nil => intro st r rest st' hs; simp [satLoop] at hs
  | cons a as ih =>
    intro st r rest st' hs
    rw [satLoop_cons] at hs
    split at hs
    · rename_i st1 hn
      rw [ih st1 r rest st' hs, (satNext_frames m k a st st1 hn).1.length_eq]
    · split at hs
      · simp only [Option.some.injEq, Prod.mk.injEq] at hs
        rw [← hs.2.2]; rfl
      · exact Option.noConfusion hs
      · split at hs
        · simp only [Option.some.injEq, Prod.mk.injEq] at hs
          rw [← hs.2.2]; rfl
        · simp only [Option.some.injEq, Prod.mk.injEq] at hs
          rw [← hs.2.2]
          exact (sortFrames_perm m k (picosat_sat a st)).length_eq

theorem sat_length (m : Aiger) (k : Nat) (answers : List Answer) (st : State) (r : Res)
    (rest : List Answer) (st' : State) (hf : (st.flags.rcs || st.flags.mix) = true)
    (hs : sat m k answers st = some (r, rest, st')) : st'.frames.length = k + 1 := by
  unfold sat at hs
  split at hs
  · exact Option.noConfusion hs
  · rename_i st1 hb
    rw [satLoop_length m k answers st1 r rest st' hs]
    obtain ⟨_, _, _, _, _, _, hc⟩ := satBookkeeping_cases k st st1 hb
    rcases hc with ⟨_, ⟨hk, hfr⟩ | ⟨hk, hfr⟩⟩ | ⟨hno, _⟩
    · rw [hfr, List.length_append, List.length_singleton, ← hk]
    · rw [hfr, hk]
    · rw [hf] at hno; exact Bool.noConfusion hno

theorem init_frames (m : Aiger) (ses : Session) (k : Nat) (st : State) :
    (init m ses k st).frames = st.frames ∧ (init m ses k st).flags = st.flags := by
  unfold init
  split
  · exact ⟨rfl, rfl⟩
  · refine kept_foldl (fun s => s.frames = st.frames ∧ s.flags = st.flags) _
      (fun s i hs => ?_) _ st ⟨rfl, rfl⟩
    beta_reduce
    split <;> exact hs

theorem stepEntry_frames (m : Aiger) (B : Backend) (k : Nat) (st : State) :
    (stepEntry m B k st).frames = st.frames ∧ (stepEntry m B k st).flags = st.flags := by
  unfold stepEntry bad picosat_assume
  split <;> exact ⟨rfl, rfl⟩

theorem baseEntry_frames (m : Aiger) (ses : Session) (k : Nat) (st : State) :
    (baseEntry m ses k st).frames = st.frames ∧ (baseEntry m ses k st).flags = st.flags := by
  unfold baseEntry bad picosat_assume
  simp only
  rw [(init_frames m ses k _).1, (init_frames m ses k _).2]
  split <;> exact ⟨rfl, rfl⟩

theorem iterEntry_frames (m : Aiger) (B : Backend) (k : Nat) (st : State) :
    (iterEntry m B k st).frames = st.frames := by
  unfold iterEntry picosat_add
  split <;> rfl

theorem simple_frames (m : Aiger) (k : Nat) (st st' : State) (h : simple m k st = some st') :
    st'.frames = st.frames := by
  unfold simple at h
  split_ifs at h <;> simp only [Option.some.injEq] at h <;> subst h
  · unfold run_diffsk
    split
    · rfl
    · exact kept_foldl (fun s => s.frames = st.frames) (fun s l => run_diffs m k l s)
        (fun s l hs => hs) _ st rfl
  · rfl
  · rfl

theorem step_length (m : Aiger) (B : Backend) (k : Nat) (answers : List Answer) (st : State)
    (b : Bool) (rest : List Answer) (st' : State)
    (hf : (st.flags.rcs || st.flags.mix) = true)
    (hs : step m B k answers st = some (b, rest, st')) : st'.frames.length = k + 1 := by
  rw [step_eq] at hs
  split at hs
  · exact Option.noConfusion hs
  · rename_i r rest2 st2 hsat
    simp only [Option.some.injEq, Prod.mk.injEq] at hs
    rw [← hs.2.2]
    exact sat_length m k answers _ r rest2 st2 (by rw [(stepEntry_frames m B k st).2]; exact hf)
      hsat

theorem base_length (m : Aiger) (ses : Session) (k : Nat) (answers : List Answer) (st : State)
    (b : Bool) (rest : List Answer) (st' : State)
    (hf : (st.flags.rcs || st.flags.mix) = true)
    (hs : base m ses k answers st = some (b, rest, st')) : st'.frames.length = k + 1 := by
  rw [base_eq] at hs
  split at hs
  · exact Option.noConfusion hs
  · rename_i r rest2 st2 hsat
    simp only [Option.some.injEq, Prod.mk.injEq] at hs
    have h2 := sat_length m k answers _ r rest2 st2
      (by rw [(baseEntry_frames m ses k st).2]; exact hf) hsat
    rw [← hs.2.2]
    split <;> exact h2

theorem runCalls_skip (E : Bool → Nat → State → Prop)
    (Q : Bool → Nat → State → Answer → Prop) (m : Aiger)
    (ses : Session) (B : Backend) (hi : ses.ionly = true) (hb : ses.bonly = true) :
    ∀ (n k : Nat) (answers : List Answer) (st : State),
      RunCalls E Q m ses B n k answers st := by
  intro n
  induction n with
  | zero => intro k answers st; trivial
  | succ n ih =>
    intro k answers st
    unfold RunCalls
    split
    · trivial
    · refine ⟨fun h => by rw [hb] at h; exact Bool.noConfusion h, ?_⟩
      split
      · split
        · trivial
        · refine ⟨fun h => by rw [hi] at h; exact Bool.noConfusion h, ?_⟩
          split
          · exact ih _ _ _
          · trivial
      · trivial

theorem runCalls_frames (m : Aiger) (ses : Session) (B : Backend)
    (hses : ses.ionly = false ∨ ses.bonly = false) :
    ∀ (n k : Nat) (answers : List Answer) (st : State), FramesOk st → st.frames.length = k →
      RunCalls (fun _ => SatEntryOk) (fun _ => SatCallOk m) m ses B n k answers st := by
  intro n
  induction n with
  | zero => intro k answers st _ _; trivial
  | succ n ih =>
    intro k answers st h hl
    unfold RunCalls
    have h3 := kept_iterEntry m _ (kept_framesOk m) B k st h
    have l3 := iterEntry_frames m B k st
    split
    · trivial
    · rename_i st4 hsimple
      have h4 := kept_simple m _ (kept_framesOk m) k _ st4 hsimple h3
      have l4 : st4.frames.length = k := by
        rw [simple_frames m k _ st4 hsimple, l3]; exact hl
      refine ⟨fun _ => satCalls_frames m k answers _ (kept_stepEntry m _ (kept_framesOk m) B k st4 h4)
        (Or.inl (by rw [(stepEntry_frames m B k st4).1]; exact l4)), ?_⟩
      split
      · rename_i rest5 st5 hstep
        have h5 := kept_stepOpt m _ (kept_framesOk m) ses B k answers st4 false rest5 st5 hstep h4
        have l5 : (ses.bonly = false → st5.frames.length = k + 1) ∧
            (ses.bonly = true → st5.frames.length = k) := by
          cases hb : ses.bonly
          · rw [hb] at hstep
            simp only [Bool.not_false, if_true] at hstep
            exact ⟨fun _ => step_length m B k answers st4 false rest5 st5 h4.1 hstep,
              fun hc => Bool.noConfusion hc⟩
          · rw [hb] at hstep
            simp only [Bool.not_true, Bool.false_eq_true, if_false, Option.some.injEq,
              Prod.mk.injEq, true_and] at hstep
            rw [← hstep.2]
            exact ⟨fun hc => Bool.noConfusion hc, fun _ => l4⟩
        split
        · trivial
        · have l5' : st5.frames.length = k ∨ st5.frames.length = k + 1 := by
            cases hb : ses.bonly
            · exact Or.inr (l5.1 hb)
            · exact Or.inl (l5.2 hb)
          refine ⟨fun _ => satCalls_frames m k rest5 _
            (kept_baseEntry m _ (kept_framesOk m) ses k st5 h5)
            (by rw [(baseEntry_frames m ses k st5).1]; exact l5'), ?_⟩
          split
          · rename_i rest6 st6 hbase
            have h6 := kept_baseOpt m _ (kept_framesOk m) ses k rest5 st5 false rest6 st6 hbase h5
            refine ih (k + 1) rest6 st6 h6 ?_
            cases hi : ses.ionly
            · rw [hi] at hbase
              simp only [Bool.not_false, if_true] at hbase
              exact base_length m ses k rest5 st5 false rest6 st6 h5.1 hbase
            · rw [hi] at hbase
              simp only [Bool.not_true, Bool.false_eq_true, if_false, Option.some.injEq,
                Prod.mk.injEq, true_and] at hbase
              rw [← hbase.2]
              rcases hses with hc | hc
              · rw [hi] at hc; exact Bool.noConfusion hc
              · exact l5.1 hc
          · trivial
      · trivial

/-- C20: in a run of the main loop with `rcs` or `mix` set that starts with
no frame recorded, every entry of `sat (k)` passes the assertions of the
bookkeeping and leaves `nframes = k + 1 <= sframes` with `frames[0..k]` a
permutation of `0..k`; this holds at every `picosat_sat` call of `sat (k)` and
again after the call of `qsort`, and every pair that the scan hands to `diffs`
consists of two different frame indices among `0..k`. -/
theorem frames_invariant (m : Aiger) (ses : Session) (B : Backend) (answers : List Answer)
    (st : State) (hf : st.flags.rcs = true ∨ st.flags.mix = true) (h0 : st.frames = []) :
    RunCalls (fun _ => SatEntryOk) (fun _ => SatCallOk m) m ses B (ses.maxk + 1) 0 answers st := by
  have hok : FramesOk st := by
    refine ⟨?_, ?_, ?_⟩
    · rcases hf with h | h <;> simp [h]
    · rw [h0]; exact List.Perm.refl _
    · rw [h0]; exact Nat.zero_le _
  by_cases hses : ses.ionly = false ∨ ses.bonly = false
  · exact runCalls_frames m ses B hses _ 0 answers st hok (by rw [h0]; rfl)
  · have hi : ses.ionly = true := by
      cases h : ses.ionly
      · exact absurd (Or.inl h) hses
      · rfl
    have hb : ses.bonly = true := by
      cases h : ses.bonly
      · exact absurd (Or.inr h) hses
      · rfl
    exact runCalls_skip _ _ m ses B hi hb _ 0 answers st

/-- C20, at the run of `twoLatchCircuit` under `-r` with bound 1 in which the
step of round 1 is refined once. -/
theorem frames_invariant_witness :
    (runMain twoLatchCircuit ⟨false, false, false, 1⟩ quietBackend refineAnswers
        (State.initial refinement)).map (fun r => (r.1, r.2.frames, r.2.sframes)) =
      some (20, [0, 1], 2) ∧
    RunCalls (fun _ => SatEntryOk) (fun _ => SatCallOk twoLatchCircuit) twoLatchCircuit
      ⟨false, false, false, 1⟩ quietBackend ((⟨false, false, false, 1⟩ : Session).maxk + 1) 0
      refineAnswers (State.initial refinement) :=
  ⟨by decide, frames_invariant twoLatchCircuit ⟨false, false, false, 1⟩ quietBackend
    refineAnswers (State.initial refinement) (Or.inl rfl) rfl⟩

/-! ## Invariants of the rounds of the main loop -/

theorem loopCalls_and (Q Q' : Nat → State → Answer → Prop) (m : Aiger) (k : Nat) :
    ∀ (answers : List Answer) (st : State), LoopCalls Q m k answers st →
      LoopCalls Q' m k answers st →
      LoopCalls (fun k s a => Q k s a ∧ Q' k s a) m k answers st := by
  intro answers
  induction answers with
  | nil => intro st _ _; trivial
  | cons a as ih =>
    intro st h h'
    refine ⟨⟨h.1, h'.1⟩, ?_⟩
    have h2 := h.2
    have h2' := h'.2
    split
    · rename_i st1 hn
      rw [hn] at h2 h2'
      exact ih st1 h2 h2'
    · trivial

theorem satCalls_and (E E' : Nat → State → Prop) (Q Q' : Nat → State → Answer → Prop)
    (m : Aiger) (k : Nat) (answers : List Answer) (st : State)
    (h : SatCalls E Q m k answers st) (h' : SatCalls E' Q' m k answers st) :
    SatCalls (fun k s => E k s ∧ E' k s) (fun k s a => Q k s a ∧ Q' k s a) m k answers st := by
  refine ⟨⟨h.1, h'.1⟩, ?_⟩
  have h2 := h.2
  have h2' := h'.2
  split
  · trivial
  · rename_i st1 hb
    rw [hb] at h2 h2'
    exact loopCalls_and Q Q' m k answers st1 h2 h2'

theorem runCalls_and (E E' : Bool → Nat → State → Prop)
    (Q Q' : Bool → Nat → State → Answer → Prop) (m : Aiger) (ses : Session) (B : Backend) :
    ∀ (n k : Nat) (answers : List Answer) (st : State),
      RunCalls E Q m ses B n k answers st → RunCalls E' Q' m ses B n k answers st →
      RunCalls (fun b k s => E b k s ∧ E' b k s) (fun b k s a => Q b k s a ∧ Q' b k s a)
        m ses B n k answers st := by
  intro n
  induction n with
  | zero => intro k answers st _ _; trivial
  | succ n ih =>
    intro k answers st h h'
    unfold RunCalls at h h' ⊢
    split
    · trivial
    · rename_i st4 hsimple
      rw [hsimple] at h h'
      simp only at h h'
      refine ⟨fun hb => satCalls_and _ _ _ _ m k _ _ (h.1 hb) (h'.1 hb), ?_⟩
      have h2 := h.2
      have h2' := h'.2
      split
      · rename_i rest5 st5 hstep
        rw [hstep] at h2 h2'
        simp only at h2 h2'
        split
        · trivial
        · rename_i hinc
          rw [if_neg hinc] at h2 h2'
          refine ⟨fun hb => satCalls_and _ _ _ _ m k _ _ (h2.1 hb) (h2'.1 hb), ?_⟩
          have h3 := h2.2
          have h3' := h2'.2
          split
          · rename_i rest6 st6 hbase
            rw [hbase] at h3 h3'
            simp only at h3 h3'
            exact ih (k + 1) rest6 st6 h3 h3'
          · trivial
      · trivial

theorem loopCalls_inv (m : Aiger) (k : Nat) (L : Nat → State → Prop)
    (Q : Nat → State → Answer → Prop)
    (hrestart : ∀ a st st1, L k st → Q k st a → satNext m k a st = some st1 → L k st1) :
    ∀ (answers : List Answer) (st : State), L k st → LoopCalls Q m k answers st →
      LoopCalls (fun k s _ => L k s) m k answers st := by
  intro answers
  induction answers with
  | nil => intro st _ _; trivial
  | cons a as ih =>
    intro st h hq
    refine ⟨h, ?_⟩
    have h2 := hq.2
    split
    · rename_i st1 hn
      rw [hn] at h2
      exact ih st1 (hrestart a st st1 h hq.1 hn) h2
    · trivial

theorem satLoop_exit (m : Aiger) (k : Nat) (L X : State → Prop)
    (Q : Nat → State → Answer → Prop)
    (hrestart : ∀ a st st1, L st → Q k st a → satNext m k a st = some st1 → L st1)
    (hleave : ∀ a st st1, L st → Q k st a →
      (st1 = picosat_sat a st ∨
        (st.flags.rcs = true ∧ st1 = sortFrames m k (picosat_sat a st))) → X st1) :
    ∀ (answers : List Answer) (st : State) (r : Res) (rest : List Answer) (st' : State),
      satLoop m k answers st = some (r, rest, st') → L st → LoopCalls Q m k answers st →
      X st' := by
  intro answers
  induction answers with
  | nil => intro st r rest st' hs _ _; simp [satLoop] at hs
  | cons a as ih =>
    intro st r rest st' hs h hq
    rw [satLoop_cons] at hs
    have h2 := hq.2
    split at hs
    · rename_i st1 hn
      rw [hn] at h2
      exact ih st1 r rest st' hs (hrestart a st st1 h hq.1 hn) h2
    · split at hs
      · simp only [Option.some.injEq, Prod.mk.injEq] at hs
        exact hleave a st st' h hq.1 (Or.inl hs.2.2.symm)
      · exact Option.noConfusion hs
      · split at hs
        · simp only [Option.some.injEq, Prod.mk.injEq] at hs
          exact hleave a st st' h hq.1 (Or.inl hs.2.2.symm)
        · rename_i hc
          have hr : st.flags.rcs = true := by simpa [picosat_sat] using hc
          simp only [Option.some.injEq, Prod.mk.injEq] at hs
          exact hleave a st st' h hq.1 (Or.inr ⟨hr, hs.2.2.symm⟩)

theorem sat_exit (m : Aiger) (k : Nat) (E L X : State → Prop)
    (Q : Nat → State → Answer → Prop) (E0 : Nat → State → Prop)
    (hrecord : ∀ st st1, E st → satBookkeeping k st = some st1 → L st1)
    (hrestart : ∀ a st st1, L st → Q k st a → satNext m k a st = some st1 → L st1)
    (hleave : ∀ a st st1, L st → Q k st a →
      (st1 = picosat_sat a st ∨
        (st.flags.rcs = true ∧ st1 = sortFrames m k (picosat_sat a st))) → X st1)
    (answers : List Answer) (st : State) (r : Res) (rest : List Answer) (st' : State)
    (hs : sat m k answers st = some (r, rest, st')) (h : E st)
    (hq : SatCalls E0 Q m k answers st) : X st' := by
  unfold sat at hs
  have h2 := hq.2
  split at hs
  · exact Option.noConfusion hs
  · rename_i st1 hb
    rw [hb] at h2
    exact satLoop_exit m k L X Q hrestart hleave answers st1 r rest st' hs
      (hrecord st st1 h hb) h2

theorem satCalls_inv (m : Aiger) (k : Nat) (E L : Nat → State → Prop)
    (Q : Nat → State → Answer → Prop) (E0 : Nat → State → Prop)
    (hrecord : ∀ st st1, E k st → satBookkeeping k st = some st1 → L k st1)
    (hrestart : ∀ a st st1, L k st → Q k st a → satNext m k a st = some st1 → L k st1)
    (answers : List Answer) (st : State) (h : E k st) (hq : SatCalls E0 Q m k answers st) :
    SatCalls E (fun k s _ => L k s) m k answers st := by
  refine ⟨h, ?_⟩
  have h2 := hq.2
  split
  · trivial
  · rename_i st1 hb
    rw [hb] at h2
    exact loopCalls_inv m k L Q hrestart answers st1 (hrecord st st1 h hb) h2

theorem round_step (m : Aiger) (ses : Session) (B : Backend)
    (Q : Bool → Nat → State → Answer → Prop) (S P M : Nat → State → Prop)
    (E L E0 : Bool → Nat → State → Prop) (hK : RoundKept m ses B Q S P M E L)
    (k : Nat) (answers : List Answer) (st4 : State) (b : Bool) (rest : List Answer)
    (st5 : State) (h4 : P k st4)
    (hq : ses.bonly = false →
      SatCalls (E0 false) (Q false) m k answers (stepEntry m B k st4))
    (hstep : (if !ses.bonly then step m B k answers st4 else some (false, answers, st4)) =
      some (b, rest, st5)) : M k st5 := by
  cases hb : ses.bonly
  · rw [hb] at hstep
    simp only [Bool.not_false, if_true] at hstep
    rw [step_eq] at hstep
    split at hstep
    · exact Option.noConfusion hstep
    · rename_i r rest2 st2 hsat
      simp only [Option.some.injEq, Prod.mk.injEq] at hstep
      rw [← hstep.2.2]
      exact sat_exit m k (E false k) (L false k) (M k) (Q false) (E0 false)
        (hK.record false k) (fun a st st1 => hK.restart false k a st st1)
        (fun a st st1 => hK.leaveStep k a st st1) answers _ r rest2 st2 hsat
        (hK.stepEntry k st4 hb h4) (hq hb)
  · rw [hb] at hstep
    simp only [Bool.not_true, Bool.false_eq_true, if_false, Option.some.injEq,
      Prod.mk.injEq] at hstep
    rw [← hstep.2.2]
    exact hK.skipStep k st4 hb h4

theorem round_base (m : Aiger) (ses : Session) (B : Backend)
    (Q : Bool → Nat → State → Answer → Prop) (S P M : Nat → State → Prop)
    (E L E0 : Bool → Nat → State → Prop) (hK : RoundKept m ses B Q S P M E L)
    (k : Nat) (answers : List Answer) (st5 : State) (b : Bool) (rest : List Answer)
    (st6 : State) (h5 : M k st5)
    (hq : ses.ionly = false →
      SatCalls (E0 true) (Q true) m k answers (baseEntry m ses k st5))
    (hbase : (if !ses.ionly then base m ses k answers st5 else some (false, answers, st5)) =
      some (b, rest, st6)) : S (k + 1) st6 := by
  cases hi : ses.ionly
  · rw [hi] at hbase
    simp only [Bool.not_false, if_true] at hbase
    rw [base_eq] at hbase
    split at hbase
    · exact Option.noConfusion hbase
    · rename_i r rest2 st2 hsat
      simp only [Option.some.injEq, Prod.mk.injEq] at hbase
      rw [← hbase.2.2]
      exact sat_exit m k (E true k) (L true k)
        (fun s => S (k + 1) (if s.flags.acs then { s with adoEnabled := true } else s))
        (Q true) (E0 true)
        (hK.record true k) (fun a st st1 => hK.restart true k a st st1)
        (fun a st st1 => hK.leaveBase k a st st1) answers _ r rest2 st2 hsat
        (hK.baseEntry k st5 hi h5) (hq hi)
  · rw [hi] at hbase
    simp only [Bool.not_true, Bool.false_eq_true, if_false, Option.some.injEq,
      Prod.mk.injEq] at hbase
    rw [← hbase.2.2]
    exact hK.skipBase k st5 hi h5

/-- In a run whose `picosat_sat` calls satisfy `Q`, the invariants of the
rounds hold at every entry of `sat` and at every `picosat_sat` call. -/
theorem round_runCalls (m : Aiger) (ses : Session) (B : Backend)
    (Q : Bool → Nat → State → Answer → Prop) (S P M : Nat → State → Prop)
    (E L E0 : Bool → Nat → State → Prop) (hK : RoundKept m ses B Q S P M E L) :
    ∀ (n k : Nat) (answers : List Answer) (st : State), S k st →
      RunCalls E0 Q m ses B n k answers st →
      RunCalls E (fun b k s _ => L b k s) m ses B n k answers st := by
  intro n
  induction n with
  | zero => intro k answers st _ _; trivial
  | succ n ih =>
    intro k answers st h hq
    unfold RunCalls at hq ⊢
    split
    · trivial
    · rename_i st4 hsimple
      rw [hsimple] at hq
      simp only at hq
      have h4 := hK.enter k st st4 h hsimple
      refine ⟨fun hb => satCalls_inv m k (E false) (L false) (Q false) (E0 false)
        (hK.record false k) (fun a st st1 => hK.restart false k a st st1) answers _
        (hK.stepEntry k st4 hb h4) (hq.1 hb), ?_⟩
      have hq2 := hq.2
      split
      · rename_i rest5 st5 hstep
        rw [hstep] at hq2
        simp only at hq2
        have h5 := round_step m ses B Q S P M E L E0 hK k answers st4 false rest5 st5 h4
          hq.1 hstep
        split
        · trivial
        · rename_i hinc
          rw [if_neg hinc] at hq2
          refine ⟨fun hi => satCalls_inv m k (E true) (L true) (Q true) (E0 true)
            (hK.record true k) (fun a st st1 => hK.restart true k a st st1) rest5 _
            (hK.baseEntry k st5 hi h5) (hq2.1 hi), ?_⟩
          have hq3 := hq2.2
          split
          · rename_i rest6 st6 hbase
            rw [hbase] at hq3
            simp only at hq3
            exact ih (k + 1) rest6 st6
              (round_base m ses B Q S P M E L E0 hK k rest5 st5 false rest6 st6 h5 hq2.1 hbase)
              hq3
          · trivial
      · trivial

/-- In a run whose `picosat_sat` calls satisfy `Q`, the main loop is left in a
state that satisfies the invariant of the place where it is left. -/
theorem round_mainLoop (m : Aiger) (ses : Session) (B : Backend)
    (Q : Bool → Nat → State → Answer → Prop) (S P M : Nat → State → Prop)
    (E L E0 : Bool → Nat → State → Prop) (hK : RoundKept m ses B Q S P M E L) :
    ∀ (n k : Nat) (answers : List Answer) (st : State) (res k' : Nat) (rest : List Answer)
      (st' : State), S k st → RunCalls E0 Q m ses B n k answers st →
      mainLoop m ses B n k answers st = some (res, k', rest, st') →
      (res = 0 ∧ k' = k + n ∧ S k' st') ∨ (res = 20 ∧ k' < k + n ∧ M k' st') ∨
      (res = 10 ∧ k' < k + n ∧ S (k' + 1) st') := by
  intro n
  induction n with
  | zero =>
    intro k answers st res k' rest st' h _ hs
    simp only [mainLoop, Option.some.injEq, Prod.mk.injEq] at hs
    obtain ⟨rfl, rfl, _, rfl⟩ := hs
    exact Or.inl ⟨rfl, rfl, h⟩
  | succ n ih =>
    intro k answers st res k' rest st' h hq hs
    rw [mainLoop_succ] at hs
    unfold RunCalls at hq
    split at hs
    · exact Option.noConfusion hs
    · rename_i st4 hsimple
      rw [hsimple] at hq
      simp only at hq
      have h4 := hK.enter k st st4 h hsimple
      have hq2 := hq.2
      split at hs
      · exact Option.noConfusion hs
      · rename_i rest5 st5 hstep
        have h5 := round_step m ses B Q S P M E L E0 hK k answers st4 true rest5 st5 h4
          hq.1 hstep
        simp only [Option.some.injEq, Prod.mk.injEq] at hs
        obtain ⟨rfl, rfl, _, rfl⟩ := hs
        exact Or.inr (Or.inl ⟨rfl, by omega, hK.printM _ _ _ h5⟩)
      · rename_i rest5 st5 hstep
        rw [hstep] at hq2
        simp only at hq2
        have h5 := round_step m ses B Q S P M E L E0 hK k answers st4 false rest5 st5 h4
          hq.1 hstep
        split at hs
        · simp only [Option.some.injEq, Prod.mk.injEq] at hs
          obtain ⟨rfl, rfl, _, rfl⟩ := hs
          exact Or.inr (Or.inl ⟨rfl, by omega, hK.printM _ _ _ h5⟩)
        · rename_i hinc
          rw [if_neg hinc] at hq2
          have hq3 := hq2.2
          split at hs
          · exact Option.noConfusion hs
          · rename_i rest6 st6 hbase
            have h6 := round_base m ses B Q S P M E L E0 hK k rest5 st5 true rest6 st6 h5
              hq2.1 hbase
            simp only [Option.some.injEq, Prod.mk.injEq] at hs
            obtain ⟨rfl, rfl, _, rfl⟩ := hs
            refine Or.inr (Or.inr ⟨rfl, by omega, ?_⟩)
            split
            · exact hK.printS _ _ _ (hK.printS _ _ _ h6)
            · exact hK.printS _ _ _ h6
          · rename_i rest6 st6 hbase
            rw [hbase] at hq3
            simp only at hq3
            have h6 := round_base m ses B Q S P M E L E0 hK k rest5 st5 false rest6 st6 h5
              hq2.1 hbase
            rcases ih (k + 1) rest6 st6 res k' rest st' h6 hq3 hs with
              ⟨h1, h2, h3⟩ | ⟨h1, h2, h3⟩ | ⟨h1, h2, h3⟩
            · exact Or.inl ⟨h1, by omega, h3⟩
            · exact Or.inr (Or.inl ⟨h1, by omega, h3⟩)
            · exact Or.inr (Or.inr ⟨h1, by omega, h3⟩)

/-! ## Models and the clauses of `diffs` -/

theorem models_nil (d : Int → Int) : Models d [] := by
  intro c hc
  simp [clausesOf, clausesAux] at hc

theorem models_append (d : Int → Int) {a : List Int} (ha : Closed a) (b : List Int) :
    Models d (a ++ b) ↔ Models d a ∧ Models d b := by
  unfold Models
  rw [clausesOf_append ha]
  simp only [List.mem_append]
  constructor
  · intro h
    exact ⟨fun c hc => h c (Or.inl hc), fun c hc => h c (Or.inr hc)⟩
  · rintro ⟨h1, h2⟩ c (hc | hc)
    · exact h1 c hc
    · exact h2 c hc

theorem models_flatMap {α : Type} (d : Int → Int) (g : α → List Int) (l : List α)
    (h : ∀ x ∈ l, Closed (g x)) :
    Models d (l.flatMap g) ↔ ∀ x ∈ l, Models d (g x) := by
  induction l with
  | nil => simp [models_nil]
  | cons x xs ih =>
    rw [List.flatMap_cons, models_append d (h x (List.mem_cons_self _ _)),
      ih fun y hy => h y (List.mem_cons_of_mem _ hy)]
    simp

theorem models_clause (d : Int → Int) (c : List Int) (hc : ∀ x ∈ c, x ≠ 0) :
    Models d (c ++ [0]) ↔ (∃ x ∈ c, d x = 1) ∧ ∀ x ∈ c, d (-x) = -d x := by
  unfold Models
  rw [clausesOf_clause c hc]
  simp

theorem models_chunk (d : Int → Int) (chunk added : List Int) (hc : Closed chunk)
    (h : ChunkIn chunk added) (hm : Models d added) : Models d chunk := by
  obtain ⟨pre, post, hpre, rfl⟩ := h
  rw [List.append_assoc, models_append d hpre, models_append d hc] at hm
  exact hm.2.1

theorem models_ternary (d : Int → Int) {a b c : Int} (ha : a ≠ 0) (hb : b ≠ 0) (hc : c ≠ 0) :
    Models d (ternary a b c) ↔
      (d a = 1 ∨ d b = 1 ∨ d c = 1) ∧ d (-a) = -d a ∧ d (-b) = -d b ∧ d (-c) = -d c := by
  have h := models_clause d [a, b, c] (by
    intro x hx
    simp only [List.mem_cons, List.mem_singleton, List.not_mem_nil, or_false] at hx
    rcases hx with rfl | rfl | rfl <;> assumption)
  have he : ternary a b c = [a, b, c] ++ [0] := rfl
  rw [he, h]
  simp

theorem models_diffsOrdered_differ (m : Aiger) (f : Regime) (k l : Nat) (d : Int → Int)
    (hnz : ∀ i < m.num_latches, diff m f k l i ≠ 0) (h : Models d (diffsOrdered m f k l)) :
    ∃ i < m.num_latches, d (latch m f k i) ≠ d (latch m f l i) := by
  unfold diffsOrdered at h
  rw [List.append_assoc,
    models_append d (closed_flatMap _ _ fun i _ => closed_diffs_latch m f k l i),
    models_flatMap d _ _ fun i _ => closed_diffs_latch m f k l i] at h
  obtain ⟨hlat, hcl⟩ := h
  rw [models_clause d _ (by
    intro x hx
    simp only [List.mem_map, List.mem_range] at hx
    obtain ⟨i, hi, rfl⟩ := hx
    exact hnz i hi)] at hcl
  obtain ⟨⟨x, hx, hx1⟩, _⟩ := hcl
  simp only [List.mem_map, List.mem_range] at hx
  obtain ⟨i, hi, rfl⟩ := hx
  refine ⟨i, hi, ?_⟩
  have h2 := hlat i (List.mem_range.mpr hi)
  have hl0 := latch_ne_zero m f l i
  have hk0 := latch_ne_zero m f k i
  have hd0 := hnz i hi
  have hnl : -latch m f l i ≠ 0 := by omega
  have hnk : -latch m f k i ≠ 0 := by omega
  have hnd : -diff m f k l i ≠ 0 := by omega
  rw [models_append d (closed_ternary _ _ _), models_ternary d hl0 hk0 hnd,
    models_ternary d hnl hnk hnd] at h2
  obtain ⟨⟨c1, _, _, c4⟩, ⟨c5, c6, c7, _⟩⟩ := h2
  simp only [neg_neg] at c4 c6 c7
  omega

theorem diff_ne_zero (m : Aiger) (f : Regime) (hf : f.usesDiff = true) (k l i : Nat)
    (hlk : l < k) (hi : i < m.num_latches) : diff m f k l i ≠ 0 := by
  have h1 := (diff_interval m f hf k l i hlk hi).1
  have h2 := frame_pos m f k
  have h3 : (0 : Int) ≤ m.maxvar := Int.ofNat_nonneg _
  omega

/-- After the clauses of `diffs` for two different frames, the frames do not
compare equal under `cmp_frames` in any model of the clauses. -/
theorem cmp_frames_ne_of_models (m : Aiger) (f : Regime) (hf : f.usesDiff = true)
    (x y : Nat) (hxy : x ≠ y) (d : Int → Int) (h : Models d (diffs m f x y)) :
    cmp_frames m f d x y ≠ 0 ∧ cmp_frames m f d y x ≠ 0 := by
  have key : ∀ k l, l < k → Models d (diffsOrdered m f k l) →
      cmp_frames m f d k l ≠ 0 ∧ cmp_frames m f d l k ≠ 0 := by
    intro k l hlk hm
    obtain ⟨i, hi, hne⟩ := models_diffsOrdered_differ m f k l d
      (fun i hi => diff_ne_zero m f hf k l i hlk hi) hm
    constructor
    · intro h0
      rw [cmp_frames_eq_zero] at h0
      exact hne (List.map_inj_left.mp h0 i (List.mem_range.mpr hi))
    · intro h0
      rw [cmp_frames_eq_zero] at h0
      exact hne (List.map_inj_left.mp h0 i (List.mem_range.mpr hi)).symm
  unfold diffs at h
  split at h
  · rename_i hlt
    exact (key y x hlt h).symm
  · exact key x y (by omega) h

theorem frame_congr (m : Aiger) (f g : Regime) (h : g.usesDiff = f.usesDiff) :
    frame m g = frame m f := by
  funext k
  unfold frame
  unfold Regime.usesDiff at h
  rw [h]

theorem diffs_congr (m : Aiger) (f g : Regime) (h : g.usesDiff = f.usesDiff) (x y : Nat) :
    diffs m g x y = diffs m f x y := by
  have hfr := frame_congr m f g h
  unfold diffs diffsOrdered latch diff lit
  simp only [hfr]

theorem firstEqual_cmp (cmp : Nat → Nat → Int) :
    ∀ (l : List Nat) (x y : Nat), firstEqual cmp l = some (x, y) → cmp x y = 0 := by
  intro l
  induction l with
  | nil => intro x y h; simp [firstEqual] at h
  | cons a t ih =>
    intro x y h
    cases t with
    | nil => simp [firstEqual] at h
    | cons b rest =>
      simp only [firstEqual] at h
      split_ifs at h with hc
      · simp only [Option.some.injEq, Prod.mk.injEq] at h
        obtain ⟨rfl, rfl⟩ := h
        exact hc
      · exact ih x y h

theorem pairs_length_le :
    ∀ (n : Nat) (R : List (Nat × Nat)), R.Nodup → (∀ p ∈ R, p.1 < p.2 ∧ p.2 < n) →
      R.length ≤ n * (n - 1) / 2 := by
  intro n
  induction n with
  | zero =>
    intro R _ h
    cases R with
    | nil => simp
    | cons p t => exact absurd (h p (List.mem_cons_self _ _)).2 (Nat.not_lt_zero _)
  | succ n ih =>
    intro R hnd h
    have h1 := ih (R.filter fun p => decide (p.2 < n)) (hnd.filter _) (by
      intro p hp
      rw [List.mem_filter] at hp
      exact ⟨(h p hp.1).1, by simpa using hp.2⟩)
    have h2 : (R.filter fun p => !decide (p.2 < n)).length ≤ n := by
      have hnd2 : (R.filter fun p => !decide (p.2 < n)).Nodup := hnd.filter _
      have hmem : ∀ p ∈ R.filter (fun p => !decide (p.2 < n)), p.1 < n ∧ p.2 = n := by
        intro p hp
        rw [List.mem_filter] at hp
        have hp1 := h p hp.1
        have hp2 : ¬ p.2 < n := by simpa using hp.2
        omega
      have hinj : ((R.filter fun p => !decide (p.2 < n)).map Prod.fst).Nodup := by
        rw [List.nodup_map_iff_inj_on hnd2]
        intro p hp q hq hpq
        have e1 := (hmem p hp).2
        have e2 := (hmem q hq).2
        exact Prod.ext hpq (by rw [e1, e2])
      have hsub : ((R.filter fun p => !decide (p.2 < n)).map Prod.fst) ⊆ List.range n := by
        intro x hx
        rw [List.mem_map] at hx
        obtain ⟨p, hp, rfl⟩ := hx
        exact List.mem_range.mpr (hmem p hp).1
      have hle := (List.subperm_of_subset hinj hsub).length_le
      simpa using hle
    have h3 := List.length_eq_length_filter_add (l := R) (fun p => decide (p.2 < n))
    have h4 := pairs_succ 1 n
    simp only [Nat.one_mul, Nat.add_sub_cancel] at h4 ⊢
    omega

/-! ## The refined pairs of a run -/

theorem extends_refl (st : State) : Extends st st :=
  ⟨rfl, le_refl _, rfl, [], closed_nil, (List.append_nil _).symm⟩

theorem extends_trans {st st1 st2 : State} (h1 : Extends st st1) (h2 : Extends st1 st2) :
    Extends st st2 := by
  obtain ⟨a1, b1, c1, xs, hx, d1⟩ := h1
  obtain ⟨a2, b2, c2, ys, hy, d2⟩ := h2
  exact ⟨a2.trans a1, b1.trans b2, c2.trans c1, xs ++ ys, closed_append hx hy,
    by rw [d2, d1, List.append_assoc]⟩

theorem extends_add (st : State) (xs : List Int) (h : Closed xs) :
    Extends st (picosat_add xs st) :=
  ⟨rfl, le_refl _, rfl, xs, h, rfl⟩

theorem extends_same (st st1 : State) (hf : st1.flags = st.flags)
    (hl : st1.frames.length = st.frames.length) (hn : st1.nrcs = st.nrcs)
    (ha : st1.added = st.added) : Extends st st1 :=
  ⟨by rw [hf], by rw [hl], hn, [], closed_nil, by rw [ha, List.append_nil]⟩

theorem extends_switch (st : State) (hm : st.flags.mix = true) :
    Extends st (switchToRefinement st) :=
  ⟨by simp [switchToRefinement, Regime.usesDiff, hm], le_refl _, rfl, [], closed_nil,
    (List.append_nil _).symm⟩

theorem extends_foldl {α : Type} (g : State → α → State) (hg : ∀ st x, Extends st (g st x))
    (l : List α) (st : State) : Extends st (l.foldl g st) :=
  kept_foldl (fun s => Extends st s) g (fun s x hs => extends_trans hs (hg s x)) l st
    (extends_refl st)

theorem extends_iterEntry (m : Aiger) (B : Backend) (k : Nat) (st : State) :
    Extends st (iterEntry m B k st) := by
  unfold iterEntry
  refine extends_trans (extends_trans ?_ (extends_add _ _ (closed_connect m _ k)))
    (extends_add _ _ (closed_encode m _ k))
  split
  · rename_i hc
    simp only [Bool.and_eq_true] at hc
    exact extends_switch st hc.1.1
  · exact extends_refl st

theorem extends_simple (m : Aiger) (k : Nat) (st st1 : State)
    (h : simple m k st = some st1) : Extends st st1 := by
  unfold simple at h
  split_ifs at h <;> simp only [Option.some.injEq] at h <;> subst h
  · unfold run_diffsk
    split
    · exact extends_refl st
    · exact extends_foldl (fun s l => run_diffs m k l s)
        (fun s l => ⟨rfl, le_refl _, rfl, _, closed_diffs m s.flags k l, rfl⟩) _ st
  · exact extends_same _ _ rfl rfl rfl rfl
  · exact extends_refl st

theorem extends_stepEntry (m : Aiger) (B : Backend) (k : Nat) (st : State) :
    Extends st (stepEntry m B k st) := by
  unfold stepEntry bad picosat_assume
  split <;> exact extends_same _ _ rfl rfl rfl rfl

theorem extends_init (m : Aiger) (ses : Session) (k : Nat) (st : State) :
    Extends st (init m ses k st) := by
  unfold init
  split
  · exact extends_refl st
  · refine extends_foldl _ (fun s i => ?_) _ st
    beta_reduce
    split
    · exact extends_add _ _ (closed_unary _)
    · exact extends_same _ _ rfl rfl rfl rfl

theorem extends_baseEntry (m : Aiger) (ses : Session) (k : Nat) (st : State) :
    Extends st (baseEntry m ses k st) := by
  unfold baseEntry
  refine extends_trans (extends_trans ?_ (extends_init m ses k _))
    (extends_same _ _ rfl rfl rfl rfl)
  split <;> exact extends_same _ _ rfl rfl rfl rfl

theorem extends_record (k : Nat) (st st1 : State) (h : satBookkeeping k st = some st1) :
    Extends st st1 := by
  unfold satBookkeeping at h
  split_ifs at h <;> simp only [Option.some.injEq] at h <;> subst h
  · exact ⟨rfl, by simp, rfl, [], closed_nil, (List.append_nil _).symm⟩
  · exact extends_refl st
  · exact extends_refl st

theorem extends_sort (m : Aiger) (k : Nat) (st : State) : Extends st (sortFrames m k st) :=
  extends_same _ _ rfl (sortFrames_perm m k st).length_eq rfl rfl

theorem chunkIn_append (chunk added xs : List Int) (h : ChunkIn chunk added) :
    ChunkIn chunk (added ++ xs) := by
  obtain ⟨pre, post, hpre, rfl⟩ := h
  exact ⟨pre, post ++ xs, hpre, by simp only [List.append_assoc]⟩

theorem refinedPairs_extends (m : Aiger) (st st1 : State) (h : Extends st st1)
    (hc : Closed st.added) (hr : RefinedPairs m st) :
    Closed st1.added ∧ RefinedPairs m st1 := by
  obtain ⟨hu, hl, hn, xs, hx, ha⟩ := h
  refine ⟨by rw [ha]; exact closed_append hc hx, ?_⟩
  obtain ⟨R, hnd, hlen, hR⟩ := hr
  refine ⟨R, hnd, by rw [hn]; exact hlen, fun p hp => ?_⟩
  obtain ⟨h1, h2, h3⟩ := hR p hp
  refine ⟨h1, by omega, ?_⟩
  rw [diffs_congr m st.flags st1.flags hu, ha]
  exact chunkIn_append _ _ _ h3

theorem refinedUpTo_extends (m : Aiger) (st st1 : State) (h : Extends st st1)
    (hf : FramesOk st1) (hr : RefinedUpTo m st) : RefinedUpTo m st1 :=
  ⟨hf, refinedPairs_extends m st st1 h hr.2.1 hr.2.2⟩

theorem usesDiff_of_framesOk (st : State) (h : FramesOk st) : st.flags.usesDiff = true := by
  have h1 := h.1
  unfold Regime.usesDiff
  simp only [Bool.or_eq_true] at h1 ⊢
  rcases h1 with h1 | h1
  · exact Or.inl (Or.inr h1)
  · exact Or.inr h1

theorem refined_restart (m : Aiger) (k : Nat) (a : Answer) (st st1 : State)
    (h : Refined m k st) (hq : SoundAnswer st a) (hn : satNext m k a st = some st1) :
    Refined m k st1 := by
  obtain ⟨⟨hok, hcl, hR⟩, hlen⟩ := h
  have hok1 : FramesOk st1 := kept_satNext m _ (kept_framesOk m) k a st st1 hn hok
  have hlen1 : st1.frames.length = k + 1 := by
    rw [(satNext_frames m k a st st1 hn).1.length_eq]; exact hlen
  refine ⟨⟨hok1, ?_⟩, hlen1⟩
  unfold satNext at hn
  split at hn
  · exact Option.noConfusion hn
  · split at hn
    · rename_i hc
      simp only [Bool.and_eq_true, Bool.not_eq_true'] at hc
      simp only [Option.some.injEq] at hn
      subst hn
      exact refinedPairs_extends m st _
        (extends_trans (extends_same st (picosat_sat a st) rfl rfl rfl rfl)
          (extends_switch _ hc.1.1)) hcl hR
    · exact Option.noConfusion hn
  · rename_i hres
    split at hn
    · exact Option.noConfusion hn
    · split at hn
      · rename_i x y hfe
        simp only [Option.some.injEq] at hn
        subst hn
        have hmod : Models a.deref st.added := hq hres
        have hcmp : cmp_frames m st.flags a.deref x y = 0 := firstEqual_cmp _ _ x y hfe
        have hrec : FramesRecorded k (sortFrames m k (picosat_sat a st)) :=
          (satCallOk_of_recorded m k st a
            ((framesRecorded_iff k st hok.1).mpr ⟨hok, hlen⟩)).2.1
        have hdist : x ≠ y ∧ x ≤ k ∧ y ≤ k := by
          refine firstEqual_distinct _ _ k ?_ x y hfe
          rw [List.take_of_length_le (by rw [hrec.1])]
          exact hrec.2.2
        have hu := usesDiff_of_framesOk st hok
        obtain ⟨R, hnd, hlenR, hRp⟩ := hR
        have hnew : ∀ p ∈ R, ¬ ((p.1 = x ∧ p.2 = y) ∨ (p.1 = y ∧ p.2 = x)) := by
          intro p hp hpxy
          obtain ⟨_, _, hch⟩ := hRp p hp
          have hmc := models_chunk a.deref _ _ (closed_diffs m st.flags p.1 p.2) hch hmod
          rcases hpxy with ⟨e1, e2⟩ | ⟨e1, e2⟩
          · rw [e1, e2] at hmc
            exact (cmp_frames_ne_of_models m st.flags hu x y hdist.1 a.deref hmc).1 hcmp
          · rw [e1, e2] at hmc
            exact (cmp_frames_ne_of_models m st.flags hu y x (Ne.symm hdist.1)
              a.deref hmc).2 hcmp
        refine ⟨closed_append hcl (closed_diffs m st.flags x y), ?_⟩
        refine ⟨(if x < y then (x, y) else (y, x)) :: R, ?_, ?_, ?_⟩
        · rw [List.nodup_cons]
          refine ⟨fun hmem => ?_, hnd⟩
          apply hnew _ hmem
          split
          · exact Or.inl ⟨rfl, rfl⟩
          · exact Or.inr ⟨rfl, rfl⟩
        · show st.nrcs + 1 = R.length + 1
          rw [hlenR]
        · intro p hp
          rw [List.mem_cons] at hp
          have hadd : (bad m k { run_diffs m x y (sortFrames m k (picosat_sat a st)) with
              nrcs := (sortFrames m k (picosat_sat a st)).nrcs + 1 }).added =
              st.added ++ diffs m st.flags x y := rfl
          have hfl : (bad m k { run_diffs m x y (sortFrames m k (picosat_sat a st)) with
              nrcs := (sortFrames m k (picosat_sat a st)).nrcs + 1 }).flags = st.flags := rfl
          rw [hadd, hfl, hlen1]
          rcases hp with rfl | hp
          · have hch : ChunkIn (diffs m st.flags x y) (st.added ++ diffs m st.flags x y) :=
              ⟨st.added, [], hcl, (List.append_nil _).symm⟩
            split
            · rename_i hlt
              exact ⟨hlt, by omega, hch⟩
            · rename_i hlt
              refine ⟨by simp only; omega, by simp only; omega, ?_⟩
              rw [diffs_comm m st.flags y x]
              exact hch
          · obtain ⟨h1, h2, h3⟩ := hRp p hp
            exact ⟨h1, by omega, chunkIn_append _ _ _ h3⟩
      · exact Option.noConfusion hn

theorem roundKept_refined (m : Aiger) (ses : Session) (B : Backend) :
    RoundKept m ses B (fun _ _ s a => SoundAnswer s a)
      (fun k s => RefinedUpTo m s ∧ s.frames.length ≤ k)
      (fun k s => RefinedUpTo m s ∧ s.frames.length ≤ k)
      (fun k s => RefinedUpTo m s ∧ s.frames.length ≤ k + 1)
      (fun _ k s => RefinedUpTo m s ∧ s.frames.length ≤ k + 1)
      (fun _ k s => Refined m k s) where
  enter := fun k st st1 h hs =>
    ⟨refinedUpTo_extends m st _
      (extends_trans (extends_iterEntry m B k st) (extends_simple m k _ st1 hs))
      (kept_simple m _ (kept_framesOk m) k _ st1 hs
        (kept_iterEntry m _ (kept_framesOk m) B k st h.1.1)) h.1,
      by rw [simple_frames m k _ st1 hs, iterEntry_frames]; exact h.2⟩
  stepEntry := fun k st _ h =>
    ⟨refinedUpTo_extends m st _ (extends_stepEntry m B k st)
      (kept_stepEntry m _ (kept_framesOk m) B k st h.1.1) h.1,
      by rw [(stepEntry_frames m B k st).1]; exact Nat.le_succ_of_le h.2⟩
  skipStep := fun k st _ h => ⟨h.1, Nat.le_succ_of_le h.2⟩
  baseEntry := fun k st _ h =>
    ⟨refinedUpTo_extends m st _ (extends_baseEntry m ses k st)
      (kept_baseEntry m _ (kept_framesOk m) ses k st h.1.1) h.1,
      by rw [(baseEntry_frames m ses k st).1]; exact h.2⟩
  skipBase := fun k st _ h => h
  record := fun b k st st1 h hb => by
    refine ⟨refinedUpTo_extends m st _ (extends_record k st st1 hb)
      ((kept_framesOk m).record st st1 k hb h.1.1) h.1, ?_⟩
    obtain ⟨_, _, _, _, _, _, hc⟩ := satBookkeeping_cases k st st1 hb
    rcases hc with ⟨_, ⟨hk, hfr⟩ | ⟨hk, hfr⟩⟩ | ⟨hno, _⟩
    · rw [hfr, List.length_append, List.length_singleton, ← hk]
    · rw [hfr, hk]
    · rw [h.1.1.1] at hno; exact Bool.noConfusion hno
  restart := fun b k a st st1 h hq hn => refined_restart m k a st st1 h hq hn
  leaveStep := fun k a st st1 h _ hx => by
    rcases hx with rfl | ⟨hr, rfl⟩
    · exact ⟨refinedUpTo_extends m st _ (extends_same _ _ rfl rfl rfl rfl)
        ((kept_framesOk m).answer st a h.1.1) h.1, by rw [← h.2]; exact le_refl _⟩
    · exact ⟨refinedUpTo_extends m st _
        (extends_trans (extends_same st (picosat_sat a st) rfl rfl rfl rfl)
          (extends_sort m k _))
        ((kept_framesOk m).sort _ k hr ((kept_framesOk m).answer st a h.1.1)) h.1,
        by rw [(sortFrames_perm m k _).length_eq, ← h.2]; exact le_refl _⟩
  leaveBase := fun k a st st1 h _ hx => by
    have key : RefinedUpTo m st1 ∧ st1.frames.length ≤ k + 1 := by
      rcases hx with rfl | ⟨hr, rfl⟩
      · exact ⟨refinedUpTo_extends m st _ (extends_same _ _ rfl rfl rfl rfl)
          ((kept_framesOk m).answer st a h.1.1) h.1, by rw [← h.2]; exact le_refl _⟩
      · exact ⟨refinedUpTo_extends m st _
          (extends_trans (extends_same st (picosat_sat a st) rfl rfl rfl rfl)
            (extends_sort m k _))
          ((kept_framesOk m).sort _ k hr ((kept_framesOk m).answer st a h.1.1)) h.1,
          by rw [(sortFrames_perm m k _).length_eq, ← h.2]; exact le_refl _⟩
    split
    · rename_i hacs
      exact ⟨refinedUpTo_extends m st1 _ (extends_same _ _ rfl rfl rfl rfl)
        ((kept_framesOk m).enable st1 hacs key.1.1) key.1, key.2⟩
    · exact key
  printM := fun k st cs h =>
    ⟨refinedUpTo_extends m st _ (extends_same _ _ rfl rfl rfl rfl)
      ((kept_framesOk m).print st cs h.1.1) h.1, h.2⟩
  printS := fun k st cs h =>
    ⟨refinedUpTo_extends m st _ (extends_same _ _ rfl rfl rfl rfl)
      ((kept_framesOk m).print st cs h.1.1) h.1, h.2⟩

theorem pairs_mono {n N : Nat} (h : n ≤ N) : n * (n - 1) / 2 ≤ N * (N - 1) / 2 :=
  Nat.div_le_div_right (Nat.mul_le_mul h (Nat.sub_le_sub_right h 1))

theorem refinedUpTo_nrcs_le (m : Aiger) (st : State) (h : RefinedUpTo m st) :
    st.nrcs ≤ st.frames.length * (st.frames.length - 1) / 2 := by
  obtain ⟨_, _, R, hnd, hlen, hR⟩ := h
  rw [hlen]
  exact pairs_length_le _ R hnd fun p hp => ⟨(hR p hp).1, (hR p hp).2.1⟩

theorem refined_nrcs_le (m : Aiger) (k : Nat) (st : State) (h : Refined m k st) :
    st.nrcs ≤ k * (k + 1) / 2 := by
  have h1 := refinedUpTo_nrcs_le m st h.1
  rw [h.2, Nat.add_sub_cancel, Nat.mul_comm] at h1
  exact h1

theorem freshPair_of_refined (m : Aiger) (k : Nat) (st : State) (a : Answer)
    (h : Refined m k st) (hq : SoundAnswer st a) : FreshPair m k st a := by
  intro x y hres hfe
  obtain ⟨⟨hok, hcl, _⟩, hlen⟩ := h
  have hmod : Models a.deref st.added := hq hres
  have hcmp : cmp_frames m st.flags a.deref x y = 0 := firstEqual_cmp _ _ x y hfe
  have hrec : FramesRecorded k (sortFrames m k (picosat_sat a st)) :=
    (satCallOk_of_recorded m k st a ((framesRecorded_iff k st hok.1).mpr ⟨hok, hlen⟩)).2.1
  have hdist : x ≠ y ∧ x ≤ k ∧ y ≤ k := by
    refine firstEqual_distinct _ _ k ?_ x y hfe
    rw [List.take_of_length_le (by rw [hrec.1])]
    exact hrec.2.2
  have hu := usesDiff_of_framesOk st hok
  refine ⟨hdist.1, fun hch => ?_, fun hch => ?_⟩
  · exact (cmp_frames_ne_of_models m st.flags hu x y hdist.1 a.deref
      (models_chunk a.deref _ _ (closed_diffs m st.flags x y) hch hmod)).1 hcmp
  · exact (cmp_frames_ne_of_models m st.flags hu y x (Ne.symm hdist.1) a.deref
      (models_chunk a.deref _ _ (closed_diffs m st.flags y x) hch hmod)).2 hcmp

theorem satNext_nrcs (m : Aiger) (k : Nat) (a : Answer) (st st1 : State)
    (hn : satNext m k a st = some st1) (ha : a.res ≠ Res.UNKNOWN) :
    st1.nrcs = st.nrcs + 1 := by
  unfold satNext at hn
  split at hn
  · exact Option.noConfusion hn
  · rename_i hres
    exact absurd hres ha
  · split at hn
    · exact Option.noConfusion hn
    · split at hn
      · simp only [Option.some.injEq] at hn
        subst hn
        rfl
      · exact Option.noConfusion hn

theorem satLoop_terminates (m : Aiger) (k : Nat) :
    ∀ (answers : List Answer) (st : State), Refined m k st →
      LoopCalls (fun _ s a => SoundAnswer s a) m k answers st →
      (∀ a ∈ answers, a.res ≠ Res.UNKNOWN) → k * (k + 1) / 2 < answers.length + st.nrcs →
      ∃ r rest st', satLoop m k answers st = some (r, rest, st') ∧
        st'.nrcs ≤ k * (k + 1) / 2 := by
  intro answers
  induction answers with
  | nil =>
    intro st h _ _ hlen
    have := refined_nrcs_le m k st h
    simp only [List.length_nil, Nat.zero_add] at hlen
    omega
  | cons a as ih =>
    intro st h hq hu hlen
    have ha : a.res ≠ Res.UNKNOWN := hu a (List.mem_cons_self _ _)
    have hq2 := hq.2
    have hb := refined_nrcs_le m k st h
    rw [satLoop_cons]
    split
    · rename_i st1 hn
      rw [hn] at hq2
      have h1 := refined_restart m k a st st1 h hq.1 hn
      have hn1 := satNext_nrcs m k a st st1 hn ha
      exact ih st1 h1 hq2 (fun b hb => hu b (List.mem_cons_of_mem _ hb))
        (by rw [hn1]; simp only [List.length_cons] at hlen; omega)
    · split
      · exact ⟨_, _, _, rfl, hb⟩
      · rename_i hres
        exact absurd hres ha
      · split
        · exact ⟨_, _, _, rfl, hb⟩
        · exact ⟨_, _, _, rfl, hb⟩

theorem satLoop_unsat (m : Aiger) (k : Nat) (Q : Nat → State → Answer → Prop) :
    ∀ (answers : List Answer) (st : State) (r : Res) (rest : List Answer) (st' : State),
      satLoop m k answers st = some (r, rest, st') → r ≠ Res.SAT →
      LoopCalls Q m k answers st → ∃ stc a, Q k stc a ∧ a.res = Res.UNSAT := by
  intro answers
  induction answers with
  | nil => intro st r rest st' hs _ _; simp [satLoop] at hs
  | cons a as ih =>
    intro st r rest st' hs hr hq
    rw [satLoop_cons] at hs
    have h2 := hq.2
    split at hs
    · rename_i st1 hn
      rw [hn] at h2
      exact ih st1 r rest st' hs hr h2
    · split at hs
      · rename_i hres
        exact ⟨st, a, hq.1, hres⟩
      · exact Option.noConfusion hs
      · split at hs
        · simp only [Option.some.injEq, Prod.mk.injEq] at hs
          exact absurd hs.1.symm hr
        · simp only [Option.some.injEq, Prod.mk.injEq] at hs
          exact absurd hs.1.symm hr

theorem satLoop_sat_first (m : Aiger) (k : Nat) (Q : Nat → State → Answer → Prop)
    (answers : List Answer) (st : State) (rest : List Answer) (st' : State)
    (hs : satLoop m k answers st = some (Res.SAT, rest, st'))
    (hq : LoopCalls Q m k answers st) :
    ∃ a, Q k st a ∧ (a.res = Res.SAT ∨ st.flags.mix = true) := by
  cases answers with
  | nil => simp [satLoop] at hs
  | cons a as =>
    refine ⟨a, hq.1, ?_⟩
    cases hres : a.res with
    | SAT => exact Or.inl rfl
    | UNSAT =>
      simp only [satLoop, hres, Option.some.injEq, Prod.mk.injEq] at hs
      exact absurd hs.1 (by decide)
    | UNKNOWN =>
      right
      simp only [satLoop, hres] at hs
      split at hs
      · rename_i hc
        simp only [Bool.and_eq_true, Bool.not_eq_true'] at hc
        exact hc.1.1
      · exact Option.noConfusion hs

theorem sat_unsat (m : Aiger) (k : Nat) (E : Nat → State → Prop)
    (Q : Nat → State → Answer → Prop) (answers : List Answer) (st : State) (r : Res)
    (rest : List Answer) (st' : State) (hs : sat m k answers st = some (r, rest, st'))
    (hr : r ≠ Res.SAT) (hq : SatCalls E Q m k answers st) :
    ∃ stc a, Q k stc a ∧ a.res = Res.UNSAT := by
  unfold sat at hs
  have h2 := hq.2
  split at hs
  · exact Option.noConfusion hs
  · rename_i st1 hb
    rw [hb] at h2
    exact satLoop_unsat m k Q answers st1 r rest st' hs hr h2

theorem sat_sat_first (m : Aiger) (k : Nat) (E : Nat → State → Prop)
    (Q : Nat → State → Answer → Prop) (answers : List Answer) (st : State)
    (rest : List Answer) (st' : State)
    (hs : sat m k answers st = some (Res.SAT, rest, st'))
    (hq : SatCalls E Q m k answers st) :
    ∃ st1 a, E k st ∧ satBookkeeping k st = some st1 ∧ Q k st1 a ∧
      (a.res = Res.SAT ∨ st1.flags.mix = true) := by
  unfold sat at hs
  have h2 := hq.2
  split at hs
  · exact Option.noConfusion hs
  · rename_i st1 hb
    rw [hb] at h2
    obtain ⟨a, ha, hres⟩ := satLoop_sat_first m k Q answers st1 rest st' hs h2
    exact ⟨st1, a, hq.1, hb, ha, hres⟩

theorem step_true (m : Aiger) (B : Backend) (k : Nat) (E : Nat → State → Prop)
    (Q : Nat → State → Answer → Prop) (answers : List Answer) (st : State)
    (rest : List Answer) (st' : State)
    (hs : step m B k answers st = some (true, rest, st'))
    (hq : SatCalls E Q m k answers (stepEntry m B k st)) :
    ∃ stc a, Q k stc a ∧ a.res = Res.UNSAT := by
  rw [step_eq] at hs
  split at hs
  · exact Option.noConfusion hs
  · rename_i r rest2 st2 hsat
    simp only [Option.some.injEq, Prod.mk.injEq, beq_iff_eq] at hs
    exact sat_unsat m k E Q answers _ r rest2 st2 hsat (by rw [hs.1]; decide) hq

theorem base_false (m : Aiger) (ses : Session) (k : Nat) (E : Nat → State → Prop)
    (Q : Nat → State → Answer → Prop) (answers : List Answer) (st : State)
    (rest : List Answer) (st' : State)
    (hs : base m ses k answers st = some (false, rest, st'))
    (hq : SatCalls E Q m k answers (baseEntry m ses k st)) :
    ∃ stc a, Q k stc a ∧ a.res = Res.UNSAT := by
  rw [base_eq] at hs
  split at hs
  · exact Option.noConfusion hs
  · rename_i r rest2 st2 hsat
    simp only [Option.some.injEq, Prod.mk.injEq, beq_eq_false_iff_ne, ne_eq] at hs
    exact sat_unsat m k E Q answers _ r rest2 st2 hsat hs.1 hq

theorem base_true (m : Aiger) (ses : Session) (k : Nat) (E : Nat → State → Prop)
    (Q : Nat → State → Answer → Prop) (answers : List Answer) (st : State)
    (rest : List Answer) (st' : State)
    (hs : base m ses k answers st = some (true, rest, st'))
    (hq : SatCalls E Q m k answers (baseEntry m ses k st)) :
    ∃ st1 a, E k (baseEntry m ses k st) ∧
      satBookkeeping k (baseEntry m ses k st) = some st1 ∧ Q k st1 a ∧
      (a.res = Res.SAT ∨ st1.flags.mix = true) := by
  rw [base_eq] at hs
  split at hs
  · exact Option.noConfusion hs
  · rename_i r rest2 st2 hsat
    simp only [Option.some.injEq, Prod.mk.injEq, beq_iff_eq] at hs
    rw [hs.1] at hsat
    exact sat_sat_first m k E Q answers _ rest2 st2 hsat hq

/-- When the main loop is left with `res = 10` at round `k'`, `base (k')` has
entered `sat`, and the first `picosat_sat` call there was answered satisfiable
(or undecided, in a mixed run). -/
theorem mainLoop_reachable_call (m : Aiger) (ses : Session) (B : Backend)
    (E : Bool → Nat → State → Prop) (Q : Bool → Nat → State → Answer → Prop) :
    ∀ (n k : Nat) (answers : List Answer) (st : State) (k' : Nat) (rest : List Answer)
      (st' : State), mainLoop m ses B n k answers st = some (10, k', rest, st') →
      RunCalls E Q m ses B n k answers st →
      ∃ ste st1 a, E true k' ste ∧ satBookkeeping k' ste = some st1 ∧ Q true k' st1 a ∧
        (a.res = Res.SAT ∨ st1.flags.mix = true) := by
  intro n
  induction n with
  | zero =>
    intro k answers st k' rest st' hs _
    simp [mainLoop] at hs
  | succ n ih =>
    intro k answers st k' rest st' hs hq
    rw [mainLoop_succ] at hs
    unfold RunCalls at hq
    split at hs
    · exact Option.noConfusion hs
    · rename_i st4 hsimple
      rw [hsimple] at hq
      simp only at hq
      have hq2 := hq.2
      split at hs
      · exact Option.noConfusion hs
      · simp only [Option.some.injEq, Prod.mk.injEq] at hs
        omega
      · rename_i rest5 st5 hstep
        rw [hstep] at hq2
        simp only at hq2
        split at hs
        · simp only [Option.some.injEq, Prod.mk.injEq] at hs
          omega
        · rename_i hinc
          rw [if_neg hinc] at hq2
          have hq3 := hq2.2
          split at hs
          · exact Option.noConfusion hs
          · rename_i rest6 st6 hbase
            simp only [Option.some.injEq, Prod.mk.injEq] at hs
            obtain ⟨_, rfl, _, _⟩ := hs
            cases hi : ses.ionly
            · rw [hi] at hbase
              simp only [Bool.not_false, if_true] at hbase
              obtain ⟨st1, a, h1, h2, h3, h4⟩ :=
                base_true m ses k (E true) (Q true) rest5 st5 rest6 st6 hbase (hq2.1 hi)
              exact ⟨_, st1, a, h1, h2, h3, h4⟩
            · rw [hi] at hbase
              simp at hbase
          · rename_i rest6 st6 hbase
            rw [hbase] at hq3
            simp only at hq3
            exact ih (k + 1) rest6 st6 k' rest st' hs hq3

/-- When the main loop of a run without `-b` is left with `res = 20` at round
`k'`, a `picosat_sat` call of `step (k')` was answered unsatisfiable, and so was
a call of `base (j)` in every earlier round `j` unless `-i` is given. -/
theorem mainLoop_inductive_calls (m : Aiger) (ses : Session) (B : Backend)
    (E : Bool → Nat → State → Prop) (Q : Bool → Nat → State → Answer → Prop)
    (hb : ses.bonly = false) :
    ∀ (n k : Nat) (answers : List Answer) (st : State) (k' : Nat) (rest : List Answer)
      (st' : State), mainLoop m ses B n k answers st = some (20, k', rest, st') →
      RunCalls E Q m ses B n k answers st →
      (∃ stc a, Q false k' stc a ∧ a.res = Res.UNSAT) ∧
      (ses.ionly = false → ∀ j, k ≤ j → j < k' →
        ∃ stc a, Q true j stc a ∧ a.res = Res.UNSAT) := by
  intro n
  induction n with
  | zero =>
    intro k answers st k' rest st' hs _
    simp [mainLoop] at hs
  | succ n ih =>
    intro k answers st k' rest st' hs hq
    rw [mainLoop_succ] at hs
    unfold RunCalls at hq
    split at hs
    · exact Option.noConfusion hs
    · rename_i st4 hsimple
      rw [hsimple] at hq
      simp only at hq
      have hq2 := hq.2
      split at hs
      · exact Option.noConfusion hs
      · rename_i rest5 st5 hstep
        simp only [Option.some.injEq, Prod.mk.injEq] at hs
        obtain ⟨_, rfl, _, _⟩ := hs
        rw [hb] at hstep
        simp only [Bool.not_false, if_true] at hstep
        exact ⟨step_true m B k (E false) (Q false) answers st4 rest5 st5 hstep (hq.1 hb),
          fun _ j h1 h2 => absurd h1 (by omega)⟩
      · rename_i rest5 st5 hstep
        rw [hstep] at hq2
        simp only at hq2
        split at hs
        · rename_i hinc
          rw [hb] at hinc
          simp at hinc
        · rename_i hinc
          rw [if_neg hinc] at hq2
          have hq3 := hq2.2
          split at hs
          · exact Option.noConfusion hs
          · simp only [Option.some.injEq, Prod.mk.injEq] at hs
            omega
          · rename_i rest6 st6 hbase
            rw [hbase] at hq3
            simp only at hq3
            obtain ⟨h1, h2⟩ := ih (k + 1) rest6 st6 k' rest st' hs hq3
            refine ⟨h1, fun hi j hj1 hj2 => ?_⟩
            rcases Nat.eq_or_lt_of_le hj1 with rfl | hlt
            · rw [hi] at hbase
              simp only [Bool.not_false, if_true] at hbase
              exact base_false m ses k (E true) (Q true) rest5 st5 rest6 st6 hbase (hq2.1 hi)
            · exact h2 hi j hlt hj2

/-! ## Paths of the circuit -/

theorem path_mono (m : Aiger) {n n1 : Nat} (E : Nat → Nat → Bool) (h : n1 ≤ n)
    (hp : Path m n E) : Path m n1 E :=
  ⟨fun t ht => hp.1 t (ht.trans h), fun t ht => hp.2 t (Nat.lt_of_lt_of_le ht h)⟩

theorem reaches_cut (m : Aiger) (n : Nat) (E : Nat → Nat → Bool) (h : Reaches m n E)
    (i j : Nat) (hij : i < j) (hjn : j ≤ n) (hs : SameState m (E i) (E j)) :
    Reaches m (n - (j - i)) (fun t => if t < i then E t else E (t + (j - i))) := by
  obtain ⟨⟨hg, ht⟩, hinit, hbad⟩ := h
  refine ⟨⟨?_, ?_⟩, ?_, ?_⟩
  · intro t htn
    beta_reduce
    split
    · exact hg t (by omega)
    · exact hg _ (by omega)
  · intro t htn
    beta_reduce
    by_cases h1 : t + 1 < i
    · rw [if_pos (by omega), if_pos h1]
      exact ht t (by omega)
    · by_cases h2 : t < i
      · rw [if_pos h2, if_neg h1]
        have e : t + 1 + (j - i) = j := by omega
        rw [e]
        intro l hl
        have h3 := ht t (by omega) l hl
        have h4 : t + 1 = i := by omega
        rw [h4] at h3
        rw [h3]
        exact hs l hl
      · rw [if_neg h2, if_neg h1]
        have e : t + 1 + (j - i) = t + (j - i) + 1 := by omega
        rw [e]
        exact ht _ (by omega)
  · beta_reduce
    split
    · exact hinit
    · have e : i = 0 := by omega
      subst e
      intro l hl
      have h3 := hs l hl
      simp only [Nat.zero_add, Nat.sub_zero] at h3 ⊢
      rw [← h3]
      exact hinit l hl
  · beta_reduce
    rw [if_neg (by omega)]
    have e : n - (j - i) + (j - i) = n := by omega
    rw [e]
    exact hbad

/-- When the output can be reached, it is reached along a path on which the
output is 0 before the end and no two valuations give the same state. -/
theorem minimal_reaches (m : Aiger) (h : ∃ n E, Reaches m n E) :
    ∃ n E, Reaches m n E ∧ (∀ t < n, outVal m (E t) = false) ∧
      ∀ i j, i < j → j ≤ n → ¬ SameState m (E i) (E j) := by
  classical
  have hmin : ∃ n, (∃ E, Reaches m n E) ∧ ∀ n1 < n, ¬ ∃ E, Reaches m n1 E :=
    ⟨Nat.find h, Nat.find_spec h, fun n1 hn1 => Nat.find_min h hn1⟩
  obtain ⟨n, ⟨E, hE⟩, hleast⟩ := hmin
  refine ⟨n, E, hE, ?_, ?_⟩
  · intro t ht
    cases hv : outVal m (E t) with
    | false => rfl
    | true => exact absurd ⟨E, path_mono m E (Nat.le_of_lt ht) hE.1, hE.2.1, hv⟩ (hleast t ht)
  · intro i j hij hjn hs
    exact hleast (n - (j - i)) (by omega) ⟨_, reaches_cut m n E hE i j hij hjn hs⟩

theorem encode0_const (m : Aiger) (f : Regime) (s : Nat → Bool)
    (h : Satisfies s (encode m f 0)) : s 1 = false := by
  rw [satisfies_encode_zero] at h
  have h1 := h.1
  have e : lit m f 0 1 = -1 := by simp [lit_eq]
  rw [e] at h1
  simpa [evalLit] using h1

theorem latchVal_envOf (m : Aiger) (f : Regime) (s : Nat → Bool) (h1 : s 1 = false)
    (t i : Nat) : latchVal m (envOf m f s t) i = evalLit s (latch m f t i) :=
  (evalLit_lit m f t s h1 _).symm

theorem nextVal_envOf (m : Aiger) (f : Regime) (s : Nat → Bool) (h1 : s 1 = false)
    (t i : Nat) : nextVal m (envOf m f s t) i = evalLit s (next m f t i) :=
  (evalLit_lit m f t s h1 _).symm

theorem outVal_envOf (m : Aiger) (f : Regime) (s : Nat → Bool) (h1 : s 1 = false)
    (t : Nat) : outVal m (envOf m f s t) = evalLit s (output m f t 0) :=
  (evalLit_lit m f t s h1 _).symm

theorem gatesHold_envOf (m : Aiger) (f : Regime) (s : Nat → Bool) (h1 : s 1 = false)
    (t : Nat) (h : Satisfies s (encode m f t)) : GatesHold m (envOf m f s t) := by
  intro a ha
  unfold envOf
  rw [← evalLit_lit m f t s h1, ← evalLit_lit m f t s h1, ← evalLit_lit m f t s h1]
  cases t with
  | zero => exact ((satisfies_encode_zero m f s).1 h).2 a ha
  | succ t => exact ((satisfies_encode_succ m f t s).1 h).1 a ha

/-- An assignment that satisfies the clauses of `connect` and `encode` up to
frame `k` and the assumptions of `base (k)` gives a path from the initial state
on which the output is reached in `k` steps. -/
theorem reaches_of_model (m : Aiger) (f : Regime) (k : Nat) (s : Nat → Bool)
    (hU : ∀ j ≤ k, Satisfies s (connect m f j) ∧ Satisfies s (encode m f j))
    (hI : ∀ i < m.num_latches, evalLit s (-latch m f 0 i) = true)
    (hB : evalLit s (output m f k 0) = true) : Reaches m k (envOf m f s) := by
  have h1 : s 1 = false := encode0_const m f s (hU 0 (Nat.zero_le _)).2
  refine ⟨⟨fun t ht => gatesHold_envOf m f s h1 t (hU t ht).2, ?_⟩, ?_, ?_⟩
  · intro t ht i hi
    rw [nextVal_envOf m f s h1, latchVal_envOf m f s h1]
    exact (satisfies_connect_succ m f t s).1 (hU (t + 1) ht).1 i hi
  · intro i hi
    rw [latchVal_envOf m f s h1]
    have h2 := hI i hi
    rw [evalLit_neg s (latch_ne_zero m f 0 i)] at h2
    simpa using h2
  · rw [outVal_envOf m f s h1]
    exact hB

/-! ## The assignment of a path -/

theorem frameOf_eq (m : Aiger) (f : Regime) (x T : Nat) (h1 : frame m f T ≤ x)
    (h2 : (x : Int) < frame m f (T + 1)) :
    ∀ t, T ≤ t → frameOf m f x t = T := by
  intro t
  induction t with
  | zero =>
    intro ht
    have : T = 0 := by omega
    subst this
    rfl
  | succ t ih =>
    intro ht
    unfold frameOf
    split
    · rename_i hle
      by_contra hne
      have hlt : T + 1 ≤ t + 1 := by omega
      have := frame_mono m f hlt
      omega
    · rename_i hle
      have hne : T ≠ t + 1 := by
        rintro rfl
        exact hle h1
      exact ih (by omega)

theorem frame_ge (m : Aiger) (f : Regime) (hm : 1 ≤ m.maxvar) (t : Nat) :
    (t : Int) + 2 ≤ frame m f t := by
  rw [frame_eq]
  have h1 : (t : Int) * 1 ≤ (t : Int) * m.maxvar :=
    Int.mul_le_mul_of_nonneg_left (by exact_mod_cast hm) (Int.ofNat_nonneg _)
  have h2 : (0 : Int) ≤ ((m.num_latches * t * (t - 1) / 2 : Nat) : Int) := Int.ofNat_nonneg _
  split <;> omega

theorem frameOf_self (m : Aiger) (f : Regime) (hm : 1 ≤ m.maxvar) (x T : Nat)
    (h1 : frame m f T ≤ x) (h2 : (x : Int) < frame m f (T + 1)) :
    frameOf m f x x = T :=
  frameOf_eq m f x T h1 h2 x (by have := frame_ge m f hm T; omega)

theorem modelOf_var (m : Aiger) (f : Regime) (E : Nat → Nat → Bool) (t v : Nat)
    (hv1 : 1 ≤ v) (hv : v ≤ m.maxvar) :
    modelOf m f E ((frame m f t + v - 1).toNat) = E t v := by
  have hp := frame_pos m f t
  have hs := frame_step_le m f t
  have hx : (((frame m f t + v - 1).toNat : Nat) : Int) = frame m f t + v - 1 :=
    Int.toNat_of_nonneg (by omega)
  have hfr : frameOf m f (frame m f t + v - 1).toNat (frame m f t + v - 1).toNat = t :=
    frameOf_self m f (by omega) _ t (by omega) (by omega)
  unfold modelOf
  rw [if_neg (by omega), hfr, hx, if_pos (by omega)]
  congr 1
  omega

theorem modelOf_one (m : Aiger) (f : Regime) (E : Nat → Nat → Bool) :
    modelOf m f E 1 = false := by
  unfold modelOf
  rw [if_pos (le_refl _)]

theorem modelOf_lit (m : Aiger) (f : Regime) (E : Nat → Nat → Bool) (t l : Nat)
    (hl : l ≤ 2 * m.maxvar + 1) :
    evalLit (modelOf m f E) (lit m f t l) = litVal (E t) l := by
  rw [evalLit_lit m f t _ (modelOf_one m f E)]
  apply litVal_congr
  intro h0
  have hv1 : 1 ≤ l / 2 := by omega
  have hv : l / 2 ≤ m.maxvar := by omega
  have hp := frame_pos m f t
  have e : lit m f t (2 * (l / 2)) = frame m f t + ((l / 2 : Nat) : Int) - 1 := by
    rw [lit_eq]
    have h3 : (2 * (l / 2) - 2) / 2 = l / 2 - 1 := by omega
    rw [h3]
    split <;> split <;> omega
  have hpos : 0 < frame m f t + ((l / 2 : Nat) : Int) - 1 := by omega
  rw [e]
  unfold evalLit
  rw [if_pos hpos]
  have e2 : (frame m f t + ((l / 2 : Nat) : Int) - 1).natAbs =
      (frame m f t + ((l / 2 : Nat) : Int) - 1).toNat := by omega
  rw [e2]
  exact modelOf_var m f E t (l / 2) hv1 hv

theorem modelOf_diff (m : Aiger) (f : Regime) (hf : f.usesDiff = true) (hm : 1 ≤ m.maxvar)
    (E : Nat → Nat → Bool) (t l i : Nat) (hlt : l < t) (hi : i < m.num_latches) :
    evalLit (modelOf m f E) (diff m f t l i) =
      (latchVal m (E t) i != latchVal m (E l) i) := by
  obtain ⟨h1, h2⟩ := diff_interval m f hf t l i hlt hi
  have hp := frame_pos m f t
  have hpos : 0 < diff m f t l i := by omega
  have hx : (((diff m f t l i).toNat : Nat) : Int) = diff m f t l i :=
    Int.toNat_of_nonneg (by omega)
  have hfr : frameOf m f (diff m f t l i).toNat (diff m f t l i).toNat = t :=
    frameOf_self m f hm _ t (by omega) (by omega)
  have hj : (frame m f (t + 1) - 1 - diff m f t l i).toNat = i + l * m.num_latches := by
    have e : frame m f (t + 1) - 1 - diff m f t l i =
        ((i + l * m.num_latches : Nat) : Int) := by
      unfold diff
      push_cast
      ring
    rw [e]
    exact Int.toNat_natCast _
  unfold evalLit
  rw [if_pos hpos]
  have e2 : (diff m f t l i).natAbs = (diff m f t l i).toNat := by omega
  rw [e2]
  unfold modelOf
  rw [if_neg (by omega), hfr, hx, if_neg (by omega), hj,
    Nat.add_mul_mod_self_right, Nat.mod_eq_of_lt hi, Nat.add_mul_div_right _ _ (by omega),
    Nat.div_eq_of_lt hi, Nat.zero_add]

theorem inRange_latch (m : Aiger) (h : InRange m = true) (i : Nat) (hi : i < m.num_latches) :
    2 ≤ (m.latches.getD i ⟨0, 0⟩).lit ∧ (m.latches.getD i ⟨0, 0⟩).lit ≤ 2 * m.maxvar + 1 ∧
      (m.latches.getD i ⟨0, 0⟩).next ≤ 2 * m.maxvar + 1 := by
  unfold InRange at h
  simp only [Bool.and_eq_true, List.all_eq_true, decide_eq_true_eq] at h
  have hmem : m.latches.getD i ⟨0, 0⟩ ∈ m.latches := by
    rw [List.getD_eq_getElem _ _ hi]
    exact List.getElem_mem _
  have := h.1.1 _ hmem
  omega

theorem inRange_and (m : Aiger) (h : InRange m = true) (a : AigerAnd) (ha : a ∈ m.ands) :
    a.lhs ≤ 2 * m.maxvar + 1 ∧ a.rhs0 ≤ 2 * m.maxvar + 1 ∧ a.rhs1 ≤ 2 * m.maxvar + 1 := by
  unfold InRange at h
  simp only [Bool.and_eq_true, List.all_eq_true, decide_eq_true_eq] at h
  have := h.1.2 a ha
  omega

theorem inRange_output (m : Aiger) (h : InRange m = true) :
    (m.outputs.getD 0 ⟨0, 0⟩).lit ≤ 2 * m.maxvar + 1 := by
  unfold InRange at h
  simp only [Bool.and_eq_true, List.all_eq_true, decide_eq_true_eq] at h
  exact h.2

theorem modelOf_latch (m : Aiger) (f : Regime) (hR : InRange m = true)
    (E : Nat → Nat → Bool) (t i : Nat) (hi : i < m.num_latches) :
    evalLit (modelOf m f E) (latch m f t i) = latchVal m (E t) i :=
  modelOf_lit m f E t _ (inRange_latch m hR i hi).2.1

theorem modelOf_next (m : Aiger) (f : Regime) (hR : InRange m = true)
    (E : Nat → Nat → Bool) (t i : Nat) (hi : i < m.num_latches) :
    evalLit (modelOf m f E) (next m f t i) = nextVal m (E t) i :=
  modelOf_lit m f E t _ (inRange_latch m hR i hi).2.2

theorem modelOf_output (m : Aiger) (f : Regime) (hR : InRange m = true)
    (E : Nat → Nat → Bool) (t : Nat) :
    evalLit (modelOf m f E) (output m f t 0) = outVal m (E t) :=
  modelOf_lit m f E t _ (inRange_output m hR)

theorem modelOf_gates (m : Aiger) (f : Regime) (hR : InRange m = true)
    (E : Nat → Nat → Bool) (t : Nat) (hg : GatesHold m (E t)) :
    ∀ a ∈ m.ands, evalLit (modelOf m f E) (lit m f t a.lhs) =
      (evalLit (modelOf m f E) (lit m f t a.rhs0) &&
        evalLit (modelOf m f E) (lit m f t a.rhs1)) := by
  intro a ha
  obtain ⟨h1, h2, h3⟩ := inRange_and m hR a ha
  rw [modelOf_lit m f E t _ h1, modelOf_lit m f E t _ h2, modelOf_lit m f E t _ h3]
  exact hg a ha

theorem modelOf_diffsOrdered (m : Aiger) (f : Regime) (hf : f.usesDiff = true)
    (hR : InRange m = true) (E : Nat → Nat → Bool) (t l : Nat) (hlt : l < t)
    (hd : ¬ SameState m (E t) (E l)) :
    Satisfies (modelOf m f E) (diffsOrdered m f t l) := by
  have hm : ∀ i < m.num_latches, 1 ≤ m.maxvar := by
    intro i hi
    have := inRange_latch m hR i hi
    omega
  rw [satisfies_diffsOrdered]
  constructor
  · intro i hi
    have hl0 := latch_ne_zero m f l i
    have hk0 := latch_ne_zero m f t i
    have hd0 := diff_ne_zero m f hf t l i hlt hi
    have hnl : -latch m f l i ≠ 0 := by omega
    have hnk : -latch m f t i ≠ 0 := by omega
    have hnd : -diff m f t l i ≠ 0 := by omega
    rw [satisfies_ternary _ hl0 hk0 hnd, satisfies_ternary _ hnl hnk hnd,
      evalLit_neg _ hd0, evalLit_neg _ hl0, evalLit_neg _ hk0,
      modelOf_diff m f hf (hm i hi) E t l i hlt hi, modelOf_latch m f hR E t i hi,
      modelOf_latch m f hR E l i hi]
    cases latchVal m (E t) i <;> cases latchVal m (E l) i <;> simp
  · rw [satisfies_clause _ _ (by
      intro x hx
      simp only [List.mem_map, List.mem_range] at hx
      obtain ⟨i, hi, rfl⟩ := hx
      exact diff_ne_zero m f hf t l i hlt hi)]
    unfold SameState at hd
    push_neg at hd
    obtain ⟨i, hi, hne⟩ := hd
    refine ⟨diff m f t l i, List.mem_map.mpr ⟨i, List.mem_range.mpr hi, rfl⟩, ?_⟩
    rw [modelOf_diff m f hf (hm i hi) E t l i hlt hi]
    revert hne
    cases latchVal m (E t) i <;> cases latchVal m (E l) i <;> simp

/-- The assignment of a path on which the output is 0 before the end and all
states are different, the later ones not initial, satisfies everything a run
can have added up to the round of its length. -/
theorem canon_of_path (m : Aiger) (f : Regime) (hR : InRange m = true) (k : Nat)
    (E : Nat → Nat → Bool) (hP : Path m k E) (hnb : ∀ t < k, outVal m (E t) = false)
    (hni : ∀ t, 1 ≤ t → t ≤ k → ∃ i < m.num_latches, latchVal m (E t) i = true)
    (hd : ∀ x y, x ≠ y → x ≤ k → y ≤ k → ¬ SameState m (E x) (E y)) :
    Canon m f k (modelOf m f E) := by
  refine ⟨?_, ?_, ?_⟩
  · intro j hj
    cases j with
    | zero =>
      constructor
      · have e : connect m f 0 = [] := by simp [connect]
        rw [e]
        exact satisfies_nil _
      · rw [satisfies_encode_zero]
        refine ⟨?_, modelOf_gates m f hR E 0 (hP.1 0 hj)⟩
        rw [modelOf_lit m f E 0 1 (by omega)]
        simp [litVal]
    | succ j =>
      constructor
      · rw [satisfies_connect_succ]
        intro i hi
        rw [modelOf_next m f hR E j i hi, modelOf_latch m f hR E (j + 1) i hi]
        exact hP.2 j hj i hi
      · rw [satisfies_encode_succ]
        refine ⟨modelOf_gates m f hR E (j + 1) (hP.1 (j + 1) hj), ?_, ?_⟩
        · obtain ⟨i, hi, hv⟩ := hni (j + 1) (by omega) hj
          exact ⟨i, hi, by rw [modelOf_latch m f hR E (j + 1) i hi]; exact hv⟩
        · rw [modelOf_output m f hR E j]
          exact hnb j hj
  · intro hf x y hxy hx hy
    unfold diffs
    split
    · rename_i hlt
      exact modelOf_diffsOrdered m f hf hR E y x hlt (hd y x (Ne.symm hxy) hy hx)
    · exact modelOf_diffsOrdered m f hf hR E x y (by omega) (hd x y hxy hx hy)
  · intro x y hxy hx hy
    have h := hd x y hxy hx hy
    unfold SameState at h
    push_neg at h
    obtain ⟨i, hi, hne⟩ := h
    exact ⟨i, hi, by
      rw [modelOf_latch m f hR E x i hi, modelOf_latch m f hR E y i hi]; exact hne⟩

/-! ## Assignments that satisfy the clauses of a run -/

theorem canon_mono (m : Aiger) (f : Regime) {k K : Nat} (h : k ≤ K) (s : Nat → Bool)
    (hc : Canon m f K s) : Canon m f k s :=
  ⟨fun j hj => hc.1 j (hj.trans h),
    fun hf x y hxy hx hy => hc.2.1 hf x y hxy (hx.trans h) (hy.trans h),
    fun x y hxy hx hy => hc.2.2 x y hxy (hx.trans h) (hy.trans h)⟩

/-! ## The literal map within the range of `int` -/

theorem frame_natCast (m : Aiger) (f : Regime) (k : Nat) :
    frame m f k = ((k * m.maxvar + 2 +
      (if f.usesDiff = true then m.num_latches * k * (k - 1) / 2 else 0) : Nat) : Int) := by
  rw [frame_eq]
  split <;> push_cast <;> ring

theorem frameFits_le (m : Aiger) (f : Regime) (k : Nat) (h : FrameFits m f k) :
    frame m f k ≤ 2147483647 := by
  rw [frame_natCast]
  exact_mod_cast h.2.2.2

theorem frameFits_of_le (m : Aiger) (f : Regime) (k : Nat) (hk : k < 2147483648)
    (hN : m.maxvar < 4294967296) (hL : m.num_latches < 4294967296)
    (h : frame m f k ≤ 2147483647) : FrameFits m f k := by
  rw [frame_natCast] at h
  exact ⟨hk, hN, hL, by exact_mod_cast h⟩

theorem frameFits_mono (m : Aiger) (f : Regime) {j k : Nat} (hjk : j ≤ k)
    (h : FrameFits m f k) : FrameFits m f j :=
  frameFits_of_le m f j (lt_of_le_of_lt hjk h.1) h.2.1 h.2.2.1
    (le_trans (frame_mono m f hjk) (frameFits_le m f k h))

theorem frame32_of_fits (m : Aiger) (f : Regime) (k : Nat) (h : FrameFits m f k) :
    frame32 m f (k : Int) = frame m f k := by
  have h1 := h.1
  have h2 := frameFits_le m f k h
  exact frame32_eq_frame m f k (by omega) h.2.1 h.2.2.1 (by omega)

theorem lit32_of_fits (m : Aiger) (f : Regime) (k l : Nat) (h : FrameFits m f (k + 1))
    (hl : l ≤ 2 * m.maxvar + 1) : lit32 m f k l = lit m f k l := by
  have hk := h.1
  apply lit32_eq_lit m f k l (by omega) h.2.1 h.2.2.1
  have h1 := frameFits_le m f (k + 1) h
  have h2 := frame_step_le m f k
  have h3 : (((l - 2) / 2 : Nat) : Int) ≤ m.maxvar := by
    have : (l - 2) / 2 ≤ m.maxvar := by omega
    exact_mod_cast this
  omega

theorem diff32_of_fits (m : Aiger) (f : Regime) (hf : f.usesDiff = true) (k l i : Nat)
    (hlk : l < k) (hi : i < m.num_latches) (h : FrameFits m f (k + 1)) :
    diff32 m f k l i = diff m f k l i := by
  have hk := h.1
  have hF := frameFits_le m f (k + 1) h
  have hint := diff_interval m f hf k l i hlk hi
  have hp := frame_pos m f k
  have hm : (0 : Int) ≤ m.maxvar := Int.ofNat_nonneg _
  have hfr : frame32 m f (toI32 ((k : Int) + 1)) = frame m f (k + 1) := by
    have e : toI32 ((k : Int) + 1) = ((k + 1 : Nat) : Int) := by
      rw [toI32_of_lt (by omega) (by omega)]
      push_cast
      rfl
    rw [e]
    exact frame32_of_fits m f (k + 1) h
  have hl0 : (0 : Int) ≤ (l : Int) * m.num_latches := by positivity
  have hi0 : (0 : Int) ≤ i := Int.ofNat_nonneg _
  have hlL : toU32 (l : Int) = l := toU32_natCast (by omega)
  have hLL : toU32 (m.num_latches : Int) = m.num_latches := toU32_natCast h.2.2.1
  unfold diff32
  rw [hfr, hlL, hLL]
  unfold diff at hint ⊢
  generalize (l : Int) * (m.num_latches : Int) = a at hint hl0 ⊢
  generalize frame m f (k + 1) = F at hint hF ⊢
  generalize frame m f k = G at hint hp
  unfold toI32 toU32
  omega

theorem latch_in_range (m : Aiger) (hr : ∀ x ∈ m.latches, x.lit ≤ 2 * m.maxvar + 1) (i : Nat) :
    (m.latches.getD i ⟨0, 0⟩).lit ≤ 2 * m.maxvar + 1 := by
  by_cases hi : i < m.latches.length
  · rw [List.getD_eq_getElem _ _ hi]
    exact hr _ (List.getElem_mem hi)
  · rw [List.getD_eq_default _ _ (by omega)]
    exact Nat.zero_le _

theorem latch32_of_fits (m : Aiger) (f : Regime)
    (hr : ∀ x ∈ m.latches, x.lit ≤ 2 * m.maxvar + 1) (k i : Nat)
    (h : FrameFits m f (k + 1)) : latch32 m f k i = latch m f k i :=
  lit32_of_fits m f k _ h (latch_in_range m hr i)

theorem lit_abs_le_fits (m : Aiger) (f : Regime) (k x : Nat) (h : FrameFits m f (k + 1))
    (hx : x ≤ 2 * m.maxvar + 1) :
    -2147483648 < lit m f k x ∧ lit m f k x < 2147483648 := by
  have h1 := frameFits_le m f (k + 1) h
  have h2 := frame_step_le m f k
  have hp := frame_pos m f k
  rcases lit_natAbs_le m f k x hx with h3 | ⟨h3, h4⟩ <;> constructor <;> omega

theorem diffsOrdered32_of_fits (m : Aiger) (f : Regime) (hf : f.usesDiff = true)
    (hr : ∀ x ∈ m.latches, x.lit ≤ 2 * m.maxvar + 1) (k l : Nat) (hlk : l < k)
    (h : FrameFits m f (k + 1)) : diffsOrdered32 m f k l = diffsOrdered m f k l := by
  have hk := h.1
  have hF := frameFits_le m f (k + 1) h
  have hl : FrameFits m f (l + 1) := frameFits_mono m f (by omega) h
  have hp := frame_pos m f k
  have hm : (0 : Int) ≤ m.maxvar := Int.ofNat_nonneg _
  have ek : toI32 (k : Int) = k := toI32_of_lt (by omega) (by omega)
  have el : toI32 (l : Int) = l := toI32_of_lt (by omega) (by omega)
  have key : ∀ i, i < m.num_latches →
      diff32 m f (toI32 k) (toI32 l) (toI32 i) = diff m f k l i ∧
      toI32 (-diff32 m f (toI32 k) (toI32 l) (toI32 i)) = -diff m f k l i := by
    intro i hi
    have hint := diff_interval m f hf k l i hlk hi
    have hi0 : (0 : Int) ≤ i := Int.ofNat_nonneg _
    have hl0 : (0 : Int) ≤ (l : Int) * m.num_latches :=
      Int.mul_nonneg (Int.ofNat_nonneg _) (Int.ofNat_nonneg _)
    have hi31 : (i : Int) < 2147483648 := by
      unfold diff at hint
      omega
    have ei : toI32 (i : Int) = i := toI32_of_lt (by omega) hi31
    rw [ek, el, ei, diff32_of_fits m f hf k l i hlk hi h]
    exact ⟨rfl, toI32_of_lt (by omega) (by omega)⟩
  have klat : ∀ i, latch32 m f k i = latch m f k i ∧ toI32 (-latch32 m f k i) = -latch m f k i := by
    intro i
    rw [latch32_of_fits m f hr k i h]
    have := lit_abs_le_fits m f k _ h (latch_in_range m hr i)
    exact ⟨rfl, toI32_of_lt (by unfold latch; omega) (by unfold latch; omega)⟩
  have llat : ∀ i, latch32 m f l i = latch m f l i ∧ toI32 (-latch32 m f l i) = -latch m f l i := by
    intro i
    rw [latch32_of_fits m f hr l i hl]
    have := lit_abs_le_fits m f l _ hl (latch_in_range m hr i)
    exact ⟨rfl, toI32_of_lt (by unfold latch; omega) (by unfold latch; omega)⟩
  have eA : ((List.range m.num_latches).flatMap fun i =>
      ternary (latch32 m f l i) (latch32 m f k i)
          (toI32 (-diff32 m f (toI32 k) (toI32 l) (toI32 i))) ++
      ternary (toI32 (-latch32 m f l i)) (toI32 (-latch32 m f k i))
          (toI32 (-diff32 m f (toI32 k) (toI32 l) (toI32 i)))) =
      ((List.range m.num_latches).flatMap fun i =>
        ternary (latch m f l i) (latch m f k i) (-diff m f k l i) ++
        ternary (-latch m f l i) (-latch m f k i) (-diff m f k l i)) := by
    apply List.flatMap_congr
    intro i hi
    have hi2 := List.mem_range.mp hi
    rw [(key i hi2).2, (klat i).2, (klat i).1, (llat i).2, (llat i).1]
  have eB : (List.range m.num_latches).map
      (fun i : Nat => diff32 m f (toI32 k) (toI32 l) (toI32 (i : Int))) =
      (List.range m.num_latches).map (fun i => diff m f k l i) := by
    apply List.map_congr_left
    intro i hi
    exact (key i (List.mem_range.mp hi)).1
  unfold diffsOrdered32 diffsOrdered
  rw [eA, eB]

theorem diffs32_of_fits (m : Aiger) (f : Regime) (hf : f.usesDiff = true)
    (hr : ∀ x ∈ m.latches, x.lit ≤ 2 * m.maxvar + 1) (k l : Nat) (hlk : l < k)
    (h : FrameFits m f (k + 1)) : diffs32 m f k l = diffs m f k l := by
  unfold diffs32 diffs
  rw [if_neg (by omega), if_neg (by omega)]
  exact diffsOrdered32_of_fits m f hf hr k l hlk h

theorem diffs32_comm (m : Aiger) (f : Regime) (k l : Nat) :
    diffs32 m f k l = diffs32 m f l k := by
  unfold diffs32
  rcases Nat.lt_trichotomy k l with h | h | h
  · rw [if_pos h, if_neg (by omega)]
  · subst h; rfl
  · rw [if_neg (by omega), if_pos h]

/-! ## The claims on the numbering, in the arithmetic of the program -/

/-- C9, as the claim states it, fails: in the arithmetic of the program
`lit(2147483647, 2) = 0` for a circuit with `maxvar = 2`, since
`frame(2147483647) = 2^32` wraps to 0, and for a circuit with `maxvar = 3` the
literal `lit(715827883, 2)` of the even circuit literal 2 is negative, since
`frame(715827883) = 2^31 + 3` is stored into `int` as `-2147483645`. -/
theorem lit32_shape_fails :
    2 ≤ 2 * notLatchCircuit.maxvar + 1 ∧
    lit32 notLatchCircuit allDifferent 2147483647 2 = 0 ∧
    2 ≤ 2 * andCircuit.maxvar + 1 ∧ 2 % 2 ≠ 1 ∧
    frame32 andCircuit allDifferent 715827883 = -2147483645 ∧
    lit32 andCircuit allDifferent 715827883 2 < 0 := by
  refine ⟨by decide, by decide, by decide, by decide, by decide, by decide⟩

/-- C9, amended: for every frame `k` such that the exact value of `frame(k+1)`
fits into `int` and every circuit literal `l` in `[0, 2*maxvar+1]`, the
program's `lit(k, l)` has the solver variable 1 when `l ≤ 1` and
`frame(k) + (l-2)/2` when `l ≥ 2`, so the variable depends only on `k` and
`l/2`; the literal is negative exactly when `l` is odd,
`lit(k, l xor 1) = -lit(k, l)`, and the value is not 0. -/
theorem lit32_shape (m : Aiger) (f : Regime) (k l : Nat) (hfit : FrameFits m f (k + 1))
    (hl : l ≤ 2 * m.maxvar + 1) :
    ((lit32 m f k l).natAbs : Int) =
      (if l ≤ 1 then 1 else frame32 m f k + (((l - 2) / 2 : Nat) : Int)) ∧
    (∀ l2 : Nat, l2 / 2 = l / 2 → (lit32 m f k l2).natAbs = (lit32 m f k l).natAbs) ∧
    (lit32 m f k l < 0 ↔ l % 2 = 1) ∧
    lit32 m f k (l ^^^ 1) = -lit32 m f k l ∧
    lit32 m f k l ≠ 0 := by
  obtain ⟨a, b, c, d, e⟩ := lit_shape m f k l
  have hx := (xor_one_cases l).1
  rw [lit32_of_fits m f k l hfit hl, lit32_of_fits m f k (l ^^^ 1) hfit (by omega),
    frame32_of_fits m f k (frameFits_mono m f (Nat.le_succ k) hfit)]
  refine ⟨a, ?_, c, d, e⟩
  intro l2 h2
  rw [lit32_of_fits m f k l2 hfit (by omega)]
  exact b l2 h2

/-- C9, amended, at frame 1 of `andCircuit` under the classical regime and the
circuit literal 7, whose solver literal is `-8`. -/
theorem lit32_shape_witness :
    (FrameFits andCircuit classical (1 + 1) ∧ 7 ≤ 2 * andCircuit.maxvar + 1) ∧
    (((lit32 andCircuit classical 1 7).natAbs : Int) =
      (if 7 ≤ 1 then 1 else frame32 andCircuit classical (1 : Nat) + (((7 - 2) / 2 : Nat) : Int)) ∧
    (∀ l2 : Nat, l2 / 2 = 7 / 2 →
      (lit32 andCircuit classical 1 l2).natAbs = (lit32 andCircuit classical 1 7).natAbs) ∧
    (lit32 andCircuit classical 1 7 < 0 ↔ 7 % 2 = 1) ∧
    lit32 andCircuit classical 1 (7 ^^^ 1) = -lit32 andCircuit classical 1 7 ∧
    lit32 andCircuit classical 1 7 ≠ 0) :=
  ⟨⟨by decide, by decide⟩, lit32_shape andCircuit classical 1 7 (by decide) (by decide)⟩

/-- C10, as the claim states it, fails: with `maxvar = 3` and one latch the
classical regime gives `frame(2) = 9`, not `2*3 + 2 + 3*2*1/2 = 11`; and with
`maxvar = 1` and one latch, where the claim's formula and the code's expression
coincide, the program gives `frame(65537) = 98307` under `-r`, not
`65537 + 2 + 65537*65536/2 = 2147581955`, since the unsigned product
`65537*65536` wraps around. -/
theorem frame32_closed_form_fails :
    frame32 andCircuit classical 2 = 9 ∧
    frame32 andCircuit classical 2 ≠ ((2 * 3 + 2 + 3 * 2 * (2 - 1) / 2 : Nat) : Int) ∧
    frame32 oneLatchCircuit refinement 65537 = 98307 ∧
    frame32 oneLatchCircuit refinement 65537 ≠
      ((65537 * 1 + 2 + 1 * 65537 * (65537 - 1) / 2 : Nat) : Int) := by
  refine ⟨by decide, by decide, by decide, by decide⟩

/-- C10, amended: for every `k ≥ 0` such that the value fits into `int`, the
program's `frame(k)` is `k*maxvar + 2` when `dcs`, `rcs` and `mix` are all
clear and `k*maxvar + 2 + num_latches * k*(k-1)/2` when one of them is set; the
division is exact, `k*(k-1)/2` pairs of `num_latches` variables. -/
theorem frame32_closed_form (m : Aiger) (f : Regime) (k : Nat) (hfit : FrameFits m f k) :
    frame32 m f k =
      (if f.dcs = false ∧ f.rcs = false ∧ f.mix = false then (k : Int) * m.maxvar + 2
       else (k : Int) * m.maxvar + 2 + ((m.num_latches * k * (k - 1) / 2 : Nat) : Int)) ∧
    m.num_latches * k * (k - 1) / 2 = m.num_latches * (k * (k - 1) / 2) := by
  rw [frame32_of_fits m f k hfit]
  exact frame_closed_form m f k

/-- C10, amended, at frame 2 of `andCircuit` under the classical regime, where
`frame(2) = 2*3 + 2 + 1 = 9`. -/
theorem frame32_closed_form_witness :
    FrameFits andCircuit classical 2 ∧
    (frame32 andCircuit classical (2 : Nat) =
      (if classical.dcs = false ∧ classical.rcs = false ∧ classical.mix = false then
        ((2 : Nat) : Int) * andCircuit.maxvar + 2
       else ((2 : Nat) : Int) * andCircuit.maxvar + 2 +
        ((andCircuit.num_latches * 2 * (2 - 1) / 2 : Nat) : Int)) ∧
    andCircuit.num_latches * 2 * (2 - 1) / 2 = andCircuit.num_latches * (2 * (2 - 1) / 2)) :=
  ⟨by decide, frame32_closed_form andCircuit classical 2 (by decide)⟩

/-- C11, as the claim states it, fails: for a circuit with `maxvar = 1` and one
latch under `-r` the program gives the difference variable
`diff(442, 40, 0) = 98307`, which is also the variable of the circuit literal 2
in frame 65537, where `frame` has wrapped around. -/
theorem diff32_fresh_fails :
    refinement.usesDiff = true ∧ 40 < 442 ∧ 0 < oneLatchCircuit.num_latches ∧
    2 ≤ 2 * oneLatchCircuit.maxvar + 1 ∧
    diff32 oneLatchCircuit refinement 442 40 0 = 98307 ∧
    ((lit32 oneLatchCircuit refinement 65537 2).natAbs : Int) =
      diff32 oneLatchCircuit refinement 442 40 0 := by
  refine ⟨by decide, by decide, by decide, by decide, by decide, by decide⟩

/-- C11, amended: when `dcs`, `rcs` or `mix` is set, for `l < k` and
`i < num_latches` such that the exact value of `frame(k+1)` fits into `int`,
the program's `diff(k, l, i)` lies in `[frame(k) + maxvar, frame(k+1) - 1]`, it
differs from `diff(k', l', i')` for every other such triple, it is not the
constant variable 1, and it is not the variable of a circuit literal of any
frame `j` for which `frame(j+1)` fits into `int`. -/
theorem diff32_fresh (m : Aiger) (f : Regime) (hf : f.usesDiff = true) (k l i : Nat)
    (hlk : l < k) (hi : i < m.num_latches) (hfit : FrameFits m f (k + 1)) :
    (frame32 m f k + m.maxvar ≤ diff32 m f k l i ∧
      diff32 m f k l i ≤ frame32 m f ((k + 1 : Nat) : Int) - 1) ∧
    (∀ k' l' i' : Nat, l' < k' → i' < m.num_latches → FrameFits m f (k' + 1) →
      diff32 m f k' l' i' = diff32 m f k l i → k' = k ∧ l' = l ∧ i' = i) ∧
    diff32 m f k l i ≠ 1 ∧
    (∀ j x, x ≤ 2 * m.maxvar + 1 → FrameFits m f (j + 1) →
      ((lit32 m f j x).natAbs : Int) ≠ diff32 m f k l i) := by
  obtain ⟨a, b, c, d⟩ := diff_fresh m f hf k l i hlk hi
  rw [diff32_of_fits m f hf k l i hlk hi hfit, frame32_of_fits m f (k + 1) hfit,
    frame32_of_fits m f k (frameFits_mono m f (Nat.le_succ k) hfit)]
  refine ⟨a, ?_, c, ?_⟩
  · intro k' l' i' hlk' hi' hfit' h
    rw [diff32_of_fits m f hf k' l' i' hlk' hi' hfit'] at h
    exact b k' l' i' hlk' hi' h
  · intro j x hx hfitj
    rw [lit32_of_fits m f j x hfitj hx]
    exact d j x hx

/-- C11, amended, at the frames 0 and 1 of `andCircuit` under the classical
regime, where `diff(1, 0, 0) = 8`. -/
theorem diff32_fresh_witness :
    (classical.usesDiff = true ∧ 0 < 1 ∧ 0 < andCircuit.num_latches ∧
      FrameFits andCircuit classical (1 + 1)) ∧
    ((frame32 andCircuit classical (1 : Nat) + andCircuit.maxvar ≤
        diff32 andCircuit classical (1 : Nat) (0 : Nat) (0 : Nat) ∧
      diff32 andCircuit classical (1 : Nat) (0 : Nat) (0 : Nat) ≤
        frame32 andCircuit classical ((1 + 1 : Nat) : Int) - 1) ∧
    (∀ k' l' i' : Nat, l' < k' → i' < andCircuit.num_latches →
      FrameFits andCircuit classical (k' + 1) →
      diff32 andCircuit classical k' l' i' =
        diff32 andCircuit classical (1 : Nat) (0 : Nat) (0 : Nat) →
      k' = 1 ∧ l' = 0 ∧ i' = 0) ∧
    diff32 andCircuit classical (1 : Nat) (0 : Nat) (0 : Nat) ≠ 1 ∧
    (∀ j x, x ≤ 2 * andCircuit.maxvar + 1 → FrameFits andCircuit classical (j + 1) →
      ((lit32 andCircuit classical j x).natAbs : Int) ≠
        diff32 andCircuit classical (1 : Nat) (0 : Nat) (0 : Nat))) :=
  ⟨⟨by decide, by decide, by decide, by decide⟩,
    diff32_fresh andCircuit classical (by decide) 1 0 0 (by decide) (by decide) (by decide)⟩

/-- C18, as the claim states it, fails: for a circuit with `maxvar = 1` and one
latch under `-d`, take the frames `40 < 442` and the assignment in which only
the latch of frame 40 (variable 822) is true.  The latch differs between the
two frames, but every assignment that satisfies the clauses the program emits
for `diffs(442, 40)` makes the variable 98307 of `diff(442, 40, 0)` true, and
98307 is also the variable the program gives to the circuit literal 2 in frame
65537, which the assignment makes false. -/
theorem diffs32_overconstrains :
    classical.usesDiff = true ∧
    (∀ x ∈ oneLatchCircuit.latches, x.lit ≤ 2 * oneLatchCircuit.maxvar + 1) ∧ 40 < 442 ∧
    (∃ i, i < oneLatchCircuit.num_latches ∧
      evalLit (fun v => v == 822) (latch32 oneLatchCircuit classical 442 i) ≠
        evalLit (fun v => v == 822) (latch32 oneLatchCircuit classical 40 i)) ∧
    ¬ ∃ s' : Nat → Bool,
      (∀ j x, x ≤ 2 * oneLatchCircuit.maxvar + 1 →
        s' (lit32 oneLatchCircuit classical j x).natAbs =
          (fun v => v == 822) (lit32 oneLatchCircuit classical j x).natAbs) ∧
      Satisfies s' (diffs32 oneLatchCircuit classical 442 40) := by
  refine ⟨by decide, by decide, by decide, ⟨0, by decide, by decide⟩, ?_⟩
  rintro ⟨s', hag, hsat⟩
  have h1 := hag 65537 2 (by decide)
  have e : (lit32 oneLatchCircuit classical 65537 2).natAbs = 98307 := by decide
  rw [e] at h1
  have h2 : satClause s' [98307] = true := hsat [98307] (by decide)
  have h3 : s' 98307 = true := by simpa [satClause, evalLit] using h2
  rw [h3] at h1
  exact absurd h1 (by decide)

/-- C18, amended: under a regime that allocates the difference variables, for
a circuit whose latch literals are in `[0, 2*maxvar+1]`, for frames `l < k`
such that the exact value of `frame(k+1)` fits into `int`, and an assignment
`s` in which some latch differs between the two frames, there is an assignment
that satisfies all clauses the program emits for `diffs(k, l)` and agrees with
`s` on the constant variable and, for the frames whose numbers fit into `int`,
on the variables of all circuit literals and on the difference variables of
every other pair of frames; and `diffs(k, l)` and `diffs(l, k)` emit the same
clauses. -/
theorem diffs32_not_overconstrained (m : Aiger) (f : Regime) (hf : f.usesDiff = true)
    (hr : ∀ x ∈ m.latches, x.lit ≤ 2 * m.maxvar + 1) (k l : Nat) (hlk : l < k)
    (hfit : FrameFits m f (k + 1)) (s : Nat → Bool)
    (hd : ∃ i, i < m.num_latches ∧ evalLit s (latch32 m f k i) ≠ evalLit s (latch32 m f l i)) :
    (∃ s' : Nat → Bool, s' 1 = s 1 ∧
      (∀ j x, FrameFits m f (j + 1) → x ≤ 2 * m.maxvar + 1 →
        s' (lit32 m f j x).natAbs = s (lit32 m f j x).natAbs) ∧
      (∀ k' l' i' : Nat, l' < k' → i' < m.num_latches → FrameFits m f (k' + 1) →
        (k', l') ≠ (k, l) →
        s' (diff32 m f k' l' i').natAbs = s (diff32 m f k' l' i').natAbs) ∧
      Satisfies s' (diffs32 m f k l)) ∧
    diffs32 m f k l = diffs32 m f l k := by
  have hfl : FrameFits m f (l + 1) := frameFits_mono m f (by omega) hfit
  have hd2 : ∃ i, i < m.num_latches ∧ evalLit s (latch m f k i) ≠ evalLit s (latch m f l i) := by
    obtain ⟨i, hi, hne⟩ := hd
    rw [latch32_of_fits m f hr k i hfit, latch32_of_fits m f hr l i hfl] at hne
    exact ⟨i, hi, hne⟩
  obtain ⟨⟨s', h1, h2, h3, h4⟩, _⟩ := diffs_not_overconstrained m f hf hr k l hlk s hd2
  refine ⟨⟨s', h1, ?_, ?_, ?_⟩, diffs32_comm m f k l⟩
  · intro j x hj hx
    rw [lit32_of_fits m f j x hj hx]
    exact h2 j x hx
  · intro k' l' i' hlk' hi' hfit' hne
    rw [diff32_of_fits m f hf k' l' i' hlk' hi' hfit']
    exact h3 k' l' i' hlk' hi' hne
  · rw [diffs32_of_fits m f hf hr k l hlk hfit]
    exact h4

/-- C18, amended, at the frames 0 and 1 of `andCircuit` under the classical
regime, for the assignment in which only the latch of frame 1 is true. -/
theorem diffs32_not_overconstrained_witness :
    (classical.usesDiff = true ∧ (∀ x ∈ andCircuit.latches, x.lit ≤ 2 * andCircuit.maxvar + 1) ∧
      0 < 1 ∧ FrameFits andCircuit classical (1 + 1) ∧
      ∃ i, i < andCircuit.num_latches ∧
        evalLit (fun v => v == 6) (latch32 andCircuit classical 1 i) ≠
          evalLit (fun v => v == 6) (latch32 andCircuit classical 0 i)) ∧
    ((∃ s' : Nat → Bool, s' 1 = (fun v => v == 6) 1 ∧
      (∀ j x, FrameFits andCircuit classical (j + 1) → x ≤ 2 * andCircuit.maxvar + 1 →
        s' (lit32 andCircuit classical j x).natAbs =
          (fun v => v == 6) (lit32 andCircuit classical j x).natAbs) ∧
      (∀ k' l' i' : Nat, l' < k' → i' < andCircuit.num_latches →
        FrameFits andCircuit classical (k' + 1) → (k', l') ≠ (1, 0) →
        s' (diff32 andCircuit classical k' l' i').natAbs =
          (fun v => v == 6) (diff32 andCircuit classical k' l' i').natAbs) ∧
      Satisfies s' (diffs32 andCircuit classical 1 0)) ∧
    diffs32 andCircuit classical 1 0 = diffs32 andCircuit classical 0 1) :=
  ⟨⟨by decide, by decide, by decide, by decide, ⟨0, by decide, by decide⟩⟩,
    diffs32_not_overconstrained andCircuit classical (by decide) (by decide) 1 0 (by decide)
      (by decide) (fun v => v == 6) ⟨0, by decide, by decide⟩⟩

/-! ## The literal map depends on the flags through `dcs || rcs || mix` only -/

theorem lit_congr (m : Aiger) (f g : Regime) (h : g.usesDiff = f.usesDiff) :
    lit m g = lit m f := by
  funext k l
  unfold lit
  rw [frame_congr m f g h]

theorem latch_congr (m : Aiger) (f g : Regime) (h : g.usesDiff = f.usesDiff) :
    latch m g = latch m f := by
  funext k i
  unfold latch
  rw [lit_congr m f g h]

theorem next_congr (m : Aiger) (f g : Regime) (h : g.usesDiff = f.usesDiff) :
    next m g = next m f := by
  funext k i
  unfold next
  rw [lit_congr m f g h]

theorem output_congr (m : Aiger) (f g : Regime) (h : g.usesDiff = f.usesDiff) :
    output m g = output m f := by
  funext k i
  unfold output
  rw [lit_congr m f g h]

theorem connect_congr (m : Aiger) (f g : Regime) (h : g.usesDiff = f.usesDiff) :
    connect m g = connect m f := by
  funext k
  unfold connect
  rw [latch_congr m f g h, next_congr m f g h]

theorem encode_congr (m : Aiger) (f g : Regime) (h : g.usesDiff = f.usesDiff) :
    encode m g = encode m f := by
  funext k
  unfold encode
  rw [lit_congr m f g h, latch_congr m f g h, output_congr m f g h]

theorem ado_congr (m : Aiger) (f g : Regime) (h : g.usesDiff = f.usesDiff) :
    ado m g = ado m f := by
  funext k
  unfold ado
  rw [latch_congr m f g h]

theorem diffsk_congr (m : Aiger) (f g : Regime) (h : g.usesDiff = f.usesDiff) :
    diffsk m g = diffsk m f := by
  funext k
  unfold diffsk
  have e : (fun l => diffs m g k l) = fun l => diffs m f k l := by
    funext l
    exact diffs_congr m f g h k l
  rw [e]

theorem initLits_congr (m : Aiger) (f g : Regime) (h : g.usesDiff = f.usesDiff) :
    initLits m g = initLits m f := by
  unfold initLits
  rw [latch_congr m f g h]

/-! ## The fields of the state along a round -/

theorem startFlags_of_three (f : Regime)
    (hf : f = allDifferent ∨ f = classical ∨ f = refinement) : StartFlags f := by
  rcases hf with h | h | h
  · exact Or.inl h
  · exact Or.inr (Or.inl h)
  · exact Or.inr (Or.inr (Or.inl h))

theorem regime_nomix (f : Regime) (hf : f = allDifferent ∨ f = classical ∨ f = refinement) :
    f.mix = false := by
  rcases hf with rfl | rfl | rfl <;> rfl

theorem regime_usesDiff (f : Regime) (h : f.dcs = true ∨ f.rcs = true) :
    f.usesDiff = true := by
  unfold Regime.usesDiff
  rcases h with h | h <;> simp [h]

theorem unrolled_usesDiff (m : Aiger) (f : Regime) (n K : Nat) (st : State)
    (h : Unrolled m f n K st) : st.flags.usesDiff = f.usesDiff := by
  rcases h.1 with h1 | ⟨h1, h2, _⟩
  · rw [h1]
  · rw [h1, h2]
    rfl

theorem unrolled_dcs (m : Aiger) (f : Regime) (n K : Nat) (st : State)
    (h : Unrolled m f n K st) : st.flags.dcs = f.dcs := by
  rcases h.1 with h1 | ⟨h1, h2, _⟩
  · rw [h1]
  · rw [h1, h2]
    rfl

theorem foldl_diffs_fields (m : Aiger) (k : Nat) (l : List Nat) :
    ∀ st : State, (l.foldl (fun st l => run_diffs m k l st) st).added =
        st.added ++ l.flatMap (diffs m st.flags k) ∧
      (l.foldl (fun st l => run_diffs m k l st) st).flags = st.flags ∧
      (l.foldl (fun st l => run_diffs m k l st) st).adoLits = st.adoLits ∧
      (l.foldl (fun st l => run_diffs m k l st) st).frames = st.frames ∧
      (l.foldl (fun st l => run_diffs m k l st) st).sframes = st.sframes ∧
      (l.foldl (fun st l => run_diffs m k l st) st).assumed = st.assumed ∧
      (l.foldl (fun st l => run_diffs m k l st) st).adoEnabled = st.adoEnabled := by
  induction l with
  | nil => intro st; simp
  | cons x xs ih =>
    intro st
    rw [List.foldl_cons]
    obtain ⟨h1, h2, h3, h4, h5, h6, h7⟩ := ih (run_diffs m k x st)
    refine ⟨?_, h2, h3, h4, h5, h6, h7⟩
    rw [h1]
    simp [run_diffs]

theorem init_fields (m : Aiger) (ses : Session) (hb : ses.bonly = false) (k : Nat)
    (st : State) :
    (init m ses k st).assumed = st.assumed ++ initLits m st.flags ∧
    (init m ses k st).flags = st.flags ∧ (init m ses k st).added = st.added ∧
    (init m ses k st).adoLits = st.adoLits ∧ (init m ses k st).frames = st.frames ∧
    (init m ses k st).sframes = st.sframes ∧
    (init m ses k st).adoEnabled = st.adoEnabled := by
  unfold init initLits
  rw [hb]
  simp only [Bool.false_and, Bool.false_eq_true, if_false]
  generalize List.range m.num_latches = l
  induction l generalizing st with
  | nil => simp
  | cons x xs ih =>
    rw [List.foldl_cons]
    obtain ⟨h1, h2, h3, h4, h5, h6, h7⟩ := ih (picosat_assume (-latch m st.flags 0 x) st)
    refine ⟨?_, h2, h3, h4, h5, h6, h7⟩
    rw [h1]
    simp [picosat_assume]

theorem satBookkeeping_fields (k : Nat) (st st1 : State)
    (h : satBookkeeping k st = some st1) :
    st1.flags = st.flags ∧ st1.added = st.added ∧ st1.adoLits = st.adoLits ∧
    st1.assumed = st.assumed ∧ st1.adoEnabled = st.adoEnabled := by
  unfold satBookkeeping at h
  split_ifs at h <;> simp only [Option.some.injEq] at h <;> subst h <;>
    exact ⟨rfl, rfl, rfl, rfl, rfl⟩

theorem iterEntry_of (m : Aiger) (B : Backend) (k : Nat) (st st0 : State)
    (h0 : st0 = if st.flags.mix && st.flags.acs &&
        decide (B.adoConflicts st.satCalls.length ≥ 10000) then switchToRefinement st else st) :
    iterEntry m B k st =
      picosat_add (encode m st0.flags k) (picosat_add (connect m st0.flags k) st0) := by
  subst h0
  rfl

theorem simple_fields (m : Aiger) (k : Nat) (st st1 : State)
    (h : simple m k st = some st1) :
    st1.flags = st.flags ∧
    st1.added = st.added ++ (if st.flags.dcs then diffsk m st.flags k else []) ∧
    st1.adoLits = st.adoLits ++
      (if st.flags.dcs then [] else if st.flags.acs then ado m st.flags k else []) ∧
    st1.frames = st.frames ∧ st1.sframes = st.sframes ∧ st1.assumed = st.assumed ∧
    st1.adoEnabled = st.adoEnabled := by
  unfold simple at h
  by_cases hd : st.flags.dcs = true
  · rw [if_pos hd] at h
    simp only [Option.some.injEq] at h
    subst h
    rw [if_pos hd, if_pos hd]
    unfold run_diffsk diffsk
    split
    · exact ⟨rfl, by simp, by simp, rfl, rfl, rfl, rfl⟩
    · obtain ⟨h1, h2, h3, h4, h5, h6, h7⟩ := foldl_diffs_fields m k (List.range k) st
      exact ⟨h2, h1, by rw [h3]; simp, h4, h5, h6, h7⟩
  · rw [if_neg hd] at h
    rw [if_neg hd, if_neg hd]
    by_cases ha : st.flags.acs = true
    · rw [if_pos ha] at h
      simp only [Option.some.injEq] at h
      subst h
      rw [if_pos ha]
      exact ⟨rfl, by simp, rfl, rfl, rfl, rfl, rfl⟩
    · rw [if_neg ha] at h
      rw [if_neg ha]
      split at h
      · simp only [Option.some.injEq] at h
        subst h
        exact ⟨rfl, by simp, by simp, rfl, rfl, rfl, rfl⟩
      · exact Option.noConfusion h

theorem stepEntry_fields (m : Aiger) (B : Backend) (k : Nat) (st : State) :
    (stepEntry m B k st).assumed = st.assumed ++ [output m st.flags k 0] ∧
    (stepEntry m B k st).flags = st.flags ∧ (stepEntry m B k st).added = st.added ∧
    (stepEntry m B k st).adoLits = st.adoLits ∧ (stepEntry m B k st).frames = st.frames ∧
    (stepEntry m B k st).sframes = st.sframes ∧
    (stepEntry m B k st).adoEnabled = st.adoEnabled := by
  unfold stepEntry bad picosat_assume
  split <;> exact ⟨rfl, rfl, rfl, rfl, rfl, rfl, rfl⟩

theorem baseEntry_fields (m : Aiger) (ses : Session) (hb : ses.bonly = false) (k : Nat)
    (st : State) :
    (baseEntry m ses k st).assumed =
      st.assumed ++ initLits m st.flags ++ [output m st.flags k 0] ∧
    (baseEntry m ses k st).flags = st.flags ∧ (baseEntry m ses k st).added = st.added ∧
    (baseEntry m ses k st).adoLits = st.adoLits ∧ (baseEntry m ses k st).frames = st.frames ∧
    (baseEntry m ses k st).sframes = st.sframes ∧
    (baseEntry m ses k st).adoEnabled = (if st.flags.acs then false else st.adoEnabled) := by
  have key : ∀ st0 : State, st0.assumed = st.assumed → st0.flags = st.flags →
      st0.added = st.added → st0.adoLits = st.adoLits → st0.frames = st.frames →
      st0.sframes = st.sframes →
      (bad m k (init m ses k st0)).assumed =
        st.assumed ++ initLits m st.flags ++ [output m st.flags k 0] ∧
      (bad m k (init m ses k st0)).flags = st.flags ∧
      (bad m k (init m ses k st0)).added = st.added ∧
      (bad m k (init m ses k st0)).adoLits = st.adoLits ∧
      (bad m k (init m ses k st0)).frames = st.frames ∧
      (bad m k (init m ses k st0)).sframes = st.sframes ∧
      (bad m k (init m ses k st0)).adoEnabled = st0.adoEnabled := by
    intro st0 e1 e2 e3 e4 e5 e6
    obtain ⟨h1, h2, h3, h4, h5, h6, h7⟩ := init_fields m ses hb k st0
    refine ⟨?_, h2.trans e2, h3.trans e3, h4.trans e4, h5.trans e5, h6.trans e6, h7⟩
    show (init m ses k st0).assumed ++ [output m (init m ses k st0).flags k 0] = _
    rw [h1, h2, e1, e2]
  unfold baseEntry
  split
  · obtain ⟨h1, h2, h3, h4, h5, h6, h7⟩ := key { st with adoEnabled := false } rfl rfl rfl rfl
      rfl rfl
    exact ⟨h1, h2, h3, h4, h5, h6, h7⟩
  · obtain ⟨h1, h2, h3, h4, h5, h6, h7⟩ := key st rfl rfl rfl rfl rfl rfl
    exact ⟨h1, h2, h3, h4, h5, h6, h7⟩

/-! ## The invariant of the unrolling -/

theorem unrolled_mono (m : Aiger) (f : Regime) (n : Nat) {k K : Nat} (hk : k ≤ K)
    (st : State) (h : Unrolled m f n k st) : Unrolled m f n K st :=
  ⟨h.1, h.2.1, h.2.2.1, fun s hs => h.2.2.2.1 s (canon_mono m f hk s hs), h.2.2.2.2⟩

theorem unrolled_of (m : Aiger) (f : Regime) (n K : Nat) (st st1 : State)
    (h1 : st1.flags = st.flags) (h2 : st1.added = st.added) (h3 : st1.adoLits = st.adoLits)
    (h4 : (f.rcs || f.mix) = true → FramesOk st1)
    (h5 : st.flags.acs = false → st1.adoEnabled = st.adoEnabled)
    (h : Unrolled m f n K st) : Unrolled m f n K st1 := by
  obtain ⟨a, b, c, d, ⟨n1, e1, e2, e3⟩, _, o⟩ := h
  refine ⟨?_, by rw [h2]; exact b, by rw [h2]; exact c, by rw [h2]; exact d,
    ⟨n1, e1, by rw [h3]; exact e2, by rw [h1]; exact e3⟩, h4, by rw [h2]; exact o⟩
  rcases a with a | ⟨a1, a2, a3⟩
  · exact Or.inl (h1.trans a)
  · exact Or.inr ⟨a1, h1.trans a2, (h5 (by rw [a2]; rfl)).trans a3⟩

theorem framesOk_congr (st st1 : State) (h1 : st1.flags = st.flags)
    (h4 : st1.frames = st.frames) (h5 : st1.sframes = st.sframes) (h : FramesOk st) :
    FramesOk st1 := by
  obtain ⟨g1, g2, g3⟩ := h
  exact ⟨by rw [h1]; exact g1, by rw [h4]; exact g2, by rw [h4, h5]; exact g3⟩

theorem unrolled_congr (m : Aiger) (f : Regime) (n K : Nat) (st st1 : State)
    (h1 : st1.flags = st.flags) (h2 : st1.added = st.added) (h3 : st1.adoLits = st.adoLits)
    (h4 : st1.frames = st.frames) (h5 : st1.sframes = st.sframes)
    (h6 : st.flags.acs = false → st1.adoEnabled = st.adoEnabled)
    (h : Unrolled m f n K st) : Unrolled m f n K st1 :=
  unrolled_of m f n K st st1 h1 h2 h3
    (fun hr => framesOk_congr st st1 h1 h4 h5 (h.2.2.2.2.2.1 hr)) h6 h

theorem unrolled_add (m : Aiger) (f : Regime) (n K : Nat) (st : State) (xs : List Int)
    (hx : Closed xs) (hs : ∀ s, Canon m f K s → Satisfies s xs)
    (h : Unrolled m f n K st) : Unrolled m f n K (picosat_add xs st) := by
  obtain ⟨a, b, c, d, e, g, o⟩ := h
  refine ⟨a, closed_append b hx, ?_, ?_, e, g, ?_⟩
  · intro s hsat
    exact c s ((satisfies_append s b xs).1 hsat).1
  · intro s hc
    exact (satisfies_append s b xs).2 ⟨d s hc, hs s hc⟩
  · intro j i h1 h2 h3
    exact List.mem_append_left _ (o j i h1 h2 h3)

theorem startFlags_mixed (f : Regime) (hf : StartFlags f) (hm : f.mix = true) : f = mixed := by
  rcases hf with rfl | rfl | rfl | rfl | rfl
  · exact Bool.noConfusion hm
  · exact Bool.noConfusion hm
  · exact Bool.noConfusion hm
  · rfl
  · exact Bool.noConfusion hm

theorem unrolled_switch (m : Aiger) (f : Regime) (hf : StartFlags f) (n K : Nat) (st : State)
    (hm : st.flags.mix = true) (ha : st.flags.acs = true) (h : Unrolled m f n K st) :
    Unrolled m f n K (switchToRefinement st) := by
  obtain ⟨a, b, c, d, ⟨n1, e1, e2, _⟩, g, o⟩ := h
  have hfl : st.flags = f := by
    rcases a with a | ⟨_, a2, _⟩
    · exact a
    · rw [a2] at ha
      exact Bool.noConfusion ha
  have hfm : f = mixed := startFlags_mixed f hf (by rw [← hfl]; exact hm)
  refine ⟨Or.inr ⟨hfm, ?_, rfl⟩, b, c, d, ⟨n1, e1, e2, fun h => ?_⟩, fun hr => ?_, o⟩
  · show ({ st.flags with acs := false, rcs := true } : Regime) = switched
    rw [hfl, hfm]
    rfl
  · exact Bool.noConfusion h
  · exact (kept_framesOk m).switch st hm ha (g hr)

theorem satisfies_diffsk (m : Aiger) (f : Regime) (hu : f.usesDiff = true) (k : Nat)
    (s : Nat → Bool) (hc : Canon m f k s) : Satisfies s (diffsk m f k) := by
  unfold diffsk
  split
  · exact satisfies_nil s
  · rw [satisfies_flatMap s _ _ fun l _ => closed_diffs m f k l]
    intro l hl
    have := List.mem_range.mp hl
    exact hc.2.1 hu k l (by omega) (le_refl _) (by omega)

theorem closed_diffsk (m : Aiger) (f : Regime) (k : Nat) : Closed (diffsk m f k) := by
  unfold diffsk
  split
  · exact closed_nil
  · exact closed_flatMap _ _ fun l _ => closed_diffs m f k l

theorem latch_mem_encode (m : Aiger) (f : Regime) (k i : Nat) (hk : 1 ≤ k)
    (hi : i < m.num_latches) : latch m f k i ∈ encode m f k := by
  obtain ⟨n, rfl⟩ : ∃ n, k = n + 1 := ⟨k - 1, by omega⟩
  rw [encode_succ]
  apply List.mem_append_right
  apply List.mem_append_left
  apply List.mem_append_left
  exact List.mem_map.mpr ⟨i, List.mem_range.mpr hi, rfl⟩

theorem unrolled_enter (m : Aiger) (B : Backend) (f : Regime) (hf : StartFlags f) (k : Nat)
    (st st1 : State) (h : Unrolled m f k k st)
    (hs : simple m k (iterEntry m B k st) = some st1) :
    Unrolled m f (k + 1) k st1 ∧ st1.assumed = st.assumed := by
  have key : ∀ st0 : State, Unrolled m f k k st0 → st0.assumed = st.assumed →
      simple m k (picosat_add (encode m st0.flags k)
        (picosat_add (connect m st0.flags k) st0)) = some st1 →
      Unrolled m f (k + 1) k st1 ∧ st1.assumed = st.assumed := by
    intro st0 h0 has hs0
    have hu := unrolled_usesDiff m f k k st0 h0
    have hdcs := unrolled_dcs m f k k st0 h0
    obtain ⟨a, b, c, d, ⟨n1, e1, e2, e3⟩, g, o⟩ := h0
    obtain ⟨h1, h2, h3, h4, h5, h6, h7⟩ := simple_fields m k _ st1 hs0
    have hfl : st1.flags = st0.flags := h1
    have hadd : st1.added = st0.added ++ (connect m f k ++ (encode m f k ++
        (if f.dcs then diffsk m f k else []))) := by
      rw [h2]
      show (st0.added ++ connect m st0.flags k ++ encode m st0.flags k) ++
        (if st0.flags.dcs then diffsk m st0.flags k else []) = _
      rw [connect_congr m f _ hu, encode_congr m f _ hu, diffsk_congr m f _ hu, hdcs]
      simp only [List.append_assoc]
    have hado : st1.adoLits = st0.adoLits ++
        (if st0.flags.dcs then [] else if st0.flags.acs then ado m f k else []) := by
      rw [h3]
      show st0.adoLits ++
        (if st0.flags.dcs then [] else if st0.flags.acs then ado m st0.flags k else []) = _
      rw [ado_congr m f _ hu]
    have hcl3 : Closed (if f.dcs then diffsk m f k else []) := by
      split
      · exact closed_diffsk m f k
      · exact closed_nil
    refine ⟨⟨?_, ?_, ?_, ?_, ?_, ?_, ?_⟩, h6.trans has⟩
    · rcases a with a | ⟨a1, a2, a3⟩
      · exact Or.inl (hfl.trans a)
      · exact Or.inr ⟨a1, hfl.trans a2, h7.trans a3⟩
    · rw [hadd]
      exact closed_append b (closed_append (closed_connect m f k)
        (closed_append (closed_encode m f k) hcl3))
    · intro s hsat j hj
      rw [hadd, satisfies_append s b, satisfies_append s (closed_connect m f k),
        satisfies_append s (closed_encode m f k)] at hsat
      rcases Nat.lt_succ_iff_lt_or_eq.mp hj with hlt | rfl
      · exact c s hsat.1 j hlt
      · exact ⟨hsat.2.1, hsat.2.2.1⟩
    · intro s hc
      rw [hadd, satisfies_append s b, satisfies_append s (closed_connect m f k),
        satisfies_append s (closed_encode m f k)]
      refine ⟨d s hc, (hc.1 k (le_refl _)).1, (hc.1 k (le_refl _)).2, ?_⟩
      split
      · rename_i hd
        exact satisfies_diffsk m f (regime_usesDiff f (Or.inl hd)) k s hc
      · exact satisfies_nil s
    · by_cases hacs : st0.flags.acs = true
      · have hnd : st0.flags.dcs = false := by
          rcases a with a | ⟨_, a2, _⟩
          · rw [a] at hacs ⊢
            rcases hf with rfl | rfl | rfl | rfl | rfl
            · rfl
            · exact Bool.noConfusion hacs
            · exact Bool.noConfusion hacs
            · rfl
            · exact Bool.noConfusion hacs
          · rw [a2]
            rfl
        refine ⟨k + 1, le_refl _, ?_, fun _ => rfl⟩
        rw [hado, hnd, e2, e3 hacs]
        simp only [Bool.false_eq_true, if_false, hacs, if_true]
        rw [List.range_succ, List.flatMap_append]
        simp
      · refine ⟨n1, Nat.le_succ_of_le e1, ?_, fun h => absurd (hfl ▸ h) hacs⟩
        rw [hado, e2]
        simp only [hacs, if_false]
        split <;> simp
    · intro hr
      exact framesOk_congr _ st1 hfl h4 h5 (g hr)
    · intro j i hj1 hj2 hi
      rw [hadd]
      rcases Nat.lt_succ_iff_lt_or_eq.mp hj2 with hlt | rfl
      · exact List.mem_append_left _ (o j i hj1 hlt hi)
      · apply List.mem_append_right
        apply List.mem_append_right
        apply List.mem_append_left
        exact latch_mem_encode m f j i hj1 hi
  rw [iterEntry_of m B k st _ rfl] at hs
  split at hs
  · rename_i hc
    simp only [Bool.and_eq_true, decide_eq_true_eq] at hc
    exact key _ (unrolled_switch m f hf k k st hc.1.1 hc.1.2 h) rfl hs
  · exact key st h rfl hs

theorem unrolled_initial (m : Aiger) (f : Regime) :
    Unrolled m f 0 0 (State.initial f) ∧ (State.initial f).assumed = [] := by
  refine ⟨⟨Or.inl rfl, closed_nil, fun s _ j hj => absurd hj (Nat.not_lt_zero j),
    fun s _ => satisfies_nil s, ⟨0, le_refl _, rfl, fun _ => rfl⟩,
    fun hr => ⟨hr, List.Perm.refl _, le_refl _⟩,
    fun j i h1 h2 _ => absurd h2 (Nat.not_lt_zero j)⟩, rfl⟩

theorem roundKept_unrolled (m : Aiger) (ses : Session) (B : Backend)
    (hb : ses.bonly = false) (f : Regime) (hf : StartFlags f)
    (Q : Bool → Nat → State → Answer → Prop) :
    RoundKept m ses B Q
      (fun k s => Unrolled m f k k s ∧ s.assumed = [])
      (fun k s => Unrolled m f (k + 1) k s ∧ s.assumed = [])
      (fun k s => Unrolled m f (k + 1) k s ∧ s.assumed = [])
      (fun b k s => Unrolled m f (k + 1) k s ∧
        s.assumed = (if b then initLits m f else []) ++ [output m f k 0] ∧
        (b = true → s.flags.acs = true → s.adoEnabled = false))
      (fun b k s => Unrolled m f (k + 1) k s ∧
        ((s.flags.rcs || s.flags.mix) = true → s.frames.length = k + 1) ∧
        (s.assumed = (if b then initLits m f else []) ++ [output m f k 0] ∨
          s.assumed = [output m f k 0] ∨ s.assumed = []) ∧
        (b = true → s.flags.acs = true → s.adoEnabled = false)) where
  enter := fun k st st1 h hs => by
    obtain ⟨h1, h2⟩ := unrolled_enter m B f hf k st st1 h.1 hs
    exact ⟨h1, h2.trans h.2⟩
  stepEntry := fun k st _ h => by
    obtain ⟨h1, h2, h3, h4, h5, h6, h7⟩ := stepEntry_fields m B k st
    have hu := unrolled_usesDiff m f _ _ st h.1
    refine ⟨unrolled_congr m f _ _ st _ h2 h3 h4 h5 h6 (fun _ => h7) h.1, ?_,
      fun hc => Bool.noConfusion hc⟩
    rw [h1, h.2, output_congr m f _ hu]
    rfl
  skipStep := fun k st hc _ => by rw [hb] at hc; exact Bool.noConfusion hc
  baseEntry := fun k st _ h => by
    obtain ⟨h1, h2, h3, h4, h5, h6, h7⟩ := baseEntry_fields m ses hb k st
    have hu := unrolled_usesDiff m f _ _ st h.1
    refine ⟨unrolled_congr m f _ _ st _ h2 h3 h4 h5 h6 (fun hc => ?_) h.1, ?_, fun _ hc => ?_⟩
    · rw [h7, hc]
      rfl
    · rw [h1, h.2, output_congr m f _ hu, initLits_congr m f _ hu]
      rfl
    · rw [h2] at hc
      rw [h7, hc]
      rfl
  skipBase := fun k st _ h => ⟨unrolled_mono m f _ (Nat.le_succ k) st h.1, h.2⟩
  record := fun b k st st1 h hbk => by
    obtain ⟨h1, h2, h3, h4, h5⟩ := satBookkeeping_fields k st st1 hbk
    have hfm : (st.flags.rcs || st.flags.mix) = true → (f.rcs || f.mix) = true := by
      intro hc
      rcases h.1.1 with a | ⟨a1, _, _⟩
      · rw [← a]; exact hc
      · rw [a1]; rfl
    refine ⟨unrolled_of m f _ _ st st1 h1 h2 h3
      (fun hr => (kept_framesOk m).record st st1 k hbk (h.1.2.2.2.2.2.1 hr)) (fun _ => h5) h.1,
      ?_, Or.inl (h4.trans h.2.1), fun hb1 hc => ?_⟩
    · intro hr
      rw [h1] at hr
      obtain ⟨_, _, _, _, _, _, hc⟩ := satBookkeeping_cases k st st1 hbk
      rcases hc with ⟨_, ⟨hk, hfr⟩ | ⟨hk, hfr⟩⟩ | ⟨hno, _⟩
      · rw [hfr, List.length_append, List.length_singleton, ← hk]
      · rw [hfr, hk]
      · rw [hr] at hno; exact Bool.noConfusion hno
    · rw [h1] at hc
      rw [h5]
      exact h.2.2 hb1 hc
  restart := fun b k a st st1 h _ hn => by
    obtain ⟨hu, hlen, _, hado⟩ := h
    have hus := unrolled_usesDiff m f _ _ st hu
    have hans : Unrolled m f (k + 1) k (picosat_sat a st) :=
      unrolled_congr m f _ _ st _ rfl rfl rfl rfl rfl (fun _ => rfl) hu
    unfold satNext at hn
    split at hn
    · exact Option.noConfusion hn
    · split at hn
      · rename_i hc
        simp only [Bool.and_eq_true, Bool.not_eq_true'] at hc
        simp only [Option.some.injEq] at hn
        subst hn
        refine ⟨unrolled_switch m f hf _ _ _ hc.1.1 hc.2 hans, fun hr => ?_,
          Or.inr (Or.inr rfl), fun _ hacs => ?_⟩
        · apply hlen
          show (st.flags.rcs || st.flags.mix) = true
          have : st.flags.mix = true := hc.1.1
          rw [this]
          simp
        · exact rfl
      · exact Option.noConfusion hn
    · split at hn
      · exact Option.noConfusion hn
      · rename_i hc
        have hr : st.flags.rcs = true := by simpa [picosat_sat] using hc
        have hrm : (st.flags.rcs || st.flags.mix) = true := by rw [hr]; rfl
        have hfm : (f.rcs || f.mix) = true := by
          rcases hu.1 with a | ⟨a1, _, _⟩
          · rw [← a]; exact hrm
          · rw [a1]; rfl
        have hfu : f.usesDiff = true := by
          rw [← hus]
          exact regime_usesDiff _ (Or.inr hr)
        split at hn
        · rename_i x y hfe
          simp only [Option.some.injEq] at hn
          subst hn
          have hok := hu.2.2.2.2.2.1 hfm
          have hrec : FramesRecorded k (sortFrames m k (picosat_sat a st)) :=
            (satCallOk_of_recorded m k st a
              ((framesRecorded_iff k st hok.1).mpr ⟨hok, hlen hrm⟩)).2.1
          have hdist : x ≠ y ∧ x ≤ k ∧ y ≤ k := by
            refine firstEqual_distinct _ _ k ?_ x y hfe
            rw [List.take_of_length_le (by rw [hrec.1])]
            exact hrec.2.2
          have hadd : Unrolled m f (k + 1) k (picosat_add (diffs m f x y) st) :=
            unrolled_add m f _ _ st _ (closed_diffs m f x y)
              (fun s hs => hs.2.1 hfu x y hdist.1 hdist.2.1 hdist.2.2) hu
          refine ⟨unrolled_of m f _ _ (picosat_add (diffs m f x y) st) _ rfl
            (by
              show st.added ++ diffs m st.flags x y = st.added ++ diffs m f x y
              rw [diffs_congr m f _ hus])
            rfl (fun _ => ?_) (fun _ => rfl) hadd, fun _ => ?_, Or.inr (Or.inl ?_),
            fun hb1 hacs => hado hb1 hacs⟩
          · have h1 := (kept_framesOk m).sort _ k (by simpa [picosat_sat] using hc)
              ((kept_framesOk m).answer st a hok)
            exact (kept_framesOk m).assume _ _ ((kept_framesOk m).refine _ x y
              (by simpa [picosat_sat] using hc) h1)
          · exact hrec.1
          · show [output m st.flags k 0] = [output m f k 0]
            rw [output_congr m f _ hus]
        · exact Option.noConfusion hn
  leaveStep := fun k a st st1 h _ hx => by
    obtain ⟨hu, _, _⟩ := h
    rcases hx with rfl | ⟨hr, rfl⟩
    · exact ⟨unrolled_congr m f _ _ st _ rfl rfl rfl rfl rfl (fun _ => rfl) hu, rfl⟩
    · exact ⟨unrolled_of m f _ _ st _ rfl rfl rfl
        (fun hr2 => (kept_framesOk m).sort _ k hr
          ((kept_framesOk m).answer st a (hu.2.2.2.2.2.1 hr2))) (fun _ => rfl) hu, rfl⟩
  leaveBase := fun k a st st1 h _ hx => by
    obtain ⟨hu, _, _⟩ := h
    have key : Unrolled m f (k + 1) k st1 ∧ st1.assumed = [] := by
      rcases hx with rfl | ⟨hr, rfl⟩
      · exact ⟨unrolled_congr m f _ _ st _ rfl rfl rfl rfl rfl (fun _ => rfl) hu, rfl⟩
      · exact ⟨unrolled_of m f _ _ st _ rfl rfl rfl
          (fun hr2 => (kept_framesOk m).sort _ k hr
            ((kept_framesOk m).answer st a (hu.2.2.2.2.2.1 hr2))) (fun _ => rfl) hu, rfl⟩
    have key2 := unrolled_mono m f _ (Nat.le_succ k) st1 key.1
    split
    · rename_i hacs
      exact ⟨unrolled_congr m f _ _ st1 _ rfl rfl rfl rfl rfl
        (fun hc => absurd hacs (by rw [hc]; decide)) key2, key.2⟩
    · exact ⟨key2, key.2⟩
  printM := fun k st cs h =>
    ⟨unrolled_congr m f _ _ st _ rfl rfl rfl rfl rfl (fun _ => rfl) h.1, h.2⟩
  printS := fun k st cs h =>
    ⟨unrolled_congr m f _ _ st _ rfl rfl rfl rfl rfl (fun _ => rfl) h.1, h.2⟩

/-! ## Verdicts of a sound and complete backend -/

theorem clausesOf_tuples {α : Type} (c : α → List Int) (hc : ∀ t x, x ∈ c t → x ≠ 0)
    (l : List α) : clausesOf (l.flatMap fun t => c t ++ [0]) = l.map c := by
  induction l with
  | nil => simp [clausesOf, clausesAux]
  | cons t ts ih =>
    rw [List.flatMap_cons, clausesOf_append (closed_snoc _), clausesOf_clause _ (hc t), ih]
    rfl

theorem allDifferent_ado (m : Aiger) (f : Regime) (K n : Nat) (hn : n ≤ K + 1)
    (s : Nat → Bool) (hc : Canon m f K s) :
    AllDifferent s ((List.range n).flatMap (ado m f)) := by
  unfold AllDifferent
  have e : (List.range n).flatMap (ado m f) =
      (List.range n).flatMap fun t =>
        (List.range m.num_latches).map (fun i => latch m f t i) ++ [0] := rfl
  rw [e, clausesOf_tuples _ (by
    intro t x hx
    simp only [List.mem_map, List.mem_range] at hx
    obtain ⟨i, _, rfl⟩ := hx
    exact latch_ne_zero m f t i), List.pairwise_map]
  refine List.Pairwise.imp_of_mem ?_ (List.pairwise_lt_range n)
  intro a b ha hb hab heq
  have ha2 := List.mem_range.mp ha
  have hb2 := List.mem_range.mp hb
  obtain ⟨i, hi, hne⟩ := hc.2.2 a b (by omega) (by omega) (by omega)
  rw [List.map_map, List.map_map, List.map_inj_left] at heq
  exact hne (heq i (List.mem_range.mpr hi))

theorem unrolled_flags_three (m : Aiger) (f : Regime)
    (hf : f = allDifferent ∨ f = classical ∨ f = refinement) (n K : Nat) (st : State)
    (h : Unrolled m f n K st) : st.flags = f := by
  rcases h.1 with h1 | ⟨h1, _, _⟩
  · exact h1
  · have := regime_nomix f hf
    rw [h1] at this
    exact Bool.noConfusion this

/-- Under `-a`, `-d` or `-r` with a sound backend, the main loop is left with
`res = 10` only when the output can be reached. -/
theorem reaches_of_verdict (m : Aiger) (ses : Session) (B : Backend)
    (hb : ses.bonly = false) (f : Regime)
    (hf : f = allDifferent ∨ f = classical ∨ f = refinement) (n : Nat)
    (answers : List Answer) (k' : Nat) (rest : List Answer) (st' : State)
    (hq : RunCalls (fun _ _ _ => True) (fun _ _ s a => SoundComplete s a) m ses B n 0
      answers (State.initial f))
    (hloop : mainLoop m ses B n 0 answers (State.initial f) = some (10, k', rest, st')) :
    ∃ n E, Reaches m n E := by
  have h1 := round_runCalls m ses B _ _ _ _ _ _ (fun _ _ _ => True)
    (roundKept_unrolled m ses B hb f (startFlags_of_three f hf) _) n 0 answers (State.initial f)
    (unrolled_initial m f) hq
  have h2 := runCalls_and _ _ _ _ m ses B n 0 answers (State.initial f) h1 hq
  obtain ⟨ste, st1, a, ⟨hE, _⟩, hbk, ⟨_, hsc⟩, hres⟩ :=
    mainLoop_reachable_call m ses B _ _ n 0 answers (State.initial f) k' rest st' hloop h2
  obtain ⟨e1, e2, _, e4, _⟩ := satBookkeeping_fields k' ste st1 hbk
  have hsat : a.res = Res.SAT := by
    rcases hres with h | h
    · exact h
    · rw [e1, unrolled_flags_three m f hf _ _ ste hE.1, regime_nomix f hf] at h
      exact Bool.noConfusion h
  obtain ⟨s, hs1, hs2, _⟩ := hsc.1 hsat
  rw [e2] at hs1
  rw [e4, hE.2.1] at hs2
  simp only [if_true] at hs2
  refine ⟨k', envOf m f s, reaches_of_model m f k' s
    (fun j hj => hE.1.2.2.1 s hs1 j (Nat.lt_succ_of_le hj)) ?_ ?_⟩
  · intro i hi
    apply hs2
    apply List.mem_append_left
    exact List.mem_map.mpr ⟨i, List.mem_range.mpr hi, rfl⟩
  · apply hs2
    exact List.mem_append_right _ (List.mem_singleton_self _)

/-- A path on which the output is reached first at the end and no state
repeats gives an assignment that is consistent with the state of a
`picosat_sat` call of `sat (k)`: of `base (k)` when the path starts in the
initial state, of `step (k)` in any case. -/
theorem consistent_of_path (m : Aiger) (f : Regime) (hR : InRange m = true) (b : Bool)
    (k : Nat) (stc : State) (E : Nat → Nat → Bool)
    (hu : Unrolled m f (k + 1) k stc)
    (ha : stc.assumed = (if b then initLits m f else []) ++ [output m f k 0] ∨
      stc.assumed = [output m f k 0] ∨ stc.assumed = [])
    (hP : Path m k E) (hnb : ∀ t < k, outVal m (E t) = false)
    (hni : ∀ t, 1 ≤ t → t ≤ k → ∃ i < m.num_latches, latchVal m (E t) i = true)
    (hd : ∀ x y, x ≠ y → x ≤ k → y ≤ k → ¬ SameState m (E x) (E y))
    (hbad : outVal m (E k) = true) (hinit : b = true → IsInit m (E 0)) :
    Consistent stc (modelOf m f E) := by
  have hc := canon_of_path m f hR k E hP hnb hni hd
  have hout : evalLit (modelOf m f E) (output m f k 0) = true := by
    rw [modelOf_output m f hR E k]; exact hbad
  refine ⟨hu.2.2.2.1 _ hc, ?_, fun _ => ?_⟩
  · intro x hx
    rcases ha with ha | ha | ha
    · rw [ha, List.mem_append, List.mem_singleton] at hx
      rcases hx with hx | rfl
      · cases b with
        | false => simp at hx
        | true =>
          simp only [if_true, initLits, List.mem_map, List.mem_range] at hx
          obtain ⟨i, hi, rfl⟩ := hx
          rw [evalLit_neg _ (latch_ne_zero m f 0 i), modelOf_latch m f hR E 0 i hi,
            hinit rfl i hi]
          rfl
      · exact hout
    · rw [ha, List.mem_singleton] at hx
      rw [hx]
      exact hout
    · rw [ha] at hx
      simp at hx
  · obtain ⟨n1, e1, e2, _⟩ := hu.2.2.2.2.1
    rw [e2]
    exact allDifferent_ado m f k n1 e1 _ hc

/-- Under `-a`, `-d` or `-r` without `-i`, with a complete backend and a
circuit whose literals are in range, the main loop is left with `res = 20` only
when the output cannot be reached. -/
theorem unreachable_of_verdict (m : Aiger) (hR : InRange m = true) (ses : Session)
    (B : Backend) (hb : ses.bonly = false) (hi : ses.ionly = false) (f : Regime)
    (hf : f = allDifferent ∨ f = classical ∨ f = refinement) (n : Nat)
    (answers : List Answer) (k' : Nat) (rest : List Answer) (st' : State)
    (hq : RunCalls (fun _ _ _ => True) (fun _ _ s a => SoundComplete s a) m ses B n 0
      answers (State.initial f))
    (hloop : mainLoop m ses B n 0 answers (State.initial f) = some (20, k', rest, st')) :
    ¬ ∃ n E, Reaches m n E := by
  intro hreach
  obtain ⟨N, E, hE, hfirst, hsimple⟩ := minimal_reaches m hreach
  have h1 := round_runCalls m ses B _ _ _ _ _ _ (fun _ _ _ => True)
    (roundKept_unrolled m ses B hb f (startFlags_of_three f hf) _) n 0 answers (State.initial f)
    (unrolled_initial m f) hq
  have h2 := runCalls_and _ _ _ _ m ses B n 0 answers (State.initial f) h1 hq
  obtain ⟨⟨stc, a, ⟨hL, hsc⟩, hres⟩, hbase⟩ :=
    mainLoop_inductive_calls m ses B _ _ hb n 0 answers (State.initial f) k' rest st' hloop h2
  have hdist : ∀ x y, x ≠ y → x ≤ N → y ≤ N → ¬ SameState m (E x) (E y) := by
    intro x y hxy hx hy hs
    rcases Nat.lt_or_gt_of_ne hxy with h | h
    · exact hsimple x y h hy hs
    · exact hsimple y x h hx (fun i hi => (hs i hi).symm)
  have hnoninit : ∀ t, 1 ≤ t → t ≤ N → ∃ i < m.num_latches, latchVal m (E t) i = true := by
    intro t ht1 htN
    have h := hsimple 0 t (by omega) htN
    unfold SameState at h
    push_neg at h
    obtain ⟨i, hi, hne⟩ := h
    refine ⟨i, hi, ?_⟩
    rw [hE.2.1 i hi] at hne
    cases hv : latchVal m (E t) i with
    | false => rw [hv] at hne; exact absurd rfl hne
    | true => rfl
  rcases Nat.lt_or_ge N k' with hlt | hge
  · obtain ⟨stb, ab, ⟨hLb, hscb⟩, hresb⟩ := hbase hi N (Nat.zero_le _) hlt
    exact hscb.2 hresb ⟨modelOf m f E, consistent_of_path m f hR true N stb E hLb.1 hLb.2.2.1
      hE.1 hfirst hnoninit hdist hE.2.2 (fun _ => hE.2.1)⟩
  · refine hsc.2 hres ⟨modelOf m f (fun t => E (N - k' + t)),
      consistent_of_path m f hR false k' stc (fun t => E (N - k' + t)) hL.1 hL.2.2.1
        ⟨fun t ht => hE.1.1 _ (by omega), fun t ht => ?_⟩ (fun t ht => hfirst _ (by omega))
        (fun t ht1 ht => hnoninit _ (by omega) (by omega))
        (fun x y hxy hx hy => hdist _ _ (by omega) (by omega) (by omega)) ?_
        (fun h => Bool.noConfusion h)⟩
    · have := hE.1.2 (N - k' + t) (by omega)
      exact this
    · show outVal m (E (N - k' + k')) = true
      have e : N - k' + k' = N := by omega
      rw [e]
      exact hE.2.2

theorem runMain_verdict (m : Aiger) (ses : Session) (B : Backend) (answers : List Answer)
    (f : Regime) (code : Nat) (st' : State)
    (h : runMain m ses B answers (State.initial f) = some (code, st')) :
    ∃ k rest st1, mainLoop m ses B (ses.maxk + 1) 0 answers (State.initial f) =
        some (code, k, rest, st1) ∧
      ((code = 0 ∧ st'.out.take 2 = ['2', '\n']) ∨ (code = 20 ∧ st'.out.take 2 = ['0', '\n']) ∨
        (code = 10 ∧ st'.out.take 2 = ['1', '\n'])) := by
  unfold runMain at h
  split at h
  · exact Option.noConfusion h
  · rename_i res k rest st1 hloop
    have hout : (State.initial f).out = [] := rfl
    rcases mainLoop_outcome m ses B _ 0 answers (State.initial f) res k rest st1 hloop with
      ⟨h1, h2, h3⟩ | ⟨h1, h2, h3⟩ | ⟨h1, h2, h3⟩
    · subst h1
      have hk : k > ses.maxk := by omega
      simp only [if_true, hk, Option.some.injEq, Prod.mk.injEq] at h
      obtain ⟨rfl, rfl⟩ := h
      exact ⟨k, rest, st1, hloop, Or.inl ⟨rfl, by simp [fputs, h3, hout]⟩⟩
    · subst h1
      simp only [Nat.reduceEqDiff, if_false, Option.some.injEq, Prod.mk.injEq] at h
      obtain ⟨rfl, rfl⟩ := h
      exact ⟨k, rest, _, hloop, Or.inr (Or.inl ⟨rfl, by simp [h3, hout]⟩)⟩
    · subst h1
      simp only [Nat.reduceEqDiff, if_false, Option.some.injEq, Prod.mk.injEq] at h
      obtain ⟨rfl, rfl⟩ := h
      exact ⟨k, rest, _, hloop, Or.inr (Or.inr ⟨rfl, by simp [h3, hout]⟩)⟩

/-- Under `-a`, `-d` or `-r` with a sound and complete backend and a circuit
whose literals are in range, a run that ends with a verdict other than 2 either
ends with the verdict 0, and then `-i` is given or the output cannot be
reached, or ends with the verdict 1, and then `-i` is not given and the output
can be reached. -/
theorem verdict_semantics (m : Aiger) (hR : InRange m = true) (ses : Session)
    (B : Backend) (hb : ses.bonly = false) (f : Regime)
    (hf : f = allDifferent ∨ f = classical ∨ f = refinement) (answers : List Answer)
    (code : Nat) (st' : State)
    (hq : RunCalls (fun _ _ _ => True) (fun _ _ s a => SoundComplete s a) m ses B
      (ses.maxk + 1) 0 answers (State.initial f))
    (h : runMain m ses B answers (State.initial f) = some (code, st'))
    (hn : st'.out.take 2 ≠ ['2', '\n']) :
    (code = 20 ∧ st'.out.take 2 = ['0', '\n'] ∧
      (ses.ionly = true ∨ ¬ ∃ n E, Reaches m n E)) ∨
    (code = 10 ∧ st'.out.take 2 = ['1', '\n'] ∧ ses.ionly = false ∧ ∃ n E, Reaches m n E) := by
  obtain ⟨k, rest, st1, hloop, hv⟩ := runMain_verdict m ses B answers f code st' h
  rcases hv with ⟨_, h2⟩ | ⟨h1, h2⟩ | ⟨h1, h2⟩
  · exact absurd h2 hn
  · subst h1
    left
    refine ⟨rfl, h2, ?_⟩
    cases hi : ses.ionly with
    | true => exact Or.inl rfl
    | false =>
      exact Or.inr (unreachable_of_verdict m hR ses B hb hi f hf _ answers k rest st1 hq hloop)
  · subst h1
    right
    refine ⟨rfl, h2, ?_, reaches_of_verdict m ses B hb f hf _ answers k rest st1 hq hloop⟩
    cases hi : ses.ionly with
    | true => exact absurd rfl (mainLoop_ionly m ses B hi _ 0 answers _ 10 k rest st1 hloop)
    | false => rfl

/-! ## The backend of the example runs -/

theorem picosat_of_checked (st : State) (a : Answer) (h : CheckedAnswer st a) :
    Picosat st a := by
  rcases h with ⟨h1, h2, h3⟩ | ⟨h1, x, hx, hx0, hnx⟩
  · exact ⟨fun _ => ⟨h2, h3⟩, fun hu => absurd (h1.symm.trans hu) (by decide),
      fun hu => absurd (h1.symm.trans hu) (by decide)⟩
  · refine ⟨fun hu => absurd (h1.symm.trans hu) (by decide), fun _ => ?_,
      fun hu => absurd (h1.symm.trans hu) (by decide)⟩
    rintro ⟨s, _, hs, _⟩
    have e1 := hs x hx
    have e2 := hs (-x) hnx
    rw [evalLit_neg s hx0, e1] at e2
    exact Bool.noConfusion e2

theorem soundComplete_of_picosat (st : State) (a : Answer) (h : Picosat st a) :
    SoundComplete st a :=
  ⟨fun hs => ⟨_, (h.1 hs).1⟩, h.2.1⟩

theorem sameNumbering_of_fits (m : Aiger) (f : Regime) (K : Nat)
    (h : FrameFits m f (K + 1)) : SameNumbering m f K :=
  ⟨fun j l hj hl => lit32_of_fits m f j l (frameFits_mono m f (by omega) h) hl,
    fun hf j l i hlj hj hi =>
      diff32_of_fits m f hf j l i hlj hi (frameFits_mono m f (by omega) h)⟩

theorem shortest_reaches (m : Aiger) (n0 : Nat) (E0 : Nat → Nat → Bool)
    (h : Reaches m n0 E0) :
    ∃ n E, n ≤ n0 ∧ Reaches m n E ∧ (∀ t < n, outVal m (E t) = false) ∧
      ∀ i j, i < j → j ≤ n → ¬ SameState m (E i) (E j) := by
  classical
  have hex : ∃ n, ∃ E, Reaches m n E := ⟨n0, E0, h⟩
  obtain ⟨E, hE⟩ := Nat.find_spec hex
  have hleast : ∀ n1 < Nat.find hex, ¬ ∃ E, Reaches m n1 E := fun n1 hn1 => Nat.find_min hex hn1
  refine ⟨Nat.find hex, E, Nat.find_min' hex ⟨E0, h⟩, hE, ?_, ?_⟩
  · intro t ht
    cases hv : outVal m (E t) with
    | false => rfl
    | true => exact absurd ⟨E, path_mono m E (Nat.le_of_lt ht) hE.1, hE.2.1, hv⟩ (hleast t ht)
  · intro i j hij hjn hs
    exact hleast (Nat.find hex - (j - i)) (by omega) ⟨_, reaches_cut m _ E hE i j hij hjn hs⟩

/-- When the main loop is left with `res = 10` at round `k'`, `base (k')` has
returned 1 there, the model and the calls of the final state are those that
`base (k')` left, and in every earlier round a `picosat_sat` call of `base` was
answered unsatisfiable. -/
theorem mainLoop_base_call (m : Aiger) (ses : Session) (B : Backend)
    (E : Bool → Nat → State → Prop) (Q : Bool → Nat → State → Answer → Prop) :
    ∀ (n k : Nat) (answers : List Answer) (st : State) (k' : Nat) (rest : List Answer)
      (st' : State), mainLoop m ses B n k answers st = some (10, k', rest, st') →
      RunCalls E Q m ses B n k answers st →
      ∃ st5 rest5 st6, base m ses k' rest5 st5 = some (true, rest, st6) ∧
        SatCalls (E true) (Q true) m k' rest5 (baseEntry m ses k' st5) ∧
        st'.deref = st6.deref ∧ st'.satCalls = st6.satCalls ∧
        ∀ j, k ≤ j → j < k' → ∃ stc a, Q true j stc a ∧ a.res = Res.UNSAT := by
  intro n
  induction n with
  | zero =>
    intro k answers st k' rest st' hs _
    simp [mainLoop] at hs
  | succ n ih =>
    intro k answers st k' rest st' hs hq
    rw [mainLoop_succ] at hs
    unfold RunCalls at hq
    split at hs
    · exact Option.noConfusion hs
    · rename_i st4 hsimple
      rw [hsimple] at hq
      simp only at hq
      have hq2 := hq.2
      split at hs
      · exact Option.noConfusion hs
      · simp only [Option.some.injEq, Prod.mk.injEq] at hs
        omega
      · rename_i rest5 st5 hstep
        rw [hstep] at hq2
        simp only at hq2
        split at hs
        · simp only [Option.some.injEq, Prod.mk.injEq] at hs
          omega
        · rename_i hinc
          rw [if_neg hinc] at hq2
          have hq3 := hq2.2
          cases hi : ses.ionly with
          | true =>
            rw [hi] at hs
            simp only [Bool.not_true, Bool.false_eq_true, if_false] at hs
            exact absurd rfl (mainLoop_ionly m ses B hi n (k + 1) rest5 st5 10 k' rest st' hs)
          | false =>
            rw [hi] at hs
            simp only [Bool.not_false, if_true] at hs
            rw [hi] at hq3
            simp only [Bool.not_false, if_true] at hq3
            split at hs
            · exact Option.noConfusion hs
            · rename_i rest6 st6 hbase
              simp only [Option.some.injEq, Prod.mk.injEq] at hs
              obtain ⟨_, rfl, rfl, rfl⟩ := hs
              refine ⟨st5, rest5, st6, hbase, hq2.1 hi, ?_, ?_,
                fun j hj1 hj2 => absurd hj1 (by omega)⟩
              · split <;> rfl
              · split <;> rfl
            · rename_i rest6 st6 hbase
              rw [hbase] at hq3
              simp only at hq3
              obtain ⟨st5', rest5', st6', h1, h2, h3, h4, h5⟩ :=
                ih (k + 1) rest6 st6 k' rest st' hs hq3
              refine ⟨st5', rest5', st6', h1, h2, h3, h4, fun j hj1 hj2 => ?_⟩
              rcases Nat.eq_or_lt_of_le hj1 with rfl | hlt
              · exact base_false m ses k (E true) (Q true) rest5 st5 rest6 st6 hbase (hq2.1 hi)
              · exact h5 j hlt hj2

/-- When `base (k)` returns 1, `sat (k)` has passed its bookkeeping, made its
first `picosat_sat` call and returned satisfiable. -/
theorem base_true_first (m : Aiger) (ses : Session) (k : Nat) (E : Nat → State → Prop)
    (Q : Nat → State → Answer → Prop) (answers : List Answer) (st : State)
    (rest : List Answer) (st' : State)
    (hs : base m ses k answers st = some (true, rest, st'))
    (hq : SatCalls E Q m k answers (baseEntry m ses k st)) :
    ∃ st1 a as st2, answers = a :: as ∧ E k (baseEntry m ses k st) ∧
      satBookkeeping k (baseEntry m ses k st) = some st1 ∧ Q k st1 a ∧
      satLoop m k (a :: as) st1 = some (Res.SAT, rest, st2) ∧
      st'.deref = st2.deref ∧ st'.satCalls = st2.satCalls := by
  rw [base_eq] at hs
  split at hs
  · exact Option.noConfusion hs
  · rename_i r rest2 st2 hsat
    simp only [Option.some.injEq, Prod.mk.injEq, beq_iff_eq] at hs
    obtain ⟨rfl, rfl, rfl⟩ := hs
    unfold sat at hsat
    have h2 := hq.2
    split at hsat
    · exact Option.noConfusion hsat
    · rename_i st1 hb
      rw [hb] at h2
      cases answers with
      | nil => simp [satLoop] at hsat
      | cons a as =>
        refine ⟨st1, a, as, st2, rfl, hq.1, hb, h2.1, hsat, ?_, ?_⟩
        · split <;> rfl
        · split <;> rfl

/-- When `sat` does not go back to `RESTART` after its first `picosat_sat` call
and returns satisfiable, the model and the last call of the state it returns
are those of this call. -/
theorem satLoop_first (m : Aiger) (k : Nat) (a : Answer) (as rest : List Answer)
    (st1 st2 : State) (hn : satNext m k a st1 = none)
    (hs : satLoop m k (a :: as) st1 = some (Res.SAT, rest, st2)) :
    a.res = Res.SAT ∧ rest = as ∧ st2.deref = a.deref ∧
      st2.satCalls = st1.satCalls ++ [st1.assumed] := by
  rw [satLoop_cons, hn] at hs
  simp only at hs
  split at hs
  · simp only [Option.some.injEq, Prod.mk.injEq] at hs
    exact absurd hs.1 (by decide)
  · exact Option.noConfusion hs
  · rename_i hres
    split at hs
    · simp only [Option.some.injEq, Prod.mk.injEq] at hs
      obtain ⟨_, rfl, rfl⟩ := hs
      exact ⟨hres, rfl, rfl, rfl⟩
    · simp only [Option.some.injEq, Prod.mk.injEq] at hs
      obtain ⟨_, rfl, rfl⟩ := hs
      exact ⟨hres, rfl, rfl, rfl⟩

/-- The value that `picosat_deref` gives a literal the backend has been told,
or whose negation it has been told, is the value of the literal in the
assignment that `picosat_deref` describes. -/
theorem deref_of_mem (d : Int → Int) (xs : List Int)
    (h : ∀ x ∈ xs, x ≠ 0 → (d x = 1 ∨ d x = -1) ∧ d (-x) = -d x) (x : Int) (hx0 : x ≠ 0)
    (hx : x ∈ xs ∨ -x ∈ xs) :
    d x = if evalLit (assignmentOf d) x then 1 else -1 := by
  have key : (d x = 1 ∨ d x = -1) ∧ d (-x) = -d x := by
    rcases hx with hx | hx
    · exact h x hx hx0
    · obtain ⟨h1, h2⟩ := h (-x) hx (by omega)
      rw [neg_neg] at h2
      constructor
      · rcases h1 with h1 | h1 <;> omega
      · omega
  obtain ⟨h1, h2⟩ := key
  unfold evalLit assignmentOf
  by_cases hp : 0 < x
  · have e : ((x.natAbs : Nat) : Int) = x := by omega
    rw [if_pos hp, e]
    rcases h1 with h1 | h1 <;> simp [h1]
  · have e : ((x.natAbs : Nat) : Int) = -x := by omega
    rw [if_neg hp, e, h2]
    rcases h1 with h1 | h1 <;> simp [h1]

theorem evalLit_of_deref (d : Int → Int) (xs : List Int)
    (h : ∀ x ∈ xs, x ≠ 0 → (d x = 1 ∨ d x = -1) ∧ d (-x) = -d x) (x y : Int) (hx0 : x ≠ 0)
    (hy0 : y ≠ 0) (hx : x ∈ xs ∨ -x ∈ xs) (hy : y ∈ xs ∨ -y ∈ xs) (he : d x = d y) :
    evalLit (assignmentOf d) x = evalLit (assignmentOf d) y := by
  have ex := deref_of_mem d xs h x hx0 hx
  have ey := deref_of_mem d xs h y hy0 hy
  rw [ex, ey] at he
  revert he
  cases evalLit (assignmentOf d) x <;> cases evalLit (assignmentOf d) y <;> simp

theorem simple_path_facts (m : Aiger) (N : Nat) (E : Nat → Nat → Bool)
    (hE : Reaches m N E)
    (hsimple : ∀ i j, i < j → j ≤ N → ¬ SameState m (E i) (E j)) :
    (∀ x y, x ≠ y → x ≤ N → y ≤ N → ¬ SameState m (E x) (E y)) ∧
    ∀ t, 1 ≤ t → t ≤ N → ∃ i < m.num_latches, latchVal m (E t) i = true := by
  constructor
  · intro x y hxy hx hy hs
    rcases Nat.lt_or_gt_of_ne hxy with h | h
    · exact hsimple x y h hy hs
    · exact hsimple y x h hx (fun i hi => (hs i hi).symm)
  · intro t ht1 htN
    have h := hsimple 0 t (by omega) htN
    unfold SameState at h
    push_neg at h
    obtain ⟨i, hi, hne⟩ := h
    refine ⟨i, hi, ?_⟩
    rw [hE.2.1 i hi] at hne
    cases hv : latchVal m (E t) i with
    | false => rw [hv] at hne; exact absurd rfl hne
    | true => rfl

/-- In a run without `-b` started with the flags `f`, with a backend as in
`Picosat`: when the main loop is left with `res = 10` at round `k'`, `sat`
has returned to `base (k')` after its first `picosat_sat` call.  Otherwise the
model of this call would give two frames the same state; cutting the path
between them would give a path to the output with fewer than `k'` steps, and
the shortest such path would have been consistent with a call of `base` in an
earlier round that was answered unsatisfiable. -/
theorem base_returns_first (m : Aiger) (hR : InRange m = true) (ses : Session) (B : Backend)
    (hb : ses.bonly = false) (f : Regime) (hf : StartFlags f) (n : Nat)
    (answers : List Answer) (k' : Nat) (rest : List Answer) (st' : State)
    (hq : RunCalls (fun _ _ _ => True) (fun _ _ s a => Picosat s a) m ses B n 0 answers
      (State.initial f))
    (hloop : mainLoop m ses B n 0 answers (State.initial f) = some (10, k', rest, st')) :
    ∃ st5 st6 st1 a, base m ses k' (a :: rest) st5 = some (true, rest, st6) ∧
      satBookkeeping k' (baseEntry m ses k' st5) = some st1 ∧
      Picosat st1 a ∧ a.res = Res.SAT ∧ satNext m k' a st1 = none ∧
      st'.deref = a.deref ∧ st'.satCalls = st1.satCalls ++ [st1.assumed] ∧
      st1.assumed = initLits m f ++ [output m f k' 0] ∧
      (∀ i < m.num_latches, st'.deref (latch m f 0 i) = -1) ∧
      st'.deref (output m f k' 0) = 1 := by
  have h1 := round_runCalls m ses B _ _ _ _ _ _ (fun _ _ _ => True)
    (roundKept_unrolled m ses B hb f hf _) n 0 answers (State.initial f)
    (unrolled_initial m f) hq
  have h2 := runCalls_and _ _ _ _ m ses B n 0 answers (State.initial f) h1 hq
  obtain ⟨st5, rest5, st6, hbase, hsc, hd6, hc6, hun⟩ :=
    mainLoop_base_call m ses B _ _ n 0 answers (State.initial f) k' rest st' hloop h2
  obtain ⟨st1, a, as, st2, rfl, ⟨hE, _⟩, hbk, ⟨hL, hP⟩, hsl, hd2, hc2⟩ :=
    base_true_first m ses k' _ _ rest5 st5 rest st6 hbase hsc
  obtain ⟨e1, e2, e3, e4, e5⟩ := satBookkeeping_fields k' _ st1 hbk
  have hass : st1.assumed = initLits m f ++ [output m f k' 0] := by
    rw [e4, hE.2.1]
    rfl
  have hus := unrolled_usesDiff m f _ _ st1 hL.1
  have hsat : a.res = Res.SAT := by
    cases hres : a.res with
    | SAT => rfl
    | UNSAT =>
      simp only [satLoop, hres, Option.some.injEq, Prod.mk.injEq] at hsl
      exact absurd hsl.1 (by decide)
    | UNKNOWN =>
      have hen := hP.2.2 hres
      simp only [satLoop, hres] at hsl
      split at hsl
      · rename_i hc
        simp only [Bool.and_eq_true, Bool.not_eq_true'] at hc
        have hacs : st1.flags.acs = true := hc.2
        rw [hL.2.2.2 rfl hacs] at hen
        exact Bool.noConfusion hen
      · exact Option.noConfusion hsl
  obtain ⟨hcons, hder⟩ := hP.1 hsat
  have hlow := hL.1.2.2.1 _ hcons.1
  have hs1 : assignmentOf a.deref 1 = false := encode0_const m f _ (hlow 0 (by omega)).2
  have hinit : ∀ i < m.num_latches, evalLit (assignmentOf a.deref) (-latch m f 0 i) = true := by
    intro i hi
    apply hcons.2.1
    rw [hass]
    exact List.mem_append_left _ (List.mem_map.mpr ⟨i, List.mem_range.mpr hi, rfl⟩)
  have hbad : evalLit (assignmentOf a.deref) (output m f k' 0) = true := by
    apply hcons.2.1
    rw [hass]
    exact List.mem_append_right _ (List.mem_singleton_self _)
  have hreach : Reaches m k' (envOf m f (assignmentOf a.deref)) :=
    reaches_of_model m f k' _ (fun j hj => hlow j (Nat.lt_succ_of_le hj)) hinit hbad
  have hmem : ∀ t i, t ≤ k' → i < m.num_latches →
      latch m f t i ∈ st1.added ++ st1.assumed ∨ -latch m f t i ∈ st1.added ++ st1.assumed := by
    intro t i ht hi
    rcases Nat.eq_zero_or_pos t with rfl | hpos
    · right
      apply List.mem_append_right
      rw [hass]
      exact List.mem_append_left _ (List.mem_map.mpr ⟨i, List.mem_range.mpr hi, rfl⟩)
    · left
      exact List.mem_append_left _ (hL.1.2.2.2.2.2.2 t i hpos (Nat.lt_succ_of_le ht) hi)
  have hnext : satNext m k' a st1 = none := by
    unfold satNext
    rw [hsat]
    simp only
    split
    · rfl
    · rename_i hc
      split
      · rename_i x y hfe
        exfalso
        have hr : st1.flags.rcs = true := by simpa [picosat_sat] using hc
        have hrm : (st1.flags.rcs || st1.flags.mix) = true := by rw [hr]; rfl
        have hfm : (f.rcs || f.mix) = true := by
          rcases hL.1.1 with a1 | ⟨a1, _, _⟩
          · rw [← a1]; exact hrm
          · rw [a1]; rfl
        have hok := hL.1.2.2.2.2.2.1 hfm
        have hrec : FramesRecorded k' (sortFrames m k' (picosat_sat a st1)) :=
          (satCallOk_of_recorded m k' st1 a
            ((framesRecorded_iff k' st1 hok.1).mpr ⟨hok, hL.2.1 hrm⟩)).2.1
        have hdist : x ≠ y ∧ x ≤ k' ∧ y ≤ k' := by
          refine firstEqual_distinct _ _ k' ?_ x y hfe
          rw [List.take_of_length_le (by rw [hrec.1])]
          exact hrec.2.2
        have hcmp : cmp_frames m st1.flags a.deref x y = 0 := firstEqual_cmp _ _ x y hfe
        unfold cmp_frames at hcmp
        rw [cmpLatches_eq_zero, latch_congr m f _ hus] at hcmp
        have hsame : SameState m (envOf m f (assignmentOf a.deref) x)
            (envOf m f (assignmentOf a.deref) y) := by
          intro i hi
          rw [latchVal_envOf m f _ hs1, latchVal_envOf m f _ hs1]
          exact evalLit_of_deref a.deref _ hder _ _ (latch_ne_zero m f x i)
            (latch_ne_zero m f y i) (hmem x i hdist.2.1 hi) (hmem y i hdist.2.2 hi)
            (hcmp i (List.mem_range.mpr hi))
        have hshort : ∃ n1 E1, n1 < k' ∧ Reaches m n1 E1 := by
          rcases Nat.lt_or_gt_of_ne hdist.1 with h | h
          · exact ⟨k' - (y - x), _, by omega, reaches_cut m k' _ hreach x y h hdist.2.2 hsame⟩
          · exact ⟨k' - (x - y), _, by omega, reaches_cut m k' _ hreach y x h hdist.2.1
              (fun i hi => (hsame i hi).symm)⟩
        obtain ⟨n1, E1, hn1, hE1⟩ := hshort
        obtain ⟨N, E2, hN, hE2, hfirst, hsimple⟩ := shortest_reaches m n1 E1 hE1
        obtain ⟨hdd, hni⟩ := simple_path_facts m N E2 hE2 hsimple
        obtain ⟨stb, ab, ⟨hLb, hPb⟩, hresb⟩ := hun N (Nat.zero_le _) (by omega)
        exact hPb.2.1 hresb ⟨modelOf m f E2, consistent_of_path m f hR true N stb E2 hLb.1
          hLb.2.2.1 hE2.1 hfirst hni hdd hE2.2.2 (fun _ => hE2.2.1)⟩
      · rfl
  obtain ⟨_, rfl, hd, hc⟩ := satLoop_first m k' a as rest st1 st2 hnext hsl
  have hdf : st'.deref = a.deref := hd6.trans (hd2.trans hd)
  refine ⟨st5, st6, st1, a, hbase, hbk, hP, hsat, hnext, hdf, hc6.trans (hc2.trans hc), hass,
    ?_, ?_⟩
  · intro i hi
    rw [hdf, deref_of_mem a.deref _ hder (latch m f 0 i) (latch_ne_zero m f 0 i)
      (hmem 0 i (Nat.zero_le _) hi)]
    have h := hinit i hi
    rw [evalLit_neg _ (latch_ne_zero m f 0 i)] at h
    simp only [Bool.not_eq_true'] at h
    rw [h]
    rfl
  · have hom : output m f k' 0 ∈ st1.added ++ st1.assumed := by
      apply List.mem_append_right
      rw [hass]
      exact List.mem_append_right _ (List.mem_singleton_self _)
    rw [hdf, deref_of_mem a.deref _ hder (output m f k' 0) (output_ne_zero m f k' 0)
      (Or.inl hom), hbad]
    rfl

/-! ## Runs with `-b` -/

theorem init_bonly (m : Aiger) (ses : Session) (hb : ses.bonly = true) (k : Nat) (st : State) :
    (init m ses k st).flags = st.flags ∧ (init m ses k st).assumed = st.assumed ∧
    (init m ses k st).added = st.added ++
      (if k = 0 then (List.range m.num_latches).flatMap (fun i => unary (-latch m st.flags 0 i))
       else []) := by
  unfold init
  rw [hb]
  by_cases hk : k = 0
  · subst hk
    simp only [ne_eq, not_true_eq_false, decide_False, Bool.and_false, Bool.false_eq_true,
      if_false, if_true]
    generalize List.range m.num_latches = l
    induction l generalizing st with
    | nil => simp
    | cons x xs ih =>
      rw [List.foldl_cons]
      obtain ⟨h1, h2, h3⟩ := ih (picosat_add (unary (-latch m st.flags 0 x)) st)
      refine ⟨h1, h2, ?_⟩
      rw [h3]
      simp [picosat_add]
  · simp [hk]

theorem chunkIn_flatMap {α : Type} (g : α → List Int) (hg : ∀ x, Closed (g x)) (l : List α)
    (pre : List Int) (hpre : Closed pre) (x : α) (hx : x ∈ l) :
    ChunkIn (g x) (pre ++ l.flatMap g) := by
  induction l generalizing pre with
  | nil => simp at hx
  | cons y ys ih =>
    rw [List.flatMap_cons]
    rcases List.mem_cons.mp hx with rfl | h
    · exact ⟨pre, ys.flatMap g, hpre, by simp only [List.append_assoc]⟩
    · have := ih (pre ++ g y) (closed_append hpre (hg y)) h
      rw [List.append_assoc] at this
      exact this

theorem satisfies_of_chunkIn (s : Nat → Bool) (chunk added : List Int) (hc : Closed chunk)
    (h : ChunkIn chunk added) (hs : Satisfies s added) : Satisfies s chunk := by
  obtain ⟨pre, post, hpre, rfl⟩ := h
  rw [List.append_assoc, satisfies_append s hpre, satisfies_append s hc] at hs
  exact hs.2.1

theorem mem_of_chunkIn (x : Int) (chunk added : List Int) (hx : x ∈ chunk)
    (h : ChunkIn chunk added) : x ∈ added := by
  obtain ⟨pre, post, _, rfl⟩ := h
  exact List.mem_append_left _ (List.mem_append_right _ hx)

theorem baseOnly_of (m : Aiger) (u u1 : Bool) (st st1 : State) (h1 : st1.flags = st.flags)
    (h2 : st1.added = st.added) (hu : u1 = true → u = true) (h : BaseOnly m u st) :
    BaseOnly m u1 st1 :=
  ⟨h1.trans h.1, by rw [h2]; exact h.2.1, fun hu1 => by rw [h2]; exact h.2.2 (hu hu1)⟩

theorem baseOnly_add (m : Aiger) (u : Bool) (st : State) (xs : List Int) (hx : Closed xs)
    (h : BaseOnly m u st) : BaseOnly m u (picosat_add xs st) :=
  ⟨h.1, closed_append h.2.1 hx, fun hu i hi => chunkIn_append _ _ _ (h.2.2 hu i hi)⟩

theorem roundKept_bonly (m : Aiger) (ses : Session) (B : Backend) (hb : ses.bonly = true)
    (hi : ses.ionly = false) (Q : Bool → Nat → State → Answer → Prop) :
    RoundKept m ses B Q
      (fun k s => BaseOnly m (decide (1 ≤ k)) s ∧ s.assumed = [])
      (fun k s => BaseOnly m (decide (1 ≤ k)) s ∧ s.assumed = [])
      (fun k s => BaseOnly m (decide (1 ≤ k)) s ∧ s.assumed = [])
      (fun _ k s => BaseOnly m true s ∧ s.assumed = [output m noConstraint k 0])
      (fun _ k s => BaseOnly m true s ∧ s.assumed = [output m noConstraint k 0]) where
  enter := fun k st st1 h hs => by
    have hfl := h.1.1
    have hmix : st.flags.mix = false := by rw [hfl]; rfl
    have hd : st.flags.dcs = false := by rw [hfl]; rfl
    rw [iterEntry_of m B k st st (by simp [hmix])] at hs
    obtain ⟨h1, h2, _, _, _, h6, _⟩ := simple_fields m k _ st1 hs
    have e2 : st1.added =
        (picosat_add (encode m st.flags k) (picosat_add (connect m st.flags k) st)).added := by
      rw [h2]
      show _ ++ (if st.flags.dcs = true then _ else _) = _
      rw [hd]
      simp
    exact ⟨baseOnly_of m _ _ _ st1 h1 e2 id
      (baseOnly_add m _ _ _ (closed_encode m _ k)
        (baseOnly_add m _ _ _ (closed_connect m _ k) h.1)), h6.trans h.2⟩
  stepEntry := fun k st hc _ => by rw [hb] at hc; exact Bool.noConfusion hc
  skipStep := fun k st _ h => h
  baseEntry := fun k st _ h => by
    have hfl := h.1.1
    have hacs : st.flags.acs = false := by rw [hfl]; rfl
    obtain ⟨i1, i2, i3⟩ := init_bonly m ses hb k st
    have e : baseEntry m ses k st = bad m k (init m ses k st) := by
      unfold baseEntry
      rw [hacs]
      rfl
    rw [e]
    refine ⟨⟨i1.trans hfl, ?_, ?_⟩, ?_⟩
    · show Closed (init m ses k st).added
      rw [i3]
      apply closed_append h.1.2.1
      split
      · exact closed_flatMap _ _ fun _ _ => closed_unary _
      · exact closed_nil
    · intro _ i hi
      show ChunkIn _ (init m ses k st).added
      rw [i3]
      by_cases hk : k = 0
      · rw [if_pos hk, hfl]
        exact chunkIn_flatMap (fun i => unary (-latch m noConstraint 0 i))
          (fun _ => closed_unary _) _ st.added h.1.2.1 i (List.mem_range.mpr hi)
      · rw [if_neg hk, List.append_nil]
        exact h.1.2.2 (by simp; omega) i hi
    · show (init m ses k st).assumed ++ [output m (init m ses k st).flags k 0] = _
      rw [i2, h.2, i1, hfl]
      rfl
  skipBase := fun k st hc _ => by rw [hi] at hc; exact Bool.noConfusion hc
  record := fun b k st st1 h hbk => by
    obtain ⟨h1, h2, _, h4, _⟩ := satBookkeeping_fields k st st1 hbk
    exact ⟨baseOnly_of m _ _ st st1 h1 h2 id h.1, h4.trans h.2⟩
  restart := fun b k a st st1 h _ hn => by
    exfalso
    have hfl := h.1.1
    unfold satNext at hn
    split at hn
    · exact Option.noConfusion hn
    · split at hn
      · rename_i hc
        simp only [Bool.and_eq_true, Bool.not_eq_true'] at hc
        have hm : st.flags.mix = true := hc.1.1
        rw [hfl] at hm
        exact Bool.noConfusion hm
      · exact Option.noConfusion hn
    · split at hn
      · exact Option.noConfusion hn
      · rename_i hc
        have hr : st.flags.rcs = true := by simpa [picosat_sat] using hc
        rw [hfl] at hr
        exact Bool.noConfusion hr
  leaveStep := fun k a st st1 h _ hx => by
    rcases hx with rfl | ⟨_, rfl⟩
    · exact ⟨baseOnly_of m _ _ st _ rfl rfl (fun _ => rfl) h.1, rfl⟩
    · exact ⟨baseOnly_of m _ _ st _ rfl rfl (fun _ => rfl) h.1, rfl⟩
  leaveBase := fun k a st st1 h _ hx => by
    have key : BaseOnly m true st1 ∧ st1.assumed = [] := by
      rcases hx with rfl | ⟨_, rfl⟩
      · exact ⟨baseOnly_of m _ _ st _ rfl rfl (fun _ => rfl) h.1, rfl⟩
      · exact ⟨baseOnly_of m _ _ st _ rfl rfl (fun _ => rfl) h.1, rfl⟩
    split
    · exact ⟨baseOnly_of m _ _ st1 _ rfl rfl (fun _ => rfl) key.1, key.2⟩
    · exact ⟨baseOnly_of m _ _ st1 _ rfl rfl (fun _ => rfl) key.1, key.2⟩
  printM := fun k st cs h => ⟨baseOnly_of m _ _ st _ rfl rfl id h.1, h.2⟩
  printS := fun k st cs h => ⟨baseOnly_of m _ _ st _ rfl rfl id h.1, h.2⟩

/-- In a run with `-b`, with a backend as in `Picosat`: when the main loop is
left with `res = 10` at round `k'`, `sat` has returned to `base (k')` after its
first `picosat_sat` call, which was made with the unit clauses of `init` among
the clauses added. -/
theorem base_returns_first_bonly (m : Aiger) (ses : Session) (B : Backend)
    (hb : ses.bonly = true) (hi : ses.ionly = false) (n : Nat)
    (answers : List Answer) (k' : Nat) (rest : List Answer) (st' : State)
    (hq : RunCalls (fun _ _ _ => True) (fun _ _ s a => Picosat s a) m ses B n 0 answers
      (State.initial noConstraint))
    (hloop : mainLoop m ses B n 0 answers (State.initial noConstraint) =
      some (10, k', rest, st')) :
    ∃ st5 st6 st1 a, base m ses k' (a :: rest) st5 = some (true, rest, st6) ∧
      satBookkeeping k' (baseEntry m ses k' st5) = some st1 ∧
      Picosat st1 a ∧ a.res = Res.SAT ∧ satNext m k' a st1 = none ∧
      st'.deref = a.deref ∧ st'.satCalls = st1.satCalls ++ [st1.assumed] ∧
      (st1.assumed = [output m noConstraint k' 0] ∧
        ∀ i < m.num_latches, ChunkIn (unary (-latch m noConstraint 0 i)) st1.added) ∧
      (∀ i < m.num_latches, st'.deref (latch m noConstraint 0 i) = -1) ∧
      st'.deref (output m noConstraint k' 0) = 1 := by
  have h1 := round_runCalls m ses B _ _ _ _ _ _ (fun _ _ _ => True)
    (roundKept_bonly m ses B hb hi _) n 0 answers (State.initial noConstraint)
    ⟨⟨rfl, closed_nil, fun h => absurd h (by decide)⟩, rfl⟩ hq
  have h2 := runCalls_and _ _ _ _ m ses B n 0 answers (State.initial noConstraint) h1 hq
  obtain ⟨st5, rest5, st6, hbase, hsc, hd6, hc6, _⟩ :=
    mainLoop_base_call m ses B _ _ n 0 answers (State.initial noConstraint) k' rest st' hloop h2
  obtain ⟨st1, a, as, st2, rfl, _, hbk, ⟨hL, hP⟩, hsl, hd2, hc2⟩ :=
    base_true_first m ses k' _ _ rest5 st5 rest st6 hbase hsc
  have hfl := hL.1.1
  have hsat : a.res = Res.SAT := by
    cases hres : a.res with
    | SAT => rfl
    | UNSAT =>
      simp only [satLoop, hres, Option.some.injEq, Prod.mk.injEq] at hsl
      exact absurd hsl.1 (by decide)
    | UNKNOWN =>
      simp only [satLoop, hres] at hsl
      split at hsl
      · rename_i hc
        simp only [Bool.and_eq_true, Bool.not_eq_true'] at hc
        have hm : st1.flags.mix = true := hc.1.1
        rw [hfl] at hm
        exact Bool.noConfusion hm
      · exact Option.noConfusion hsl
  obtain ⟨hcons, hder⟩ := hP.1 hsat
  have hnext : satNext m k' a st1 = none := by
    unfold satNext
    rw [hsat]
    simp only
    split
    · rfl
    · rename_i hc
      have hr : st1.flags.rcs = true := by simpa [picosat_sat] using hc
      rw [hfl] at hr
      exact Bool.noConfusion hr
  obtain ⟨_, rfl, hd, hc⟩ := satLoop_first m k' a as rest st1 st2 hnext hsl
  have hdf : st'.deref = a.deref := hd6.trans (hd2.trans hd)
  have hunits := hL.1.2.2 rfl
  refine ⟨st5, st6, st1, a, hbase, hbk, hP, hsat, hnext, hdf, hc6.trans (hc2.trans hc),
    ⟨hL.2, hunits⟩, ?_, ?_⟩
  · intro i hi
    have hm : -latch m noConstraint 0 i ∈ st1.added ++ st1.assumed :=
      List.mem_append_left _ (mem_of_chunkIn _ _ _ (List.mem_cons_self _ _) (hunits i hi))
    have hn0 : -latch m noConstraint 0 i ≠ 0 := by
      have := latch_ne_zero m noConstraint 0 i
      omega
    have h := (satisfies_unary _ hn0).1
      (satisfies_of_chunkIn _ _ _ (closed_unary _) (hunits i hi) hcons.1)
    rw [evalLit_neg _ (latch_ne_zero m noConstraint 0 i)] at h
    simp only [Bool.not_eq_true'] at h
    rw [hdf, deref_of_mem a.deref _ hder (latch m noConstraint 0 i)
      (latch_ne_zero m noConstraint 0 i) (Or.inr hm), h]
    rfl
  · have hom : output m noConstraint k' 0 ∈ st1.added ++ st1.assumed := by
      apply List.mem_append_right
      rw [hL.2]
      exact List.mem_singleton_self _
    have hbad : evalLit (assignmentOf a.deref) (output m noConstraint k' 0) = true := by
      apply hcons.2.1
      rw [hL.2]
      exact List.mem_singleton_self _
    rw [hdf, deref_of_mem a.deref _ hder (output m noConstraint k' 0)
      (output_ne_zero m noConstraint k' 0) (Or.inl hom), hbad]
    rfl

/-! ## The flags that the validation accepts -/

theorem validate_start (o : Options) (f : Regime) (ses : Session)
    (h : validate o = Except.ok (f, ses)) :
    StartFlags f ∧ (ses.bonly = true → f = noConstraint ∧ ses.ionly = false) := by
  obtain ⟨v, b, i, a, d, r, mx, n, w, mk, nm⟩ := o
  unfold StartFlags
  cases b <;> cases i <;> cases a <;> cases d <;> cases r <;> cases mx <;> cases n <;>
    simp [validate, Options.cs] at h <;> obtain ⟨rfl, rfl⟩ := h <;>
    simp [allDifferent, classical, refinement, mixed, noConstraint]

end Mcaiger
